import Mathlib

/-!
# Pathfinder engine: shallow embedding and verified properties

Embedding of `src/stan/services/pathfinder/single.hpp` and
`src/stan/services/pathfinder/multi.hpp`.

Conventions of the embedding

* A `double` is a `Dbl`: an exact rational when finite, or one of `+inf`,
  `-inf`, `NaN`.  Rounding and overflow of finite arithmetic are not modelled.
* An Eigen vector is a `List ℚ`; an Eigen matrix is the list of its columns.
* The variate generator `rand_unit_gaus` is the sequence of values it will
  return from its current state, together with a cursor counting how many
  have been consumed.
* A callable that may throw returns an `LpOut`.
-/

set_option autoImplicit false

namespace Pathfinder

/-! ## Doubles -/

/-- A double precision value: finite (exact rational) or non-finite. -/
inductive Dbl where
  | fin (q : ℚ)
  | pinf
  | ninf
  | nan
  deriving DecidableEq

namespace Dbl

/-- The test `std::isfinite`. -/
def isfinite : Dbl → Bool
  | fin _ => true
  | _ => false

/-- Unary minus. -/
def neg : Dbl → Dbl
  | fin q => fin (-q)
  | pinf => ninf
  | ninf => pinf
  | nan => nan

/-- Addition with the IEEE rules for the non-finite values. -/
def add : Dbl → Dbl → Dbl
  | fin a, fin b => fin (a + b)
  | nan, _ => nan
  | _, nan => nan
  | pinf, ninf => nan
  | ninf, pinf => nan
  | pinf, _ => pinf
  | _, pinf => pinf
  | ninf, _ => ninf
  | _, ninf => ninf

/-- Subtraction. -/
def sub (a b : Dbl) : Dbl := add a (neg b)

/-- Division by a non-negative count, as in `sum() / size()`. -/
def divN : Dbl → Nat → Dbl
  | fin q, n =>
    if n = 0 then (if q = 0 then nan else if 0 < q then pinf else ninf)
    else fin (q / n)
  | pinf, _ => pinf
  | ninf, _ => ninf
  | nan, _ => nan

/-- The reduction `sum()` of an Eigen array; the sum of no entries is zero. -/
def sum (l : List Dbl) : Dbl := l.foldl add (fin 0)

/-- The reduction `mean()` of an Eigen array: `sum() / size()`. -/
def mean (l : List Dbl) : Dbl := divN (sum l) l.length

end Dbl

/-- An Eigen vector of doubles whose entries are finite. -/
abbrev Vec := List ℚ

/-- An Eigen matrix, stored as the list of its columns. -/
abbrev Mat := List Vec

/-! ## Dense helpers of `single.hpp` -/

/-- The dot product `a.dot(b)`. -/
def dot (a b : Vec) : ℚ := (List.zipWith (fun p q => p * q) a b).sum

/-- Elementwise sum of two vectors. -/
def vadd (a b : Vec) : Vec := List.zipWith (fun p q => p + q) a b

/-- Elementwise difference of two vectors. -/
def vsub (a b : Vec) : Vec := List.zipWith (fun p q => p - q) a b

/-- The product `x.transpose() * y` of a matrix with a vector (`crossprod`). -/
def crossprod_vec (x : Mat) (y : Vec) : Vec := x.map (fun c => dot c y)

/-- The product `A * v` of a matrix with `rows` rows with a vector. -/
def mul_vec (rows : Nat) (A : Mat) (v : Vec) : Vec :=
  (List.zipWith (fun c a => c.map (fun e => e * a)) A v).foldl vadd
    (List.replicate rows 0)

/-- The record `taylor_approx_t`. -/
structure taylor_approx_t where
  x_center : Vec
  logdetcholHk : Dbl
  L_approx : Mat
  Qk : Mat
  use_full : Bool

/-- The vector overload of `gen_draws`; `sqrtF` is the square root on doubles. -/
def gen_draws (sqrtF : ℚ → ℚ) (u : Vec) (taylor_approx : taylor_approx_t)
    (alpha : Vec) : Vec :=
  if taylor_approx.use_full then
    vadd (crossprod_vec taylor_approx.L_approx u) taylor_approx.x_center
  else
    let u1 := crossprod_vec taylor_approx.Qk u
    vadd
      (List.zipWith (fun a e => sqrtF a * e) alpha
        (vadd
          (mul_vec u.length taylor_approx.Qk
            (crossprod_vec taylor_approx.L_approx u1))
          (vsub u (mul_vec u.length taylor_approx.Qk u1))))
      taylor_approx.x_center

/-! ## The ELBO estimator `est_approx_draws` -/

/-- The outcome of one call of the log-density callable. -/
inductive LpOut where
  | val (v : Dbl)
  | throws
  deriving DecidableEq

/-- Whether a call returned a finite value. -/
def LpOut.finite : LpOut → Bool
  | .val v => v.isfinite
  | .throws => false

/-- One sample slot `i`: column `i` of `uniform_samps_tmp` and of
`approx_samples_tmp`, and entry `(i, 1)` of `lp_mat_tmp`. -/
structure Slot where
  u : Vec
  x : Vec
  lp : Dbl

/-- One invocation of `lp_fun` made by the sample loop (a log kept beside the
state, the code has no such variable). -/
structure Eval where
  slot : Nat
  fail_trys : Nat
  x : Vec
  out : LpOut

/-- The variables the sample loop shares between slots. -/
structure Ctr where
  cursor : Nat
  lp_fun_calls : Nat
  at_least_one_failed : Bool
  evals : List Eval

/-- The column `gen_eigen_matrix<-1, 1>(rand_unit_gaus, num_params, 1)` drawn
with the generator at position `cursor`. -/
def draw_col (rand : Nat → ℚ) (cursor num_params : Nat) : Vec :=
  (List.range num_params).map (fun k => rand (cursor + k))

/-- The statements shared by the non-finite branch and the `catch` branch of
the retry loop: on the last attempt store `-inf` and raise the flag, then
redraw column `i` of both sample matrices. -/
def redraw (gen : Vec → Vec) (rand : Nat → ℚ) (num_params : Nat)
    (num_eval_attempts fail_trys : Nat) (s : Slot) (c : Ctr) : Slot × Ctr :=
  let u := draw_col rand c.cursor num_params
  ({ u := u, x := gen u,
     lp := if fail_trys = num_eval_attempts then Dbl.ninf else s.lp },
   { c with
     cursor := c.cursor + num_params,
     at_least_one_failed :=
       if fail_trys = num_eval_attempts then true else c.at_least_one_failed })

/-- The loop `for (fail_trys = 0; fail_trys <= num_eval_attempts; ++fail_trys)`
of slot `i`; the first argument is how many iterations remain,
`num_eval_attempts + 1 - fail_trys`. -/
def retry_loop (lp_fun : Vec → LpOut) (gen : Vec → Vec) (rand : Nat → ℚ)
    (num_params num_eval_attempts i : Nat) : Nat → Nat → Slot → Ctr → Slot × Ctr
  | 0, _, s, c => (s, c)
  | left + 1, fail_trys, s, c =>
    let out := lp_fun s.x
    let c1 : Ctr :=
      { c with
        lp_fun_calls := c.lp_fun_calls + 1,
        evals := c.evals ++ [⟨i, fail_trys, s.x, out⟩] }
    match out with
    | .val v =>
      if v.isfinite then ({ s with lp := v }, c1)
      else
        let r := redraw gen rand num_params num_eval_attempts fail_trys
          { s with lp := v } c1
        retry_loop lp_fun gen rand num_params num_eval_attempts i left
          (fail_trys + 1) r.1 r.2
    | .throws =>
      let r := redraw gen rand num_params num_eval_attempts fail_trys s c1
      retry_loop lp_fun gen rand num_params num_eval_attempts i left
        (fail_trys + 1) r.1 r.2

/-- The loop `for (i = 0; i < num_samples; ++i)` from slot `i` on. -/
def sample_loop (lp_fun : Vec → LpOut) (gen : Vec → Vec) (rand : Nat → ℚ)
    (num_params num_eval_attempts : Nat) : Nat → List Slot → Ctr →
    List Slot × Ctr
  | _, [], c => ([], c)
  | i, s :: rest, c =>
    let r := retry_loop lp_fun gen rand num_params num_eval_attempts i
      (num_eval_attempts + 1) 0 s c
    let r2 := sample_loop lp_fun gen rand num_params num_eval_attempts (i + 1)
      rest r.2
    (r.1 :: r2.1, r2.2)

/-- The state before the sample loop: `uniform_samps_tmp` is
`gen_eigen_matrix(rand_unit_gaus, num_params, num_samples)`, filled column by
column so that column `j` holds the `j`-th block of `num_params` variates;
`approx_samples_tmp` is its image under `gen_draws`, column by column; and
`lp_mat_tmp` is allocated but not written (`uninit` is what the fresh memory
holds). -/
def init_slots (gen : Vec → Vec) (rand : Nat → ℚ) (uninit : Nat → Dbl)
    (num_params num_samples : Nat) : List Slot :=
  (List.range num_samples).map (fun j =>
    let u := draw_col rand (j * num_params) num_params
    { u := u, x := gen u, lp := uninit j })

/-- The sample loop run from the state at function entry. -/
def sample_phase (lp_fun : Vec → LpOut) (gen : Vec → Vec) (rand : Nat → ℚ)
    (uninit : Nat → Dbl) (num_params num_samples num_eval_attempts : Nat) :
    List Slot × Ctr :=
  sample_loop lp_fun gen rand num_params num_eval_attempts 0
    (init_slots gen rand uninit num_params num_samples)
    { cursor := num_samples * num_params, lp_fun_calls := 0,
      at_least_one_failed := false, evals := [] }

/-- The vector `success_rows`: indices of the rows of `lp_mat_tmp` whose
column 1 is finite. -/
def success_rows (slots : List Slot) : List Nat :=
  (List.range slots.length).filter (fun i =>
    match slots[i]? with
    | some s => s.lp.isfinite
    | none => false)

/-- The exception raised by `est_approx_draws`. -/
inductive EstError where
  | domain_error
  deriving DecidableEq

/-- The block "Cleanup for -inf values": the rows that are kept, or the domain
error.  When every slot failed the probe is `lp_fun` on column 0 of
`approx_samples_tmp`; a finite probe leaves the three result matrices empty. -/
def cleanup (lp_fun : Vec → LpOut) (slots : List Slot)
    (at_least_one_failed : Bool) : Except EstError (List Slot) :=
  if at_least_one_failed then
    let rows := success_rows slots
    if rows.length = 0 then
      match lp_fun ((slots.map (fun s => s.x)).headD []) with
      | .val test_val =>
        if !test_val.isfinite then .error .domain_error else .ok []
      | .throws => .error .domain_error
    else .ok (rows.filterMap (fun i => slots[i]?))
  else .ok slots

/-- The record `elbo_est_t`; `lp_mat` is the list of its rows
`(log q, log p)`. -/
structure elbo_est_t where
  elbo : Dbl
  fn_calls : Nat
  repeat_draws : Mat
  lp_mat : List (Dbl × Dbl)
  lp_ratio : List Dbl

/-- Column 0 of `lp_mat` for the draw generated by `u`. -/
def lp_approx (logdetcholHk : Dbl) (LOG_TWO_PI : ℚ) (num_params : Nat)
    (u : Vec) : Dbl :=
  Dbl.add (Dbl.neg logdetcholHk)
    (Dbl.fin (-(1 / 2) * ((u.map (fun a => a * a)).sum
      + (num_params : ℚ) * LOG_TWO_PI)))

/-- The statements after the cleanup: fill column 0 of `lp_mat`, form
`lp_ratio` and build the returned record. -/
def finish (ReturnElbo : Bool) (logdetcholHk : Dbl) (LOG_TWO_PI : ℚ)
    (num_params lp_fun_calls : Nat) (kept : List Slot) : elbo_est_t :=
  let lp_mat := kept.map
    (fun s => (lp_approx logdetcholHk LOG_TWO_PI num_params s.u, s.lp))
  let lp_ratio := lp_mat.map (fun row => Dbl.sub row.2 row.1)
  { elbo := if ReturnElbo then Dbl.mean lp_ratio else Dbl.ninf,
    fn_calls := lp_fun_calls,
    repeat_draws := kept.map (fun s => s.x),
    lp_mat := lp_mat,
    lp_ratio := lp_ratio }

/-- The function `est_approx_draws<ReturnElbo>`.  `LOG_TWO_PI` is the constant
`stan::math::LOG_TWO_PI`; `num_eval_attempts` is taken non-negative. -/
def est_approx_draws (ReturnElbo : Bool) (lp_fun : Vec → LpOut)
    (sqrtF : ℚ → ℚ) (LOG_TWO_PI : ℚ) (rand : Nat → ℚ) (uninit : Nat → Dbl)
    (taylor_approx : taylor_approx_t) (num_samples : Nat) (alpha : Vec)
    (num_eval_attempts : Nat) : Except EstError elbo_est_t :=
  let num_params := taylor_approx.x_center.length
  let gen := fun u => gen_draws sqrtF u taylor_approx alpha
  let r := sample_phase lp_fun gen rand uninit num_params num_samples
    num_eval_attempts
  match cleanup lp_fun r.1 r.2.at_least_one_failed with
  | .error e => .error e
  | .ok kept =>
    .ok (finish ReturnElbo taylor_approx.logdetcholHk LOG_TWO_PI num_params
      r.2.lp_fun_calls kept)

/-! ## Curvature filter and diagonal scaling -/

/-- The elementwise product `A.array() * B.array()` of two matrices. -/
def cwise_mul (A B : Mat) : Mat :=
  List.zipWith (fun a b => List.zipWith (fun p q => p * q) a b) A B

/-- The reduction `colwise().sum()`. -/
def colwise_sum (A : Mat) : Vec := A.map (fun c => c.sum)

/-- The function `check_curve`, one flag per column. -/
def check_curve (Yk Sk : Mat) : List Bool :=
  let Dk := colwise_sum (cwise_mul Yk Sk)
  let thetak :=
    List.zipWith (fun n D => |n / D|) (colwise_sum (cwise_mul Yk Yk)) Dk
  List.zipWith (fun D th => decide (D > 0) && decide (th ≤ (10 : ℚ) ^ 12))
    Dk thetak

/-- The function `form_diag`. -/
def form_diag (alpha_init Yk Sk : Vec) : Vec :=
  let y_alpha_y := dot Yk (List.zipWith (fun a y => a * y) alpha_init Yk)
  let y_s := dot Yk Sk
  let s_inv_alpha_s :=
    dot Sk (List.zipWith (fun a s => a * s) (alpha_init.map (fun a => a⁻¹)) Sk)
  (vsub
    (vadd (alpha_init.map (fun a => y_alpha_y / a)) (Yk.map (fun y => y * y)))
    ((List.zipWith (fun s a => s / a) Sk alpha_init).map
      (fun q => (y_alpha_y / s_inv_alpha_s) * (q * q)))).map
    (fun den => y_s / den)

/-- The loop `for (iter = 1; iter < diff_size; iter++)` that fills the columns
of `alpha_mat`; the first argument is `diff_size - iter`. -/
def alpha_loop (Ykt_diff Skt_diff : Mat) (check_curve_vec : List Bool) :
    Nat → Nat → Mat → Mat
  | 0, _, alpha_mat => alpha_mat
  | left + 1, iter, alpha_mat =>
    alpha_loop Ykt_diff Skt_diff check_curve_vec left (iter + 1)
      (alpha_mat.set iter
        (if check_curve_vec.getD iter false then
          form_diag (alpha_mat.getD (iter - 1) []) (Ykt_diff.getD iter [])
            (Skt_diff.getD iter [])
        else alpha_mat.getD (iter - 1) []))

/-- The matrix `alpha_mat` of `pathfinder_lbfgs_single`: allocated with
`diff_size` columns, column 0 written first, then the loop. -/
def alpha_cascade (param_size : Nat) (Ykt_diff Skt_diff : Mat) : Mat :=
  let diff_size := Ykt_diff.length
  let check_curve_vec := check_curve Ykt_diff Skt_diff
  let alpha_mat : Mat := List.replicate diff_size (List.replicate param_size 0)
  let alpha_mat := alpha_mat.set 0
    (if check_curve_vec.getD 0 false then
      form_diag (List.replicate param_size 1) (Ykt_diff.getD 0 [])
        (Skt_diff.getD 0 [])
    else List.replicate param_size 1)
  alpha_loop Ykt_diff Skt_diff check_curve_vec (diff_size - 1) 1 alpha_mat

/-! ## Final assembly of `pathfinder_lbfgs_single` -/

/-- A matrix of doubles that may hold non-finite entries, by columns. -/
abbrev DMat := List (List Dbl)

/-- The value `ret_pathfinder<true>` builds. -/
structure PathRet where
  return_code : Int
  lp_ratio : List Dbl
  samples : DMat
  lp_calls : Nat

/-- One column of `constrained_draws_mat`: the constrained draw on top, then
the row `(log q, log p)` of the draw. -/
def constrained_col (constrain_fun : Vec → Vec) (x : Vec) (row : Dbl × Dbl) :
    List Dbl :=
  (constrain_fun x).map Dbl.fin ++ [row.1, row.2]

/-- The loop that fills columns of `constrained_draws_mat` from a draw block. -/
def constrained_cols (constrain_fun : Vec → Vec) (draws : Mat)
    (lp_mat : List (Dbl × Dbl)) : DMat :=
  List.zipWith (fun x row => constrained_col constrain_fun x row) draws lp_mat

/-- The part of `pathfinder_lbfgs_single` after the best iterate is chosen:
the top-up draws when fewer than `num_draws` were collected, the fallback when
the top-up raises, and the returned tuple.  `OK` is `error_codes::OK`,
`constrain_fun` is `model.write_array` (taken not to throw), `rand` the
stream of the generator the top-up uses and `num_evals` the evaluation count
so far. -/
def final_assembly (OK : Int) (lp_fun : Vec → LpOut) (constrain_fun : Vec → Vec)
    (sqrtF : ℚ → ℚ) (LOG_TWO_PI : ℚ) (rand : Nat → ℚ) (uninit : Nat → Dbl)
    (taylor_approx_best : taylor_approx_t) (alpha : Vec)
    (num_eval_attempts : Nat) (elbo_best : elbo_est_t) (num_draws : Int)
    (num_evals : Nat) : PathRet :=
  let remaining_draws : Int := num_draws - (elbo_best.lp_ratio.length : Int)
  let elbo_cols :=
    constrained_cols constrain_fun elbo_best.repeat_draws elbo_best.lp_mat
  if remaining_draws > 0 then
    match est_approx_draws false lp_fun sqrtF LOG_TWO_PI rand uninit
        taylor_approx_best remaining_draws.toNat alpha num_eval_attempts with
    | .ok est_draws =>
      { return_code := OK,
        lp_ratio := elbo_best.lp_ratio ++ est_draws.lp_ratio,
        samples := elbo_cols ++
          constrained_cols constrain_fun est_draws.repeat_draws
            est_draws.lp_mat,
        lp_calls := num_evals + est_draws.fn_calls }
    | .error _ =>
      { return_code := OK, lp_ratio := elbo_best.lp_ratio,
        samples := elbo_cols, lp_calls := num_evals }
  else
    { return_code := OK, lp_ratio := elbo_best.lp_ratio,
      samples := elbo_cols, lp_calls := num_evals }

/-! ## The multi-path driver `pathfinder_lbfgs_multi` -/

/-- The buffers the bodies of the outer `parallel_for` write to; `ran` lists
the path indices whose single path was called (a log kept beside the state). -/
structure Pool where
  individual_lp_ratios : List (List Dbl)
  individual_samples : List DMat
  lp_calls : Nat
  ran : List Nat

/-- The body of the outer `parallel_for` on one range block: the loop
`for (iter = r.begin(); iter < r.end(); ++iter)`, whose `return` on a path that
gives `SOFTWARE` leaves the body.  The first argument is `r.end() - iter`. -/
def run_block (single : Nat → PathRet) (SOFTWARE : Int) :
    Nat → Nat → Pool → Pool
  | 0, _, pool => pool
  | left + 1, iter, pool =>
    let pathfinder_ret := single iter
    let pool1 : Pool := { pool with ran := pool.ran ++ [iter] }
    if pathfinder_ret.return_code = SOFTWARE then pool1
    else
      run_block single SOFTWARE left (iter + 1)
        { pool1 with
          individual_lp_ratios :=
            pool1.individual_lp_ratios ++ [pathfinder_ret.lp_ratio],
          individual_samples :=
            pool1.individual_samples ++ [pathfinder_ret.samples],
          lp_calls := pool1.lp_calls + pathfinder_ret.lp_calls }

/-- The outer `parallel_for` over `blocked_range<int>(0, num_paths)`: `blocks`
is the split of the range into blocks `(begin, end)` the scheduler chose, run
here one after the other. -/
def run_paths (single : Nat → PathRet) (SOFTWARE : Int)
    (blocks : List (Nat × Nat)) : Pool :=
  blocks.foldl (fun pool r => run_block single SOFTWARE (r.2 - r.1) r.1 pool)
    { individual_lp_ratios := [], individual_samples := [], lp_calls := 0,
      ran := [] }

/-- The conversion of an `int` to `size_t` (64 bits). -/
def size_t_of_int (z : Int) : Nat := (z % (2 : Int) ^ 64).toNat

/-- The loop `for (size_t i = 0; i <= num_multi_draws - 1; ++i)` that writes the
resampled columns: `num_multi_draws - 1` is an `int`, converted to `size_t` for
the comparison.  The first argument bounds the number of iterations run; the
result is `none` when the loop has not exited within that bound, else the
columns written. -/
def resample_loop (samples : DMat) (rand_psis_idx : Nat → Nat)
    (num_multi_draws : Int) : Nat → Nat → DMat → Option DMat
  | 0, _, _ => none
  | fuel + 1, i, written =>
    if i ≤ size_t_of_int (num_multi_draws - 1) then
      resample_loop samples rand_psis_idx num_multi_draws fuel
        ((i + 1) % 2 ^ 64)
        (written ++ [samples.getD (rand_psis_idx written.length) []])
    else some written

/-! ## The history window of the ELBO search -/

/-- The loop `for (end_iter = iter; end_iter >= 0; --end_iter)` that fills
`ys_cols`; the first argument is `end_iter + 1`, the number of iterations that
remain when the loop did not `break`. -/
def ys_cols_loop (check_curve_vec : List Bool) (history_size : Nat) :
    Nat → List Nat → List Nat
  | 0, ys_cols => ys_cols
  | end_iter + 1, ys_cols =>
    let pushed :=
      if check_curve_vec.getD end_iter false then ys_cols ++ [end_iter]
      else ys_cols
    if pushed.length = history_size then pushed
    else ys_cols_loop check_curve_vec history_size end_iter pushed

/-- The vector `ys_cols` of iteration `iter` of the ELBO search. -/
def ys_cols (check_curve_vec : List Bool) (history_size iter : Nat) : List Nat :=
  ys_cols_loop check_curve_vec history_size (iter + 1) []

/-- The statement `check_curve_vec[0] = true` made before the ELBO search. -/
def force_first (check_curve_vec : List Bool) : List Bool :=
  check_curve_vec.set 0 true

/-! ## The ELBO search and the control flow of `pathfinder_lbfgs_single` -/

/-- The comparison `a > b` of two doubles: false when either is `NaN`. -/
def Dbl.gt : Dbl → Dbl → Bool
  | .fin a, .fin b => decide (b < a)
  | .fin _, .ninf => true
  | .fin _, .pinf => false
  | .fin _, .nan => false
  | .pinf, .fin _ => true
  | .pinf, .ninf => true
  | .pinf, .pinf => false
  | .pinf, .nan => false
  | .ninf, _ => false
  | .nan, _ => false

/-- The variables the iterations of the ELBO search share: `best_E`,
`elbo_best`, `taylor_approx_best` (updated under the mutex) and the counter
`num_evals`. -/
structure search_t where
  best_E : Int
  elbo_best : elbo_est_t
  taylor_approx_best : taylor_approx_t
  num_evals : Nat

/-- A default-constructed `elbo_est_t`: `elbo` is `-inf`, `fn_calls` is 0 and
the matrices are empty. -/
def elbo_est_default : elbo_est_t :=
  { elbo := .ninf, fn_calls := 0, repeat_draws := [], lp_mat := [],
    lp_ratio := [] }

/-- One iteration `iter` of the ELBO search.  `build_taylor iter` is the
surrogate `construct_taylor_approximation` returns in this iteration and
`est_iter iter` the outcome of the call of `est_approx_draws<true>` on it: an
exception is logged and the iteration left by `continue`; otherwise the
evaluation count is added and the best triple is replaced when the new ELBO is
greater than the best one. -/
def elbo_search_step (est_iter : Nat → Except EstError elbo_est_t)
    (build_taylor : Nat → taylor_approx_t) (iter : Nat) (st : search_t) :
    search_t :=
  match est_iter iter with
  | .error _ => st
  | .ok elbo_est =>
    let st1 : search_t := { st with num_evals := st.num_evals + elbo_est.fn_calls }
    if Dbl.gt elbo_est.elbo st1.elbo_best.elbo then
      { st1 with
        elbo_best := elbo_est,
        taylor_approx_best := build_taylor iter,
        best_E := (iter : Int) }
    else st1

/-- The loop `for (iter = r.begin(); iter < r.end(); ++iter)` of the ELBO
search on one range block, run in index order; the first argument is
`r.end() - iter`. -/
def elbo_search (est_iter : Nat → Except EstError elbo_est_t)
    (build_taylor : Nat → taylor_approx_t) : Nat → Nat → search_t → search_t
  | 0, _, st => st
  | left + 1, iter, st =>
    elbo_search est_iter build_taylor left (iter + 1)
      (elbo_search_step est_iter build_taylor iter st)

/-- The matrix of differences of consecutive history entries:
column `i` is `vecs[i + 1] - vecs[i]`. -/
def diff_cols (vecs : List Vec) : Mat :=
  List.zipWith (fun next cur => vsub next cur) vecs.tail vecs

/-- The part of `pathfinder_lbfgs_single` from the construction of the
difference matrices to the return: the alpha cascade, the ELBO search over the
`diff_size` iterations in index order, the failure return when `best_E` is
still -1, and the final assembly.  `taylor_uninit` is what the
default-constructed `taylor_approx_best` holds, `rand` the stream of the
generator the top-up uses. -/
def search_and_draw (OK SOFTWARE : Int) (lp_fun : Vec → LpOut)
    (constrain_fun : Vec → Vec) (sqrtF : ℚ → ℚ) (LOG_TWO_PI : ℚ)
    (rand : Nat → ℚ) (uninit : Nat → Dbl)
    (est_iter : Nat → Except EstError elbo_est_t)
    (build_taylor : Nat → taylor_approx_t) (taylor_uninit : taylor_approx_t)
    (num_eval_attempts : Nat) (num_draws : Int) (param_vecs grad_vecs : List Vec)
    (grad_evals : Nat) : PathRet :=
  let param_size := (param_vecs.getD 0 []).length
  let Ykt_diff := diff_cols grad_vecs
  let Skt_diff := diff_cols param_vecs
  let diff_size := Ykt_diff.length
  let alpha_mat := alpha_cascade param_size Ykt_diff Skt_diff
  let st := elbo_search est_iter build_taylor diff_size 0
    { best_E := -1, elbo_best := elbo_est_default,
      taylor_approx_best := taylor_uninit, num_evals := grad_evals }
  if st.best_E = -1 then
    { return_code := SOFTWARE, lp_ratio := [], samples := [],
      lp_calls := st.num_evals }
  else
    final_assembly OK lp_fun constrain_fun sqrtF LOG_TWO_PI rand uninit
      st.taylor_approx_best (alpha_mat.getD st.best_E.toNat [])
      num_eval_attempts st.elbo_best num_draws st.num_evals

/-- The part of `pathfinder_lbfgs_single` after the L-BFGS loop: `ret` is the
last code `lbfgs.step()` returned, `param_vecs` and `grad_vecs` the history.
A negative code with a history of one point returns `SOFTWARE` with empty
results; every other case goes on. -/
def after_lbfgs (OK SOFTWARE : Int) (lp_fun : Vec → LpOut)
    (constrain_fun : Vec → Vec) (sqrtF : ℚ → ℚ) (LOG_TWO_PI : ℚ)
    (rand : Nat → ℚ) (uninit : Nat → Dbl)
    (est_iter : Nat → Except EstError elbo_est_t)
    (build_taylor : Nat → taylor_approx_t) (taylor_uninit : taylor_approx_t)
    (num_eval_attempts : Nat) (num_draws : Int) (ret : Int)
    (param_vecs grad_vecs : List Vec) (grad_evals : Nat) : PathRet :=
  if ret ≥ 0 then
    search_and_draw OK SOFTWARE lp_fun constrain_fun sqrtF LOG_TWO_PI rand uninit
      est_iter build_taylor taylor_uninit num_eval_attempts num_draws param_vecs
      grad_vecs grad_evals
  else if param_vecs.length = 1 then
    { return_code := SOFTWARE, lp_ratio := [], samples := [], lp_calls := 0 }
  else
    search_and_draw OK SOFTWARE lp_fun constrain_fun sqrtF LOG_TWO_PI rand uninit
      est_iter build_taylor taylor_uninit num_eval_attempts num_draws param_vecs
      grad_vecs grad_evals

/-! ## The Taylor approximation builder

The builder is embedded with the dimensions of its matrices in their types:
a `Matrix (Fin r) (Fin c) K` is an Eigen matrix with `r` rows and `c` columns
over an ordered field `K` of exact arithmetic (`ℚ` to evaluate, `ℝ` for the
square root and the logarithm).  The buffer `Ykt_mat` of `m` history rows of
dimension `d` is a `Matrix (Fin m) (Fin d) K`.  A matrix of `2 * m` rows made
of a top and a bottom block of `m` rows is indexed by `Fin m ⊕ Fin m`.  The
functions of the library the builder calls are parameters: `sqrtF` and `logF`
(the elementwise `sqrt` and `log`), `llt` (the lower factor `llt().matrixL()`)
and `qr` (`householderQ()` and `matrixQR()` of `HouseholderQR`). -/

namespace Sized

/-- The function `crossprod(x, y)`: `x.transpose() * y`. -/
def crossprod {K : Type} [Field K] {a b c : Type} [Fintype a]
    (x : Matrix a b K) (y : Matrix a c K) : Matrix b c K :=
  x.transpose * y

/-- The function `crossprod(x, y)` when `y` is a vector. -/
def crossprod_vector {K : Type} [Field K] {a b : Type} [Fintype a]
    (x : Matrix a b K) (y : a → K) : b → K :=
  x.transpose.mulVec y

/-- The function `tcrossprod(x)`: the full symmetric matrix
`x * x.transpose()`. -/
def tcrossprod {K : Type} [Field K] {a b : Type} [Fintype b]
    (x : Matrix a b K) : Matrix a a K :=
  x * x.transpose

/-- The function `std_vec_matrix_times_diagonal`: row `i` is
`y_buff[i].array() * alpha.array()`. -/
def std_vec_matrix_times_diagonal {K : Type} [Field K] {m d : Nat}
    (y_buff : Matrix (Fin m) (Fin d) K) (alpha : Fin d → K) :
    Matrix (Fin m) (Fin d) K :=
  Matrix.of (fun i j => y_buff i j * alpha j)

/-- The function `std_vec_matrix_crossprod_vector`: the sum over the rows `i`
of `y_buff[i] * x(i)`. -/
def std_vec_matrix_crossprod_vector {K : Type} [Field K] {m d : Nat}
    (y_buff : Matrix (Fin m) (Fin d) K) (x : Fin m → K) : Fin d → K :=
  fun j => ∑ i, y_buff i j * x i

/-- The function `std_vec_matrix_mul_vector`: entry `i` is
`y_buff[i].dot(alpha)`. -/
def std_vec_matrix_mul_vector {K : Type} [Field K] {m d : Nat}
    (y_buff : Matrix (Fin m) (Fin d) K) (alpha : Fin d → K) : Fin m → K :=
  fun i => ∑ j, y_buff i j * alpha j

/-- The local `y_tcrossprod_alpha` of both constructions:
`tcrossprod(Ykt_mat * diag(sqrt(alpha))) + diag(Dk)`. -/
def y_tcrossprod_alpha {K : Type} [Field K] {m d : Nat} (sqrtF : K → K)
    (Ykt_mat : Matrix (Fin m) (Fin d) K) (alpha : Fin d → K) (Dk : Fin m → K) :
    Matrix (Fin m) (Fin m) K :=
  tcrossprod (std_vec_matrix_times_diagonal Ykt_mat (fun j => sqrtF (alpha j)))
    + Matrix.diagonal Dk

/-- The local `Hk` of `construct_taylor_approximation_full`. -/
def full_Hk {K : Type} [Field K] {m d : Nat} (sqrtF : K → K)
    (Ykt_mat : Matrix (Fin m) (Fin d) K) (alpha : Fin d → K) (Dk : Fin m → K)
    (ninvRST : Matrix (Fin m) (Fin d) K) : Matrix (Fin d) (Fin d) K :=
  let y_mul_alpha := std_vec_matrix_times_diagonal Ykt_mat alpha
  crossprod y_mul_alpha ninvRST + crossprod ninvRST y_mul_alpha
    + crossprod ninvRST (y_tcrossprod_alpha sqrtF Ykt_mat alpha Dk * ninvRST)
    + Matrix.diagonal alpha

/-- The record `taylor_approx_t` with the shapes of `L_approx` and `Qk` tied
to `use_full`: a dense record holds a `d x d` factor and an empty `Qk`, a
sparse one a `k x k` factor and a `d x k` matrix `Qk`. -/
inductive taylor_approx_t (K : Type) (d : Nat) where
  | dense (x_center : Fin d → K) (logdetcholHk : K)
      (L_approx : Matrix (Fin d) (Fin d) K)
  | sparse (k : Nat) (x_center : Fin d → K) (logdetcholHk : K)
      (L_approx : Matrix (Fin k) (Fin k) K) (Qk : Matrix (Fin d) (Fin k) K)

/-- The field `use_full`. -/
def taylor_approx_t.use_full {K : Type} {d : Nat} : taylor_approx_t K d → Bool
  | .dense _ _ _ => true
  | .sparse _ _ _ _ _ => false

/-- The field `x_center`. -/
def taylor_approx_t.x_center {K : Type} {d : Nat} :
    taylor_approx_t K d → Fin d → K
  | .dense x _ _ => x
  | .sparse _ x _ _ _ => x

/-- The field `logdetcholHk`. -/
def taylor_approx_t.logdetcholHk {K : Type} {d : Nat} : taylor_approx_t K d → K
  | .dense _ l _ => l
  | .sparse _ _ l _ _ => l

/-- The function `construct_taylor_approximation_full`. -/
def construct_taylor_approximation_full {K : Type} [LinearOrderedField K]
    {m d : Nat} (sqrtF logF : K → K)
    (llt : (n : Nat) → Matrix (Fin n) (Fin n) K → Matrix (Fin n) (Fin n) K)
    (Ykt_mat : Matrix (Fin m) (Fin d) K) (alpha : Fin d → K) (Dk : Fin m → K)
    (ninvRST : Matrix (Fin m) (Fin d) K) (point_est grad_est : Fin d → K) :
    taylor_approx_t K d :=
  let Hk := full_Hk sqrtF Ykt_mat alpha Dk ninvRST
  let L_hk := (llt d Hk).transpose
  let logdetcholHk := ∑ i, logF |L_hk i i|
  let x_center := point_est - Hk.mulVec grad_est
  .dense x_center logdetcholHk L_hk

/-- The position among the `2 * m` columns of a column of the top or of the
bottom block. -/
def block_index {m : Nat} : Fin m ⊕ Fin m → Nat
  | .inl j => j
  | .inr j => m + j

/-- The local `Wkbart` of `construct_taylor_approximation_sparse` before it is
transposed: the rows of `Ykt_mat * diag(sqrt(alpha))` on top of those of
`ninvRST * diag(sqrt(1 / alpha))`. -/
def sparse_Wkbart {K : Type} [Field K] {m d : Nat} (sqrtF : K → K)
    (Ykt_mat : Matrix (Fin m) (Fin d) K) (alpha : Fin d → K)
    (ninvRST : Matrix (Fin m) (Fin d) K) : Matrix (Fin m ⊕ Fin m) (Fin d) K :=
  Matrix.fromRows
    (std_vec_matrix_times_diagonal Ykt_mat (fun j => sqrtF (alpha j)))
    (ninvRST * Matrix.diagonal (fun j => sqrtF (alpha j)⁻¹))

/-- The local `Mkbar`: the blocks `0, I; I, y_tcrossprod_alpha`. -/
def sparse_Mkbar {K : Type} [Field K] {m d : Nat} (sqrtF : K → K)
    (Ykt_mat : Matrix (Fin m) (Fin d) K) (alpha : Fin d → K) (Dk : Fin m → K) :
    Matrix (Fin m ⊕ Fin m) (Fin m ⊕ Fin m) K :=
  Matrix.fromBlocks 0 1 1 (y_tcrossprod_alpha sqrtF Ykt_mat alpha Dk)

/-- The local `Rkbar`: the top `min_size` rows of `matrixQR()` with the part
strictly below the diagonal set to zero. -/
def sparse_Rkbar {K : Type} [Field K] {m d : Nat}
    (matrixQR : Matrix (Fin d) (Fin m ⊕ Fin m) K) :
    Matrix (Fin (min d (2 * m))) (Fin m ⊕ Fin m) K :=
  Matrix.of (fun i c =>
    if (i : Nat) ≤ block_index c then
      matrixQR (Fin.castLE (Nat.min_le_left d (2 * m)) i) c
    else 0)

/-- The local `Qk`: `householderQ() * Identity(num_params, min_size)`, the
first `min_size` columns of the orthogonal factor. -/
def sparse_Qk {K : Type} [Field K] {m d : Nat}
    (householderQ : Matrix (Fin d) (Fin d) K) :
    Matrix (Fin d) (Fin (min d (2 * m))) K :=
  Matrix.of (fun i j => householderQ i (Fin.castLE (Nat.min_le_left d (2 * m)) j))

/-- The matrix whose factor is `L_approx` in the sparse construction:
`Rkbar * Mkbar * Rkbar.transpose() + Identity(min_size, min_size)`. -/
def sparse_core {K : Type} [Field K] {m d : Nat} (sqrtF : K → K)
    (qr : Matrix (Fin d) (Fin m ⊕ Fin m) K →
      Matrix (Fin d) (Fin d) K × Matrix (Fin d) (Fin m ⊕ Fin m) K)
    (Ykt_mat : Matrix (Fin m) (Fin d) K) (alpha : Fin d → K) (Dk : Fin m → K)
    (ninvRST : Matrix (Fin m) (Fin d) K) :
    Matrix (Fin (min d (2 * m))) (Fin (min d (2 * m))) K :=
  let Rkbar : Matrix (Fin (min d (2 * m))) (Fin m ⊕ Fin m) K :=
    sparse_Rkbar (qr (sparse_Wkbart sqrtF Ykt_mat alpha ninvRST).transpose).2
  Rkbar * sparse_Mkbar sqrtF Ykt_mat alpha Dk * Rkbar.transpose + 1

/-- The function `construct_taylor_approximation_sparse`. -/
def construct_taylor_approximation_sparse {K : Type} [LinearOrderedField K]
    {m d : Nat} (sqrtF logF : K → K)
    (llt : (n : Nat) → Matrix (Fin n) (Fin n) K → Matrix (Fin n) (Fin n) K)
    (qr : Matrix (Fin d) (Fin m ⊕ Fin m) K →
      Matrix (Fin d) (Fin d) K × Matrix (Fin d) (Fin m ⊕ Fin m) K)
    (Ykt_mat : Matrix (Fin m) (Fin d) K) (alpha : Fin d → K) (Dk : Fin m → K)
    (ninvRST : Matrix (Fin m) (Fin d) K) (point_est grad_est : Fin d → K) :
    taylor_approx_t K d :=
  let Qk : Matrix (Fin d) (Fin (min d (2 * m))) K :=
    sparse_Qk (qr (sparse_Wkbart sqrtF Ykt_mat alpha ninvRST).transpose).1
  let L_approx :=
    (llt (min d (2 * m))
      (sparse_core sqrtF qr Ykt_mat alpha Dk ninvRST)).transpose
  let logdetcholHk :=
    ∑ i, logF |L_approx i i| + (1 / 2) * ∑ j, logF (alpha j)
  let ninvRSTg := ninvRST.mulVec grad_est
  let alpha_mul_grad : Fin d → K := fun j => alpha j * grad_est j
  let x_center :=
    point_est
      - (alpha_mul_grad
          + (fun j => alpha j * std_vec_matrix_crossprod_vector Ykt_mat ninvRSTg j)
          + crossprod_vector ninvRST
              (std_vec_matrix_mul_vector Ykt_mat alpha_mul_grad)
          + crossprod_vector ninvRST
              ((y_tcrossprod_alpha sqrtF Ykt_mat alpha Dk).mulVec ninvRSTg))
  .sparse (min d (2 * m)) x_center logdetcholHk L_approx Qk

/-- The function `construct_taylor_approximation`: the dense construction
when `2 * Ykt_mat.size() >= Ykt_mat[0].size()`, else the sparse one. -/
def construct_taylor_approximation {K : Type} [LinearOrderedField K]
    {m d : Nat} (sqrtF logF : K → K)
    (llt : (n : Nat) → Matrix (Fin n) (Fin n) K → Matrix (Fin n) (Fin n) K)
    (qr : Matrix (Fin d) (Fin m ⊕ Fin m) K →
      Matrix (Fin d) (Fin d) K × Matrix (Fin d) (Fin m ⊕ Fin m) K)
    (Ykt_mat : Matrix (Fin m) (Fin d) K) (alpha : Fin d → K) (Dk : Fin m → K)
    (ninvRST : Matrix (Fin m) (Fin d) K) (point_est grad_est : Fin d → K) :
    taylor_approx_t K d :=
  if 2 * m ≥ d then
    construct_taylor_approximation_full sqrtF logF llt Ykt_mat alpha Dk ninvRST
      point_est grad_est
  else
    construct_taylor_approximation_sparse sqrtF logF llt qr Ykt_mat alpha Dk
      ninvRST point_est grad_est

/-- The vector overload of `gen_draws`. -/
def gen_draws {K : Type} [Field K] {d : Nat} (sqrtF : K → K) (u : Fin d → K)
    (taylor_approx : taylor_approx_t K d) (alpha : Fin d → K) : Fin d → K :=
  match taylor_approx with
  | .dense x_center _ L_approx => crossprod_vector L_approx u + x_center
  | .sparse _ x_center _ L_approx Qk =>
    let u1 := Qk.transpose.mulVec u
    (Matrix.diagonal (fun j => sqrtF (alpha j))).mulVec
        (Qk.mulVec (crossprod_vector L_approx u1) + (u - Qk.mulVec u1))
      + x_center

/-- The matrix overload of `gen_draws`: one draw per column of `u`. -/
def gen_draws_matrix {K : Type} [Field K] {d n : Nat} (sqrtF : K → K)
    (u : Matrix (Fin d) (Fin n) K) (taylor_approx : taylor_approx_t K d)
    (alpha : Fin d → K) : Matrix (Fin d) (Fin n) K :=
  match taylor_approx with
  | .dense x_center _ L_approx =>
    Matrix.of (fun i c => crossprod L_approx u i c + x_center i)
  | .sparse _ x_center _ L_approx Qk =>
    let u1 := Qk.transpose * u
    Matrix.of (fun i c =>
      (Matrix.diagonal (fun j => sqrtF (alpha j))
        * (Qk * crossprod L_approx u1 + (u - Qk * u1))) i c + x_center i)

/-- The linear part of the map `gen_draws` applies to `u` for a sparse
surrogate: `diag(sqrt(alpha)) * (Qk * L_approx' * Qk' + (I - Qk * Qk'))`. -/
def sparse_linear_part {K : Type} [Field K] {d k : Nat} (sqrtF : K → K)
    (alpha : Fin d → K) (L_approx : Matrix (Fin k) (Fin k) K)
    (Qk : Matrix (Fin d) (Fin k) K) : Matrix (Fin d) (Fin d) K :=
  Matrix.diagonal (fun j => sqrtF (alpha j))
    * (Qk * L_approx.transpose * Qk.transpose + (1 - Qk * Qk.transpose))

/-! ### The window quantities of an iteration of the ELBO search

Row `i` of `Ykt_h` is `Ykt_h[i]`, the gradient difference of entry `i` of the
window, and row `i` of `Skt` is column `i` of `Skt_mat` before it is
transposed in place. -/

/-- The vector `Dk` of an iteration of the ELBO search:
`Dk(i) = Ykt_h[i].dot(Skt_mat.col(i))`. -/
def window_Dk {K : Type} [Field K] {m d : Nat}
    (Ykt_h Skt : Matrix (Fin m) (Fin d) K) : Fin m → K :=
  fun i => Matrix.dotProduct (Ykt_h i) (Skt i)

/-- The matrix `Rk`: zero, then `Rk(i, s) = Skt_mat.col(i).dot(Ykt_h[s])` for
`i <= s`. -/
def window_Rk {K : Type} [Field K] {m d : Nat}
    (Ykt_h Skt : Matrix (Fin m) (Fin d) K) : Matrix (Fin m) (Fin m) K :=
  Matrix.of (fun i s =>
    if i ≤ s then Matrix.dotProduct (Skt i) (Ykt_h s) else 0)

/-- The matrix `ninvRST`: `Skt_mat` transposed in place, solved in place
against the upper triangle of `Rk`, and negated; `solve` is
`triangularView<Eigen::Upper>().solveInPlace`. -/
def window_ninvRST {K : Type} [Field K] {m d : Nat}
    (solve : Matrix (Fin m) (Fin m) K → Matrix (Fin m) (Fin d) K →
      Matrix (Fin m) (Fin d) K)
    (Ykt_h Skt : Matrix (Fin m) (Fin d) K) : Matrix (Fin m) (Fin d) K :=
  -(solve (window_Rk Ykt_h Skt) Skt)

/-! ### From sized values to the lists of the estimator -/

/-- The entries of a sized vector as a list. -/
def to_vec {d : Nat} (v : Fin d → ℚ) : Vec := List.ofFn v

/-- The columns of a sized matrix as a list of lists. -/
def to_mat {r c : Nat} (A : Matrix (Fin r) (Fin c) ℚ) : Mat :=
  List.ofFn (fun j => List.ofFn (fun i => A i j))

/-- The list-level record of a sized record; a dense record has an empty
`Qk`. -/
def to_record {d : Nat} : taylor_approx_t ℚ d → Pathfinder.taylor_approx_t
  | .dense x l L =>
    { x_center := to_vec x, logdetcholHk := .fin l, L_approx := to_mat L,
      Qk := [], use_full := true }
  | .sparse _ x l L Qk =>
    { x_center := to_vec x, logdetcholHk := .fin l, L_approx := to_mat L,
      Qk := to_mat Qk, use_full := false }

/-! ### A window of one history row in dimension one

`Ykt = 1`, `Skt = 4`, `alpha = 4`: `Dk = 4`, `ninvRST = -1`, `Hk = 4` and
`Rk * Mk * Rk' + I = 1`. -/

/-- A square root that is exact on 4, 1 and 1/4. -/
def demo_sqrt : ℚ → ℚ := fun x =>
  if x = 4 then 2 else if x = 1 then 1 else if x = 1 / 4 then 1 / 2 else 0

/-- The logarithm in base 2 on the powers of 2: the 2-adic valuation. -/
def demo_log : ℚ → ℚ := fun q => (padicValRat 2 q : ℚ)

/-- The Cholesky factor of a diagonal matrix with entries 4, 1 or 1/4. -/
def demo_llt : (n : Nat) → Matrix (Fin n) (Fin n) ℚ → Matrix (Fin n) (Fin n) ℚ :=
  fun _ X => Matrix.of (fun i j => if i = j then demo_sqrt (X i i) else 0)

/-- The factorisation of a matrix of one row: `Q = I`, `R` the matrix. -/
def demo_qr : Matrix (Fin 1) (Fin 1 ⊕ Fin 1) ℚ →
    Matrix (Fin 1) (Fin 1) ℚ × Matrix (Fin 1) (Fin 1 ⊕ Fin 1) ℚ :=
  fun W => (1, W)

/-- The history row `Ykt = 1`. -/
def demo_Y : Matrix (Fin 1) (Fin 1) ℚ := fun _ _ => 1

/-- The scaling `alpha = 4`. -/
def demo_alpha : Fin 1 → ℚ := fun _ => 4

/-- The curvature `Dk = Ykt * Skt = 4`. -/
def demo_Dk : Fin 1 → ℚ := fun _ => 4

/-- The matrix `ninvRST = -Skt / Dk = -1`. -/
def demo_N : Matrix (Fin 1) (Fin 1) ℚ := fun _ _ => -1

/-- The step `Skt = 4`. -/
def demo_S : Matrix (Fin 1) (Fin 1) ℚ := fun _ _ => 4

/-- A gradient that does not change along the step: `Ykt = 0`. -/
def demo_Y_flat : Matrix (Fin 1) (Fin 1) ℚ := fun _ _ => 0

/-- The triangular solve of a system of one equation. -/
def demo_solve : Matrix (Fin 1) (Fin 1) ℚ → Matrix (Fin 1) (Fin 1) ℚ →
    Matrix (Fin 1) (Fin 1) ℚ :=
  fun R B => Matrix.of (fun i j => B i j / R i i)

end Sized

/-! ## The random number service `create_rng` -/

/-- The function `create_rng(seed, chain)`: the generator is constructed from
the `unsigned int` sum `seed + chain` (32 bits, wrapping) and returned as it
is.  `rng_ctor` is the seeding constructor of the generator type, a state of
type `S`. -/
def create_rng {S : Type} (rng_ctor : Nat → S) (seed chain : Nat) : S :=
  rng_ctor ((seed + chain) % 2 ^ 32)

/-- The generators of one call of `pathfinder_lbfgs_single`: the primary one,
`create_rng(random_seed, path)`, and the vector `rng_vec` of the
`tbb_threads + 1` generators `create_rng(random_seed, path + i)`, the offset
`path + i` being converted to `unsigned int`. -/
def single_rngs {S : Type} (rng_ctor : Nat → S)
    (random_seed path tbb_threads : Nat) : S × List S :=
  (create_rng rng_ctor random_seed path,
   (List.range (tbb_threads + 1)).map
     (fun i => create_rng rng_ctor random_seed ((path + i) % 2 ^ 32)))

/-- The generators of one call of `pathfinder_lbfgs_multi`: for each `iter`
below `num_paths` those of the single path called with the path id
`path + iter`, and the generator of the resampling,
`create_rng(random_seed, path)`. -/
def multi_rngs {S : Type} (rng_ctor : Nat → S)
    (random_seed path num_paths tbb_threads : Nat) : List (S × List S) × S :=
  ((List.range num_paths).map
     (fun iter =>
       single_rngs rng_ctor random_seed ((path + iter) % 2 ^ 32) tbb_threads),
   create_rng rng_ctor random_seed path)

/-! ## The L-BFGS loop and the entry of `pathfinder_lbfgs_single` -/

/-- What one call of `lbfgs.step()` leaves: the code it returns and the
current point `curr_x()` and gradient `curr_g()` of the optimizer. -/
structure Step where
  code : Int
  curr_x : Vec
  curr_g : Vec

/-- The variables of the loop `while (ret == 0)`. -/
structure Hist where
  ret : Int
  param_vecs : List Vec
  grad_vecs : List Vec
  param_cols_filled : Nat

/-- The loop `while (ret == 0)` of `pathfinder_lbfgs_single`; `step k` is what
the call number `k` of `lbfgs.step()` leaves.  The first argument bounds the
number of tests of the loop condition; the result is `none` when the loop has
not exited within that bound. -/
def lbfgs_loop (step : Nat → Step) : Nat → Nat → Hist → Option Hist
  | 0, _, _ => none
  | fuel + 1, k, h =>
    if h.ret = 0 then
      let s := step k
      let h1 : Hist :=
        if s.code ≠ -1 then
          { ret := s.code,
            param_vecs := h.param_vecs ++ [s.curr_x],
            grad_vecs := h.grad_vecs ++ [s.curr_g],
            param_cols_filled := h.param_cols_filled + 1 }
        else { h with ret := s.code }
      lbfgs_loop step fuel (k + 1) h1
    else some h

/-- The state before the loop: the initial point and its gradient are in the
history, `ret` and `param_cols_filled` are 0. -/
def hist_init (cont_vector g1 : Vec) : Hist :=
  { ret := 0, param_vecs := [cont_vector], grad_vecs := [g1],
    param_cols_filled := 0 }

/-- The outcome of the call of `util::initialize`: the initial point, or the
exception it raises when it finds no point to start from. -/
inductive InitOut where
  | point (cont_vector : Vec)
  | throws

/-- What a call of `pathfinder_lbfgs_single` does: it returns the tuple of
`ret_pathfinder`, or an exception leaves it. -/
inductive SingleOut where
  | returns (r : PathRet)
  | exception

/-- The function `pathfinder_lbfgs_single<true>`: the call of
`util::initialize` (outcome `init_out`), which stands in no `try` block, the history seeded with
the initial point and its gradient `log_prob_grad cont_vector`, the L-BFGS
loop, and the rest of the function.  `grad_evals` is `lbfgs.grad_evals()`
after the loop; the other parameters are those of `after_lbfgs`.  The
constructor of the optimizer and the first gradient evaluation are taken not
to throw.  The result is `none` when the L-BFGS loop has not exited within
`fuel` tests. -/
def pathfinder_lbfgs_single (OK SOFTWARE : Int) (lp_fun : Vec → LpOut)
    (constrain_fun : Vec → Vec) (sqrtF : ℚ → ℚ) (LOG_TWO_PI : ℚ)
    (rand : Nat → ℚ) (uninit : Nat → Dbl)
    (est_iter : Nat → Except EstError elbo_est_t)
    (build_taylor : Nat → taylor_approx_t) (taylor_uninit : taylor_approx_t)
    (num_eval_attempts : Nat) (num_draws : Int) (init_out : InitOut)
    (log_prob_grad : Vec → Vec) (step : Nat → Step) (grad_evals fuel : Nat) :
    Option SingleOut :=
  match init_out with
  | .throws => some .exception
  | .point cont_vector =>
    match lbfgs_loop step fuel 0
        (hist_init cont_vector (log_prob_grad cont_vector)) with
    | none => none
    | some h =>
      some (.returns
        (after_lbfgs OK SOFTWARE lp_fun constrain_fun sqrtF LOG_TWO_PI rand
          uninit est_iter build_taylor taylor_uninit num_eval_attempts
          num_draws h.ret h.param_vecs h.grad_vecs grad_evals))

/-! ## The header of the draw matrix -/

/-- The vector `names` of `pathfinder_lbfgs_single` handed to the parameter
writer: the constrained parameter names of the model followed by
`"lp_approx__"` and `"lp__"`. -/
def header_names (constrained_param_names : List String) : List String :=
  (constrained_param_names ++ ["lp_approx__"]) ++ ["lp__"]

/-! ## The single path with the estimations of the search written out -/

/-- The call of `est_approx_draws<true>` in iteration `iter` of the ELBO
search: `rands iter` is the stream of the thread generator when the iteration
starts, `build_taylor iter` the surrogate of the iteration and column `iter`
of `alpha_mat` its scaling. -/
def elbo_est_iter (lp_fun : Vec → LpOut) (sqrtF : ℚ → ℚ) (LOG_TWO_PI : ℚ)
    (rands : Nat → Nat → ℚ) (uninit : Nat → Dbl)
    (build_taylor : Nat → taylor_approx_t) (num_elbo_draws : Nat)
    (alpha_mat : Mat) (num_eval_attempts : Nat) :
    Nat → Except EstError elbo_est_t :=
  fun iter =>
    est_approx_draws true lp_fun sqrtF LOG_TWO_PI (rands iter) uninit
      (build_taylor iter) num_elbo_draws (alpha_mat.getD iter [])
      num_eval_attempts

/-- The function `search_and_draw` with the estimation of each iteration made
by `est_approx_draws<true>` on `num_elbo_draws` samples. -/
def search_and_draw_est (OK SOFTWARE : Int) (lp_fun : Vec → LpOut)
    (constrain_fun : Vec → Vec) (sqrtF : ℚ → ℚ) (LOG_TWO_PI : ℚ)
    (rands : Nat → Nat → ℚ) (rand : Nat → ℚ) (uninit : Nat → Dbl)
    (build_taylor : Nat → taylor_approx_t) (taylor_uninit : taylor_approx_t)
    (num_eval_attempts num_elbo_draws : Nat) (num_draws : Int)
    (param_vecs grad_vecs : List Vec) (grad_evals : Nat) : PathRet :=
  search_and_draw OK SOFTWARE lp_fun constrain_fun sqrtF LOG_TWO_PI rand uninit
    (elbo_est_iter lp_fun sqrtF LOG_TWO_PI rands uninit build_taylor
      num_elbo_draws
      (alpha_cascade (param_vecs.getD 0 []).length (diff_cols grad_vecs)
        (diff_cols param_vecs))
      num_eval_attempts)
    build_taylor taylor_uninit num_eval_attempts num_draws param_vecs grad_vecs
    grad_evals

/-! ## Pooling and resampling in `pathfinder_lbfgs_multi` -/

/-- The assignment of `block` to the part of `arr` that starts at `start` and
has the size of `block`: `segment(start, n) = block` on a vector,
`middleCols(start, n) = block` on the columns of a matrix. -/
def write_segment {α : Type} (arr : List α) (start : Nat) (block : List α) :
    List α :=
  arr.take start ++ block ++ arr.drop (start + block.length)

/-- The loop that copies the buffers of the pooled paths into `lp_ratios` and
`samples`, from the path at the head of the lists on; the third argument is
`filling_start_row`.  The matrix assigned to
`samples.middleCols(filling_start_row, individ_num_samples)` must have
`individ_num_samples` columns, the size of the path's `lp_ratio`; the result
is `none` when it has not. -/
def pool_fill : List (List Dbl) → List DMat → Nat → List Dbl → DMat →
    Option (List Dbl × DMat)
  | ratio :: ratios, mat :: mats, filling_start_row, lp_ratios, samples =>
    if mat.length = ratio.length then
      pool_fill ratios mats (filling_start_row + ratio.length)
        (write_segment lp_ratios filling_start_row ratio)
        (write_segment samples filling_start_row mat)
    else none
  | _, _, _, lp_ratios, samples => some (lp_ratios, samples)

/-- The pooled `lp_ratios` and `samples`: both are allocated with
`num_returned_samples` entries, the sum of the sizes of the pooled
`lp_ratio` vectors, and filled by the loop; `junk` is what the fresh vector
holds. -/
def pooled (pool : Pool) (junk : Dbl) : Option (List Dbl × DMat) :=
  let num_returned_samples := (pool.individual_lp_ratios.map List.length).sum
  pool_fill pool.individual_lp_ratios pool.individual_samples 0
    (List.replicate num_returned_samples junk)
    (List.replicate num_returned_samples [])

/-- What a call of `pathfinder_lbfgs_multi` that ends does: it returns a code,
having written draw columns to the parameter writer, or a block assignment of
the pooling finds mismatching sizes. -/
inductive MultiOut where
  | returned (code : Int) (written : DMat)
  | size_mismatch

/-- The function `pathfinder_lbfgs_multi` from the outer `parallel_for` on:
`SOFTWARE` without a draw column written when nothing was pooled, else the
pooling, the resampling loop with the index stream
`rand_psis_idx lp_ratios` of the discrete distribution over the PSIS weights,
and `return 0`.  The result is `none` when the resampling loop has not exited
within `fuel` tests of its condition. -/
def pathfinder_lbfgs_multi (single : Nat → PathRet) (SOFTWARE : Int)
    (blocks : List (Nat × Nat)) (junk : Dbl)
    (rand_psis_idx : List Dbl → Nat → Nat) (num_multi_draws : Int)
    (fuel : Nat) : Option MultiOut :=
  let pool := run_paths single SOFTWARE blocks
  if pool.individual_samples.length = 0 then some (.returned SOFTWARE [])
  else
    match pooled pool junk with
    | none => some .size_mismatch
    | some (lp_ratios, samples) =>
      match resample_loop samples (rand_psis_idx lp_ratios) num_multi_draws
          fuel 0 [] with
      | none => none
      | some written => some (.returned 0 written)

/-! ## The column names of `stan_csv_reader.hpp` -/

/-- The value `std::string::npos`. -/
def npos : Nat := 2 ^ 64 - 1

/-- The member `find(c)` of `std::string`: the position of the first `c`, or
`npos`. -/
def find_char (c : Char) : List Char → Nat
  | [] => npos
  | a :: rest =>
    if a = c then 0
    else if find_char c rest = npos then npos else find_char c rest + 1

/-- The member `find_first_of(chars)`. -/
def find_first_of (chars : List Char) : List Char → Nat
  | [] => npos
  | a :: rest =>
    if a ∈ chars then 0
    else if find_first_of chars rest = npos then npos
    else find_first_of chars rest + 1

/-- The conversion of a `size_t` to `int` (32 bits, two's complement). -/
def int_of_size_t (n : Nat) : Int :=
  if n % 2 ^ 32 < 2 ^ 31 then ((n % 2 ^ 32 : Nat) : Int)
  else ((n % 2 ^ 32 : Nat) : Int) - 2 ^ 32

/-- The call `boost::split(parts, s, boost::is_any_of(sep))`: the tokens
between the separators, empty tokens kept. -/
def split (sep : Char) : List Char → List (List Char)
  | [] => [[]]
  | a :: rest =>
    if a = sep then [] :: split sep rest
    else
      match split sep rest with
      | [] => [[a]]
      | p :: ps => (a :: p) :: ps

/-- The call `boost::algorithm::join(parts, sep)`. -/
def join (sep : Char) : List (List Char) → List Char
  | [] => []
  | [p] => p
  | p :: q :: ps => p ++ sep :: join sep (q :: ps)

/-- The body of the loop over the parts. -/
def prettify_part (part : List Char) : List Char :=
  let pos : Int := int_of_size_t (find_char '.' part)
  if pos > 0 then
    ((part.set pos.toNat '[').map (fun c => if c = '.' then ',' else c)) ++ [']']
  else part

/-- The function `prettify_stan_csv_name`. -/
def prettify_stan_csv_name (name : List Char) : List Char :=
  if find_first_of [':', '.'] name ≠ npos then
    join '.' ((split ':' name).map prettify_part)
  else name

/-! ## The tail length of the PSIS weights -/

/-- The tail length `pathfinder_lbfgs_multi` hands to `psis_weights`:
`std::min(0.2 * num_returned_samples, 3 * std::sqrt(num_returned_samples))`,
a double, converted at the call to the index type of the parameter (the
fraction is dropped).  The arithmetic is that of an ordered field `K`, `0.2`
the fraction `2 / 10`, and `sqrtF` stands for `std::sqrt`. -/
def tail_len {K : Type} [LinearOrderedField K] [FloorRing K] (sqrtF : K → K)
    (num_returned_samples : Nat) : Nat :=
  ⌊min ((2 / 10 : K) * (num_returned_samples : K))
    (3 * sqrtF (num_returned_samples : K))⌋₊

/-! ## The items handed to the parameter writer -/

/-- One call of the parameter writer: the vector of names, the matrix of
draws, one draw column, the call without argument, or a line
`head + std::to_string(seconds) + label` of the footer. -/
inductive Item where
  | names (names : List String)
  | matrix (draws : DMat)
  | column (draw : List Dbl)
  | blank
  | elapsed (head : String) (seconds : ℚ) (label : String)

/-- The value
`duration_cast<milliseconds>(stop - start).count() / 1000.0` of two readings
of `std::chrono::steady_clock::now()`, taken in milliseconds. -/
def delta_time (start stop : Int) : ℚ := ((stop - start : Int) : ℚ) / 1000

/-- The calls that close the output of both functions: the call without
argument, the three lines of elapsed times (the second and third headed by
`std::string(time_header.size(), ' ')`), and the call without argument. -/
def footer (first_label second_label : String)
    (first_delta_time second_delta_time : ℚ) : List Item :=
  [.blank,
   .elapsed "Elapsed Time: " first_delta_time first_label,
   .elapsed "              " second_delta_time second_label,
   .elapsed "              " (first_delta_time + second_delta_time)
     " seconds (Total)",
   .blank]

/-- The readings of the steady clock in `pathfinder_lbfgs_single`. -/
structure SingleClock where
  start_optim_time : Int
  end_optim_time : Int
  start_pathfinder_time : Int
  end_pathfinder_time : Int

/-- The readings of the steady clock in `pathfinder_lbfgs_multi`. -/
structure MultiClock where
  start_pathfinders_time : Int
  end_pathfinders_time : Int
  start_psis_time : Int
  end_psis_time : Int

/-- The function `pathfinder_lbfgs_single<true>` with the estimations of the
search made by `est_approx_draws<true>`, together with the calls of the
parameter writer it makes: the names before the L-BFGS loop and, when the
function reaches the final assembly, the matrix of draws and the footer.  A
return of `SOFTWARE` (the optimization failed to start, or `best_E` is still
-1) writes the names only, and an exception of `util::initialize` nothing.
The result is `none` when the L-BFGS loop has not exited within `fuel`
tests. -/
def pathfinder_lbfgs_single_writer (OK SOFTWARE : Int) (lp_fun : Vec → LpOut)
    (constrain_fun : Vec → Vec) (sqrtF : ℚ → ℚ) (LOG_TWO_PI : ℚ)
    (rands : Nat → Nat → ℚ) (rand : Nat → ℚ) (uninit : Nat → Dbl)
    (build_taylor : Nat → taylor_approx_t) (taylor_uninit : taylor_approx_t)
    (num_eval_attempts num_elbo_draws : Nat) (num_draws : Int)
    (constrained_param_names : List String) (clock : SingleClock)
    (init_out : InitOut) (log_prob_grad : Vec → Vec) (step : Nat → Step)
    (grad_evals fuel : Nat) : Option (SingleOut × List Item) :=
  match init_out with
  | .throws => some (.exception, [])
  | .point cont_vector =>
    match lbfgs_loop step fuel 0
        (hist_init cont_vector (log_prob_grad cont_vector)) with
    | none => none
    | some h =>
      let est_iter := elbo_est_iter lp_fun sqrtF LOG_TWO_PI rands uninit
        build_taylor num_elbo_draws
        (alpha_cascade (h.param_vecs.getD 0 []).length (diff_cols h.grad_vecs)
          (diff_cols h.param_vecs))
        num_eval_attempts
      let r := after_lbfgs OK SOFTWARE lp_fun constrain_fun sqrtF LOG_TWO_PI
        rand uninit est_iter build_taylor taylor_uninit num_eval_attempts
        num_draws h.ret h.param_vecs h.grad_vecs grad_evals
      let best_E := (elbo_search est_iter build_taylor
        (diff_cols h.grad_vecs).length 0
        { best_E := -1, elbo_best := elbo_est_default,
          taylor_approx_best := taylor_uninit, num_evals := grad_evals }).best_E
      if (h.ret ≥ 0 ∨ h.param_vecs.length ≠ 1) ∧ best_E ≠ -1 then
        some (.returns r,
          .names (header_names constrained_param_names) :: .matrix r.samples ::
            footer " seconds (lbfgs)" " seconds (Pathfinder)"
              (delta_time clock.start_optim_time clock.end_optim_time)
              (delta_time clock.start_pathfinder_time
                clock.end_pathfinder_time))
      else some (.returns r, [.names (header_names constrained_param_names)])

/-- The function `pathfinder_lbfgs_multi` together with the calls of the
parameter writer it makes: the names, then, unless it returns before the
resampling, the resampled columns and the footer. -/
def pathfinder_lbfgs_multi_writer (single : Nat → PathRet) (SOFTWARE : Int)
    (blocks : List (Nat × Nat)) (junk : Dbl)
    (rand_psis_idx : List Dbl → Nat → Nat) (num_multi_draws : Int)
    (constrained_param_names : List String) (clock : MultiClock) (fuel : Nat) :
    Option (MultiOut × List Item) :=
  match pathfinder_lbfgs_multi single SOFTWARE blocks junk rand_psis_idx
      num_multi_draws fuel with
  | none => none
  | some .size_mismatch =>
    some (.size_mismatch, [.names (header_names constrained_param_names)])
  | some (.returned code written) =>
    if (run_paths single SOFTWARE blocks).individual_samples.length = 0 then
      some (.returned code written,
        [.names (header_names constrained_param_names)])
    else
      some (.returned code written,
        .names (header_names constrained_param_names) ::
          (written.map Item.column ++
            footer " seconds (Pathfinders)" " seconds (PSIS)"
              (delta_time clock.start_pathfinders_time
                clock.end_pathfinders_time)
              (delta_time clock.start_psis_time clock.end_psis_time)))

/-! ## Concrete inputs -/

/-- A dense surrogate in dimension one: centre 0, factor 1. -/
def demo_taylor : taylor_approx_t :=
  { x_center := [0], logdetcholHk := .fin 0, L_approx := [[1]], Qk := [],
    use_full := true }

/-- A log density that is `NaN` at 1, throws at 2 and is `-x` elsewhere. -/
def demo_lp : Vec → LpOut
  | [q] =>
    if q = 1 then .val .nan else if q = 2 then .throws else .val (.fin (-q))
  | _ => .throws

/-- A log density that is 0 everywhere. -/
def demo_lp_zero : Vec → LpOut := fun _ => .val (.fin 0)

/-- The variate stream 0, 1, 2, ... -/
def demo_rand : Nat → ℚ := fun n => (n : ℚ)

/-- Two paths: path 0 gives the code 70, every other path gives 0 and one draw. -/
def demo_single : Nat → PathRet
  | 0 => { return_code := 70, lp_ratio := [], samples := [], lp_calls := 0 }
  | _ => { return_code := 0, lp_ratio := [.fin 1],
           samples := [[.fin 0, .fin (-1), .fin 0]], lp_calls := 5 }

/-- The block `est_approx_draws<true>` returns for `demo_lp`, two samples and
one retry: slot 0 is accepted, slot 1 is rejected. -/
def demo_block : elbo_est_t :=
  { elbo := .fin 1, fn_calls := 3, repeat_draws := [[0]],
    lp_mat := [(.fin (-1), .fin 0)], lp_ratio := [.fin 1] }

/-- The block `est_approx_draws<true>` returns for `demo_lp_zero` and two
samples. -/
def demo_elbo_best : elbo_est_t :=
  { elbo := .fin (5 / 4), fn_calls := 2, repeat_draws := [[0], [1]],
    lp_mat := [(.fin (-1), .fin 0), (.fin (-(3 / 2)), .fin 0)],
    lp_ratio := [.fin 1, .fin (3 / 2)] }

/-- A surrogate whose `logdetcholHk` is `-inf` (a zero on the diagonal of the
Cholesky factor). -/
def demo_taylor_degenerate : taylor_approx_t :=
  { x_center := [0], logdetcholHk := .ninf, L_approx := [[0]], Qk := [],
    use_full := true }

/-- An ELBO search in which every iteration estimates on
`demo_taylor_degenerate` with one sample. -/
def demo_est_iter : Nat → Except EstError elbo_est_t := fun _ =>
  est_approx_draws true demo_lp_zero id 2 demo_rand (fun _ => .nan)
    demo_taylor_degenerate 1 [1] 0

/-- The block `demo_est_iter` returns: one draw, ELBO `-inf`. -/
def demo_block_degenerate : elbo_est_t :=
  { elbo := .ninf, fn_calls := 1, repeat_draws := [[0]],
    lp_mat := [(.pinf, .fin 0)], lp_ratio := [.ninf] }

/-- Three calls of `lbfgs.step()`: a step to 1, a step to 2, then a hard
line-search failure (code -1) that leaves the point at 2. -/
def demo_step : Nat → Step
  | 0 => { code := 0, curr_x := [1], curr_g := [-1] }
  | 1 => { code := 0, curr_x := [2], curr_g := [-2] }
  | _ => { code := -1, curr_x := [2], curr_g := [-2] }

/-- The variate stream 1, 1, 1, ... -/
def demo_rand_one : Nat → ℚ := fun _ => 1

/-- A constrain routine with one output value: the first coordinate. -/
def demo_constrain : Vec → Vec := fun x => [x.headD 0]

/-- A log density that is `NaN` everywhere. -/
def demo_lp_nan : Vec → LpOut := fun _ => .val .nan

/-- Paths that all return the code 0 with 100 draws of one parameter. -/
def demo_single_hundred : Nat → PathRet := fun _ =>
  { return_code := 0, lp_ratio := List.replicate 100 (.fin 1),
    samples := List.replicate 100 [.fin 0, .fin (-1), .fin 0], lp_calls := 5 }

/-- Two pooled columns. -/
def demo_samples : DMat := [[.fin 0], [.fin 1]]

/-- The index stream 0, 1, 0, 1, ... -/
def demo_idx : Nat → Nat := fun n => n % 2

/-- The variate stream 1, 0, 0, ... -/
def demo_rand_probe : Nat → ℚ := fun n => if n = 0 then 1 else 0

/-- One call of `lbfgs.step()` that ends the optimization at the point 1 with
a code greater than 0. -/
def demo_step_done : Nat → Step := fun _ =>
  { code := 1, curr_x := [1], curr_g := [0] }

/-- Readings of the steady clock: the optimization takes `ms` milliseconds
and the rest of the path one millisecond. -/
def demo_clock (ms : Int) : SingleClock :=
  { start_optim_time := 0, end_optim_time := ms, start_pathfinder_time := ms,
    end_pathfinder_time := ms + 1 }

/-- The block `est_approx_draws<false>` returns for `demo_lp_zero` and one
sample. -/
def demo_topup_block : elbo_est_t :=
  { elbo := .ninf, fn_calls := 1, repeat_draws := [[0]],
    lp_mat := [(.fin (-1), .fin 0)], lp_ratio := [.fin 1] }

/-! ## Evaluation logs (proof devices) -/

/-- An item without its elapsed time. -/
def Item.untimed : Item → Item
  | .elapsed head _ label => .elapsed head 0 label
  | item => item

/-- The columns the resampling loop has written to the parameter writer when
it has exited or has made `fuel` tests of its condition. -/
def resample_written (samples : DMat) (rand_psis_idx : Nat → Nat)
    (num_multi_draws : Int) : Nat → Nat → DMat → DMat
  | 0, _, written => written
  | fuel + 1, i, written =>
    if i ≤ size_t_of_int (num_multi_draws - 1) then
      resample_written samples rand_psis_idx num_multi_draws fuel
        ((i + 1) % 2 ^ 64)
        (written ++ [samples.getD (rand_psis_idx written.length) []])
    else written

/-- The number of invocations of `lp_fun` one call of `est_approx_draws`
makes: those of the sample loop and, when every slot failed, the probe of the
cleanup. -/
def lp_invocations (lp_fun : Vec → LpOut) (sqrtF : ℚ → ℚ) (rand : Nat → ℚ)
    (uninit : Nat → Dbl) (taylor_approx : taylor_approx_t) (num_samples : Nat)
    (alpha : Vec) (num_eval_attempts : Nat) : Nat :=
  let r := sample_phase lp_fun (fun u => gen_draws sqrtF u taylor_approx alpha)
    rand uninit taylor_approx.x_center.length num_samples num_eval_attempts
  r.2.evals.length +
    (if r.2.at_least_one_failed = true ∧ (success_rows r.1).length = 0 then 1
     else 0)

/-- What a call of `est_approx_draws` adds to the counter `num_evals` of the
single path: the `fn_calls` of the block it returns, nothing when it raises. -/
def counted_calls : Except EstError elbo_est_t → Nat
  | .ok elbo_est => elbo_est.fn_calls
  | .error _ => 0

/-- The evaluations the retry loop of slot `i` makes from attempt `fail_trys`
on, when the slot holds `x` and the generator is at `cursor`. -/
def slot_trace (lp_fun : Vec → LpOut) (gen : Vec → Vec) (rand : Nat → ℚ)
    (num_params i : Nat) : Nat → Nat → Vec → Nat → List Eval
  | 0, _, _, _ => []
  | left + 1, fail_trys, x, cursor =>
    ⟨i, fail_trys, x, lp_fun x⟩ ::
      (if (lp_fun x).finite then []
       else slot_trace lp_fun gen rand num_params i left (fail_trys + 1)
         (gen (draw_col rand cursor num_params)) (cursor + num_params))

/-- The number of failed evaluations in a log. -/
def fails (E : List Eval) : Nat := E.countP (fun e => !e.out.finite)

/-- The evaluation logs of the slots from slot `i` on, one list per slot. -/
def loop_segs (lp_fun : Vec → LpOut) (gen : Vec → Vec) (rand : Nat → ℚ)
    (d R : Nat) : Nat → List Slot → Nat → List (List Eval)
  | _, [], _ => []
  | i, s :: rest, cur =>
    slot_trace lp_fun gen rand d i (R + 1) 0 s.x cur ::
      loop_segs lp_fun gen rand d R (i + 1) rest
        (cur + fails (slot_trace lp_fun gen rand d i (R + 1) 0 s.x cur) * d)

/-- What holds after the iterations `0 .. k-1` of the ELBO search. -/
def search_inv (est_iter : Nat → Except EstError elbo_est_t)
    (build_taylor : Nat → taylor_approx_t) (taylor_uninit : taylor_approx_t)
    (k : Nat) (st : search_t) : Prop :=
  (∀ t, t < k → ∀ e, est_iter t = .ok e →
    Dbl.gt e.elbo st.elbo_best.elbo = false) ∧
  ((st.best_E = -1 ∧ st.elbo_best = elbo_est_default ∧
      st.taylor_approx_best = taylor_uninit)
    ∨ (∃ b, b < k ∧ st.best_E = (b : Int) ∧ est_iter b = .ok st.elbo_best ∧
        st.taylor_approx_best = build_taylor b ∧
        Dbl.gt st.elbo_best.elbo Dbl.ninf = true ∧
        ∀ t, t < b → ∀ e, est_iter t = .ok e → e.elbo ≠ st.elbo_best.elbo))

/-! # Theorems -/

/-! ## Facts about the retry loop -/

theorem redraw_x (gen : Vec → Vec) (rand : Nat → ℚ) (d R ft : Nat) (s : Slot)
    (c : Ctr) :
    (redraw gen rand d R ft s c).1.x = gen (draw_col rand c.cursor d) ∧
    (redraw gen rand d R ft s c).1.u = draw_col rand c.cursor d ∧
    (redraw gen rand d R ft s c).2.cursor = c.cursor + d ∧
    (redraw gen rand d R ft s c).2.evals = c.evals ∧
    (redraw gen rand d R ft s c).2.lp_fun_calls = c.lp_fun_calls :=
  ⟨rfl, rfl, rfl, rfl, rfl⟩

theorem retry_loop_evals (lp_fun : Vec → LpOut) (gen : Vec → Vec)
    (rand : Nat → ℚ) (d R i : Nat) (left : Nat) :
    ∀ (ft : Nat) (s : Slot) (c : Ctr),
      (retry_loop lp_fun gen rand d R i left ft s c).2.evals
        = c.evals ++ slot_trace lp_fun gen rand d i left ft s.x c.cursor ∧
      (retry_loop lp_fun gen rand d R i left ft s c).2.lp_fun_calls
        = c.lp_fun_calls
          + (slot_trace lp_fun gen rand d i left ft s.x c.cursor).length ∧
      (retry_loop lp_fun gen rand d R i left ft s c).2.cursor
        = c.cursor
          + fails (slot_trace lp_fun gen rand d i left ft s.x c.cursor) * d := by
  induction left with
  | zero => intro ft s c; simp [retry_loop, slot_trace, fails]
  | succ l ih =>
    intro ft s c
    rw [retry_loop, slot_trace]
    cases hout : lp_fun s.x with
    | val v =>
      cases hv : v.isfinite with
      | true => simp [LpOut.finite, hv, fails, hout]
      | false =>
        obtain ⟨h1, h2, h3⟩ := ih (ft + 1)
          (redraw gen rand d R ft { s with lp := v }
            { c with lp_fun_calls := c.lp_fun_calls + 1,
                     evals := c.evals ++ [⟨i, ft, s.x, LpOut.val v⟩] }).1
          (redraw gen rand d R ft { s with lp := v }
            { c with lp_fun_calls := c.lp_fun_calls + 1,
                     evals := c.evals ++ [⟨i, ft, s.x, LpOut.val v⟩] }).2
        simp only [(redraw_x _ _ _ _ _ _ _).1, (redraw_x _ _ _ _ _ _ _).2.2.1,
          (redraw_x _ _ _ _ _ _ _).2.2.2.1, (redraw_x _ _ _ _ _ _ _).2.2.2.2]
          at h1 h2 h3
        simp only [LpOut.finite, hv, Bool.false_eq_true, if_false]
        refine ⟨?_, ?_, ?_⟩
        · rw [h1]; simp
        · rw [h2]; simp; omega
        · rw [h3]; simp [fails, LpOut.finite, hv]; ring
    | throws =>
      obtain ⟨h1, h2, h3⟩ := ih (ft + 1)
        (redraw gen rand d R ft s
          { c with lp_fun_calls := c.lp_fun_calls + 1,
                   evals := c.evals ++ [⟨i, ft, s.x, LpOut.throws⟩] }).1
        (redraw gen rand d R ft s
          { c with lp_fun_calls := c.lp_fun_calls + 1,
                   evals := c.evals ++ [⟨i, ft, s.x, LpOut.throws⟩] }).2
      simp only [(redraw_x _ _ _ _ _ _ _).1, (redraw_x _ _ _ _ _ _ _).2.2.1,
        (redraw_x _ _ _ _ _ _ _).2.2.2.1, (redraw_x _ _ _ _ _ _ _).2.2.2.2]
        at h1 h2 h3
      simp only [LpOut.finite, Bool.false_eq_true, if_false]
      refine ⟨?_, ?_, ?_⟩
      · rw [h1]; simp
      · rw [h2]; simp; omega
      · rw [h3]; simp [fails, LpOut.finite]; ring

theorem slot_trace_length (lp_fun : Vec → LpOut) (gen : Vec → Vec)
    (rand : Nat → ℚ) (d i : Nat) (left : Nat) :
    ∀ (ft : Nat) (x : Vec) (cur : Nat),
      (slot_trace lp_fun gen rand d i left ft x cur).length ≤ left ∧
      (0 < left → 1 ≤ (slot_trace lp_fun gen rand d i left ft x cur).length) := by
  induction left with
  | zero => intro ft x cur; simp [slot_trace]
  | succ l ih =>
    intro ft x cur
    rw [slot_trace]
    by_cases h : (lp_fun x).finite = true
    · simp [h]
    · rw [if_neg h, List.length_cons]
      have := (ih (ft + 1) (gen (draw_col rand cur d)) (cur + d)).1
      omega

theorem slot_trace_entries (lp_fun : Vec → LpOut) (gen : Vec → Vec)
    (rand : Nat → ℚ) (d i : Nat) (left : Nat) :
    ∀ (ft : Nat) (x : Vec) (cur : Nat) (k : Nat) (e : Eval),
      (slot_trace lp_fun gen rand d i left ft x cur)[k]? = some e →
      e.slot = i ∧ e.fail_trys = ft + k ∧ e.out = lp_fun e.x ∧
      e.x = (if k = 0 then x else gen (draw_col rand (cur + (k - 1) * d) d)) ∧
      (k + 1 < (slot_trace lp_fun gen rand d i left ft x cur).length →
        e.out.finite = false) := by
  induction left with
  | zero => intro ft x cur k e h; simp [slot_trace] at h
  | succ l ih =>
    intro ft x cur k e h
    rw [slot_trace] at h ⊢
    cases k with
    | zero =>
      simp only [List.getElem?_cons_zero, Option.some.injEq] at h
      subst h
      refine ⟨rfl, rfl, rfl, rfl, ?_⟩
      intro hlen
      by_cases hf : (lp_fun x).finite = true
      · simp [hf] at hlen
      · simpa using hf
    | succ k =>
      by_cases hf : (lp_fun x).finite = true
      · simp [hf] at h
      · rw [if_neg hf] at h ⊢
        simp only [List.getElem?_cons_succ] at h
        obtain ⟨h1, h2, h3, h4, h5⟩ :=
          ih (ft + 1) (gen (draw_col rand cur d)) (cur + d) k e h
        refine ⟨h1, by omega, h3, ?_, ?_⟩
        · rw [h4]
          cases k with
          | zero => simp
          | succ k =>
            simp only [Nat.succ_ne_zero, if_false, Nat.add_sub_cancel]
            congr 2
            ring
        · intro hlen
          apply h5
          simp only [List.length_cons] at hlen
          omega

theorem retry_loop_final (lp_fun : Vec → LpOut) (gen : Vec → Vec)
    (rand : Nat → ℚ) (d R i : Nat) (left : Nat) :
    ∀ (ft : Nat) (s : Slot) (c : Ctr), 0 < left → ft + left = R + 1 →
      ((retry_loop lp_fun gen rand d R i left ft s c).1.lp.isfinite = true ∧
        (retry_loop lp_fun gen rand d R i left ft s c).2.at_least_one_failed
          = c.at_least_one_failed ∧
        ∃ e, (slot_trace lp_fun gen rand d i left ft s.x c.cursor).getLast?
            = some e ∧
          e.out = .val (retry_loop lp_fun gen rand d R i left ft s c).1.lp ∧
          e.x = (retry_loop lp_fun gen rand d R i left ft s c).1.x)
      ∨ ((retry_loop lp_fun gen rand d R i left ft s c).1.lp = Dbl.ninf ∧
        (retry_loop lp_fun gen rand d R i left ft s c).2.at_least_one_failed
          = true ∧
        (slot_trace lp_fun gen rand d i left ft s.x c.cursor).length = left ∧
        ∀ e ∈ slot_trace lp_fun gen rand d i left ft s.x c.cursor,
          e.out.finite = false) := by
  induction left with
  | zero => intro ft s c h; omega
  | succ l ih =>
    intro ft s c _ hsum
    rw [retry_loop, slot_trace]
    cases hout : lp_fun s.x with
    | val v =>
      cases hv : v.isfinite with
      | true =>
        left
        simp [LpOut.finite, hv]
      | false =>
        simp only [LpOut.finite, hv, Bool.false_eq_true, if_false]
        cases l with
        | zero =>
          right
          have hft : ft = R := by omega
          simp [retry_loop, slot_trace, redraw, hft, LpOut.finite, hv]
        | succ l =>
          have hne : ¬ ft = R := by omega
          have h := ih (ft + 1)
            (redraw gen rand d R ft { s with lp := v }
              { c with lp_fun_calls := c.lp_fun_calls + 1,
                       evals := c.evals ++ [⟨i, ft, s.x, LpOut.val v⟩] }).1
            (redraw gen rand d R ft { s with lp := v }
              { c with lp_fun_calls := c.lp_fun_calls + 1,
                       evals := c.evals ++ [⟨i, ft, s.x, LpOut.val v⟩] }).2
            (Nat.succ_pos l) (by omega)
          simp only [(redraw_x _ _ _ _ _ _ _).1,
            (redraw_x _ _ _ _ _ _ _).2.2.1] at h
          have hl := (slot_trace_length lp_fun gen rand d i (l + 1) (ft + 1)
            (gen (draw_col rand c.cursor d)) (c.cursor + d)).2 (Nat.succ_pos l)
          rcases h with ⟨h1, h2, e, h3, h4, h5⟩ | ⟨h1, h2, h3, h4⟩
          · left
            refine ⟨h1, ?_, e, ?_, h4, h5⟩
            · rw [h2]; simp [redraw, hne]
            · rw [List.getLast?_cons, h3]; rfl
          · right
            refine ⟨h1, h2, by simp [h3], ?_⟩
            intro e he
            rcases List.mem_cons.1 he with rfl | he
            · simp [LpOut.finite, hv]
            · exact h4 e he
    | throws =>
      simp only [LpOut.finite, Bool.false_eq_true, if_false]
      cases l with
      | zero =>
        right
        have hft : ft = R := by omega
        simp [retry_loop, slot_trace, redraw, hft, LpOut.finite]
      | succ l =>
        have hne : ¬ ft = R := by omega
        have h := ih (ft + 1)
          (redraw gen rand d R ft s
            { c with lp_fun_calls := c.lp_fun_calls + 1,
                     evals := c.evals ++ [⟨i, ft, s.x, LpOut.throws⟩] }).1
          (redraw gen rand d R ft s
            { c with lp_fun_calls := c.lp_fun_calls + 1,
                     evals := c.evals ++ [⟨i, ft, s.x, LpOut.throws⟩] }).2
          (Nat.succ_pos l) (by omega)
        simp only [(redraw_x _ _ _ _ _ _ _).1,
          (redraw_x _ _ _ _ _ _ _).2.2.1] at h
        have hl := (slot_trace_length lp_fun gen rand d i (l + 1) (ft + 1)
          (gen (draw_col rand c.cursor d)) (c.cursor + d)).2 (Nat.succ_pos l)
        rcases h with ⟨h1, h2, e, h3, h4, h5⟩ | ⟨h1, h2, h3, h4⟩
        · left
          refine ⟨h1, ?_, e, ?_, h4, h5⟩
          · rw [h2]; simp [redraw, hne]
          · rw [List.getLast?_cons, h3]; rfl
        · right
          refine ⟨h1, h2, by simp [h3], ?_⟩
          intro e he
          rcases List.mem_cons.1 he with rfl | he
          · simp [LpOut.finite]
          · exact h4 e he

/-! ## Facts about the sample loop -/

theorem fails_append (A B : List Eval) : fails (A ++ B) = fails A + fails B := by
  simp [fails, List.countP_append]

theorem loop_segs_length (lp_fun : Vec → LpOut) (gen : Vec → Vec)
    (rand : Nat → ℚ) (d R : Nat) (slots : List Slot) :
    ∀ (i cur : Nat), (loop_segs lp_fun gen rand d R i slots cur).length
      = slots.length := by
  induction slots with
  | nil => intro i cur; simp [loop_segs]
  | cons s rest ih => intro i cur; simp [loop_segs, ih]

theorem sample_loop_evals (lp_fun : Vec → LpOut) (gen : Vec → Vec)
    (rand : Nat → ℚ) (d R : Nat) (slots : List Slot) :
    ∀ (i : Nat) (c : Ctr),
      (sample_loop lp_fun gen rand d R i slots c).2.evals
        = c.evals ++ (loop_segs lp_fun gen rand d R i slots c.cursor).flatten ∧
      (sample_loop lp_fun gen rand d R i slots c).2.lp_fun_calls
        = c.lp_fun_calls
          + (loop_segs lp_fun gen rand d R i slots c.cursor).flatten.length ∧
      (sample_loop lp_fun gen rand d R i slots c).2.cursor
        = c.cursor
          + fails (loop_segs lp_fun gen rand d R i slots c.cursor).flatten * d ∧
      (sample_loop lp_fun gen rand d R i slots c).1.length = slots.length := by
  induction slots with
  | nil => intro i c; simp [sample_loop, loop_segs, fails]
  | cons s rest ih =>
    intro i c
    obtain ⟨h1, h2, h3⟩ := retry_loop_evals lp_fun gen rand d R i (R + 1) 0 s c
    obtain ⟨g1, g2, g3, g4⟩ := ih (i + 1)
      (retry_loop lp_fun gen rand d R i (R + 1) 0 s c).2
    rw [h3] at g1 g2 g3
    simp only [sample_loop, loop_segs, List.flatten_cons, List.length_append,
      fails_append, List.length_cons]
    refine ⟨?_, ?_, ?_, ?_⟩
    · rw [g1, h1, List.append_assoc]
    · rw [g2, h2]; omega
    · rw [g3]; ring
    · rw [g4]

theorem retry_loop_flag (lp_fun : Vec → LpOut) (gen : Vec → Vec)
    (rand : Nat → ℚ) (d R i : Nat) (s : Slot) (c : Ctr) :
    (retry_loop lp_fun gen rand d R i (R + 1) 0 s c).2.at_least_one_failed
      = (c.at_least_one_failed
          || !(retry_loop lp_fun gen rand d R i (R + 1) 0 s c).1.lp.isfinite) ∧
    ((retry_loop lp_fun gen rand d R i (R + 1) 0 s c).1.lp.isfinite = true ∨
      (retry_loop lp_fun gen rand d R i (R + 1) 0 s c).1.lp = Dbl.ninf) := by
  rcases retry_loop_final lp_fun gen rand d R i (R + 1) 0 s c (Nat.succ_pos R)
    (by omega) with ⟨h1, h2, _⟩ | ⟨h1, h2, _⟩
  · rw [h2, h1]; simp
  · rw [h2, h1]; simp [Dbl.isfinite]

theorem sample_loop_flag (lp_fun : Vec → LpOut) (gen : Vec → Vec)
    (rand : Nat → ℚ) (d R : Nat) (slots : List Slot) :
    ∀ (i : Nat) (c : Ctr),
      (sample_loop lp_fun gen rand d R i slots c).2.at_least_one_failed
        = (c.at_least_one_failed
            || (sample_loop lp_fun gen rand d R i slots c).1.any
                (fun s => !s.lp.isfinite)) ∧
      ∀ s ∈ (sample_loop lp_fun gen rand d R i slots c).1,
        s.lp.isfinite = true ∨ s.lp = Dbl.ninf := by
  induction slots with
  | nil => intro i c; simp [sample_loop]
  | cons s rest ih =>
    intro i c
    obtain ⟨h1, h2⟩ := retry_loop_flag lp_fun gen rand d R i s c
    obtain ⟨g1, g2⟩ := ih (i + 1)
      (retry_loop lp_fun gen rand d R i (R + 1) 0 s c).2
    simp only [sample_loop, List.any_cons, List.mem_cons]
    refine ⟨?_, ?_⟩
    · rw [g1, h1, Bool.or_assoc]
    · intro s' hs'
      rcases hs' with rfl | hs'
      · exact h2
      · exact g2 s' hs'

theorem sample_loop_slots (lp_fun : Vec → LpOut) (gen : Vec → Vec)
    (rand : Nat → ℚ) (d R : Nat) (slots : List Slot) :
    ∀ (i : Nat) (c : Ctr) (j : Nat) (s' : Slot),
      (sample_loop lp_fun gen rand d R i slots c).1[j]? = some s' →
      ∃ T, (loop_segs lp_fun gen rand d R i slots c.cursor)[j]? = some T ∧
        ((s'.lp.isfinite = true ∧
            ∃ e, T.getLast? = some e ∧ e.out = .val s'.lp ∧ e.x = s'.x)
          ∨ (s'.lp = Dbl.ninf ∧ T.length = R + 1 ∧
              ∀ e ∈ T, e.out.finite = false)) := by
  induction slots with
  | nil => intro i c j s' h; simp [sample_loop] at h
  | cons s rest ih =>
    intro i c j s' h
    simp only [sample_loop] at h
    cases j with
    | zero =>
      simp only [List.getElem?_cons_zero, Option.some.injEq] at h
      subst h
      refine ⟨slot_trace lp_fun gen rand d i (R + 1) 0 s.x c.cursor,
        by simp [loop_segs], ?_⟩
      rcases retry_loop_final lp_fun gen rand d R i (R + 1) 0 s c
        (Nat.succ_pos R) (by omega) with ⟨h1, _, h3⟩ | ⟨h1, _, h3, h4⟩
      · exact Or.inl ⟨h1, h3⟩
      · exact Or.inr ⟨h1, h3, h4⟩
    | succ j =>
      simp only [List.getElem?_cons_succ] at h
      obtain ⟨T, hT, hprop⟩ := ih (i + 1) _ j s' h
      rw [(retry_loop_evals lp_fun gen rand d R i (R + 1) 0 s c).2.2] at hT
      exact ⟨T, by simpa [loop_segs] using hT, hprop⟩

theorem loop_segs_entries (lp_fun : Vec → LpOut) (gen : Vec → Vec)
    (rand : Nat → ℚ) (d R : Nat) (slots : List Slot) :
    ∀ (i cur j : Nat) (T : List Eval),
      (loop_segs lp_fun gen rand d R i slots cur)[j]? = some T →
      1 ≤ T.length ∧ T.length ≤ R + 1 ∧
      ∃ s, slots[j]? = some s ∧
        ∀ (k : Nat) (e : Eval), T[k]? = some e →
          e.slot = i + j ∧ e.fail_trys = k ∧ e.out = lp_fun e.x ∧
          (k + 1 < T.length → e.out.finite = false) ∧
          e.x = (if k = 0 then s.x else
            gen (draw_col rand (cur + (fails
              ((loop_segs lp_fun gen rand d R i slots cur).take j).flatten
                + (k - 1)) * d) d)) := by
  induction slots with
  | nil => intro i cur j T h; simp [loop_segs] at h
  | cons s rest ih =>
    intro i cur j T h
    cases j with
    | zero =>
      simp only [loop_segs, List.getElem?_cons_zero, Option.some.injEq] at h
      subst h
      have hl := slot_trace_length lp_fun gen rand d i (R + 1) 0 s.x cur
      refine ⟨hl.2 (Nat.succ_pos R), hl.1, s, by simp, ?_⟩
      intro k e hk
      obtain ⟨h1, h2, h3, h4, h5⟩ :=
        slot_trace_entries lp_fun gen rand d i (R + 1) 0 s.x cur k e hk
      refine ⟨h1, by omega, h3, h5, ?_⟩
      rw [h4]
      simp [fails]
    | succ j =>
      simp only [loop_segs, List.getElem?_cons_succ] at h
      obtain ⟨h1, h2, s', hs', hk⟩ := ih (i + 1) _ j T h
      refine ⟨h1, h2, s', by simpa using hs', ?_⟩
      intro k e hke
      obtain ⟨g1, g2, g3, g4, g5⟩ := hk k e hke
      refine ⟨by omega, g2, g3, g4, ?_⟩
      rw [g5]
      simp only [loop_segs, List.take_succ_cons, List.flatten_cons,
        fails_append]
      by_cases hk0 : k = 0
      · simp [hk0]
      · simp only [hk0, if_false]
        congr 2
        ring

/-! ## Facts about the cleanup -/

theorem gather_eq_filter (p : Slot → Bool) (l : List Slot) :
    ((List.range l.length).filter (fun i =>
        match l[i]? with
        | some s => p s
        | none => false)).filterMap (fun i => l[i]?) = l.filter p := by
  induction l using List.reverseRecOn with
  | nil => simp
  | append_singleton l a ih =>
    rw [List.length_append, List.length_singleton, List.range_succ,
      List.filter_append, List.filterMap_append, List.filter_append, ← ih]
    congr 1
    · have h1 : (List.range l.length).filter (fun i =>
          match (l ++ [a])[i]? with
          | some s => p s
          | none => false)
        = (List.range l.length).filter (fun i =>
          match l[i]? with
          | some s => p s
          | none => false) := by
        apply List.filter_congr
        intro i hi
        rw [List.mem_range] at hi
        rw [List.getElem?_append_left hi]
      rw [h1]
      apply List.filterMap_congr
      intro i hi
      have hi' := List.mem_range.1 (List.mem_filter.1 hi).1
      rw [List.getElem?_append_left hi']
    · cases hp : p a <;> simp [hp]

theorem success_rows_gather (slots : List Slot) :
    (success_rows slots).filterMap (fun i => slots[i]?)
      = slots.filter (fun s => s.lp.isfinite) :=
  gather_eq_filter (fun s => s.lp.isfinite) slots

theorem success_rows_length (slots : List Slot) :
    (success_rows slots).length
      = (slots.filter (fun s => s.lp.isfinite)).length := by
  rw [← success_rows_gather]
  have key : ∀ (l : List Nat), (∀ i ∈ l, i < slots.length) →
      (l.filterMap (fun i => slots[i]?)).length = l.length := by
    intro l
    induction l with
    | nil => simp
    | cons a l ih =>
      intro h
      have ha : a < slots.length := h a (List.mem_cons_self a l)
      rw [List.filterMap_cons, List.getElem?_eq_getElem ha]
      simp only [List.length_cons]
      rw [ih (fun i hi => h i (List.mem_cons_of_mem a hi))]
  apply (key _ _).symm
  intro i hi
  exact List.mem_range.1 (List.mem_filter.1 hi).1

/-- What the cleanup returns when the flag is the one the sample loop
computed. -/
theorem cleanup_cases (lp_fun : Vec → LpOut) (slots : List Slot) :
    cleanup lp_fun slots (slots.any (fun s => !s.lp.isfinite))
      = (if (∀ s ∈ slots, s.lp.isfinite = false) ∧
            (∃ s0, slots[0]? = some s0 ∧ (lp_fun s0.x).finite = false)
         then .error .domain_error
         else .ok (slots.filter (fun s => s.lp.isfinite))) := by
  unfold cleanup
  by_cases hany : slots.any (fun s => !s.lp.isfinite) = true
  · rw [if_pos hany]
    simp only [success_rows_length, success_rows_gather]
    by_cases hlen : (slots.filter (fun s => s.lp.isfinite)).length = 0
    · rw [if_pos hlen]
      have hnil : slots.filter (fun s => s.lp.isfinite) = [] :=
        List.length_eq_zero.1 hlen
      have hall : ∀ s ∈ slots, s.lp.isfinite = false := by
        intro s hs
        have := List.filter_eq_nil_iff.1 hnil s hs
        simpa using this
      cases slots with
      | nil => simp at hany
      | cons s0 rest =>
        simp only [List.map_cons, List.headD_cons, List.getElem?_cons_zero,
          Option.some.injEq, exists_eq_left']
        cases hp : lp_fun s0.x with
        | val v =>
          cases hv : v.isfinite with
          | true =>
            have : ¬ ((∀ s ∈ s0 :: rest, s.lp.isfinite = false) ∧
                (LpOut.val v).finite = false) := by
              simp [LpOut.finite, hv]
            rw [if_neg this, hnil]
            simp [hv]
          | false =>
            have : (∀ s ∈ s0 :: rest, s.lp.isfinite = false) ∧
                (LpOut.val v).finite = false := ⟨hall, by simp [LpOut.finite, hv]⟩
            rw [if_pos this]
            simp [hv]
        | throws =>
          have : (∀ s ∈ s0 :: rest, s.lp.isfinite = false) ∧
              LpOut.throws.finite = false := ⟨hall, rfl⟩
          rw [if_pos this]
    · rw [if_neg hlen]
      have : ¬ ((∀ s ∈ slots, s.lp.isfinite = false) ∧
          (∃ s0, slots[0]? = some s0 ∧ (lp_fun s0.x).finite = false)) := by
        intro h
        apply hlen
        rw [List.length_eq_zero, List.filter_eq_nil_iff]
        intro s hs
        simp [h.1 s hs]
      rw [if_neg this]
  · rw [if_neg hany]
    have hall : ∀ s ∈ slots, s.lp.isfinite = true := by
      intro s hs
      by_contra hc
      apply hany
      rw [List.any_eq_true]
      exact ⟨s, hs, by simpa using hc⟩
    have : ¬ ((∀ s ∈ slots, s.lp.isfinite = false) ∧
        (∃ s0, slots[0]? = some s0 ∧ (lp_fun s0.x).finite = false)) := by
      rintro ⟨h1, s0, h2, _⟩
      have hm : s0 ∈ slots := List.getElem?_mem h2
      have := h1 s0 hm
      rw [hall s0 hm] at this
      exact Bool.noConfusion this
    rw [if_neg this, List.filter_eq_self.2 hall]

theorem init_slots_length (gen : Vec → Vec) (rand : Nat → ℚ)
    (uninit : Nat → Dbl) (d K : Nat) :
    (init_slots gen rand uninit d K).length = K := by
  simp [init_slots]

/-- The flag and the slots at the end of the sample loop. -/
theorem sample_phase_flag (lp_fun : Vec → LpOut) (gen : Vec → Vec)
    (rand : Nat → ℚ) (uninit : Nat → Dbl) (d K R : Nat) :
    (sample_phase lp_fun gen rand uninit d K R).2.at_least_one_failed
      = (sample_phase lp_fun gen rand uninit d K R).1.any
          (fun s => !s.lp.isfinite) ∧
    (∀ s ∈ (sample_phase lp_fun gen rand uninit d K R).1,
      s.lp.isfinite = true ∨ s.lp = Dbl.ninf) ∧
    (sample_phase lp_fun gen rand uninit d K R).1.length = K := by
  obtain ⟨h1, h2⟩ := sample_loop_flag lp_fun gen rand d R
    (init_slots gen rand uninit d K) 0
    { cursor := K * d, lp_fun_calls := 0, at_least_one_failed := false,
      evals := [] }
  refine ⟨?_, h2, ?_⟩
  · simpa [sample_phase] using h1
  · rw [sample_phase, (sample_loop_evals lp_fun gen rand d R _ _ _).2.2.2,
      init_slots_length]

/-- The function `est_approx_draws` in closed form. -/
theorem est_approx_draws_eq (ReturnElbo : Bool) (lp_fun : Vec → LpOut)
    (sqrtF : ℚ → ℚ) (LOG_TWO_PI : ℚ) (rand : Nat → ℚ) (uninit : Nat → Dbl)
    (taylor_approx : taylor_approx_t) (K : Nat) (alpha : Vec) (R : Nat) :
    est_approx_draws ReturnElbo lp_fun sqrtF LOG_TWO_PI rand uninit
        taylor_approx K alpha R
      = (if (∀ s ∈ (sample_phase lp_fun
                (fun u => gen_draws sqrtF u taylor_approx alpha) rand uninit
                taylor_approx.x_center.length K R).1, s.lp.isfinite = false) ∧
            (∃ s0, (sample_phase lp_fun
                (fun u => gen_draws sqrtF u taylor_approx alpha) rand uninit
                taylor_approx.x_center.length K R).1[0]? = some s0 ∧
              (lp_fun s0.x).finite = false)
         then .error .domain_error
         else .ok (finish ReturnElbo taylor_approx.logdetcholHk LOG_TWO_PI
            taylor_approx.x_center.length
            (sample_phase lp_fun
                (fun u => gen_draws sqrtF u taylor_approx alpha) rand uninit
                taylor_approx.x_center.length K R).2.lp_fun_calls
            ((sample_phase lp_fun
                (fun u => gen_draws sqrtF u taylor_approx alpha) rand uninit
                taylor_approx.x_center.length K R).1.filter
              (fun s => s.lp.isfinite)))) := by
  unfold est_approx_draws
  simp only []
  rw [(sample_phase_flag lp_fun _ rand uninit _ K R).1, cleanup_cases]
  split_ifs <;> rfl

/-! ## Consistency of a slot's `u`, `x` -/

theorem retry_loop_consistent (lp_fun : Vec → LpOut) (gen : Vec → Vec)
    (rand : Nat → ℚ) (d R i : Nat) (left : Nat) :
    ∀ (ft : Nat) (s : Slot) (c : Ctr),
      (s.x = gen s.u ∧ ∃ pos, s.u = draw_col rand pos d) →
      ((retry_loop lp_fun gen rand d R i left ft s c).1.x
          = gen (retry_loop lp_fun gen rand d R i left ft s c).1.u ∧
        ∃ pos, (retry_loop lp_fun gen rand d R i left ft s c).1.u
          = draw_col rand pos d) := by
  induction left with
  | zero => intro ft s c h; simpa [retry_loop] using h
  | succ l ih =>
    intro ft s c h
    rw [retry_loop]
    cases hout : lp_fun s.x with
    | val v =>
      cases hv : v.isfinite with
      | true => simp only [hv, if_true]; exact h
      | false =>
        simp only [hv, Bool.false_eq_true, if_false]
        apply ih
        exact ⟨rfl, c.cursor, rfl⟩
    | throws =>
      simp only []
      apply ih
      exact ⟨rfl, c.cursor, rfl⟩

theorem sample_loop_consistent (lp_fun : Vec → LpOut) (gen : Vec → Vec)
    (rand : Nat → ℚ) (d R : Nat) (slots : List Slot) :
    ∀ (i : Nat) (c : Ctr),
      (∀ s ∈ slots, s.x = gen s.u ∧ ∃ pos, s.u = draw_col rand pos d) →
      ∀ s ∈ (sample_loop lp_fun gen rand d R i slots c).1,
        s.x = gen s.u ∧ ∃ pos, s.u = draw_col rand pos d := by
  induction slots with
  | nil => intro i c _ s hs; simp [sample_loop] at hs
  | cons s0 rest ih =>
    intro i c h s hs
    simp only [sample_loop, List.mem_cons] at hs
    rcases hs with rfl | hs
    · exact retry_loop_consistent lp_fun gen rand d R i (R + 1) 0 s0 c
        (h s0 (List.mem_cons_self s0 rest))
    · exact ih (i + 1) _ (fun s' hs' => h s' (List.mem_cons_of_mem s0 hs')) s hs

theorem sample_phase_consistent (lp_fun : Vec → LpOut) (gen : Vec → Vec)
    (rand : Nat → ℚ) (uninit : Nat → Dbl) (d K R : Nat) :
    ∀ s ∈ (sample_phase lp_fun gen rand uninit d K R).1,
      s.x = gen s.u ∧ ∃ pos, s.u = draw_col rand pos d := by
  apply sample_loop_consistent
  intro s hs
  simp only [init_slots, List.mem_map, List.mem_range] at hs
  obtain ⟨j, _, rfl⟩ := hs
  exact ⟨rfl, j * d, rfl⟩

theorem Dbl.sum_fin (qs : List ℚ) (a : ℚ) :
    List.foldl Dbl.add (Dbl.fin a) (qs.map Dbl.fin) = Dbl.fin (a + qs.sum) := by
  induction qs generalizing a with
  | nil => simp
  | cons q qs ih =>
    simp only [List.map_cons, List.foldl_cons, Dbl.add, List.sum_cons]
    rw [ih]
    congr 1
    ring

theorem Dbl.mean_fin (qs : List ℚ) (h : qs ≠ []) :
    Dbl.mean (qs.map Dbl.fin) = Dbl.fin (qs.sum / (qs.length : ℚ)) := by
  have hl : qs.length ≠ 0 := fun h0 => h (List.length_eq_zero.1 h0)
  simp [Dbl.mean, Dbl.sum, Dbl.sum_fin, Dbl.divN, hl]

/-! ## Claims about `est_approx_draws` -/

/-- C1: whenever `est_approx_draws` returns, the returned block is made of
exactly the sample slots whose final log p is finite, in slot order, the same
slots for the columns of `repeat_draws` and for the rows of `lp_mat`; every
returned row has a finite log p and at most `K` draws are returned. -/
theorem est_approx_draws_keeps_finite_slots (ReturnElbo : Bool)
    (lp_fun : Vec → LpOut) (sqrtF : ℚ → ℚ) (LOG_TWO_PI : ℚ) (rand : Nat → ℚ)
    (uninit : Nat → Dbl) (taylor_approx : taylor_approx_t) (K : Nat)
    (alpha : Vec) (R : Nat) (r : elbo_est_t)
    (h : est_approx_draws ReturnElbo lp_fun sqrtF LOG_TWO_PI rand uninit
      taylor_approx K alpha R = .ok r) :
    (sample_phase lp_fun (fun u => gen_draws sqrtF u taylor_approx alpha) rand
      uninit taylor_approx.x_center.length K R).1.length = K ∧
    r.repeat_draws
      = ((sample_phase lp_fun (fun u => gen_draws sqrtF u taylor_approx alpha)
          rand uninit taylor_approx.x_center.length K R).1.filter
            (fun s => s.lp.isfinite)).map (fun s => s.x) ∧
    r.lp_mat.map (fun row => row.2)
      = ((sample_phase lp_fun (fun u => gen_draws sqrtF u taylor_approx alpha)
          rand uninit taylor_approx.x_center.length K R).1.filter
            (fun s => s.lp.isfinite)).map (fun s => s.lp) ∧
    (∀ row ∈ r.lp_mat, row.2.isfinite = true) ∧
    r.lp_mat.length = r.repeat_draws.length ∧
    r.repeat_draws.length ≤ K := by
  rw [est_approx_draws_eq] at h
  split_ifs at h with hc
  have hr : r = _ := (Except.ok.inj h).symm
  have hK := (sample_phase_flag lp_fun
    (fun u => gen_draws sqrtF u taylor_approx alpha) rand uninit
    taylor_approx.x_center.length K R).2.2
  subst hr
  refine ⟨hK, rfl, ?_, ?_, ?_, ?_⟩
  · simp [finish, List.map_map, Function.comp_def]
  · intro row hrow
    simp only [finish, List.mem_map] at hrow
    obtain ⟨s, hs, rfl⟩ := hrow
    simpa using (List.mem_filter.1 hs).2
  · simp [finish]
  · simp only [finish, List.length_map]
    exact le_trans (List.length_filter_le _ _) (le_of_eq hK)

/-- C6: `est_approx_draws` raises the domain error exactly when every slot was
rejected (its final log p is `-inf`) and the probe, `lp_fun` on column 0 of
`approx_samples_tmp`, is non-finite or throws; with one accepted slot it
returns. -/
theorem est_approx_draws_domain_error_iff (ReturnElbo : Bool)
    (lp_fun : Vec → LpOut) (sqrtF : ℚ → ℚ) (LOG_TWO_PI : ℚ) (rand : Nat → ℚ)
    (uninit : Nat → Dbl) (taylor_approx : taylor_approx_t) (K : Nat)
    (alpha : Vec) (R : Nat) :
    (est_approx_draws ReturnElbo lp_fun sqrtF LOG_TWO_PI rand uninit
        taylor_approx K alpha R = .error .domain_error ↔
      ((∀ s ∈ (sample_phase lp_fun
            (fun u => gen_draws sqrtF u taylor_approx alpha) rand uninit
            taylor_approx.x_center.length K R).1, s.lp = Dbl.ninf) ∧
        ∃ s0, (sample_phase lp_fun
            (fun u => gen_draws sqrtF u taylor_approx alpha) rand uninit
            taylor_approx.x_center.length K R).1[0]? = some s0 ∧
          (lp_fun s0.x).finite = false)) ∧
    ((∃ s ∈ (sample_phase lp_fun
          (fun u => gen_draws sqrtF u taylor_approx alpha) rand uninit
          taylor_approx.x_center.length K R).1, s.lp.isfinite = true) →
      ∃ r, est_approx_draws ReturnElbo lp_fun sqrtF LOG_TWO_PI rand uninit
        taylor_approx K alpha R = .ok r) := by
  have hfin := (sample_phase_flag lp_fun
    (fun u => gen_draws sqrtF u taylor_approx alpha) rand uninit
    taylor_approx.x_center.length K R).2.1
  rw [est_approx_draws_eq]
  refine ⟨?_, ?_⟩
  · constructor
    · intro h
      split_ifs at h with hc
      refine ⟨?_, hc.2⟩
      intro s hs
      rcases hfin s hs with h1 | h1
      · rw [hc.1 s hs] at h1; exact Bool.noConfusion h1
      · exact h1
    · rintro ⟨h1, h2⟩
      rw [if_pos]
      exact ⟨fun s hs => by rw [h1 s hs]; rfl, h2⟩
  · rintro ⟨s, hs, hsf⟩
    rw [if_neg]
    · exact ⟨_, rfl⟩
    · rintro ⟨h1, _⟩
      rw [h1 s hs] at hsf
      exact Bool.noConfusion hsf

/-- C7: for every returned draw, column 0 of `lp_mat` is
`-logdetcholHk + -0.5 * (||u||^2 + d * LOG_TWO_PI)` for the standard-normal
vector `u` that generated the draw, `lp_ratio` is column 1 minus column 0, and
`lp_ratio` has one entry per returned draw. -/
theorem est_approx_draws_lp_approx_ratio (ReturnElbo : Bool)
    (lp_fun : Vec → LpOut) (sqrtF : ℚ → ℚ) (LOG_TWO_PI : ℚ) (rand : Nat → ℚ)
    (uninit : Nat → Dbl) (taylor_approx : taylor_approx_t) (K : Nat)
    (alpha : Vec) (R : Nat) (r : elbo_est_t)
    (h : est_approx_draws ReturnElbo lp_fun sqrtF LOG_TWO_PI rand uninit
      taylor_approx K alpha R = .ok r) :
    ∃ us : List Vec,
      (∀ u ∈ us, ∃ pos, u = draw_col rand pos taylor_approx.x_center.length) ∧
      r.repeat_draws = us.map (fun u => gen_draws sqrtF u taylor_approx alpha) ∧
      r.lp_mat.map (fun row => row.1)
        = us.map (fun u =>
            Dbl.add (Dbl.neg taylor_approx.logdetcholHk)
              (Dbl.fin (-(1 / 2) * ((u.map (fun a => a * a)).sum
                + (taylor_approx.x_center.length : ℚ) * LOG_TWO_PI)))) ∧
      r.lp_ratio = r.lp_mat.map (fun row => Dbl.sub row.2 row.1) ∧
      r.lp_ratio.length = r.repeat_draws.length := by
  rw [est_approx_draws_eq] at h
  split_ifs at h with hc
  have hr : r = _ := (Except.ok.inj h).symm
  have hcons := sample_phase_consistent lp_fun
    (fun u => gen_draws sqrtF u taylor_approx alpha) rand uninit
    taylor_approx.x_center.length K R
  subst hr
  refine ⟨((sample_phase lp_fun
      (fun u => gen_draws sqrtF u taylor_approx alpha) rand uninit
      taylor_approx.x_center.length K R).1.filter
        (fun s => s.lp.isfinite)).map (fun s => s.u), ?_, ?_, ?_, rfl, ?_⟩
  · intro u hu
    simp only [List.mem_map] at hu
    obtain ⟨s, hs, rfl⟩ := hu
    exact (hcons s (List.mem_filter.1 hs).1).2
  · simp only [finish, List.map_map]
    apply List.map_congr_left
    intro s hs
    exact (hcons s (List.mem_filter.1 hs).1).1
  · simp [finish, List.map_map, Function.comp_def, lp_approx]
  · simp [finish]

/-- C8: `est_approx_draws<true>` returns the arithmetic mean of the returned
`lp_ratio` in its elbo slot, and `est_approx_draws<false>` returns `-inf` there
and otherwise the same record (and the same error) on the same inputs and
random stream. -/
theorem est_approx_draws_elbo_slot (lp_fun : Vec → LpOut) (sqrtF : ℚ → ℚ)
    (LOG_TWO_PI : ℚ) (rand : Nat → ℚ) (uninit : Nat → Dbl)
    (taylor_approx : taylor_approx_t) (K : Nat) (alpha : Vec) (R : Nat) :
    (∀ r, est_approx_draws true lp_fun sqrtF LOG_TWO_PI rand uninit
        taylor_approx K alpha R = .ok r →
      r.elbo = Dbl.divN (r.lp_ratio.foldl Dbl.add (Dbl.fin 0))
        r.lp_ratio.length ∧
      ∀ qs : List ℚ, qs ≠ [] → r.lp_ratio = qs.map Dbl.fin →
        r.elbo = Dbl.fin (qs.sum / (qs.length : ℚ))) ∧
    est_approx_draws false lp_fun sqrtF LOG_TWO_PI rand uninit
        taylor_approx K alpha R
      = (est_approx_draws true lp_fun sqrtF LOG_TWO_PI rand uninit
          taylor_approx K alpha R).map
            (fun r => { r with elbo := Dbl.ninf }) := by
  refine ⟨?_, ?_⟩
  · intro r h
    rw [est_approx_draws_eq] at h
    split_ifs at h with hc
    have hr : r = _ := (Except.ok.inj h).symm
    subst hr
    refine ⟨rfl, ?_⟩
    intro qs hqs hq
    have : ∀ (e : elbo_est_t), e.elbo = Dbl.mean e.lp_ratio →
        e.lp_ratio = qs.map Dbl.fin →
        e.elbo = Dbl.fin (qs.sum / (qs.length : ℚ)) := by
      intro e h1 h2
      rw [h1, h2, Dbl.mean_fin qs hqs]
    exact this _ rfl hq
  · rw [est_approx_draws_eq, est_approx_draws_eq]
    split_ifs <;> rfl

theorem flatten_length_bounds (a b : Nat) (L : List (List Eval))
    (h : ∀ T ∈ L, a ≤ T.length ∧ T.length ≤ b) :
    L.length * a ≤ L.flatten.length ∧ L.flatten.length ≤ L.length * b := by
  induction L with
  | nil => simp
  | cons T L ih =>
    have hT := h T (List.mem_cons_self T L)
    have hL := ih (fun T' hT' => h T' (List.mem_cons_of_mem T hT'))
    simp only [List.flatten_cons, List.length_append, List.length_cons,
      Nat.add_mul, Nat.one_mul]
    omega

theorem init_slots_get (gen : Vec → Vec) (rand : Nat → ℚ)
    (uninit : Nat → Dbl) (d K j : Nat) (s : Slot)
    (h : (init_slots gen rand uninit d K)[j]? = some s) :
    s.x = gen (draw_col rand (j * d) d) ∧ j < K := by
  simp only [init_slots, List.getElem?_map, Option.map_eq_some'] at h
  obtain ⟨a, ha, rfl⟩ := h
  obtain ⟨h1, h2⟩ := List.getElem?_eq_some.1 ha
  rw [List.length_range] at h1
  rw [List.getElem_range] at h2
  subst h2
  exact ⟨rfl, h1⟩

/-- C2: the log of the invocations of `lp_fun` made by the sample loop splits
into one segment per slot.  A slot is evaluated at least once and at most
`R + 1` times; every evaluation before the last one failed (the loop stops at
the first finite value), a finite last value is the one stored for the slot
together with the point it was computed at, and a slot whose last evaluation
failed used all `R + 1` attempts and holds `-inf`.  Each retry evaluates the
image of `num_params` variates drawn after the failure before it, one fresh
block per failed evaluation.  The returned `fn_calls` is the length of the
log, so `K <= fn_calls <= K * (R + 1)`, and `fn_calls = K` when every first
evaluation is finite. -/
theorem est_approx_draws_retry_and_count (ReturnElbo : Bool)
    (lp_fun : Vec → LpOut) (sqrtF : ℚ → ℚ) (LOG_TWO_PI : ℚ) (rand : Nat → ℚ)
    (uninit : Nat → Dbl) (taylor_approx : taylor_approx_t) (K : Nat)
    (alpha : Vec) (R : Nat) :
    let d := taylor_approx.x_center.length
    let gen := fun u => gen_draws sqrtF u taylor_approx alpha
    let run := sample_phase lp_fun gen rand uninit d K R
    ∃ segs : List (List Eval),
      segs.length = K ∧ run.2.evals = segs.flatten ∧
      run.2.cursor = K * d + fails segs.flatten * d ∧
      (∀ r, est_approx_draws ReturnElbo lp_fun sqrtF LOG_TWO_PI rand uninit
          taylor_approx K alpha R = .ok r →
        r.fn_calls = segs.flatten.length) ∧
      K ≤ segs.flatten.length ∧ segs.flatten.length ≤ K * (R + 1) ∧
      ((∀ j, j < K → (lp_fun (gen (draw_col rand (j * d) d))).finite = true) →
        segs.flatten.length = K) ∧
      ∀ (i : Nat) (T : List Eval), segs[i]? = some T →
        1 ≤ T.length ∧ T.length ≤ R + 1 ∧
        (∀ (k : Nat) (e : Eval), T[k]? = some e →
          e.slot = i ∧ e.fail_trys = k ∧ e.out = lp_fun e.x ∧
          (k + 1 < T.length → e.out.finite = false) ∧
          e.x = gen (draw_col rand
            (if k = 0 then i * d
             else K * d + (fails (segs.take i).flatten + (k - 1)) * d) d)) ∧
        ∃ s, run.1[i]? = some s ∧
          ((s.lp.isfinite = true ∧
              ∃ e, T.getLast? = some e ∧ e.out = .val s.lp ∧ e.x = s.x)
            ∨ (s.lp = Dbl.ninf ∧ T.length = R + 1 ∧
                ∀ e ∈ T, e.out.finite = false)) := by
  intro d gen run
  have hev := sample_loop_evals lp_fun gen rand d R
    (init_slots gen rand uninit d K) 0
    { cursor := K * d, lp_fun_calls := 0, at_least_one_failed := false,
      evals := [] }
  obtain ⟨he1, he2, he3, he4⟩ := hev
  have hlen : (loop_segs lp_fun gen rand d R 0
      (init_slots gen rand uninit d K) (K * d)).length = K := by
    rw [loop_segs_length, init_slots_length]
  have hent := loop_segs_entries lp_fun gen rand d R
    (init_slots gen rand uninit d K) 0 (K * d)
  have hbT : ∀ T ∈ loop_segs lp_fun gen rand d R 0
      (init_slots gen rand uninit d K) (K * d),
      1 ≤ T.length ∧ T.length ≤ R + 1 := by
    intro T hT
    obtain ⟨j, hj⟩ := List.mem_iff_getElem?.1 hT
    exact ⟨(hent j T hj).1, (hent j T hj).2.1⟩
  have hb := flatten_length_bounds 1 (R + 1) _ hbT
  rw [hlen] at hb
  refine ⟨loop_segs lp_fun gen rand d R 0 (init_slots gen rand uninit d K)
    (K * d), hlen, ?_, ?_, ?_, by omega, hb.2, ?_, ?_⟩
  · simpa [run, sample_phase] using he1
  · simpa [run, sample_phase] using he3
  · intro r hr
    rw [est_approx_draws_eq] at hr
    split_ifs at hr with hc
    have hr' : r = _ := (Except.ok.inj hr).symm
    subst hr'
    simp only [finish]
    simpa [sample_phase] using he2
  · intro hall
    have hone : ∀ T ∈ loop_segs lp_fun gen rand d R 0
        (init_slots gen rand uninit d K) (K * d),
        1 ≤ T.length ∧ T.length ≤ 1 := by
      intro T hT
      obtain ⟨j, hj⟩ := List.mem_iff_getElem?.1 hT
      obtain ⟨h1, _, s, hs, hk⟩ := hent j T hj
      refine ⟨h1, ?_⟩
      by_contra hgt
      have hpos : 0 < T.length := by omega
      have h0 : T[0]? = some T[0] := List.getElem?_eq_getElem hpos
      obtain ⟨_, _, g3, g4, g5⟩ := hk 0 _ h0
      have hx := init_slots_get gen rand uninit d K j s hs
      have hfail := g4 (by omega)
      rw [g3, g5, if_pos rfl, hx.1, hall j hx.2] at hfail
      exact Bool.noConfusion hfail
    have := flatten_length_bounds 1 1 _ hone
    rw [hlen] at this
    omega
  · intro i T hT
    obtain ⟨h1, h2, s, hs, hk⟩ := hent i T hT
    have hx := init_slots_get gen rand uninit d K i s hs
    refine ⟨h1, h2, ?_, ?_⟩
    · intro k e hke
      obtain ⟨g1, g2, g3, g4, g5⟩ := hk k e hke
      refine ⟨by omega, g2, g3, g4, ?_⟩
      rw [g5]
      by_cases hk0 : k = 0
      · simp [hk0, hx.1]
      · simp [hk0]
    · have hi : i < (sample_loop lp_fun gen rand d R 0
          (init_slots gen rand uninit d K)
          { cursor := K * d, lp_fun_calls := 0, at_least_one_failed := false,
            evals := [] }).1.length := by
        rw [he4, init_slots_length]; exact hx.2
      obtain ⟨T', hT', hprop⟩ := sample_loop_slots lp_fun gen rand d R
        (init_slots gen rand uninit d K) 0 _ i _ (List.getElem?_eq_getElem hi)
      simp only [] at hT'
      rw [hT] at hT'
      cases Option.some.inj hT'
      exact ⟨_, List.getElem?_eq_getElem hi, hprop⟩

/-! ## Claims about the curvature filter and the alpha cascade -/

theorem zipWith_getElem?_some {α β γ : Type} (f : α → β → γ) (l₁ : List α)
    (l₂ : List β) (i : Nat) (a : α) (b : β) (h₁ : l₁[i]? = some a)
    (h₂ : l₂[i]? = some b) : (List.zipWith f l₁ l₂)[i]? = some (f a b) := by
  rw [List.getElem?_zipWith, h₁, h₂]

theorem dot_self_nonneg (y : Vec) : 0 ≤ dot y y := by
  unfold dot
  induction y with
  | nil => simp
  | cons a y ih =>
    simp only [List.zipWith_cons_cons, List.sum_cons]
    have := mul_self_nonneg a
    linarith

theorem colwise_dot (A B : Mat) (t : Nat) (a b : Vec) (ha : A[t]? = some a)
    (hb : B[t]? = some b) :
    (colwise_sum (cwise_mul A B))[t]? = some (dot a b) := by
  unfold colwise_sum cwise_mul
  rw [List.getElem?_map, zipWith_getElem?_some _ A B t a b ha hb]
  rfl

/-- C9: at every column `t` that both matrices have, `check_curve` is true if
and only if `D_t = Yk_t . Sk_t > 0` and `||Yk_t||^2 / D_t <= 1e12`; the
absolute value of the code plays no role, and `D_t = 0` gives false. -/
theorem check_curve_iff (Yk Sk : Mat) (t : Nat) (y s : Vec)
    (hy : Yk[t]? = some y) (hs : Sk[t]? = some s) :
    (check_curve Yk Sk)[t]?
      = some (decide (0 < dot y s ∧ dot y y / dot y s ≤ (10 : ℚ) ^ 12)) ∧
    (dot y s = 0 → (check_curve Yk Sk)[t]? = some false) := by
  have hD := colwise_dot Yk Sk t y s hy hs
  have hN := colwise_dot Yk Yk t y y hy hy
  have hth := zipWith_getElem?_some (fun n D : ℚ => |n / D|) _ _ t _ _ hN hD
  have hres := zipWith_getElem?_some
    (fun (D th : ℚ) => decide (D > 0) && decide (th ≤ (10 : ℚ) ^ 12))
    _ _ t _ _ hD hth
  have key : (decide (dot y s > 0) && decide (|dot y y / dot y s| ≤ (10 : ℚ) ^ 12))
      = decide (0 < dot y s ∧ dot y y / dot y s ≤ (10 : ℚ) ^ 12) := by
    by_cases hpos : 0 < dot y s
    · have hq : 0 ≤ dot y y / dot y s :=
        div_nonneg (dot_self_nonneg y) (le_of_lt hpos)
      rw [abs_of_nonneg hq]
      simp [hpos]
    · simp [hpos]
  refine ⟨?_, ?_⟩
  · unfold check_curve
    simp only []
    rw [hres]
    exact congrArg some key
  · intro h0
    unfold check_curve
    simp only []
    rw [hres]
    simp [h0]

theorem check_curve_iff_witness :
    (check_curve [[1, 2], [1, 0]] [[3, 1], [-1, 5]])[0]?
      = some (decide (0 < dot [1, 2] [3, 1]
          ∧ dot [1, 2] [1, 2] / dot [1, 2] [3, 1] ≤ (10 : ℚ) ^ 12)) ∧
    (dot [1, 2] [3, 1] = 0 →
      (check_curve [[1, 2], [1, 0]] [[3, 1], [-1, 5]])[0]? = some false) :=
  check_curve_iff [[1, 2], [1, 0]] [[3, 1], [-1, 5]] 0 [1, 2] [3, 1] rfl rfl

theorem alpha_loop_length (Y S : Mat) (c : List Bool) (n : Nat) :
    ∀ (iter : Nat) (am : Mat), (alpha_loop Y S c n iter am).length = am.length := by
  induction n with
  | zero => intro iter am; rfl
  | succ n ih => intro iter am; rw [alpha_loop, ih, List.length_set]

theorem alpha_loop_before (Y S : Mat) (c : List Bool) (n : Nat) :
    ∀ (iter : Nat) (am : Mat) (t : Nat), t < iter →
      (alpha_loop Y S c n iter am)[t]? = am[t]? := by
  induction n with
  | zero => intro iter am t _; rfl
  | succ n ih =>
    intro iter am t ht
    rw [alpha_loop, ih (iter + 1) _ t (by omega),
      List.getElem?_set_ne (by omega)]

theorem alpha_loop_step (Y S : Mat) (c : List Bool) (n : Nat) :
    ∀ (iter : Nat) (am : Mat) (t : Nat), 1 ≤ iter → iter ≤ t → t < iter + n →
      t < am.length →
      (alpha_loop Y S c n iter am)[t]?
        = some (if c.getD t false then
            form_diag ((alpha_loop Y S c n iter am).getD (t - 1) [])
              (Y.getD t []) (S.getD t [])
          else (alpha_loop Y S c n iter am).getD (t - 1) []) := by
  induction n with
  | zero => intro iter am t _ h1 h2 _; omega
  | succ n ih =>
    intro iter am t hpos h1 h2 hlen
    rw [alpha_loop]
    by_cases ht : t = iter
    · subst ht
      have hprev : ∀ (M : Vec),
          (alpha_loop Y S c n (t + 1) (am.set t M)).getD (t - 1) []
            = am.getD (t - 1) [] := by
        intro M
        simp only [List.getD_eq_getElem?_getD]
        rw [alpha_loop_before Y S c n (t + 1) _ (t - 1) (by omega),
          List.getElem?_set_ne (by omega)]
      rw [alpha_loop_before Y S c n (t + 1) _ t (by omega),
        List.getElem?_set_self hlen, hprev]
    · exact ih (iter + 1) _ t (by omega) (by omega) (by omega)
        (by rw [List.length_set]; exact hlen)

theorem dot_zipWith_left (a y : Vec) :
    dot y (List.zipWith (fun p q => p * q) a y)
      = (List.zipWith (fun p q => p * q * q) a y).sum := by
  unfold dot
  induction a generalizing y with
  | nil => cases y <;> simp
  | cons p a ih =>
    cases y with
    | nil => simp
    | cons q y =>
      simp only [List.zipWith_cons_cons, List.sum_cons]
      rw [ih y]
      ring

theorem dot_zipWith_inv (a s : Vec) :
    dot s (List.zipWith (fun p q => p * q) (a.map (fun p => p⁻¹)) s)
      = (List.zipWith (fun p q => q * q / p) a s).sum := by
  unfold dot
  induction a generalizing s with
  | nil => cases s <;> simp
  | cons p a ih =>
    cases s with
    | nil => simp
    | cons q s =>
      simp only [List.map_cons, List.zipWith_cons_cons, List.sum_cons]
      rw [ih s]
      ring

/-- The elementwise formula of `form_diag`. -/
theorem form_diag_entry (alpha y s : Vec) (i : Nat) (a yi si : ℚ)
    (ha : alpha[i]? = some a) (hy : y[i]? = some yi) (hs : s[i]? = some si) :
    (form_diag alpha y s)[i]?
      = some (dot y s /
          ((List.zipWith (fun p q => p * q * q) alpha y).sum / a + yi ^ 2
            - ((List.zipWith (fun p q => p * q * q) alpha y).sum
                / (List.zipWith (fun p q => q * q / p) alpha s).sum)
              * (si / a) ^ 2)) := by
  unfold form_diag vsub vadd
  simp only [dot_zipWith_inv]
  simp only [dot_zipWith_left]
  rw [List.getElem?_map]
  have h1 : (List.map (fun p =>
      (List.zipWith (fun p q => p * q * q) alpha y).sum / p) alpha)[i]?
      = some ((List.zipWith (fun p q => p * q * q) alpha y).sum / a) := by
    rw [List.getElem?_map, ha]; rfl
  have h2 : (List.map (fun q => q * q) y)[i]? = some (yi * yi) := by
    rw [List.getElem?_map, hy]; rfl
  have h3 : (List.map (fun q =>
      (List.zipWith (fun p q => p * q * q) alpha y).sum
        / (List.zipWith (fun p q => q * q / p) alpha s).sum * (q * q))
      (List.zipWith (fun p q => p / q) s alpha))[i]?
      = some ((List.zipWith (fun p q => p * q * q) alpha y).sum
        / (List.zipWith (fun p q => q * q / p) alpha s).sum
          * (si / a * (si / a))) := by
    rw [List.getElem?_map, zipWith_getElem?_some _ s alpha i si a hs ha]; rfl
  rw [zipWith_getElem?_some _ _ _ i _ _
    (zipWith_getElem?_some _ _ _ i _ _ h1 h2) h3]
  simp only [Option.map_some', Option.some.injEq]
  congr 1
  ring

/-- C10: column 0 of `alpha_mat` is the all-ones vector when the curvature flag
of column 0 (as `check_curve` returns it) is false and `form_diag` of the
all-ones vector and column 0 of the differences otherwise; every later column
`t` is column `t - 1` when flag `t` is false and `form_diag` of column `t - 1`
and column `t` of the differences otherwise; and `form_diag` is the elementwise
formula `y.s / ((y'ay)/a_i + y_i^2 - ((y'ay)/(s'a^-1 s)) * (s_i/a_i)^2)`. -/
theorem alpha_cascade_columns (param_size : Nat) (Ykt_diff Skt_diff : Mat) :
    (0 < Ykt_diff.length →
      (alpha_cascade param_size Ykt_diff Skt_diff)[0]?
        = some (if (check_curve Ykt_diff Skt_diff).getD 0 false then
            form_diag (List.replicate param_size 1) (Ykt_diff.getD 0 [])
              (Skt_diff.getD 0 [])
          else List.replicate param_size 1)) ∧
    (∀ t, 1 ≤ t → t < Ykt_diff.length →
      (alpha_cascade param_size Ykt_diff Skt_diff)[t]?
        = some (if (check_curve Ykt_diff Skt_diff).getD t false then
            form_diag
              ((alpha_cascade param_size Ykt_diff Skt_diff).getD (t - 1) [])
              (Ykt_diff.getD t []) (Skt_diff.getD t [])
          else (alpha_cascade param_size Ykt_diff Skt_diff).getD (t - 1) [])) ∧
    (∀ (alpha y s : Vec) (i : Nat) (a yi si : ℚ), alpha[i]? = some a →
      y[i]? = some yi → s[i]? = some si →
      (form_diag alpha y s)[i]?
        = some (dot y s /
            ((List.zipWith (fun p q => p * q * q) alpha y).sum / a + yi ^ 2
              - ((List.zipWith (fun p q => p * q * q) alpha y).sum
                  / (List.zipWith (fun p q => q * q / p) alpha s).sum)
                * (si / a) ^ 2))) := by
  refine ⟨?_, ?_, form_diag_entry⟩
  · intro h0
    unfold alpha_cascade
    simp only []
    rw [alpha_loop_before _ _ _ _ 1 _ 0 (by omega),
      List.getElem?_set_self (by simpa using h0)]
  · intro t h1 h2
    unfold alpha_cascade
    simp only []
    exact alpha_loop_step _ _ _ _ 1 _ t (le_refl 1) h1 (by omega)
      (by simpa using h2)

/-! ## Claims about the multi-path driver -/

/-- C3 (the code at the failing input): with two paths in one range block,
path 0 returning `SOFTWARE` (70) and path 1 a path that returns 0, path 1 is
never run and nothing is pooled. -/
theorem run_paths_return_skips_later_path :
    (demo_single 1).return_code ≠ 70 ∧
    (run_paths demo_single 70 [(0, 2)]).ran = [0] ∧
    (run_paths demo_single 70 [(0, 2)]).individual_samples = [] ∧
    (run_paths demo_single 70 [(0, 2)]).individual_lp_ratios = [] := by
  simp [run_paths, run_block, demo_single]

/-- In a range block no path after one that returned `SOFTWARE` is run. -/
theorem run_block_stops_after_failure (single : Nat → PathRet) (SOFTWARE : Int)
    (n : Nat) :
    ∀ (b : Nat) (pool : Pool) (j i : Nat), b ≤ j → j < i →
      (single j).return_code = SOFTWARE → i ∉ pool.ran →
      i ∉ (run_block single SOFTWARE n b pool).ran := by
  induction n with
  | zero => intro b pool j i _ _ _ hi; exact hi
  | succ n ih =>
    intro b pool j i hbj hji hj hi
    rw [run_block]
    have hi1 : i ∉ pool.ran ++ [b] := by
      simp only [List.mem_append, List.mem_singleton, not_or]
      exact ⟨hi, by omega⟩
    by_cases hb : (single b).return_code = SOFTWARE
    · simp only [hb, if_true]
      exact hi1
    · simp only [hb, if_false]
      have hne : b ≠ j := fun h => hb (h ▸ hj)
      exact ih (b + 1) _ j i (by omega) hji hj hi1

theorem size_t_of_int_minus_one : size_t_of_int (0 - 1) = 2 ^ 64 - 1 := by
  decide

theorem resample_loop_zero_stuck (samples : DMat) (rand_psis_idx : Nat → Nat)
    (fuel : Nat) :
    ∀ (i : Nat) (written : DMat), i < 2 ^ 64 →
      resample_loop samples rand_psis_idx 0 fuel i written = none := by
  induction fuel with
  | zero => intro i written _; rfl
  | succ n ih =>
    intro i written hi
    rw [resample_loop, size_t_of_int_minus_one, if_pos (by omega)]
    exact ih _ _ (Nat.mod_lt _ (by norm_num))

/-- C4 (the code at the failing input): with `num_multi_draws = 0` the
resampling loop has not exited after any number of iterations. -/
theorem resample_loop_zero_never_exits (samples : DMat)
    (rand_psis_idx : Nat → Nat) (fuel : Nat) :
    resample_loop samples rand_psis_idx 0 fuel 0 [] = none :=
  resample_loop_zero_stuck samples rand_psis_idx fuel 0 [] (by norm_num)

theorem size_t_of_int_pred (n : Nat) (h1 : 1 ≤ n) (h2 : n < 2 ^ 64) :
    size_t_of_int ((n : Int) - 1) = n - 1 := by
  unfold size_t_of_int
  have h3 : ((n : Int) - 1) % (2 : Int) ^ 64 = (n : Int) - 1 := by
    apply Int.emod_eq_of_lt
    · omega
    · have : ((2 : Int) ^ 64) = ((2 ^ 64 : Nat) : Int) := by norm_num
      rw [this]
      omega
  rw [h3]
  omega

/-- For `1 <= num_multi_draws < 2^64` the resampling loop exits after
`num_multi_draws` iterations with that many columns written. -/
theorem resample_loop_positive (samples : DMat) (rand_psis_idx : Nat → Nat)
    (n : Nat) (h1 : 1 ≤ n) (h2 : n < 2 ^ 64) (k : Nat) :
    ∀ (i : Nat) (written : DMat), i + k = n → written.length = i →
      ∃ w, resample_loop samples rand_psis_idx (n : Int) (k + 1) i written
          = some w ∧ w.length = n := by
  induction k with
  | zero =>
    intro i written hi hw
    rw [resample_loop, size_t_of_int_pred n h1 h2, if_neg (by omega)]
    exact ⟨written, rfl, by omega⟩
  | succ k ih =>
    intro i written hi hw
    rw [resample_loop, size_t_of_int_pred n h1 h2, if_pos (by omega)]
    have hmod : (i + 1) % 2 ^ 64 = i + 1 := Nat.mod_eq_of_lt (by omega)
    rw [hmod]
    exact ih (i + 1) _ (by omega) (by simp [hw])

/-! ## Claims about the final assembly of the single path -/

theorem sample_phase_all_finite (lp_fun : Vec → LpOut) (gen : Vec → Vec)
    (rand : Nat → ℚ) (uninit : Nat → Dbl) (d K R : Nat)
    (hlp : ∀ x, (lp_fun x).finite = true) :
    ∀ s ∈ (sample_phase lp_fun gen rand uninit d K R).1,
      s.lp.isfinite = true := by
  intro s hs
  obtain ⟨i, hi⟩ := List.mem_iff_getElem?.1 hs
  obtain ⟨T, hT, hprop⟩ := sample_loop_slots lp_fun gen rand d R
    (init_slots gen rand uninit d K) 0 _ i s hi
  rcases hprop with ⟨h, _⟩ | ⟨_, hlen, hall⟩
  · exact h
  · exfalso
    obtain ⟨_, _, _, _, hk⟩ := loop_segs_entries lp_fun gen rand d R
      (init_slots gen rand uninit d K) 0 _ i T hT
    have hpos : 0 < T.length := by omega
    have h0 : T[0]? = some T[0] := List.getElem?_eq_getElem hpos
    have hfail := hall _ (List.getElem?_mem h0)
    rw [(hk 0 _ h0).2.2.1, hlp] at hfail
    exact Bool.noConfusion hfail

/-- When no evaluation of the log density fails, `est_approx_draws` returns a
block of exactly `K` draws. -/
theorem est_approx_draws_all_finite (ReturnElbo : Bool) (lp_fun : Vec → LpOut)
    (sqrtF : ℚ → ℚ) (LOG_TWO_PI : ℚ) (rand : Nat → ℚ) (uninit : Nat → Dbl)
    (taylor_approx : taylor_approx_t) (K : Nat) (alpha : Vec) (R : Nat)
    (hlp : ∀ x, (lp_fun x).finite = true) :
    ∃ r, est_approx_draws ReturnElbo lp_fun sqrtF LOG_TWO_PI rand uninit
        taylor_approx K alpha R = .ok r ∧
      r.lp_ratio.length = K ∧ r.repeat_draws.length = K ∧
      r.lp_mat.length = K := by
  have hfin := sample_phase_all_finite lp_fun
    (fun u => gen_draws sqrtF u taylor_approx alpha) rand uninit
    taylor_approx.x_center.length K R hlp
  have hK := (sample_phase_flag lp_fun
    (fun u => gen_draws sqrtF u taylor_approx alpha) rand uninit
    taylor_approx.x_center.length K R).2.2
  rw [est_approx_draws_eq, if_neg]
  · refine ⟨_, rfl, ?_, ?_, ?_⟩ <;>
      simp [finish, List.filter_eq_self.2 hfin, hK]
  · rintro ⟨h1, s0, h2, _⟩
    have hm := List.getElem?_mem h2
    have := h1 s0 hm
    rw [hfin s0 hm] at this
    exact Bool.noConfusion this

theorem constrained_cols_length (constrain_fun : Vec → Vec) (draws : Mat)
    (lp_mat : List (Dbl × Dbl)) (h : lp_mat.length = draws.length) :
    (constrained_cols constrain_fun draws lp_mat).length = draws.length := by
  simp [constrained_cols, h]

/-- What the final assembly returns when no evaluation of the log density
fails and the best iterate's block comes from `est_approx_draws<true>` with
`K = num_elbo_draws` samples: `OK` with `max(num_draws, num_elbo_draws)` draw
columns and as many `lp_ratio` entries, that is `num_draws` of them when
`num_elbo_draws <= num_draws` and all `num_elbo_draws` ELBO draws
otherwise. -/
theorem final_assembly_draw_count (OK : Int) (lp_fun : Vec → LpOut)
    (constrain_fun : Vec → Vec) (sqrtF : ℚ → ℚ) (LOG_TWO_PI : ℚ)
    (rand_elbo rand_topup : Nat → ℚ) (uninit_elbo uninit_topup : Nat → Dbl)
    (taylor_approx_best : taylor_approx_t) (alpha : Vec) (R K : Nat)
    (num_draws : Int) (num_evals : Nat) (elbo_best : elbo_est_t)
    (hlp : ∀ x, (lp_fun x).finite = true)
    (hbest : est_approx_draws true lp_fun sqrtF LOG_TWO_PI rand_elbo uninit_elbo
      taylor_approx_best K alpha R = .ok elbo_best) :
    (final_assembly OK lp_fun constrain_fun sqrtF LOG_TWO_PI rand_topup
        uninit_topup taylor_approx_best alpha R elbo_best num_draws
        num_evals).return_code = OK ∧
    ((final_assembly OK lp_fun constrain_fun sqrtF LOG_TWO_PI rand_topup
        uninit_topup taylor_approx_best alpha R elbo_best num_draws
        num_evals).samples.length : Int) = max num_draws (K : Int) ∧
    ((final_assembly OK lp_fun constrain_fun sqrtF LOG_TWO_PI rand_topup
        uninit_topup taylor_approx_best alpha R elbo_best num_draws
        num_evals).lp_ratio.length : Int) = max num_draws (K : Int) := by
  obtain ⟨r, hr, hr1, hr2, hr3⟩ := est_approx_draws_all_finite true lp_fun
    sqrtF LOG_TWO_PI rand_elbo uninit_elbo taylor_approx_best K alpha R hlp
  rw [hbest] at hr
  cases Except.ok.inj hr
  unfold final_assembly
  simp only [hr1]
  by_cases hrem : num_draws - (K : Int) > 0
  · rw [if_pos hrem]
    obtain ⟨t, ht, ht1, ht2, ht3⟩ := est_approx_draws_all_finite false lp_fun
      sqrtF LOG_TWO_PI rand_topup uninit_topup taylor_approx_best
      (num_draws - (K : Int)).toNat alpha R hlp
    rw [ht]
    simp only [List.length_append,
      constrained_cols_length constrain_fun _ _ (hr3.trans hr2.symm),
      constrained_cols_length constrain_fun _ _ (ht3.trans ht2.symm),
      hr1, hr2, ht1, ht2]
    refine ⟨trivial, ?_, ?_⟩ <;>
      · push_cast
        rw [Int.toNat_of_nonneg (by omega), max_eq_left (by omega)]
        omega
  · rw [if_neg hrem]
    simp only [constrained_cols_length constrain_fun _ _ (hr3.trans hr2.symm),
      hr1, hr2]
    refine ⟨trivial, ?_, ?_⟩ <;> rw [max_eq_right (by omega)]

/-! ## Concrete runs -/

theorem demo_block_eq :
    est_approx_draws true demo_lp id 2 demo_rand (fun _ => Dbl.nan) demo_taylor
      2 [1] 1 = .ok demo_block := by
  simp [est_approx_draws, sample_phase, init_slots, sample_loop, retry_loop,
    redraw, cleanup, success_rows, finish, lp_approx, demo_taylor, demo_lp,
    demo_rand, demo_block, gen_draws, draw_col, crossprod_vec, vadd, dot,
    Dbl.mean, Dbl.sum, Dbl.add, Dbl.sub, Dbl.neg, Dbl.divN, Dbl.isfinite,
    List.range, List.range.loop]

theorem demo_elbo_best_eq :
    est_approx_draws true demo_lp_zero id 2 demo_rand (fun _ => Dbl.nan)
      demo_taylor 2 [1] 0 = .ok demo_elbo_best := by
  simp [est_approx_draws, sample_phase, init_slots, sample_loop, retry_loop,
    redraw, cleanup, success_rows, finish, lp_approx, demo_taylor, demo_lp_zero,
    demo_rand, demo_elbo_best, gen_draws, draw_col, crossprod_vec, vadd, dot,
    Dbl.mean, Dbl.sum, Dbl.add, Dbl.sub, Dbl.neg, Dbl.divN, Dbl.isfinite,
    List.range, List.range.loop]
  norm_num

theorem est_approx_draws_keeps_finite_slots_witness :
    (∀ row ∈ demo_block.lp_mat, row.2.isfinite = true) ∧
    demo_block.lp_mat.length = demo_block.repeat_draws.length ∧
    demo_block.repeat_draws.length ≤ 2 :=
  (est_approx_draws_keeps_finite_slots true demo_lp id 2 demo_rand
    (fun _ => Dbl.nan) demo_taylor 2 [1] 1 demo_block demo_block_eq).2.2.2

theorem est_approx_draws_lp_approx_ratio_witness :
    ∃ us : List Vec,
      (∀ u ∈ us, ∃ pos, u = draw_col demo_rand pos demo_taylor.x_center.length) ∧
      demo_block.repeat_draws
        = us.map (fun u => gen_draws id u demo_taylor [1]) ∧
      demo_block.lp_mat.map (fun row => row.1)
        = us.map (fun u =>
            Dbl.add (Dbl.neg demo_taylor.logdetcholHk)
              (Dbl.fin (-(1 / 2) * ((u.map (fun a => a * a)).sum
                + (demo_taylor.x_center.length : ℚ) * 2)))) ∧
      demo_block.lp_ratio
        = demo_block.lp_mat.map (fun row => Dbl.sub row.2 row.1) ∧
      demo_block.lp_ratio.length = demo_block.repeat_draws.length :=
  est_approx_draws_lp_approx_ratio true demo_lp id 2 demo_rand
    (fun _ => Dbl.nan) demo_taylor 2 [1] 1 demo_block demo_block_eq

/-- C5 (the code at the failing input): with `num_elbo_draws = 2`,
`num_draws = 1` and a log density that never fails, the single path returns 2
draw columns and 2 `lp_ratio` entries, not the `num_draws = 1` draws the
documentation of the parameter promises. -/
theorem final_assembly_exceeds_num_draws :
    (∀ x, (demo_lp_zero x).finite = true) ∧
    est_approx_draws true demo_lp_zero id 2 demo_rand (fun _ => Dbl.nan)
      demo_taylor 2 [1] 0 = .ok demo_elbo_best ∧
    (final_assembly 0 demo_lp_zero id id 2 demo_rand (fun _ => Dbl.nan)
      demo_taylor [1] 0 demo_elbo_best 1 2).samples.length = 2 ∧
    (final_assembly 0 demo_lp_zero id id 2 demo_rand (fun _ => Dbl.nan)
      demo_taylor [1] 0 demo_elbo_best 1 2).lp_ratio.length = 2 ∧
    ((final_assembly 0 demo_lp_zero id id 2 demo_rand (fun _ => Dbl.nan)
      demo_taylor [1] 0 demo_elbo_best 1 2).samples.length : Int) ≠ 1 := by
  refine ⟨fun _ => rfl, demo_elbo_best_eq, ?_, ?_, ?_⟩ <;>
    simp [final_assembly, demo_elbo_best, constrained_cols]

theorem final_assembly_draw_count_witness :
    (final_assembly 0 demo_lp_zero id id 2 demo_rand (fun _ => Dbl.nan)
      demo_taylor [1] 0 demo_elbo_best 3 2).return_code = 0 ∧
    ((final_assembly 0 demo_lp_zero id id 2 demo_rand (fun _ => Dbl.nan)
      demo_taylor [1] 0 demo_elbo_best 3 2).samples.length : Int)
        = max 3 ((2 : Nat) : Int) ∧
    ((final_assembly 0 demo_lp_zero id id 2 demo_rand (fun _ => Dbl.nan)
      demo_taylor [1] 0 demo_elbo_best 3 2).lp_ratio.length : Int)
        = max 3 ((2 : Nat) : Int) :=
  final_assembly_draw_count 0 demo_lp_zero id id 2 demo_rand demo_rand
    (fun _ => Dbl.nan) (fun _ => Dbl.nan) demo_taylor [1] 0 2 3 2
    demo_elbo_best (fun _ => rfl) demo_elbo_best_eq

/-! ## Claims about the history window -/

theorem ys_cols_loop_eq (c : List Bool) (J : Nat) (e : Nat) :
    ∀ (ys : List Nat), ys.length < J →
      ys_cols_loop c J e ys
        = ys ++ (((List.range e).reverse).filter
            (fun j => c.getD j false)).take (J - ys.length) := by
  induction e with
  | zero => intro ys _; simp [ys_cols_loop]
  | succ e ih =>
    intro ys hlt
    rw [ys_cols_loop, List.range_succ, List.reverse_append, List.reverse_singleton,
      List.singleton_append, List.filter_cons]
    by_cases hp : c.getD e false = true
    · simp only [hp, if_true]
      by_cases hfull : (ys ++ [e]).length = J
      · rw [if_pos hfull]
        have h1 : J - ys.length = 1 := by
          rw [List.length_append, List.length_singleton] at hfull; omega
        rw [h1]
        simp
      · rw [if_neg hfull]
        have hlt2 : (ys ++ [e]).length < J := by
          rw [List.length_append, List.length_singleton] at hfull ⊢; omega
        rw [ih _ hlt2]
        have h1 : J - ys.length = (J - (ys ++ [e]).length) + 1 := by
          rw [List.length_append, List.length_singleton] at hlt2 ⊢; omega
        rw [h1, List.take_succ_cons, List.append_assoc, List.singleton_append]
    · simp only [hp, if_false, Bool.false_eq_true]
      rw [if_neg (by omega), ih ys hlt]

/-- The flags after `check_curve_vec[0] = true`, for a vector with at least
one entry: flag 0 is true and every other flag is the one of `check_curve`. -/
theorem force_first_getD (check_curve_vec : List Bool)
    (hlen : 0 < check_curve_vec.length) (j : Nat) :
    (force_first check_curve_vec).getD j false
      = (decide (j = 0) || check_curve_vec.getD j false) := by
  unfold force_first
  simp only [List.getD_eq_getElem?_getD]
  by_cases hj : j = 0
  · subst hj
    rw [List.getElem?_set_self hlen]
    simp
  · rw [List.getElem?_set_ne (fun h => hj h.symm)]
    simp [hj]

/-- C13: for `history_size = J >= 1` and a vector of curvature flags with at
least one entry, the window `ys_cols` of iteration `t`, built after flag 0 was
forced true, is the first `J` entries of the list, in decreasing order from
`t` down, of the indices `j <= t` that are 0 or whose curvature flag is true:
it has `min(J, n)` entries for `n` the number of such indices, at most `J`;
every entry is at most `t` and is 0 or has a true flag, no index other than 0
whose flag is false is in it, the entries are strictly decreasing, and index
0 is in the window whenever the window holds fewer than `J` entries. -/
theorem ys_cols_window (check_curve_vec : List Bool) (J t : Nat) (hJ : 1 ≤ J)
    (hlen : 0 < check_curve_vec.length) :
    ys_cols (force_first check_curve_vec) J t
      = (((List.range (t + 1)).reverse).filter
          (fun j => decide (j = 0) || check_curve_vec.getD j false)).take J ∧
    (ys_cols (force_first check_curve_vec) J t).length
      = min J (((List.range (t + 1)).filter
          (fun j => decide (j = 0) || check_curve_vec.getD j false)).length) ∧
    (ys_cols (force_first check_curve_vec) J t).length ≤ J ∧
    (∀ j ∈ ys_cols (force_first check_curve_vec) J t,
      j ≤ t ∧ (j = 0 ∨ check_curve_vec.getD j false = true) ∧
      (force_first check_curve_vec).getD j false = true) ∧
    (∀ j, j ≠ 0 → check_curve_vec.getD j false = false →
      j ∉ ys_cols (force_first check_curve_vec) J t) ∧
    (ys_cols (force_first check_curve_vec) J t).Pairwise (fun a b => b < a) ∧
    ((ys_cols (force_first check_curve_vec) J t).length < J →
      0 ∈ ys_cols (force_first check_curve_vec) J t) := by
  have hfun : (fun j => (force_first check_curve_vec).getD j false)
      = (fun j => decide (j = 0) || check_curve_vec.getD j false) :=
    funext (force_first_getD check_curve_vec hlen)
  have heq : ys_cols (force_first check_curve_vec) J t
      = (((List.range (t + 1)).reverse).filter
          (fun j => decide (j = 0) || check_curve_vec.getD j false)).take J := by
    rw [ys_cols, ys_cols_loop_eq _ J (t + 1) [] (by simpa using hJ), hfun]
    simp
  have hpw : ((List.range (t + 1)).reverse).Pairwise (fun a b => b < a) := by
    rw [List.pairwise_reverse]
    exact List.pairwise_lt_range (t + 1)
  have hmem : ∀ j ∈ ys_cols (force_first check_curve_vec) J t,
      j ≤ t ∧ (j = 0 ∨ check_curve_vec.getD j false = true) := by
    intro j hj
    rw [heq] at hj
    have hj2 := List.mem_filter.1 (List.mem_of_mem_take hj)
    have hr := List.mem_range.1 (List.mem_reverse.1 hj2.1)
    refine ⟨by omega, ?_⟩
    have hflag := hj2.2
    simp only [Bool.or_eq_true, decide_eq_true_eq] at hflag
    exact hflag
  refine ⟨heq, ?_, ?_, ?_, ?_, ?_, ?_⟩
  · rw [heq, List.length_take, List.filter_reverse, List.length_reverse]
  · rw [heq, List.length_take]
    exact min_le_left _ _
  · intro j hj
    obtain ⟨h1, h2⟩ := hmem j hj
    refine ⟨h1, h2, ?_⟩
    rw [force_first_getD check_curve_vec hlen j]
    rcases h2 with h2 | h2
    · simp [h2]
    · rw [h2, Bool.or_true]
  · intro j hj0 hfalse hj
    rcases (hmem j hj).2 with h | h
    · exact hj0 h
    · rw [hfalse] at h
      exact Bool.noConfusion h
  · rw [heq]
    exact ((hpw.sublist (List.filter_sublist _)).sublist (List.take_sublist _ _))
  · intro hlt
    rw [heq] at hlt ⊢
    rw [List.length_take] at hlt
    have hle : (((List.range (t + 1)).reverse).filter
        (fun j => decide (j = 0) || check_curve_vec.getD j false)).length ≤ J := by
      omega
    rw [List.take_of_length_le hle, List.mem_filter]
    exact ⟨List.mem_reverse.2 (List.mem_range.2 (Nat.succ_pos t)), by simp⟩

/-- Witness of C13: flags `[false, true, false, true]`, `J = 3`, `t = 3`: the
window is `[3, 1, 0]`; index 0 is in it although its curvature flag is
false. -/
theorem ys_cols_window_witness :
    ys_cols (force_first [false, true, false, true]) 3 3 = [3, 1, 0] ∧
    0 ∈ ys_cols (force_first [false, true, false, true]) 3 3 := by
  have h := ys_cols_window [false, true, false, true] 3 3 (by decide)
    (by decide)
  have h1 : ys_cols (force_first [false, true, false, true]) 3 3 = [3, 1, 0] := by
    rw [h.1]
    decide
  refine ⟨h1, ?_⟩
  rw [h1]
  decide

/-- C14: with flag 0 forced true, for every iteration `t` below the number of
flags and every `history_size >= 1` the window `ys_cols` has at least one
entry, so entry 0 of the history buffer built from it exists. -/
theorem ys_cols_nonempty (check_curve_vec : List Bool) (J t : Nat)
    (ht : t < check_curve_vec.length) (hJ : 1 ≤ J) :
    1 ≤ (ys_cols (force_first check_curve_vec) J t).length ∧
    (ys_cols (force_first check_curve_vec) J t)[0]? ≠ none := by
  have heq : ys_cols (force_first check_curve_vec) J t
      = (((List.range (t + 1)).reverse).filter
          (fun j => (force_first check_curve_vec).getD j false)).take J := by
    rw [ys_cols, ys_cols_loop_eq _ J (t + 1) [] (by simpa using hJ)]
    simp
  have h0 : (force_first check_curve_vec).getD 0 false = true := by
    unfold force_first
    simp only [List.getD_eq_getElem?_getD]
    rw [List.getElem?_set_self (by omega)]
    rfl
  have hmem : 0 ∈ ((List.range (t + 1)).reverse).filter
      (fun j => (force_first check_curve_vec).getD j false) := by
    rw [List.mem_filter]
    exact ⟨List.mem_reverse.2 (List.mem_range.2 (by omega)), h0⟩
  have hpos : 1 ≤ (((List.range (t + 1)).reverse).filter
      (fun j => (force_first check_curve_vec).getD j false)).length :=
    List.length_pos_of_mem hmem
  have hlen : 1 ≤ (ys_cols (force_first check_curve_vec) J t).length := by
    rw [heq, List.length_take]
    exact le_min hJ hpos
  refine ⟨hlen, ?_⟩
  intro hnone
  rw [List.getElem?_eq_none_iff] at hnone
  omega

theorem ys_cols_nonempty_witness :
    1 ≤ (ys_cols (force_first [false, false, false]) 1 2).length ∧
    (ys_cols (force_first [false, false, false]) 1 2)[0]? ≠ none :=
  ys_cols_nonempty [false, false, false] 1 2 (by decide) (by decide)

/-! ## Positivity of `form_diag` and of the alpha cascade -/

/-- The sums `y'ay` and `s'a^-1 s` are non-negative, and `y.s` vanishes when
one of them does. -/
theorem weighted_sums_zero (alpha : Vec) :
    ∀ (y s : Vec), y.length = alpha.length → s.length = alpha.length →
      (∀ a ∈ alpha, 0 < a) →
      0 ≤ (List.zipWith (fun p q => p * q * q) alpha y).sum ∧
      0 ≤ (List.zipWith (fun p q => q * q / p) alpha s).sum ∧
      ((List.zipWith (fun p q => q * q / p) alpha s).sum = 0 → dot y s = 0) ∧
      ((List.zipWith (fun p q => p * q * q) alpha y).sum = 0 → dot y s = 0) := by
  induction alpha with
  | nil =>
    intro y s hy hs _
    have hy0 : y = [] := List.length_eq_zero.1 hy
    subst hy0
    simp [dot]
  | cons a alpha ih =>
    intro y s hy hs hpos
    cases y with
    | nil => simp at hy
    | cons yi y =>
      cases s with
      | nil => simp at hs
      | cons si s =>
        have ha : 0 < a := hpos a (List.mem_cons_self a alpha)
        obtain ⟨h1, h2, h3, h4⟩ := ih y s (by simpa using hy) (by simpa using hs)
          (fun b hb => hpos b (List.mem_cons_of_mem a hb))
        have hq : 0 ≤ a * yi * yi := by
          have := mul_nonneg (le_of_lt ha) (mul_self_nonneg yi)
          rwa [← mul_assoc] at this
        have hw : 0 ≤ si * si / a := div_nonneg (mul_self_nonneg si) (le_of_lt ha)
        simp only [List.zipWith_cons_cons, List.sum_cons, dot]
        refine ⟨by linarith, by linarith, ?_, ?_⟩
        · intro h0
          have hw0 : si * si / a = 0 := by linarith
          have hr0 : (List.zipWith (fun p q => q * q / p) alpha s).sum = 0 := by
            linarith
          have hsi : si = 0 := by
            rcases div_eq_zero_iff.1 hw0 with h | h
            · exact mul_self_eq_zero.1 h
            · exact absurd h (ne_of_gt ha)
          have := h3 hr0
          unfold dot at this
          rw [this, hsi]
          ring
        · intro h0
          have hq0 : a * yi * yi = 0 := by linarith
          have hr0 : (List.zipWith (fun p q => p * q * q) alpha y).sum = 0 := by
            linarith
          have hyi : yi = 0 := by
            rw [mul_assoc] at hq0
            rcases mul_eq_zero.1 hq0 with h | h
            · exact absurd h (ne_of_gt ha)
            · exact mul_self_eq_zero.1 h
          have := h4 hr0
          unfold dot at this
          rw [this, hyi]
          ring

/-- The three sums of `form_diag` with the contribution of entry `i` split
off. -/
theorem weighted_sums_split (alpha : Vec) :
    ∀ (y s : Vec) (i : Nat) (a yi si : ℚ), y.length = alpha.length →
      s.length = alpha.length → (∀ b ∈ alpha, 0 < b) →
      alpha[i]? = some a → y[i]? = some yi → s[i]? = some si →
      ∃ Qr Wr Dr : ℚ, 0 < a ∧ 0 ≤ Qr ∧ 0 ≤ Wr ∧
        (List.zipWith (fun p q => p * q * q) alpha y).sum = Qr + a * yi * yi ∧
        (List.zipWith (fun p q => q * q / p) alpha s).sum = Wr + si * si / a ∧
        dot y s = Dr + yi * si ∧ (Wr = 0 → Dr = 0) ∧ (Qr = 0 → Dr = 0) := by
  induction alpha with
  | nil => intro y s i a yi si _ _ _ h; simp at h
  | cons b alpha ih =>
    intro y s i a yi si hy hs hpos ha hyi hsi
    cases y with
    | nil => simp at hy
    | cons y0 y =>
      cases s with
      | nil => simp at hs
      | cons s0 s =>
        have hb : 0 < b := hpos b (List.mem_cons_self b alpha)
        have hpos2 : ∀ c ∈ alpha, 0 < c :=
          fun c hc => hpos c (List.mem_cons_of_mem b hc)
        have hy2 : y.length = alpha.length := by simpa using hy
        have hs2 : s.length = alpha.length := by simpa using hs
        cases i with
        | zero =>
          simp only [List.getElem?_cons_zero, Option.some.injEq] at ha hyi hsi
          subst ha hyi hsi
          obtain ⟨h1, h2, h3, h4⟩ := weighted_sums_zero alpha y s hy2 hs2 hpos2
          refine ⟨_, _, dot y s, hb, h1, h2, ?_, ?_, ?_, h3, h4⟩
          · simp only [List.zipWith_cons_cons, List.sum_cons]; ring
          · simp only [List.zipWith_cons_cons, List.sum_cons]; ring
          · simp only [dot, List.zipWith_cons_cons, List.sum_cons]; ring
        | succ i =>
          simp only [List.getElem?_cons_succ] at ha hyi hsi
          obtain ⟨Qr, Wr, Dr, h0, h1, h2, h3, h4, h5, h6, h7⟩ :=
            ih y s i a yi si hy2 hs2 hpos2 ha hyi hsi
          have hq : 0 ≤ b * y0 * y0 := by
            have := mul_nonneg (le_of_lt hb) (mul_self_nonneg y0)
            rwa [← mul_assoc] at this
          have hw : 0 ≤ s0 * s0 / b :=
            div_nonneg (mul_self_nonneg s0) (le_of_lt hb)
          refine ⟨Qr + b * y0 * y0, Wr + s0 * s0 / b, Dr + y0 * s0, h0,
            by linarith, by linarith, ?_, ?_, ?_, ?_, ?_⟩
          · simp only [List.zipWith_cons_cons, List.sum_cons, h3]; ring
          · simp only [List.zipWith_cons_cons, List.sum_cons, h4]; ring
          · have := h5
            unfold dot at this ⊢
            simp only [List.zipWith_cons_cons, List.sum_cons, this]; ring
          · intro hz
            have hw0 : s0 * s0 / b = 0 := by linarith
            have hr0 : Wr = 0 := by linarith
            have hs0 : s0 = 0 := by
              rcases div_eq_zero_iff.1 hw0 with h | h
              · exact mul_self_eq_zero.1 h
              · exact absurd h (ne_of_gt hb)
            rw [h6 hr0, hs0]; ring
          · intro hz
            have hq0 : b * y0 * y0 = 0 := by linarith
            have hr0 : Qr = 0 := by linarith
            have hy0 : y0 = 0 := by
              rw [mul_assoc] at hq0
              rcases mul_eq_zero.1 hq0 with h | h
              · exact absurd h (ne_of_gt hb)
              · exact mul_self_eq_zero.1 h
            rw [h7 hr0, hy0]; ring

/-- Every denominator of `form_diag` is strictly positive when `alpha > 0` and
`y.s > 0`. -/
theorem form_diag_denominator_pos (alpha y s : Vec) (i : Nat) (a yi si : ℚ)
    (hy : y.length = alpha.length) (hs : s.length = alpha.length)
    (hpos : ∀ b ∈ alpha, 0 < b) (hD : 0 < dot y s)
    (ha : alpha[i]? = some a) (hyi : y[i]? = some yi) (hsi : s[i]? = some si) :
    0 < (List.zipWith (fun p q => p * q * q) alpha y).sum / a + yi ^ 2
      - ((List.zipWith (fun p q => p * q * q) alpha y).sum
          / (List.zipWith (fun p q => q * q / p) alpha s).sum)
        * (si / a) ^ 2 := by
  obtain ⟨Qr, Wr, Dr, h0, h1, h2, h3, h4, h5, h6, h7⟩ :=
    weighted_sums_split alpha y s i a yi si hy hs hpos ha hyi hsi
  rw [h3, h4]
  have hw : 0 ≤ si * si / a := div_nonneg (mul_self_nonneg si) (le_of_lt h0)
  have hq : 0 ≤ a * yi * yi := by
    have := mul_nonneg (le_of_lt h0) (mul_self_nonneg yi)
    rwa [← mul_assoc] at this
  have hW : 0 < Wr + si * si / a := by
    rcases lt_or_eq_of_le h2 with h | h
    · linarith
    · have hDr : Dr = 0 := h6 h.symm
      have hsi0 : si ≠ 0 := by
        intro hz
        rw [h5, hDr, hz] at hD
        simp at hD
      have : 0 < si * si / a := div_pos (mul_self_pos.2 hsi0) h0
      linarith
  have key : (Qr + a * yi * yi) / a + yi ^ 2
      - (Qr + a * yi * yi) / (Wr + si * si / a) * (si / a) ^ 2
      = (Qr + a * yi * yi) / a * (Wr / (Wr + si * si / a)) + yi ^ 2 := by
    have ha0 : a ≠ 0 := ne_of_gt h0
    have hW0 : Wr + si * si / a ≠ 0 := ne_of_gt hW
    have hsq : (si / a) ^ 2 = (si * si / a) / a := by
      field_simp
      ring
    rw [hsq]
    generalize si * si / a = w at hW0
    field_simp
    ring
  rw [key]
  have hterm : 0 ≤ (Qr + a * yi * yi) / a * (Wr / (Wr + si * si / a)) :=
    mul_nonneg (div_nonneg (by linarith) (le_of_lt h0))
      (div_nonneg h2 (le_of_lt hW))
  by_cases hy0 : yi = 0
  · have hDr : 0 < Dr := by
      rw [h5, hy0] at hD
      simpa using hD
    have hQr : 0 < Qr := by
      rcases lt_or_eq_of_le h1 with h | h
      · exact h
      · rw [h7 h.symm] at hDr; exact absurd hDr (lt_irrefl 0)
    have hWr : 0 < Wr := by
      rcases lt_or_eq_of_le h2 with h | h
      · exact h
      · rw [h6 h.symm] at hDr; exact absurd hDr (lt_irrefl 0)
    have : 0 < (Qr + a * yi * yi) / a * (Wr / (Wr + si * si / a)) :=
      mul_pos (div_pos (by linarith) h0) (div_pos hWr hW)
    have h2' : 0 ≤ yi ^ 2 := sq_nonneg yi
    linarith
  · have : 0 < yi ^ 2 := by positivity
    linarith

theorem form_diag_length (alpha y s : Vec) (hy : y.length = alpha.length)
    (hs : s.length = alpha.length) :
    (form_diag alpha y s).length = alpha.length := by
  simp [form_diag, vsub, vadd, hy, hs]

/-- Every entry of `form_diag` is strictly positive when `alpha > 0` and
`y.s > 0`. -/
theorem form_diag_entries_pos (alpha y s : Vec) (hy : y.length = alpha.length)
    (hs : s.length = alpha.length) (hpos : ∀ b ∈ alpha, 0 < b)
    (hD : 0 < dot y s) : ∀ v ∈ form_diag alpha y s, 0 < v := by
  intro v hv
  obtain ⟨i, hi⟩ := List.mem_iff_getElem?.1 hv
  have hlt : i < alpha.length := by
    have := (List.getElem?_eq_some.1 hi).1
    rwa [form_diag_length alpha y s hy hs] at this
  have ha : alpha[i]? = some alpha[i] := List.getElem?_eq_getElem hlt
  have hlty : i < y.length := by omega
  have hlts : i < s.length := by omega
  have hyi : y[i]? = some y[i] := List.getElem?_eq_getElem hlty
  have hsi : s[i]? = some s[i] := List.getElem?_eq_getElem hlts
  have hden := form_diag_denominator_pos alpha y s i _ _ _ hy hs hpos hD ha hyi hsi
  rw [form_diag_entry alpha y s i _ _ _ ha hyi hsi] at hi
  cases Option.some.inj hi
  exact div_pos hD hden

theorem check_curve_true_pos (Yk Sk : Mat) (t : Nat) (y s : Vec)
    (hy : Yk[t]? = some y) (hs : Sk[t]? = some s)
    (h : (check_curve Yk Sk).getD t false = true) : 0 < dot y s := by
  have hD := colwise_dot Yk Sk t y s hy hs
  have hN := colwise_dot Yk Yk t y y hy hy
  have hth := zipWith_getElem?_some (fun n D : ℚ => |n / D|) _ _ t _ _ hN hD
  have hres := zipWith_getElem?_some
    (fun (D th : ℚ) => decide (D > 0) && decide (th ≤ (10 : ℚ) ^ 12))
    _ _ t _ _ hD hth
  unfold check_curve at h
  simp only [List.getD_eq_getElem?_getD] at h
  rw [hres] at h
  simp only [Option.getD_some, Bool.and_eq_true, decide_eq_true_eq] at h
  exact h.1

theorem alpha_cascade_length (d : Nat) (Y S : Mat) :
    (alpha_cascade d Y S).length = Y.length := by
  simp [alpha_cascade, alpha_loop_length]

theorem alpha_cascade_zero (d : Nat) (Y S : Mat) (h0 : 0 < Y.length) :
    (alpha_cascade d Y S)[0]?
      = some (if (check_curve Y S).getD 0 false then
          form_diag (List.replicate d 1) (Y.getD 0 []) (S.getD 0 [])
        else List.replicate d 1) := by
  unfold alpha_cascade
  simp only []
  rw [alpha_loop_before _ _ _ _ 1 _ 0 (by omega),
    List.getElem?_set_self (by simpa using h0)]

theorem alpha_cascade_step (d : Nat) (Y S : Mat) (t : Nat) (h1 : 1 ≤ t)
    (h2 : t < Y.length) :
    (alpha_cascade d Y S)[t]?
      = some (if (check_curve Y S).getD t false then
          form_diag ((alpha_cascade d Y S).getD (t - 1) []) (Y.getD t [])
            (S.getD t [])
        else (alpha_cascade d Y S).getD (t - 1) []) := by
  unfold alpha_cascade
  simp only []
  exact alpha_loop_step _ _ _ _ 1 _ t (le_refl 1) h1 (by omega)
    (by simpa using h2)

/-- Every column of the alpha cascade has `d` entries, all strictly
positive, when the difference matrices have `d` rows and equally many
columns. -/
theorem alpha_cascade_column_pos (d : Nat) (Y S : Mat)
    (hY : ∀ y ∈ Y, y.length = d) (hS : ∀ s ∈ S, s.length = d)
    (hYS : S.length = Y.length) (t : Nat) :
    t < Y.length → ∃ col, (alpha_cascade d Y S)[t]? = some col ∧
      col.length = d ∧ ∀ v ∈ col, 0 < v := by
  have hones : (List.replicate d (1 : ℚ)).length = d ∧
      ∀ v ∈ List.replicate d (1 : ℚ), 0 < v := by
    refine ⟨List.length_replicate _ _, ?_⟩
    intro v hv
    rw [(List.mem_replicate.1 hv).2]
    exact one_pos
  have hform : ∀ (prev : Vec) (k : Nat), k < Y.length → prev.length = d →
      (∀ v ∈ prev, 0 < v) → (check_curve Y S).getD k false = true →
      (form_diag prev (Y.getD k []) (S.getD k [])).length = d ∧
      ∀ v ∈ form_diag prev (Y.getD k []) (S.getD k []), 0 < v := by
    intro prev k hk hlen hpos hc
    have hkS : k < S.length := by omega
    have hy : Y[k]? = some Y[k] := List.getElem?_eq_getElem hk
    have hs : S[k]? = some S[k] := List.getElem?_eq_getElem hkS
    have hyd : Y.getD k [] = Y[k] := by simp [hy]
    have hsd : S.getD k [] = S[k] := by simp [hs]
    rw [hyd, hsd]
    have hyl : (Y[k]).length = prev.length := by
      rw [hlen]; exact hY _ (List.getElem_mem hk)
    have hsl : (S[k]).length = prev.length := by
      rw [hlen]; exact hS _ (List.getElem_mem hkS)
    have hD := check_curve_true_pos Y S k _ _ hy hs hc
    exact ⟨by rw [form_diag_length prev _ _ hyl hsl, hlen],
      form_diag_entries_pos prev _ _ hyl hsl hpos hD⟩
  induction t with
  | zero =>
    intro h0
    rw [alpha_cascade_zero d Y S h0]
    refine ⟨_, rfl, ?_⟩
    by_cases hc : (check_curve Y S).getD 0 false = true
    · rw [if_pos hc]
      exact hform _ 0 h0 hones.1 hones.2 hc
    · rw [if_neg hc]
      exact hones
  | succ t ih =>
    intro ht
    obtain ⟨prev, hprev, hlen, hpos⟩ := ih (by omega)
    rw [alpha_cascade_step d Y S (t + 1) (by omega) ht]
    have hprevD : (alpha_cascade d Y S).getD (t + 1 - 1) [] = prev := by
      simp [hprev]
    rw [hprevD]
    refine ⟨_, rfl, ?_⟩
    by_cases hc : (check_curve Y S).getD (t + 1) false = true
    · rw [if_pos hc]
      exact hform prev (t + 1) ht hlen hpos hc
    · rw [if_neg hc]
      exact ⟨hlen, hpos⟩

/-- C11: for every `alpha > 0` and every `(Y, S)` with `Y.S > 0` each
denominator of `form_diag` is strictly positive and so is each returned
entry; hence every column of `alpha_mat`, the cascade started from the
all-ones vector, is elementwise strictly positive (the columns that pass the
curvature test have `Y.S > 0`, the others are copies). -/
theorem alpha_mat_positive :
    (∀ (alpha y s : Vec), y.length = alpha.length → s.length = alpha.length →
      (∀ b ∈ alpha, 0 < b) → 0 < dot y s →
      (∀ (i : Nat) (a yi si : ℚ), alpha[i]? = some a → y[i]? = some yi →
        s[i]? = some si →
        0 < (List.zipWith (fun p q => p * q * q) alpha y).sum / a + yi ^ 2
          - ((List.zipWith (fun p q => p * q * q) alpha y).sum
              / (List.zipWith (fun p q => q * q / p) alpha s).sum)
            * (si / a) ^ 2) ∧
      (form_diag alpha y s).length = alpha.length ∧
      ∀ v ∈ form_diag alpha y s, 0 < v) ∧
    (∀ (d : Nat) (Ykt_diff Skt_diff : Mat), (∀ y ∈ Ykt_diff, y.length = d) →
      (∀ s ∈ Skt_diff, s.length = d) → Skt_diff.length = Ykt_diff.length →
      (alpha_cascade d Ykt_diff Skt_diff).length = Ykt_diff.length ∧
      ∀ col ∈ alpha_cascade d Ykt_diff Skt_diff,
        col.length = d ∧ ∀ v ∈ col, 0 < v) := by
  refine ⟨?_, ?_⟩
  · intro alpha y s hy hs hpos hD
    exact ⟨fun i a yi si ha hyi hsi =>
        form_diag_denominator_pos alpha y s i a yi si hy hs hpos hD ha hyi hsi,
      form_diag_length alpha y s hy hs,
      form_diag_entries_pos alpha y s hy hs hpos hD⟩
  · intro d Y S hY hS hYS
    refine ⟨alpha_cascade_length d Y S, ?_⟩
    intro col hcol
    obtain ⟨t, ht⟩ := List.mem_iff_getElem?.1 hcol
    have hlt : t < Y.length := by
      have := (List.getElem?_eq_some.1 ht).1
      rwa [alpha_cascade_length] at this
    obtain ⟨col', h1, h2, h3⟩ := alpha_cascade_column_pos d Y S hY hS hYS t hlt
    rw [ht] at h1
    cases Option.some.inj h1
    exact ⟨h2, h3⟩

theorem alpha_mat_positive_witness :
    (form_diag [1, 1] [1, 2] [3, 1]).length = 2 ∧
    (∀ v ∈ form_diag [1, 1] [1, 2] [3, 1], 0 < v) ∧
    ∀ col ∈ alpha_cascade 2 [[1, 2], [1, 0], [1, 1]] [[3, 1], [-1, 5], [1, 2]],
      col.length = 2 ∧ ∀ v ∈ col, 0 < v :=
  ⟨(alpha_mat_positive.1 [1, 1] [1, 2] [3, 1] rfl rfl
      (by intro b hb; simp at hb; rw [hb]; exact one_pos)
      (by norm_num [dot])).2.1,
    (alpha_mat_positive.1 [1, 1] [1, 2] [3, 1] rfl rfl
      (by intro b hb; simp at hb; rw [hb]; exact one_pos)
      (by norm_num [dot])).2.2,
    (alpha_mat_positive.2 2 [[1, 2], [1, 0], [1, 1]] [[3, 1], [-1, 5], [1, 2]]
      (by intro y hy; simp at hy; rcases hy with h | h | h <;> rw [h] <;> rfl)
      (by intro y hy; simp at hy; rcases hy with h | h | h <;> rw [h] <;> rfl)
      rfl).2⟩

/-! ## Claims about the ELBO search and the control flow of the single path -/

theorem Dbl.gt_trans (a b c : Dbl) (h1 : Dbl.gt a b = true)
    (h2 : Dbl.gt b c = true) : Dbl.gt a c = true := by
  cases a <;> cases b <;> cases c <;> simp_all [Dbl.gt]
  exact lt_trans h2 h1

theorem Dbl.gt_irrefl (a : Dbl) : Dbl.gt a a = false := by
  cases a <;> simp [Dbl.gt]

theorem elbo_search_step_inv (est_iter : Nat → Except EstError elbo_est_t)
    (build_taylor : Nat → taylor_approx_t) (taylor_uninit : taylor_approx_t)
    (k : Nat) (st : search_t)
    (h : search_inv est_iter build_taylor taylor_uninit k st) :
    search_inv est_iter build_taylor taylor_uninit (k + 1)
      (elbo_search_step est_iter build_taylor k st) := by
  obtain ⟨hmax, hbest⟩ := h
  unfold elbo_search_step
  cases hk : est_iter k with
  | error err =>
    simp only []
    refine ⟨?_, ?_⟩
    · intro t ht e he
      rcases Nat.lt_succ_iff_lt_or_eq.1 ht with h | h
      · exact hmax t h e he
      · rw [h, hk] at he; exact Except.noConfusion he
    · rcases hbest with h | ⟨b, hb, h⟩
      · exact Or.inl h
      · exact Or.inr ⟨b, by omega, h⟩
  | ok ek =>
    simp only []
    by_cases hgt : Dbl.gt ek.elbo st.elbo_best.elbo = true
    · rw [if_pos hgt]
      refine ⟨?_, Or.inr ⟨k, by omega, rfl, hk, rfl, ?_, ?_⟩⟩
      · intro t ht e he
        rcases Nat.lt_succ_iff_lt_or_eq.1 ht with h | h
        · cases hc : Dbl.gt e.elbo ek.elbo with
          | false => rfl
          | true =>
            have := Dbl.gt_trans _ _ _ hc hgt
            rw [hmax t h e he] at this
            exact Bool.noConfusion this
        · rw [h, hk] at he
          cases Except.ok.inj he
          exact Dbl.gt_irrefl _
      · rcases hbest with ⟨_, h2, _⟩ | ⟨b, _, _, _, _, h5, _⟩
        · rw [h2] at hgt; exact hgt
        · exact Dbl.gt_trans _ _ _ hgt h5
      · intro t ht e he heq
        have := hmax t ht e he
        rw [heq, hgt] at this
        exact Bool.noConfusion this
    · rw [if_neg hgt]
      refine ⟨?_, ?_⟩
      · intro t ht e he
        rcases Nat.lt_succ_iff_lt_or_eq.1 ht with h | h
        · exact hmax t h e he
        · rw [h, hk] at he
          cases Except.ok.inj he
          simpa using hgt
      · rcases hbest with h | ⟨b, hb, h⟩
        · exact Or.inl h
        · exact Or.inr ⟨b, by omega, h⟩

theorem elbo_search_inv (est_iter : Nat → Except EstError elbo_est_t)
    (build_taylor : Nat → taylor_approx_t) (taylor_uninit : taylor_approx_t)
    (n : Nat) :
    ∀ (k : Nat) (st : search_t),
      search_inv est_iter build_taylor taylor_uninit k st →
      search_inv est_iter build_taylor taylor_uninit (k + n)
        (elbo_search est_iter build_taylor n k st) := by
  induction n with
  | zero => intro k st h; exact h
  | succ n ih =>
    intro k st h
    rw [elbo_search]
    have := ih (k + 1) _
      (elbo_search_step_inv est_iter build_taylor taylor_uninit k st h)
    rwa [Nat.add_assoc, Nat.add_comm 1 n] at this

theorem elbo_search_final (est_iter : Nat → Except EstError elbo_est_t)
    (build_taylor : Nat → taylor_approx_t) (taylor_uninit : taylor_approx_t)
    (grad_evals T : Nat) :
    search_inv est_iter build_taylor taylor_uninit T
      (elbo_search est_iter build_taylor T 0
        { best_E := -1, elbo_best := elbo_est_default,
          taylor_approx_best := taylor_uninit, num_evals := grad_evals }) := by
  have h0 : search_inv est_iter build_taylor taylor_uninit 0
      { best_E := -1, elbo_best := elbo_est_default,
        taylor_approx_best := taylor_uninit, num_evals := grad_evals } :=
    ⟨fun t ht => absurd ht (Nat.not_lt_zero t), Or.inl ⟨rfl, rfl, rfl⟩⟩
  have := elbo_search_inv est_iter build_taylor taylor_uninit T 0 _ h0
  rwa [Nat.zero_add] at this

theorem demo_est_iter_eq (t : Nat) : demo_est_iter t = .ok demo_block_degenerate := by
  simp [demo_est_iter, est_approx_draws, sample_phase, init_slots, sample_loop,
    retry_loop, redraw, cleanup, success_rows, finish, lp_approx,
    demo_taylor_degenerate, demo_lp_zero, demo_rand, demo_block_degenerate,
    gen_draws, draw_col, crossprod_vec, vadd, dot, Dbl.mean, Dbl.sum, Dbl.add,
    Dbl.sub, Dbl.neg, Dbl.divN, Dbl.isfinite, LpOut.finite, List.range,
    List.range.loop]

/-- C18 (as amended): after the ELBO search run in index order, no iteration
whose estimation returned has an ELBO greater than that of `elbo_best`.
Either no iteration returned an ELBO greater than `-inf` (a `NaN` is never
greater) and `best_E` is still -1 with the initial `elbo_best` and
`taylor_approx_best`; or `best_E` is an index `b` whose estimation returned
`elbo_best`, `taylor_approx_best` is the surrogate of `b`, the ELBO of `b` is
greater than `-inf`, and no earlier iteration returned the same ELBO, so `b`
is the smallest index with the greatest ELBO and a later equal one never
replaces it. -/
theorem elbo_search_best (est_iter : Nat → Except EstError elbo_est_t)
    (build_taylor : Nat → taylor_approx_t) (taylor_uninit : taylor_approx_t)
    (grad_evals T : Nat) :
    (∀ t, t < T → ∀ e, est_iter t = .ok e →
      Dbl.gt e.elbo
        (elbo_search est_iter build_taylor T 0
          { best_E := -1, elbo_best := elbo_est_default,
            taylor_approx_best := taylor_uninit,
            num_evals := grad_evals }).elbo_best.elbo = false) ∧
    (((elbo_search est_iter build_taylor T 0
          { best_E := -1, elbo_best := elbo_est_default,
            taylor_approx_best := taylor_uninit,
            num_evals := grad_evals }).best_E = -1 ∧
        (elbo_search est_iter build_taylor T 0
          { best_E := -1, elbo_best := elbo_est_default,
            taylor_approx_best := taylor_uninit,
            num_evals := grad_evals }).elbo_best = elbo_est_default ∧
        (elbo_search est_iter build_taylor T 0
          { best_E := -1, elbo_best := elbo_est_default,
            taylor_approx_best := taylor_uninit,
            num_evals := grad_evals }).taylor_approx_best = taylor_uninit ∧
        ∀ t, t < T → ∀ e, est_iter t = .ok e →
          Dbl.gt e.elbo Dbl.ninf = false)
      ∨ (∃ b, b < T ∧
        (elbo_search est_iter build_taylor T 0
          { best_E := -1, elbo_best := elbo_est_default,
            taylor_approx_best := taylor_uninit,
            num_evals := grad_evals }).best_E = (b : Int) ∧
        est_iter b = .ok
          (elbo_search est_iter build_taylor T 0
            { best_E := -1, elbo_best := elbo_est_default,
              taylor_approx_best := taylor_uninit,
              num_evals := grad_evals }).elbo_best ∧
        (elbo_search est_iter build_taylor T 0
          { best_E := -1, elbo_best := elbo_est_default,
            taylor_approx_best := taylor_uninit,
            num_evals := grad_evals }).taylor_approx_best = build_taylor b ∧
        Dbl.gt
          (elbo_search est_iter build_taylor T 0
            { best_E := -1, elbo_best := elbo_est_default,
              taylor_approx_best := taylor_uninit,
              num_evals := grad_evals }).elbo_best.elbo Dbl.ninf = true ∧
        ∀ t, t < b → ∀ e, est_iter t = .ok e →
          e.elbo ≠
            (elbo_search est_iter build_taylor T 0
              { best_E := -1, elbo_best := elbo_est_default,
                taylor_approx_best := taylor_uninit,
                num_evals := grad_evals }).elbo_best.elbo)) := by
  obtain ⟨hmax, hbest⟩ :=
    elbo_search_final est_iter build_taylor taylor_uninit grad_evals T
  refine ⟨hmax, ?_⟩
  rcases hbest with ⟨h1, h2, h3⟩ | h
  · refine Or.inl ⟨h1, h2, h3, ?_⟩
    intro t ht e he
    have := hmax t ht e he
    rw [h2] at this
    exact this
  · exact Or.inr h

/-- C18 (counterexample): one iteration whose estimation returns a block with
ELBO `-inf`.  The greatest ELBO over the iterations that succeeded is `-inf`,
reached at index 0, yet `best_E` is -1 and `elbo_best` is not that block. -/
theorem elbo_search_best_counterexample :
    demo_est_iter 0 = .ok demo_block_degenerate ∧
    demo_block_degenerate.elbo = Dbl.ninf ∧
    (elbo_search demo_est_iter (fun _ => demo_taylor_degenerate) 1 0
      { best_E := -1, elbo_best := elbo_est_default,
        taylor_approx_best := demo_taylor, num_evals := 0 }).best_E = -1 ∧
    (elbo_search demo_est_iter (fun _ => demo_taylor_degenerate) 1 0
      { best_E := -1, elbo_best := elbo_est_default,
        taylor_approx_best := demo_taylor, num_evals := 0 }).elbo_best
      ≠ demo_block_degenerate := by
  refine ⟨demo_est_iter_eq 0, rfl, ?_, ?_⟩
  · simp [elbo_search, elbo_search_step, demo_est_iter_eq, demo_block_degenerate,
      elbo_est_default, Dbl.gt]
  · simp [elbo_search, elbo_search_step, demo_est_iter_eq, demo_block_degenerate,
      elbo_est_default, Dbl.gt]

theorem final_assembly_return_code (OK : Int) (lp_fun : Vec → LpOut)
    (constrain_fun : Vec → Vec) (sqrtF : ℚ → ℚ) (LOG_TWO_PI : ℚ)
    (rand : Nat → ℚ) (uninit : Nat → Dbl) (taylor_approx_best : taylor_approx_t)
    (alpha : Vec) (R : Nat) (elbo_best : elbo_est_t) (num_draws : Int)
    (num_evals : Nat) :
    (final_assembly OK lp_fun constrain_fun sqrtF LOG_TWO_PI rand uninit
      taylor_approx_best alpha R elbo_best num_draws num_evals).return_code
      = OK := by
  unfold final_assembly
  simp only []
  split_ifs
  · split <;> rfl
  · rfl

/-- C19: when L-BFGS ends with a negative code and the history holds only the
initial point, the single path returns `SOFTWARE` with an empty `lp_ratio`, an
empty draw matrix and an evaluation count of 0; when it ends with a negative
code and the history holds at least two points (and whenever the code is not
negative) the run goes on to the differences, the alpha cascade and the ELBO
search. -/
theorem after_lbfgs_negative_code (OK SOFTWARE : Int) (lp_fun : Vec → LpOut)
    (constrain_fun : Vec → Vec) (sqrtF : ℚ → ℚ) (LOG_TWO_PI : ℚ)
    (rand : Nat → ℚ) (uninit : Nat → Dbl)
    (est_iter : Nat → Except EstError elbo_est_t)
    (build_taylor : Nat → taylor_approx_t) (taylor_uninit : taylor_approx_t)
    (R : Nat) (num_draws : Int) (ret : Int) (param_vecs grad_vecs : List Vec)
    (grad_evals : Nat) :
    (ret < 0 → param_vecs.length = 1 →
      after_lbfgs OK SOFTWARE lp_fun constrain_fun sqrtF LOG_TWO_PI rand uninit
        est_iter build_taylor taylor_uninit R num_draws ret param_vecs grad_vecs
        grad_evals
      = { return_code := SOFTWARE, lp_ratio := [], samples := [],
          lp_calls := 0 }) ∧
    (ret < 0 → 2 ≤ param_vecs.length →
      after_lbfgs OK SOFTWARE lp_fun constrain_fun sqrtF LOG_TWO_PI rand uninit
        est_iter build_taylor taylor_uninit R num_draws ret param_vecs grad_vecs
        grad_evals
      = search_and_draw OK SOFTWARE lp_fun constrain_fun sqrtF LOG_TWO_PI rand
          uninit est_iter build_taylor taylor_uninit R num_draws param_vecs
          grad_vecs grad_evals) ∧
    (0 ≤ ret →
      after_lbfgs OK SOFTWARE lp_fun constrain_fun sqrtF LOG_TWO_PI rand uninit
        est_iter build_taylor taylor_uninit R num_draws ret param_vecs grad_vecs
        grad_evals
      = search_and_draw OK SOFTWARE lp_fun constrain_fun sqrtF LOG_TWO_PI rand
          uninit est_iter build_taylor taylor_uninit R num_draws param_vecs
          grad_vecs grad_evals) := by
  refine ⟨?_, ?_, ?_⟩
  · intro h1 h2
    unfold after_lbfgs
    rw [if_neg (by omega), if_pos h2]
  · intro h1 h2
    unfold after_lbfgs
    rw [if_neg (by omega), if_neg (by omega)]
  · intro h1
    unfold after_lbfgs
    rw [if_pos (by omega)]

/-- C20 (as amended): after the ELBO search the single path returns `SOFTWARE`
with empty draws if and only if no iteration's estimation returned an ELBO
greater than `-inf` (an iteration that raised, or that returned `NaN` or
`-inf`, is never selected); when one did, it goes on with the best iteration
and returns `OK`. -/
theorem search_and_draw_result (OK SOFTWARE : Int) (lp_fun : Vec → LpOut)
    (constrain_fun : Vec → Vec) (sqrtF : ℚ → ℚ) (LOG_TWO_PI : ℚ)
    (rand : Nat → ℚ) (uninit : Nat → Dbl)
    (est_iter : Nat → Except EstError elbo_est_t)
    (build_taylor : Nat → taylor_approx_t) (taylor_uninit : taylor_approx_t)
    (R : Nat) (num_draws : Int) (param_vecs grad_vecs : List Vec)
    (grad_evals : Nat) :
    ((∀ t, t < (diff_cols grad_vecs).length → ∀ e, est_iter t = .ok e →
        Dbl.gt e.elbo Dbl.ninf = false) →
      (search_and_draw OK SOFTWARE lp_fun constrain_fun sqrtF LOG_TWO_PI rand
        uninit est_iter build_taylor taylor_uninit R num_draws param_vecs
        grad_vecs grad_evals).return_code = SOFTWARE ∧
      (search_and_draw OK SOFTWARE lp_fun constrain_fun sqrtF LOG_TWO_PI rand
        uninit est_iter build_taylor taylor_uninit R num_draws param_vecs
        grad_vecs grad_evals).lp_ratio = [] ∧
      (search_and_draw OK SOFTWARE lp_fun constrain_fun sqrtF LOG_TWO_PI rand
        uninit est_iter build_taylor taylor_uninit R num_draws param_vecs
        grad_vecs grad_evals).samples = []) ∧
    ((∃ t, t < (diff_cols grad_vecs).length ∧ ∃ e, est_iter t = .ok e ∧
        Dbl.gt e.elbo Dbl.ninf = true) →
      (search_and_draw OK SOFTWARE lp_fun constrain_fun sqrtF LOG_TWO_PI rand
        uninit est_iter build_taylor taylor_uninit R num_draws param_vecs
        grad_vecs grad_evals).return_code = OK ∧
      ∃ b e, b < (diff_cols grad_vecs).length ∧ est_iter b = .ok e ∧
        search_and_draw OK SOFTWARE lp_fun constrain_fun sqrtF LOG_TWO_PI rand
          uninit est_iter build_taylor taylor_uninit R num_draws param_vecs
          grad_vecs grad_evals
        = final_assembly OK lp_fun constrain_fun sqrtF LOG_TWO_PI rand uninit
            (build_taylor b)
            ((alpha_cascade (param_vecs.getD 0 []).length (diff_cols grad_vecs)
              (diff_cols param_vecs)).getD b [])
            R e num_draws
            (elbo_search est_iter build_taylor (diff_cols grad_vecs).length 0
              { best_E := -1, elbo_best := elbo_est_default,
                taylor_approx_best := taylor_uninit,
                num_evals := grad_evals }).num_evals) ∧
    (OK ≠ SOFTWARE →
      ((search_and_draw OK SOFTWARE lp_fun constrain_fun sqrtF LOG_TWO_PI rand
          uninit est_iter build_taylor taylor_uninit R num_draws param_vecs
          grad_vecs grad_evals).return_code = SOFTWARE ↔
        ∀ t, t < (diff_cols grad_vecs).length → ∀ e, est_iter t = .ok e →
          Dbl.gt e.elbo Dbl.ninf = false)) := by
  obtain ⟨hmax, hbest⟩ := elbo_search_final est_iter build_taylor taylor_uninit
    grad_evals (diff_cols grad_vecs).length
  have hnone : (∀ t, t < (diff_cols grad_vecs).length → ∀ e,
      est_iter t = .ok e → Dbl.gt e.elbo Dbl.ninf = false) →
      (elbo_search est_iter build_taylor (diff_cols grad_vecs).length 0
        { best_E := -1, elbo_best := elbo_est_default,
          taylor_approx_best := taylor_uninit,
          num_evals := grad_evals }).best_E = -1 := by
    intro hno
    rcases hbest with h | ⟨b, hb, _, h3, _, h5, _⟩
    · exact h.1
    · rw [hno b hb _ h3] at h5
      exact Bool.noConfusion h5
  have hsome : (∃ t, t < (diff_cols grad_vecs).length ∧ ∃ e,
      est_iter t = .ok e ∧ Dbl.gt e.elbo Dbl.ninf = true) →
      ∃ b, b < (diff_cols grad_vecs).length ∧
        (elbo_search est_iter build_taylor (diff_cols grad_vecs).length 0
          { best_E := -1, elbo_best := elbo_est_default,
            taylor_approx_best := taylor_uninit,
            num_evals := grad_evals }).best_E = (b : Int) ∧
        est_iter b = .ok
          (elbo_search est_iter build_taylor (diff_cols grad_vecs).length 0
            { best_E := -1, elbo_best := elbo_est_default,
              taylor_approx_best := taylor_uninit,
              num_evals := grad_evals }).elbo_best ∧
        (elbo_search est_iter build_taylor (diff_cols grad_vecs).length 0
          { best_E := -1, elbo_best := elbo_est_default,
            taylor_approx_best := taylor_uninit,
            num_evals := grad_evals }).taylor_approx_best = build_taylor b := by
    rintro ⟨t, ht, e, he, hgt⟩
    rcases hbest with ⟨_, h2, _⟩ | ⟨b, hb, h2, h3, h4, _⟩
    · have := hmax t ht e he
      rw [h2] at this
      rw [show elbo_est_default.elbo = Dbl.ninf from rfl, hgt] at this
      exact Bool.noConfusion this
    · exact ⟨b, hb, h2, h3, h4⟩
  have hA : (∀ t, t < (diff_cols grad_vecs).length → ∀ e,
      est_iter t = .ok e → Dbl.gt e.elbo Dbl.ninf = false) →
      search_and_draw OK SOFTWARE lp_fun constrain_fun sqrtF LOG_TWO_PI rand
        uninit est_iter build_taylor taylor_uninit R num_draws param_vecs
        grad_vecs grad_evals
      = { return_code := SOFTWARE, lp_ratio := [], samples := [],
          lp_calls :=
            (elbo_search est_iter build_taylor (diff_cols grad_vecs).length 0
              { best_E := -1, elbo_best := elbo_est_default,
                taylor_approx_best := taylor_uninit,
                num_evals := grad_evals }).num_evals } := by
    intro hno
    unfold search_and_draw
    simp only []
    rw [if_pos (hnone hno)]
  have hB : (∃ t, t < (diff_cols grad_vecs).length ∧ ∃ e,
      est_iter t = .ok e ∧ Dbl.gt e.elbo Dbl.ninf = true) →
      ∃ b e, b < (diff_cols grad_vecs).length ∧ est_iter b = .ok e ∧
        search_and_draw OK SOFTWARE lp_fun constrain_fun sqrtF LOG_TWO_PI rand
          uninit est_iter build_taylor taylor_uninit R num_draws param_vecs
          grad_vecs grad_evals
        = final_assembly OK lp_fun constrain_fun sqrtF LOG_TWO_PI rand uninit
            (build_taylor b)
            ((alpha_cascade (param_vecs.getD 0 []).length (diff_cols grad_vecs)
              (diff_cols param_vecs)).getD b [])
            R e num_draws
            (elbo_search est_iter build_taylor (diff_cols grad_vecs).length 0
              { best_E := -1, elbo_best := elbo_est_default,
                taylor_approx_best := taylor_uninit,
                num_evals := grad_evals }).num_evals := by
    intro hex
    obtain ⟨b, hb, h2, h3, h4⟩ := hsome hex
    refine ⟨b, _, hb, h3, ?_⟩
    unfold search_and_draw
    simp only []
    rw [if_neg (by rw [h2]; omega), h2, h4]
    rfl
  refine ⟨?_, ?_, ?_⟩
  · intro hno
    rw [hA hno]
    exact ⟨rfl, rfl, rfl⟩
  · intro hex
    obtain ⟨b, e, hb, he, heq⟩ := hB hex
    refine ⟨?_, b, e, hb, he, heq⟩
    rw [heq]
    exact final_assembly_return_code _ _ _ _ _ _ _ _ _ _ _ _ _
  · intro hne
    constructor
    · intro hret
      by_contra hcon
      have hex : ∃ t, t < (diff_cols grad_vecs).length ∧ ∃ e,
          est_iter t = .ok e ∧ Dbl.gt e.elbo Dbl.ninf = true := by
        by_contra hno
        apply hcon
        intro t ht e he
        cases hg : Dbl.gt e.elbo Dbl.ninf with
        | false => rfl
        | true => exact absurd ⟨t, ht, e, he, hg⟩ hno
      obtain ⟨b, e, _, _, heq⟩ := hB hex
      rw [heq, final_assembly_return_code] at hret
      exact hne hret
    · intro hno
      rw [hA hno]

/-- C20 (counterexample): a history of two points and one iteration whose
estimation returns (with ELBO `-inf`): an estimation succeeded, yet the single
path returns `SOFTWARE` with empty draws. -/
theorem search_and_draw_counterexample :
    demo_est_iter 0 = .ok demo_block_degenerate ∧
    search_and_draw 0 70 demo_lp_zero id id 2 demo_rand (fun _ => Dbl.nan)
      demo_est_iter (fun _ => demo_taylor_degenerate) demo_taylor 0 1
      [[0], [1]] [[1], [0]] 3
    = { return_code := 70, lp_ratio := [], samples := [], lp_calls := 4 } := by
  refine ⟨demo_est_iter_eq 0, ?_⟩
  simp [search_and_draw, diff_cols, elbo_search, elbo_search_step,
    demo_est_iter_eq, demo_block_degenerate, elbo_est_default, Dbl.gt, vsub]

/-! ## Claims about the Taylor approximation builder -/

namespace Sized

/-- C12: for a window of `m` history rows of dimension `d`,
`construct_taylor_approximation` returns the dense construction, with
`use_full = true`, if and only if `2 * m >= d`, and the sparse one, with
`use_full = false`, otherwise; at `2 * m = d` the dense form is chosen. -/
theorem construct_taylor_approximation_use_full {K : Type}
    [LinearOrderedField K] {m d : Nat} (sqrtF logF : K → K)
    (llt : (n : Nat) → Matrix (Fin n) (Fin n) K → Matrix (Fin n) (Fin n) K)
    (qr : Matrix (Fin d) (Fin m ⊕ Fin m) K →
      Matrix (Fin d) (Fin d) K × Matrix (Fin d) (Fin m ⊕ Fin m) K)
    (Ykt_mat : Matrix (Fin m) (Fin d) K) (alpha : Fin d → K) (Dk : Fin m → K)
    (ninvRST : Matrix (Fin m) (Fin d) K) (point_est grad_est : Fin d → K) :
    ((construct_taylor_approximation sqrtF logF llt qr Ykt_mat alpha Dk ninvRST
        point_est grad_est).use_full = true ↔ d ≤ 2 * m) ∧
    ((construct_taylor_approximation sqrtF logF llt qr Ykt_mat alpha Dk ninvRST
        point_est grad_est).use_full = false ↔ 2 * m < d) ∧
    (d ≤ 2 * m →
      construct_taylor_approximation sqrtF logF llt qr Ykt_mat alpha Dk ninvRST
        point_est grad_est
      = construct_taylor_approximation_full sqrtF logF llt Ykt_mat alpha Dk
          ninvRST point_est grad_est) ∧
    (2 * m < d →
      construct_taylor_approximation sqrtF logF llt qr Ykt_mat alpha Dk ninvRST
        point_est grad_est
      = construct_taylor_approximation_sparse sqrtF logF llt qr Ykt_mat alpha Dk
          ninvRST point_est grad_est) ∧
    (2 * m = d →
      (construct_taylor_approximation sqrtF logF llt qr Ykt_mat alpha Dk ninvRST
        point_est grad_est).use_full = true) := by
  have hfull : d ≤ 2 * m →
      construct_taylor_approximation sqrtF logF llt qr Ykt_mat alpha Dk ninvRST
        point_est grad_est
      = construct_taylor_approximation_full sqrtF logF llt Ykt_mat alpha Dk
          ninvRST point_est grad_est := by
    intro h
    unfold construct_taylor_approximation
    rw [if_pos h]
  have hsparse : 2 * m < d →
      construct_taylor_approximation sqrtF logF llt qr Ykt_mat alpha Dk ninvRST
        point_est grad_est
      = construct_taylor_approximation_sparse sqrtF logF llt qr Ykt_mat alpha Dk
          ninvRST point_est grad_est := by
    intro h
    unfold construct_taylor_approximation
    rw [if_neg (by omega)]
  have h1 : d ≤ 2 * m →
      (construct_taylor_approximation sqrtF logF llt qr Ykt_mat alpha Dk ninvRST
        point_est grad_est).use_full = true := by
    intro h; rw [hfull h]; rfl
  have h2 : 2 * m < d →
      (construct_taylor_approximation sqrtF logF llt qr Ykt_mat alpha Dk ninvRST
        point_est grad_est).use_full = false := by
    intro h; rw [hsparse h]; rfl
  refine ⟨⟨?_, h1⟩, ⟨?_, h2⟩, hfull, hsparse, fun h => h1 (by omega)⟩
  · intro h
    by_contra hc
    rw [h2 (by omega)] at h
    exact Bool.noConfusion h
  · intro h
    by_contra hc
    rw [h1 (by omega)] at h
    exact Bool.noConfusion h

theorem times_diagonal_eq {K : Type} [Field K] {m d : Nat}
    (Y : Matrix (Fin m) (Fin d) K) (a : Fin d → K) :
    std_vec_matrix_times_diagonal Y a = Y * Matrix.diagonal a := by
  ext i j
  simp [std_vec_matrix_times_diagonal, Matrix.mul_diagonal]

theorem crossprod_vector_eq {K : Type} [Field K] {m d : Nat}
    (Y : Matrix (Fin m) (Fin d) K) (x : Fin m → K) :
    std_vec_matrix_crossprod_vector Y x = Y.transpose.mulVec x := by
  ext j
  simp [std_vec_matrix_crossprod_vector, Matrix.mulVec, Matrix.dotProduct]

theorem mul_vector_eq {K : Type} [Field K] {m d : Nat}
    (Y : Matrix (Fin m) (Fin d) K) (a : Fin d → K) :
    std_vec_matrix_mul_vector Y a = Y.mulVec a := by
  ext i
  simp [std_vec_matrix_mul_vector, Matrix.mulVec, Matrix.dotProduct]

/-- The product of the dense matrix `Hk` with a vector, term by term. -/
theorem full_Hk_mulVec {K : Type} [Field K] {m d : Nat} (sqrtF : K → K)
    (Y : Matrix (Fin m) (Fin d) K) (alpha : Fin d → K) (Dk : Fin m → K)
    (N : Matrix (Fin m) (Fin d) K) (g : Fin d → K) :
    (full_Hk sqrtF Y alpha Dk N).mulVec g
      = (fun j => alpha j * g j)
        + (fun j => alpha j * std_vec_matrix_crossprod_vector Y (N.mulVec g) j)
        + crossprod_vector N
            (std_vec_matrix_mul_vector Y (fun j => alpha j * g j))
        + crossprod_vector N
            ((y_tcrossprod_alpha sqrtF Y alpha Dk).mulVec (N.mulVec g)) := by
  have h1 : (crossprod (std_vec_matrix_times_diagonal Y alpha) N).mulVec g
      = fun j => alpha j * std_vec_matrix_crossprod_vector Y (N.mulVec g) j := by
    rw [crossprod, times_diagonal_eq, Matrix.transpose_mul,
      Matrix.diagonal_transpose, ← Matrix.mulVec_mulVec, ← Matrix.mulVec_mulVec,
      crossprod_vector_eq]
    ext j
    rw [Matrix.mulVec_diagonal]
  have h2 : (crossprod N (std_vec_matrix_times_diagonal Y alpha)).mulVec g
      = crossprod_vector N
          (std_vec_matrix_mul_vector Y (fun j => alpha j * g j)) := by
    have hd : (Matrix.diagonal alpha).mulVec g = fun j => alpha j * g j := by
      ext j
      rw [Matrix.mulVec_diagonal]
    rw [crossprod, crossprod_vector, times_diagonal_eq, ← Matrix.mulVec_mulVec,
      ← Matrix.mulVec_mulVec, mul_vector_eq, hd]
  have h3 : (crossprod N (y_tcrossprod_alpha sqrtF Y alpha Dk * N)).mulVec g
      = crossprod_vector N
          ((y_tcrossprod_alpha sqrtF Y alpha Dk).mulVec (N.mulVec g)) := by
    rw [crossprod, crossprod_vector, ← Matrix.mulVec_mulVec,
      ← Matrix.mulVec_mulVec]
  have h4 : (Matrix.diagonal alpha).mulVec g = fun j => alpha j * g j := by
    ext j
    rw [Matrix.mulVec_diagonal]
  unfold full_Hk
  simp only [Matrix.add_mulVec, h1, h2, h3, h4]
  abel

/-- C15: on the same history window, `alpha`, `Dk`, `ninvRST`, point and
gradient, `construct_taylor_approximation_full` and
`construct_taylor_approximation_sparse` return the same `x_center`: the
dense one is `x - Hk.g` and the sparse one is
`x - [alpha*g + alpha*(Y'.ninvRST.g) + ninvRST'.(Y.(alpha*g))
+ ninvRST'.(y_tcrossprod_alpha.ninvRST.g)]`, which are equal. -/
theorem taylor_x_center_eq {K : Type} [LinearOrderedField K] {m d : Nat}
    (sqrtF logF : K → K)
    (llt : (n : Nat) → Matrix (Fin n) (Fin n) K → Matrix (Fin n) (Fin n) K)
    (qr : Matrix (Fin d) (Fin m ⊕ Fin m) K →
      Matrix (Fin d) (Fin d) K × Matrix (Fin d) (Fin m ⊕ Fin m) K)
    (Ykt_mat : Matrix (Fin m) (Fin d) K) (alpha : Fin d → K) (Dk : Fin m → K)
    (ninvRST : Matrix (Fin m) (Fin d) K) (point_est grad_est : Fin d → K) :
    (construct_taylor_approximation_full sqrtF logF llt Ykt_mat alpha Dk ninvRST
        point_est grad_est).x_center
      = point_est - (full_Hk sqrtF Ykt_mat alpha Dk ninvRST).mulVec grad_est ∧
    (construct_taylor_approximation_sparse sqrtF logF llt qr Ykt_mat alpha Dk
        ninvRST point_est grad_est).x_center
      = point_est
        - ((fun j => alpha j * grad_est j)
          + (fun j => alpha j *
              (Ykt_mat.transpose.mulVec (ninvRST.mulVec grad_est)) j)
          + ninvRST.transpose.mulVec
              (Ykt_mat.mulVec (fun j => alpha j * grad_est j))
          + ninvRST.transpose.mulVec
              ((Ykt_mat * Matrix.diagonal (fun j => sqrtF (alpha j))
                  * (Ykt_mat * Matrix.diagonal
                      (fun j => sqrtF (alpha j))).transpose
                  + Matrix.diagonal Dk).mulVec (ninvRST.mulVec grad_est))) ∧
    (construct_taylor_approximation_full sqrtF logF llt Ykt_mat alpha Dk ninvRST
        point_est grad_est).x_center
      = (construct_taylor_approximation_sparse sqrtF logF llt qr Ykt_mat alpha
          Dk ninvRST point_est grad_est).x_center := by
  refine ⟨rfl, ?_, ?_⟩
  · simp only [construct_taylor_approximation_sparse, taylor_approx_t.x_center,
      crossprod_vector_eq, mul_vector_eq, crossprod_vector, y_tcrossprod_alpha,
      tcrossprod, times_diagonal_eq]
  · simp only [construct_taylor_approximation_full,
      construct_taylor_approximation_sparse, taylor_approx_t.x_center]
    rw [full_Hk_mulVec]

/-- The dense matrix `Hk` is `diag(sqrt(alpha)) * (I + W * Mkbar * W') *
diag(sqrt(alpha))` with `W = Wkbart'`, when `sqrtF` squares to `alpha` and
`sqrtF(alpha) * sqrtF(1 / alpha) = 1`. -/
theorem full_Hk_eq_scaled {K : Type} [Field K] {m d : Nat} (sqrtF : K → K)
    (Y : Matrix (Fin m) (Fin d) K) (alpha : Fin d → K) (Dk : Fin m → K)
    (N : Matrix (Fin m) (Fin d) K)
    (hsq : ∀ j, sqrtF (alpha j) * sqrtF (alpha j) = alpha j)
    (hinv : ∀ j, sqrtF (alpha j) * sqrtF (alpha j)⁻¹ = 1) :
    full_Hk sqrtF Y alpha Dk N
      = Matrix.diagonal (fun j => sqrtF (alpha j))
        * (1 + (sparse_Wkbart sqrtF Y alpha N).transpose
              * sparse_Mkbar sqrtF Y alpha Dk
              * sparse_Wkbart sqrtF Y alpha N)
        * Matrix.diagonal (fun j => sqrtF (alpha j)) := by
  have hinv2 : ∀ j, sqrtF (alpha j)⁻¹ * sqrtF (alpha j) = 1 :=
    fun j => by rw [mul_comm]; exact hinv j
  have hD11 : Matrix.diagonal (fun j => sqrtF (alpha j))
      * Matrix.diagonal (fun j => sqrtF (alpha j)) = Matrix.diagonal alpha := by
    rw [Matrix.diagonal_mul_diagonal]
    simp only [hsq]
  have hD12 : Matrix.diagonal (fun j => sqrtF (alpha j))
      * Matrix.diagonal (fun j => sqrtF (alpha j)⁻¹) = 1 := by
    rw [Matrix.diagonal_mul_diagonal]
    simp only [hinv]
    exact Matrix.diagonal_one
  have hD21 : Matrix.diagonal (fun j => sqrtF (alpha j)⁻¹)
      * Matrix.diagonal (fun j => sqrtF (alpha j)) = 1 := by
    rw [Matrix.diagonal_mul_diagonal]
    simp only [hinv2]
    exact Matrix.diagonal_one
  generalize hytc : y_tcrossprod_alpha sqrtF Y alpha Dk = ytc
  unfold full_Hk sparse_Wkbart sparse_Mkbar
  simp only [hytc, times_diagonal_eq, crossprod]
  rw [Matrix.transpose_fromRows, Matrix.fromColumns_mul_fromBlocks,
    Matrix.fromColumns_mul_fromRows]
  simp only [Matrix.mul_zero, Matrix.mul_one, zero_add, Matrix.transpose_mul,
    Matrix.diagonal_transpose]
  generalize Matrix.diagonal (fun j => sqrtF (alpha j)) = D1 at hD11 hD12 hD21
  generalize Matrix.diagonal (fun j => sqrtF (alpha j)⁻¹) = D2 at hD12 hD21
  rw [← hD11]
  have e1 : D1 * (D2 * N.transpose * (Y * D1)) * D1
      = N.transpose * (Y * (D1 * D1)) := by
    calc D1 * (D2 * N.transpose * (Y * D1)) * D1
        = (D1 * D2) * N.transpose * (Y * (D1 * D1)) := by
          simp only [Matrix.mul_assoc]
      _ = N.transpose * (Y * (D1 * D1)) := by rw [hD12, Matrix.one_mul]
  have e2 : D1 * (D1 * Y.transpose * (N * D2)) * D1
      = (D1 * D1) * Y.transpose * N := by
    calc D1 * (D1 * Y.transpose * (N * D2)) * D1
        = (D1 * D1) * Y.transpose * N * (D2 * D1) := by
          simp only [Matrix.mul_assoc]
      _ = (D1 * D1) * Y.transpose * N := by rw [hD21, Matrix.mul_one]
  have e3 : D1 * (D2 * N.transpose * ytc * (N * D2)) * D1
      = N.transpose * (ytc * N) := by
    calc D1 * (D2 * N.transpose * ytc * (N * D2)) * D1
        = (D1 * D2) * N.transpose * (ytc * N) * (D2 * D1) := by
          simp only [Matrix.mul_assoc]
      _ = N.transpose * (ytc * N) := by
          rw [hD12, hD21, Matrix.one_mul, Matrix.mul_one]
  simp only [Matrix.mul_add, Matrix.add_mul, Matrix.mul_one, e1, e2, e3]
  abel

/-- With a thin factorisation `W = Qk * Rk` whose `Qk` has orthonormal
columns, `I + W * M * W'` is `Qk * (Rk * M * Rk' + I) * Qk' + (I - Qk * Qk')`
and has the determinant of `Rk * M * Rk' + I`. -/
theorem thin_qr_core {K : Type} [Field K] {d k : Nat} {c : Type} [Fintype c]
    [DecidableEq c] (W : Matrix (Fin d) c K) (M : Matrix c c K)
    (Qk : Matrix (Fin d) (Fin k) K) (Rk : Matrix (Fin k) c K)
    (hQR : W = Qk * Rk) (hQ : Qk.transpose * Qk = 1) :
    1 + W * M * W.transpose
      = Qk * (Rk * M * Rk.transpose + 1) * Qk.transpose
        + (1 - Qk * Qk.transpose) ∧
    (1 + W * M * W.transpose).det = (Rk * M * Rk.transpose + 1).det := by
  refine ⟨?_, ?_⟩
  · rw [hQR, Matrix.transpose_mul]
    simp only [Matrix.mul_add, Matrix.add_mul, Matrix.mul_one, Matrix.mul_assoc]
    abel
  · have h1 : 1 + W * M * W.transpose
        = 1 + Qk * (Rk * M * Rk.transpose * Qk.transpose) := by
      rw [hQR, Matrix.transpose_mul]
      simp only [Matrix.mul_assoc]
    rw [h1, Matrix.det_one_add_mul_comm]
    have h2 : Rk * M * Rk.transpose * Qk.transpose * Qk = Rk * M * Rk.transpose := by
      rw [Matrix.mul_assoc (Rk * M * Rk.transpose), hQ, Matrix.mul_one]
    rw [h2, add_comm]

/-- The determinant identity behind the two log determinants. -/
theorem full_Hk_det {K : Type} [Field K] {m d k : Nat} (sqrtF : K → K)
    (Y : Matrix (Fin m) (Fin d) K) (alpha : Fin d → K) (Dk : Fin m → K)
    (N : Matrix (Fin m) (Fin d) K) (Qk : Matrix (Fin d) (Fin k) K)
    (Rk : Matrix (Fin k) (Fin m ⊕ Fin m) K)
    (hsq : ∀ j, sqrtF (alpha j) * sqrtF (alpha j) = alpha j)
    (hinv : ∀ j, sqrtF (alpha j) * sqrtF (alpha j)⁻¹ = 1)
    (hQR : (sparse_Wkbart sqrtF Y alpha N).transpose = Qk * Rk)
    (hQ : Qk.transpose * Qk = 1) :
    (full_Hk sqrtF Y alpha Dk N).det
      = (Matrix.diagonal alpha).det
        * (Rk * sparse_Mkbar sqrtF Y alpha Dk * Rk.transpose + 1).det := by
  have hW := (thin_qr_core (sparse_Wkbart sqrtF Y alpha N).transpose
    (sparse_Mkbar sqrtF Y alpha Dk) Qk Rk hQR hQ).2
  rw [Matrix.transpose_transpose] at hW
  rw [full_Hk_eq_scaled sqrtF Y alpha Dk N hsq hinv, Matrix.det_mul,
    Matrix.det_mul, hW, Matrix.det_diagonal, Matrix.det_diagonal]
  have hprod : (∏ j, sqrtF (alpha j)) * (∏ j, sqrtF (alpha j)) = ∏ j, alpha j := by
    rw [← Finset.prod_mul_distrib]
    exact Finset.prod_congr rfl (fun j _ => hsq j)
  rw [← hprod]
  ring

theorem log_prod {K : Type} [LinearOrderedField K] {ι : Type} (logF : K → K)
    (hlog : ∀ a b, 0 < a → 0 < b → logF (a * b) = logF a + logF b)
    (s : Finset ι) (f : ι → K) (hf : ∀ i ∈ s, 0 < f i) :
    logF (∏ i in s, f i) = ∑ i in s, logF (f i) := by
  classical
  have h1 : logF 1 = 0 := by
    have := hlog 1 1 one_pos one_pos
    rw [mul_one] at this
    linarith
  induction s using Finset.induction_on with
  | empty => simpa using h1
  | insert hi ih =>
    rename_i i s
    rw [Finset.prod_insert hi, Finset.sum_insert hi,
      hlog _ _ (hf i (Finset.mem_insert_self i s))
        (Finset.prod_pos (fun j hj => hf j (Finset.mem_insert_of_mem hj))),
      ih (fun j hj => hf j (Finset.mem_insert_of_mem hj))]

/-- The determinant of `L * L'` for a lower triangular `L`. -/
theorem det_llt {K : Type} [Field K] {n : Nat} (L X : Matrix (Fin n) (Fin n) K)
    (hX : L * L.transpose = X) (hlow : ∀ i j, i < j → L i j = 0) :
    X.det = (∏ i, L i i) * (∏ i, L i i) := by
  have hdet : L.det = ∏ i, L i i := by
    apply Matrix.det_of_lowerTriangular
    intro i j hij
    exact hlow i j hij
  rw [← hX, Matrix.det_mul, Matrix.det_transpose, hdet]

theorem sqrt_mul_sqrt_inv {K : Type} [LinearOrderedField K] (a sa sia : K)
    (ha : 0 < a) (h1 : 0 ≤ sa) (h2 : sa * sa = a) (h3 : 0 ≤ sia)
    (h4 : sia * sia = a⁻¹) : sa * sia = 1 := by
  have hsq : (sa * sia) * (sa * sia) = 1 := by
    calc (sa * sia) * (sa * sia) = (sa * sa) * (sia * sia) := by ring
      _ = a * a⁻¹ := by rw [h2, h4]
      _ = 1 := mul_inv_cancel₀ (ne_of_gt ha)
  have hnn : 0 ≤ sa * sia := mul_nonneg h1 h3
  have hfac : (sa * sia - 1) * (sa * sia + 1) = 0 := by
    have : (sa * sia - 1) * (sa * sia + 1) = (sa * sia) * (sa * sia) - 1 := by ring
    rw [this, hsq, sub_self]
  rcases mul_eq_zero.1 hfac with h | h
  · linarith
  · linarith

/-- C16: for `alpha > 0`, a square root that is exact on `alpha` and
`1 / alpha`, a logarithm that turns products of positive numbers into sums, a
thin factorisation `Wk = Qk * Rk` with orthonormal `Qk`, and Cholesky factors
(lower triangular, positive diagonal) of `Hk` and of `Rk * Mk * Rk' + I`, the
dense and the sparse construction return the same `logdetcholHk`, and
`det(Hk) = det(diag(alpha)) * det(Rk * Mk * Rk' + I)`. -/
theorem taylor_logdet_eq {K : Type} [LinearOrderedField K] {m d : Nat}
    (sqrtF logF : K → K)
    (llt : (n : Nat) → Matrix (Fin n) (Fin n) K → Matrix (Fin n) (Fin n) K)
    (qr : Matrix (Fin d) (Fin m ⊕ Fin m) K →
      Matrix (Fin d) (Fin d) K × Matrix (Fin d) (Fin m ⊕ Fin m) K)
    (Ykt_mat : Matrix (Fin m) (Fin d) K) (alpha : Fin d → K) (Dk : Fin m → K)
    (ninvRST : Matrix (Fin m) (Fin d) K) (point_est grad_est : Fin d → K)
    (halpha : ∀ j, 0 < alpha j)
    (hsqrt : ∀ j, 0 ≤ sqrtF (alpha j) ∧
      sqrtF (alpha j) * sqrtF (alpha j) = alpha j ∧
      0 ≤ sqrtF (alpha j)⁻¹ ∧
      sqrtF (alpha j)⁻¹ * sqrtF (alpha j)⁻¹ = (alpha j)⁻¹)
    (hlog : ∀ a b, 0 < a → 0 < b → logF (a * b) = logF a + logF b)
    (hQR : (sparse_Wkbart sqrtF Ykt_mat alpha ninvRST).transpose
      = sparse_Qk (qr (sparse_Wkbart sqrtF Ykt_mat alpha ninvRST).transpose).1
        * sparse_Rkbar
            (qr (sparse_Wkbart sqrtF Ykt_mat alpha ninvRST).transpose).2)
    (hQ : (sparse_Qk (m := m)
        (qr (sparse_Wkbart sqrtF Ykt_mat alpha ninvRST).transpose).1).transpose
      * sparse_Qk (m := m)
          (qr (sparse_Wkbart sqrtF Ykt_mat alpha ninvRST).transpose).1
      = 1)
    (hfull : llt d (full_Hk sqrtF Ykt_mat alpha Dk ninvRST)
        * (llt d (full_Hk sqrtF Ykt_mat alpha Dk ninvRST)).transpose
      = full_Hk sqrtF Ykt_mat alpha Dk ninvRST)
    (hfull_low : ∀ i j, i < j →
      llt d (full_Hk sqrtF Ykt_mat alpha Dk ninvRST) i j = 0)
    (hfull_pos : ∀ i, 0 < llt d (full_Hk sqrtF Ykt_mat alpha Dk ninvRST) i i)
    (hsparse : llt (min d (2 * m))
          (sparse_core sqrtF qr Ykt_mat alpha Dk ninvRST)
        * (llt (min d (2 * m))
            (sparse_core sqrtF qr Ykt_mat alpha Dk ninvRST)).transpose
      = sparse_core sqrtF qr Ykt_mat alpha Dk ninvRST)
    (hsparse_low : ∀ i j, i < j →
      llt (min d (2 * m)) (sparse_core sqrtF qr Ykt_mat alpha Dk ninvRST) i j = 0)
    (hsparse_pos : ∀ i,
      0 < llt (min d (2 * m))
        (sparse_core sqrtF qr Ykt_mat alpha Dk ninvRST) i i) :
    (construct_taylor_approximation_full sqrtF logF llt Ykt_mat alpha Dk ninvRST
        point_est grad_est).logdetcholHk
      = (construct_taylor_approximation_sparse sqrtF logF llt qr Ykt_mat alpha
          Dk ninvRST point_est grad_est).logdetcholHk ∧
    (full_Hk sqrtF Ykt_mat alpha Dk ninvRST).det
      = (Matrix.diagonal alpha).det
        * (sparse_core sqrtF qr Ykt_mat alpha Dk ninvRST).det := by
  have hsq : ∀ j, sqrtF (alpha j) * sqrtF (alpha j) = alpha j :=
    fun j => (hsqrt j).2.1
  have hinv : ∀ j, sqrtF (alpha j) * sqrtF (alpha j)⁻¹ = 1 := fun j =>
    sqrt_mul_sqrt_inv (alpha j) _ _ (halpha j) (hsqrt j).1 (hsqrt j).2.1
      (hsqrt j).2.2.1 (hsqrt j).2.2.2
  have hdet := full_Hk_det sqrtF Ykt_mat alpha Dk ninvRST _ _ hsq hinv hQR hQ
  have hdet2 : (full_Hk sqrtF Ykt_mat alpha Dk ninvRST).det
      = (Matrix.diagonal alpha).det
        * (sparse_core sqrtF qr Ykt_mat alpha Dk ninvRST).det := hdet
  refine ⟨?_, hdet2⟩
  have hP := det_llt _ _ hfull hfull_low
  have hP2 := det_llt _ _ hsparse hsparse_low
  rw [hP, hP2, Matrix.det_diagonal] at hdet2
  have hPpos : 0 < ∏ i, llt d (full_Hk sqrtF Ykt_mat alpha Dk ninvRST) i i :=
    Finset.prod_pos (fun i _ => hfull_pos i)
  have hP2pos : 0 < ∏ i, llt (min d (2 * m))
      (sparse_core sqrtF qr Ykt_mat alpha Dk ninvRST) i i :=
    Finset.prod_pos (fun i _ => hsparse_pos i)
  have hApos : 0 < ∏ j, alpha j := Finset.prod_pos (fun j _ => halpha j)
  have hlogeq := congrArg logF hdet2
  rw [hlog _ _ hPpos hPpos, hlog _ _ hApos (mul_pos hP2pos hP2pos),
    hlog _ _ hP2pos hP2pos,
    log_prod logF hlog _ _ (fun i _ => hfull_pos i),
    log_prod logF hlog _ _ (fun i _ => hsparse_pos i),
    log_prod logF hlog _ _ (fun j _ => halpha j)] at hlogeq
  simp only [construct_taylor_approximation_full,
    construct_taylor_approximation_sparse, taylor_approx_t.logdetcholHk,
    Matrix.transpose_apply]
  have e1 : ∀ i, |llt d (full_Hk sqrtF Ykt_mat alpha Dk ninvRST) i i|
      = llt d (full_Hk sqrtF Ykt_mat alpha Dk ninvRST) i i :=
    fun i => abs_of_pos (hfull_pos i)
  have e2 : ∀ i, |llt (min d (2 * m))
        (sparse_core sqrtF qr Ykt_mat alpha Dk ninvRST) i i|
      = llt (min d (2 * m))
        (sparse_core sqrtF qr Ykt_mat alpha Dk ninvRST) i i :=
    fun i => abs_of_pos (hsparse_pos i)
  simp only [e1, e2]
  linarith

theorem demo_log_mul (a b : ℚ) (ha : 0 < a) (hb : 0 < b) :
    demo_log (a * b) = demo_log a + demo_log b := by
  unfold demo_log
  rw [padicValRat.mul ha.ne.symm hb.ne.symm]
  push_cast
  rfl

theorem fin_min_one_eq (x : Fin (min 1 (2 * 1))) : x = ⟨0, by decide⟩ :=
  Fin.ext (by have := x.isLt; simp at this; simp)

theorem sum_fin_min_one (f : Fin (min 1 (2 * 1)) → ℚ) :
    ∑ x, f x = f ⟨0, by decide⟩ := by
  show ∑ x : Fin 1, f x = _
  simp

theorem demo_full_Hk :
    full_Hk demo_sqrt demo_Y demo_alpha demo_Dk demo_N = fun _ _ => 4 := by
  ext i j
  have hi : i = 0 := Subsingleton.elim _ _
  have hj : j = 0 := Subsingleton.elim _ _
  subst hi hj
  simp [full_Hk, crossprod, y_tcrossprod_alpha, tcrossprod,
    std_vec_matrix_times_diagonal, demo_sqrt, demo_Y, demo_alpha, demo_Dk,
    demo_N, Matrix.mul_apply, Matrix.add_apply]
  norm_num

theorem demo_sparse_core :
    sparse_core demo_sqrt demo_qr demo_Y demo_alpha demo_Dk demo_N
      = fun _ _ => 1 := by
  ext i j
  rw [fin_min_one_eq i, fin_min_one_eq j]
  simp [sparse_core, sparse_Rkbar, sparse_Mkbar, sparse_Wkbart,
    y_tcrossprod_alpha, tcrossprod, block_index,
    std_vec_matrix_times_diagonal, demo_sqrt, demo_Y, demo_alpha, demo_Dk,
    demo_N, demo_qr, Matrix.mul_apply, Matrix.add_apply]
  norm_num

theorem demo_sqrt_exact (j : Fin 1) :
    demo_sqrt (demo_alpha j) * demo_sqrt (demo_alpha j) = demo_alpha j ∧
    demo_sqrt (demo_alpha j) * demo_sqrt (demo_alpha j)⁻¹ = 1 := by
  simp [demo_alpha, demo_sqrt]
  norm_num

theorem demo_qr_valid :
    (sparse_Wkbart demo_sqrt demo_Y demo_alpha demo_N).transpose
      = sparse_Qk (m := 1)
          (demo_qr (sparse_Wkbart demo_sqrt demo_Y demo_alpha demo_N).transpose).1
        * sparse_Rkbar
          (demo_qr (sparse_Wkbart demo_sqrt demo_Y demo_alpha demo_N).transpose).2 := by
  ext i c
  have hi : i = 0 := Subsingleton.elim _ _
  subst hi
  rw [Matrix.mul_apply, sum_fin_min_one]
  simp [sparse_Qk, sparse_Rkbar, demo_qr]

theorem demo_Qk_orthonormal :
    (sparse_Qk (m := 1)
        (demo_qr (sparse_Wkbart demo_sqrt demo_Y demo_alpha demo_N).transpose).1).transpose
      * sparse_Qk (m := 1)
          (demo_qr (sparse_Wkbart demo_sqrt demo_Y demo_alpha demo_N).transpose).1
      = (1 : Matrix (Fin (min 1 (2 * 1))) (Fin (min 1 (2 * 1))) ℚ) := by
  ext i j
  rw [fin_min_one_eq i, fin_min_one_eq j]
  simp [sparse_Qk, demo_qr, Matrix.mul_apply, Matrix.one_apply]

theorem demo_llt_full :
    demo_llt 1 (full_Hk demo_sqrt demo_Y demo_alpha demo_Dk demo_N)
        * (demo_llt 1
            (full_Hk demo_sqrt demo_Y demo_alpha demo_Dk demo_N)).transpose
      = full_Hk demo_sqrt demo_Y demo_alpha demo_Dk demo_N := by
  rw [demo_full_Hk]
  ext i j
  have hi : i = 0 := Subsingleton.elim _ _
  have hj : j = 0 := Subsingleton.elim _ _
  subst hi hj
  simp [demo_llt, demo_sqrt, Matrix.mul_apply]
  norm_num

theorem demo_llt_sparse :
    demo_llt (min 1 (2 * 1))
          (sparse_core demo_sqrt demo_qr demo_Y demo_alpha demo_Dk demo_N)
        * (demo_llt (min 1 (2 * 1))
            (sparse_core demo_sqrt demo_qr demo_Y demo_alpha demo_Dk
              demo_N)).transpose
      = sparse_core demo_sqrt demo_qr demo_Y demo_alpha demo_Dk demo_N := by
  rw [demo_sparse_core]
  ext i j
  rw [fin_min_one_eq i, fin_min_one_eq j, Matrix.mul_apply, sum_fin_min_one]
  simp [demo_llt, demo_sqrt]

/-- Witness of C16 on the window `Ykt = 1`, `Skt = 4`, `alpha = 4`: both
constructions return the logarithm of 2. -/
theorem taylor_logdet_eq_witness :
    (construct_taylor_approximation_full demo_sqrt demo_log demo_llt demo_Y
        demo_alpha demo_Dk demo_N 0 0).logdetcholHk
      = (construct_taylor_approximation_sparse demo_sqrt demo_log demo_llt
          demo_qr demo_Y demo_alpha demo_Dk demo_N 0 0).logdetcholHk ∧
    (full_Hk demo_sqrt demo_Y demo_alpha demo_Dk demo_N).det
      = (Matrix.diagonal demo_alpha).det
        * (sparse_core demo_sqrt demo_qr demo_Y demo_alpha demo_Dk demo_N).det :=
  taylor_logdet_eq demo_sqrt demo_log demo_llt demo_qr demo_Y demo_alpha
    demo_Dk demo_N 0 0
    (fun _ => by simp [demo_alpha])
    (fun _ => by simp [demo_alpha, demo_sqrt]; norm_num)
    demo_log_mul demo_qr_valid demo_Qk_orthonormal demo_llt_full
    (fun i j h => by simp [demo_llt, ne_of_lt h])
    (fun i => by rw [demo_full_Hk]; simp [demo_llt, demo_sqrt])
    demo_llt_sparse
    (fun i j h => by simp [demo_llt, ne_of_lt h])
    (fun i => by rw [demo_sparse_core]; simp [demo_llt, demo_sqrt])

theorem projector_sandwich {K : Type} [Field K] {d k : Nat}
    (Q : Matrix (Fin d) (Fin k) K) (L : Matrix (Fin k) (Fin k) K)
    (hQ : Q.transpose * Q = 1) :
    (Q * L * Q.transpose + (1 - Q * Q.transpose))
        * (Q * L * Q.transpose + (1 - Q * Q.transpose)).transpose
      = Q * (L * L.transpose) * Q.transpose + (1 - Q * Q.transpose) := by
  have hQ2 : ∀ {c : Nat} (X : Matrix (Fin k) (Fin c) K),
      Q.transpose * (Q * X) = X := by
    intro c X
    rw [← Matrix.mul_assoc, hQ, Matrix.one_mul]
  simp only [Matrix.transpose_add, Matrix.transpose_sub, Matrix.transpose_mul,
    Matrix.transpose_transpose, Matrix.transpose_one, Matrix.add_mul,
    Matrix.mul_add, Matrix.sub_mul, Matrix.mul_sub, Matrix.mul_one,
    Matrix.one_mul, Matrix.mul_assoc, hQ2]
  abel

theorem sparse_linear_part_mulVec {K : Type} [Field K] {d k : Nat}
    (sqrtF : K → K) (alpha : Fin d → K) (L : Matrix (Fin k) (Fin k) K)
    (Qk : Matrix (Fin d) (Fin k) K) (u : Fin d → K) :
    (sparse_linear_part sqrtF alpha L Qk).mulVec u
      = (Matrix.diagonal (fun j => sqrtF (alpha j))).mulVec
          (Qk.mulVec (L.transpose.mulVec (Qk.transpose.mulVec u))
            + (u - Qk.mulVec (Qk.transpose.mulVec u))) := by
  unfold sparse_linear_part
  rw [← Matrix.mulVec_mulVec, Matrix.add_mulVec, Matrix.sub_mulVec,
    Matrix.one_mulVec, ← Matrix.mulVec_mulVec, ← Matrix.mulVec_mulVec,
    ← Matrix.mulVec_mulVec]

theorem sparse_linear_part_cov {K : Type} [Field K] {m d k : Nat}
    (sqrtF : K → K) (Y : Matrix (Fin m) (Fin d) K) (alpha : Fin d → K)
    (Dk : Fin m → K) (N : Matrix (Fin m) (Fin d) K)
    (Qk : Matrix (Fin d) (Fin k) K) (Rk : Matrix (Fin k) (Fin m ⊕ Fin m) K)
    (L : Matrix (Fin k) (Fin k) K)
    (hsq : ∀ j, sqrtF (alpha j) * sqrtF (alpha j) = alpha j)
    (hinv : ∀ j, sqrtF (alpha j) * sqrtF (alpha j)⁻¹ = 1)
    (hQR : (sparse_Wkbart sqrtF Y alpha N).transpose = Qk * Rk)
    (hQ : Qk.transpose * Qk = 1)
    (hL : L.transpose * L = Rk * sparse_Mkbar sqrtF Y alpha Dk * Rk.transpose + 1) :
    sparse_linear_part sqrtF alpha L Qk
        * (sparse_linear_part sqrtF alpha L Qk).transpose
      = full_Hk sqrtF Y alpha Dk N := by
  have hW := (thin_qr_core (sparse_Wkbart sqrtF Y alpha N).transpose
    (sparse_Mkbar sqrtF Y alpha Dk) Qk Rk hQR hQ).1
  rw [Matrix.transpose_transpose] at hW
  have hS := projector_sandwich Qk L.transpose hQ
  rw [Matrix.transpose_transpose, hL, ← hW] at hS
  rw [full_Hk_eq_scaled sqrtF Y alpha Dk N hsq hinv, ← hS]
  unfold sparse_linear_part
  rw [Matrix.transpose_mul, Matrix.diagonal_transpose]
  simp only [Matrix.mul_assoc]

theorem gen_draws_matrix_col {K : Type} [Field K] {d n : Nat} (sqrtF : K → K)
    (U : Matrix (Fin d) (Fin n) K) (t : taylor_approx_t K d)
    (alpha : Fin d → K) (c : Fin n) :
    (fun i => gen_draws_matrix sqrtF U t alpha i c)
      = gen_draws sqrtF (fun i => U i c) t alpha := by
  have hcol : ∀ {a b : Nat} (A : Matrix (Fin a) (Fin b) K)
      (V : Matrix (Fin b) (Fin n) K),
      (fun i => (A * V) i c) = A.mulVec (fun i => V i c) := by
    intro a b A V
    ext i
    simp [Matrix.mul_apply, Matrix.mulVec, Matrix.dotProduct]
  cases t with
  | dense x l L =>
    ext i
    have h := congrFun (hcol L.transpose U) i
    simp only [gen_draws_matrix, gen_draws, crossprod, crossprod_vector,
      Matrix.of_apply, Pi.add_apply]
    rw [← h]
  | sparse k x l L Qk =>
    ext i
    simp only [gen_draws_matrix, gen_draws, crossprod, crossprod_vector,
      Matrix.of_apply, Pi.add_apply]
    congr 1

/-- C17: `gen_draws` maps `u` to `x_center + L_approx' * u` for a dense
surrogate and to `x_center + diag(sqrt(alpha)) * (Qk * L_approx' * u1 +
(u - Qk * u1))` with `u1 = Qk' * u` for a sparse one, which is
`x_center + A * u` for the linear part `A`; the matrix overload does this to
each column.  For the sparse surrogate built from a window, with an exact
`sqrtF` on `alpha`, a thin factorisation `Wk = Qk * Rk` with orthonormal
`Qk` and a factor `L * L' = Rk * Mk * Rk' + I`, `A * A' = Hk`, the dense
matrix built from the same inputs, which is also `B * B'` for the linear part
`B = L_approx'` of the dense surrogate. -/
theorem gen_draws_linear_part {K : Type} [LinearOrderedField K] {m d : Nat}
    (sqrtF logF : K → K)
    (llt : (n : Nat) → Matrix (Fin n) (Fin n) K → Matrix (Fin n) (Fin n) K)
    (qr : Matrix (Fin d) (Fin m ⊕ Fin m) K →
      Matrix (Fin d) (Fin d) K × Matrix (Fin d) (Fin m ⊕ Fin m) K)
    (Ykt_mat : Matrix (Fin m) (Fin d) K) (alpha : Fin d → K) (Dk : Fin m → K)
    (ninvRST : Matrix (Fin m) (Fin d) K) (point_est grad_est : Fin d → K)
    (hsq : ∀ j, sqrtF (alpha j) * sqrtF (alpha j) = alpha j)
    (hinv : ∀ j, sqrtF (alpha j) * sqrtF (alpha j)⁻¹ = 1)
    (hQR : (sparse_Wkbart sqrtF Ykt_mat alpha ninvRST).transpose
      = sparse_Qk (qr (sparse_Wkbart sqrtF Ykt_mat alpha ninvRST).transpose).1
        * sparse_Rkbar
            (qr (sparse_Wkbart sqrtF Ykt_mat alpha ninvRST).transpose).2)
    (hQ : (sparse_Qk (m := m)
        (qr (sparse_Wkbart sqrtF Ykt_mat alpha ninvRST).transpose).1).transpose
      * sparse_Qk (m := m)
          (qr (sparse_Wkbart sqrtF Ykt_mat alpha ninvRST).transpose).1
      = 1)
    (hfull : llt d (full_Hk sqrtF Ykt_mat alpha Dk ninvRST)
        * (llt d (full_Hk sqrtF Ykt_mat alpha Dk ninvRST)).transpose
      = full_Hk sqrtF Ykt_mat alpha Dk ninvRST)
    (hsparse : llt (min d (2 * m))
          (sparse_core sqrtF qr Ykt_mat alpha Dk ninvRST)
        * (llt (min d (2 * m))
            (sparse_core sqrtF qr Ykt_mat alpha Dk ninvRST)).transpose
      = sparse_core sqrtF qr Ykt_mat alpha Dk ninvRST) :
    (∀ (x : Fin d → K) (l : K) (L : Matrix (Fin d) (Fin d) K) (u : Fin d → K),
      gen_draws sqrtF u (.dense x l L) alpha = x + L.transpose.mulVec u) ∧
    (∀ (k : Nat) (x : Fin d → K) (l : K) (L : Matrix (Fin k) (Fin k) K)
        (Qk : Matrix (Fin d) (Fin k) K) (u : Fin d → K),
      gen_draws sqrtF u (.sparse k x l L Qk) alpha
        = x + (Matrix.diagonal (fun j => sqrtF (alpha j))).mulVec
            (Qk.mulVec (L.transpose.mulVec (Qk.transpose.mulVec u))
              + (u - Qk.mulVec (Qk.transpose.mulVec u))) ∧
      gen_draws sqrtF u (.sparse k x l L Qk) alpha
        = x + (sparse_linear_part sqrtF alpha L Qk).mulVec u) ∧
    (∀ (n : Nat) (U : Matrix (Fin d) (Fin n) K) (t : taylor_approx_t K d)
        (c : Fin n),
      (fun i => gen_draws_matrix sqrtF U t alpha i c)
        = gen_draws sqrtF (fun i => U i c) t alpha) ∧
    (∃ x l,
      construct_taylor_approximation_sparse sqrtF logF llt qr Ykt_mat alpha Dk
          ninvRST point_est grad_est
        = .sparse (min d (2 * m)) x l
            (llt (min d (2 * m))
              (sparse_core sqrtF qr Ykt_mat alpha Dk ninvRST)).transpose
            (sparse_Qk
              (qr (sparse_Wkbart sqrtF Ykt_mat alpha ninvRST).transpose).1)) ∧
    sparse_linear_part sqrtF alpha
        (llt (min d (2 * m))
          (sparse_core sqrtF qr Ykt_mat alpha Dk ninvRST)).transpose
        (sparse_Qk (qr (sparse_Wkbart sqrtF Ykt_mat alpha ninvRST).transpose).1)
      * (sparse_linear_part sqrtF alpha
          (llt (min d (2 * m))
            (sparse_core sqrtF qr Ykt_mat alpha Dk ninvRST)).transpose
          (sparse_Qk
            (qr (sparse_Wkbart sqrtF Ykt_mat alpha ninvRST).transpose).1)).transpose
      = full_Hk sqrtF Ykt_mat alpha Dk ninvRST ∧
    (∃ x l,
      construct_taylor_approximation_full sqrtF logF llt Ykt_mat alpha Dk
          ninvRST point_est grad_est
        = .dense x l
            (llt d (full_Hk sqrtF Ykt_mat alpha Dk ninvRST)).transpose) ∧
    (llt d (full_Hk sqrtF Ykt_mat alpha Dk ninvRST)).transpose.transpose
      * ((llt d (full_Hk sqrtF Ykt_mat alpha Dk ninvRST)).transpose.transpose).transpose
      = full_Hk sqrtF Ykt_mat alpha Dk ninvRST := by
  refine ⟨?_, ?_, ?_, ⟨_, _, rfl⟩, ?_, ⟨_, _, rfl⟩, ?_⟩
  · intro x l L u
    simp only [gen_draws, crossprod_vector]
    exact add_comm _ _
  · intro k x l L Qk u
    have h1 : gen_draws sqrtF u (.sparse k x l L Qk) alpha
        = x + (Matrix.diagonal (fun j => sqrtF (alpha j))).mulVec
            (Qk.mulVec (L.transpose.mulVec (Qk.transpose.mulVec u))
              + (u - Qk.mulVec (Qk.transpose.mulVec u))) := by
      simp only [gen_draws, crossprod_vector]
      exact add_comm _ _
    exact ⟨h1, by rw [h1, sparse_linear_part_mulVec]⟩
  · intro n U t c
    exact gen_draws_matrix_col sqrtF U t alpha c
  · apply sparse_linear_part_cov sqrtF Ykt_mat alpha Dk ninvRST _
      (sparse_Rkbar (qr (sparse_Wkbart sqrtF Ykt_mat alpha ninvRST).transpose).2)
      _ hsq hinv hQR hQ
    rw [Matrix.transpose_transpose]
    exact hsparse
  · rw [Matrix.transpose_transpose]
    exact hfull

/-- Witness of C17 on the window `Ykt = 1`, `Skt = 4`, `alpha = 4`: the
linear part of the sparse surrogate has covariance `Hk`. -/
theorem gen_draws_linear_part_witness :
    sparse_linear_part demo_sqrt demo_alpha
        (demo_llt (min 1 (2 * 1))
          (sparse_core demo_sqrt demo_qr demo_Y demo_alpha demo_Dk
            demo_N)).transpose
        (sparse_Qk
          (demo_qr (sparse_Wkbart demo_sqrt demo_Y demo_alpha demo_N).transpose).1)
      * (sparse_linear_part demo_sqrt demo_alpha
          (demo_llt (min 1 (2 * 1))
            (sparse_core demo_sqrt demo_qr demo_Y demo_alpha demo_Dk
              demo_N)).transpose
          (sparse_Qk
            (demo_qr
              (sparse_Wkbart demo_sqrt demo_Y demo_alpha demo_N).transpose).1)).transpose
      = full_Hk demo_sqrt demo_Y demo_alpha demo_Dk demo_N :=
  (gen_draws_linear_part demo_sqrt demo_log demo_llt demo_qr demo_Y demo_alpha
    demo_Dk demo_N 0 0 (fun j => (demo_sqrt_exact j).1)
    (fun j => (demo_sqrt_exact j).2) demo_qr_valid demo_Qk_orthonormal
    demo_llt_full demo_llt_sparse).2.2.2.2.1

theorem zipWith_ofFn {α β γ : Type} {n : Nat} (g : α → β → γ) (a : Fin n → α)
    (b : Fin n → β) :
    List.zipWith g (List.ofFn a) (List.ofFn b) = List.ofFn (fun i => g (a i) (b i)) := by
  apply List.ext_getElem
  · simp
  · intro i h1 h2
    simp

theorem dot_ofFn {n : Nat} (a b : Fin n → ℚ) :
    dot (List.ofFn a) (List.ofFn b) = ∑ i, a i * b i := by
  unfold dot
  rw [zipWith_ofFn, List.sum_ofFn]

theorem crossprod_vec_to_mat {r c : Nat} (A : Matrix (Fin r) (Fin c) ℚ)
    (y : Fin r → ℚ) :
    crossprod_vec (to_mat A) (to_vec y) = to_vec (A.transpose.mulVec y) := by
  unfold crossprod_vec to_mat to_vec
  rw [List.map_ofFn]
  congr 1
  ext j
  simp only [Function.comp, dot_ofFn, Matrix.mulVec, Matrix.dotProduct,
    Matrix.transpose_apply]

theorem foldl_vadd_ofFn {r : Nat} : ∀ (c : Nat) (cols : Fin c → Fin r → ℚ),
    (List.ofFn (fun j => List.ofFn (cols j))).foldl vadd (List.replicate r 0)
      = List.ofFn (fun i => ∑ j, cols j i)
  | 0, cols => by
    simp only [List.ofFn_zero, List.foldl_nil, Finset.univ_eq_empty,
      Finset.sum_empty]
    apply List.ext_getElem
    · simp
    · intro i h1 h2
      simp
  | c + 1, cols => by
    rw [List.ofFn_succ', List.concat_eq_append, List.foldl_append,
      foldl_vadd_ofFn c (fun j => cols j.castSucc)]
    simp only [List.foldl_cons, List.foldl_nil, vadd]
    rw [zipWith_ofFn]
    congr 1
    ext i
    rw [Fin.sum_univ_castSucc]

theorem mul_vec_to_mat {r c : Nat} (A : Matrix (Fin r) (Fin c) ℚ)
    (v : Fin c → ℚ) :
    mul_vec r (to_mat A) (to_vec v) = to_vec (A.mulVec v) := by
  unfold mul_vec to_mat to_vec
  rw [zipWith_ofFn]
  simp only [List.map_ofFn, Function.comp]
  exact foldl_vadd_ofFn c (fun j i => A i j * v j)

/-- The list-level `gen_draws` computes the sized `gen_draws`. -/
theorem gen_draws_to_vec {d : Nat} (sqrtF : ℚ → ℚ) (u : Fin d → ℚ)
    (t : taylor_approx_t ℚ d) (alpha : Fin d → ℚ) :
    Pathfinder.gen_draws sqrtF (to_vec u) (to_record t) (to_vec alpha)
      = to_vec (gen_draws sqrtF u t alpha) := by
  cases t with
  | dense x l L =>
    simp only [Pathfinder.gen_draws, to_record, if_true, crossprod_vec_to_mat]
    simp only [to_vec, vadd, zipWith_ofFn, gen_draws, crossprod_vector]
    rfl
  | sparse k x l L Qk =>
    have hlen : (to_vec u).length = d := by simp [to_vec]
    simp only [Pathfinder.gen_draws, to_record, crossprod_vec_to_mat, hlen,
      mul_vec_to_mat]
    simp only [to_vec, vadd, vsub, zipWith_ofFn, gen_draws, crossprod_vector]
    simp only [Bool.false_eq_true, if_false]
    congr 1
    ext i
    simp [Matrix.mulVec_diagonal]

end Sized

/-! ## Claims about the random number service -/

theorem create_rng_congr {S : Type} (rng_ctor : Nat → S) (s1 o1 s2 o2 : Nat)
    (h : (s1 + o1) % 2 ^ 32 = (s2 + o2) % 2 ^ 32) :
    create_rng rng_ctor s1 o1 = create_rng rng_ctor s2 o2 := by
  unfold create_rng
  rw [h]

/-- C29 (the code at the failing input): for every generator type,
`create_rng(1, 2)` and `create_rng(2, 1)` are the same generator state, as
are `create_rng(0, 0)` and `create_rng(4294967295, 1)`; in general two pairs
with the same 32-bit sum `seed + chain` give the same state. -/
theorem create_rng_pairs_collide {S : Type} (rng_ctor : Nat → S) :
    (1, 2) ≠ ((2, 1) : Nat × Nat) ∧
    create_rng rng_ctor 1 2 = create_rng rng_ctor 2 1 ∧
    create_rng rng_ctor 0 0 = create_rng rng_ctor 4294967295 1 ∧
    ∀ seed chain k : Nat, k ≤ chain →
      create_rng rng_ctor seed chain = create_rng rng_ctor (seed + k) (chain - k) := by
  refine ⟨by decide, rfl, rfl, ?_⟩
  intro seed chain k hk
  apply create_rng_congr
  congr 1
  omega

/-- C30 (the code at the failing input): in a multi-path run with at least
two paths, for every seed and path id, entry 1 of `rng_vec` of path 0 is the
generator state of the primary generator (and of entry 0 of `rng_vec`) of
path 1, and the generator of the resampling is the state of the primary
generator of path 0. -/
theorem multi_rngs_collide {S : Type} (rng_ctor : Nat → S)
    (random_seed path n t : Nat) :
    ∃ p0 p1 : S × List S,
      (multi_rngs rng_ctor random_seed path (n + 2) (t + 1)).1[0]? = some p0 ∧
      (multi_rngs rng_ctor random_seed path (n + 2) (t + 1)).1[1]? = some p1 ∧
      p0.2[1]? = some p1.1 ∧
      p0.2[1]? = p1.2[0]? ∧
      (multi_rngs rng_ctor random_seed path (n + 2) (t + 1)).2 = p0.1 := by
  refine ⟨single_rngs rng_ctor random_seed ((path + 0) % 2 ^ 32) (t + 1),
    single_rngs rng_ctor random_seed ((path + 1) % 2 ^ 32) (t + 1), ?_, ?_, ?_, ?_, ?_⟩
  · simp [multi_rngs]
  · simp [multi_rngs]
  · simp only [single_rngs]
    rw [List.getElem?_map, List.getElem?_range (by omega)]
    simp only [Option.map_some']
    congr 1
    apply create_rng_congr
    omega
  · simp only [single_rngs]
    rw [List.getElem?_map, List.getElem?_range (by omega), List.getElem?_map,
      List.getElem?_range (by omega)]
    simp only [Option.map_some']
    congr 1
    apply create_rng_congr
    omega
  · simp only [multi_rngs, single_rngs]
    apply create_rng_congr
    omega

/-! ## Claims about the L-BFGS loop and the entry of the single path -/

/-- The indices of the calls of `lbfgs.step()` from `k` on, `m + 1` of them,
whose code is not -1. -/
theorem lbfgs_loop_run (step : Nat → Step) (extra : Nat) :
    ∀ (m k : Nat) (h : Hist), h.ret = 0 →
      (∀ i, k ≤ i → i < k + m → (step i).code = 0) → (step (k + m)).code ≠ 0 →
      lbfgs_loop step (m + 2 + extra) k h
        = some
          { ret := (step (k + m)).code,
            param_vecs := h.param_vecs ++
              ((List.range' k (m + 1)).filter
                (fun i => decide ((step i).code ≠ -1))).map
                (fun i => (step i).curr_x),
            grad_vecs := h.grad_vecs ++
              ((List.range' k (m + 1)).filter
                (fun i => decide ((step i).code ≠ -1))).map
                (fun i => (step i).curr_g),
            param_cols_filled := h.param_cols_filled +
              ((List.range' k (m + 1)).filter
                (fun i => decide ((step i).code ≠ -1))).length } := by
  intro m
  induction m with
  | zero =>
    intro k h hret _ hn
    rw [Nat.add_zero] at hn
    have e : 0 + 2 + extra = (extra + 1) + 1 := by omega
    rw [e, lbfgs_loop, if_pos hret]
    by_cases hc : (step k).code = -1
    · simp only [hc, ne_eq, not_true_eq_false, if_false]
      rw [lbfgs_loop, if_neg (by simp)]
      simp [List.range', hc]
    · simp only [ne_eq, hc, not_false_eq_true, if_true]
      rw [lbfgs_loop, if_neg hn]
      simp [List.range', hc]
  | succ m ih =>
    intro k h hret h0 hn
    have e : m + 1 + 2 + extra = (m + 2 + extra) + 1 := by omega
    have hk : (step k).code = 0 := h0 k (le_refl k) (by omega)
    rw [e, lbfgs_loop, if_pos hret]
    simp only [hk, ne_eq]
    rw [if_pos (by decide)]
    have hn2 : (step (k + 1 + m)).code ≠ 0 := by
      have e2 : k + 1 + m = k + (m + 1) := by omega
      rw [e2]; exact hn
    rw [ih (k + 1) _ rfl (fun i h1 h2 => h0 i (by omega) (by omega)) hn2]
    have e3 : k + 1 + m = k + (m + 1) := by omega
    have hr : List.range' k (m + 1 + 1) = k :: List.range' (k + 1) (m + 1) := rfl
    rw [hr, List.filter_cons_of_pos (by simp [hk])]
    simp [e3, List.append_assoc]
    omega

/-- C24: when the calls of `lbfgs.step()` return 0 up to call `n` and a code
other than 0 at call `n`, the loop exits after call `n` with
`param_vecs` and `grad_vecs` of length `param_cols_filled + 1`, whose entry
0 is the initial point and its gradient and whose other entries are the
points and gradients of the calls whose code is not -1, in order (an entry is
appended for a call if and only if its code is not -1); the ELBO search then
has `param_cols_filled` iterations, the number of difference columns. -/
theorem lbfgs_loop_history (step : Nat → Step) (cont_vector g1 : Vec)
    (n extra : Nat) (h0 : ∀ i, i < n → (step i).code = 0)
    (hn : (step n).code ≠ 0) :
    ∃ h, lbfgs_loop step (n + 2 + extra) 0 (hist_init cont_vector g1) = some h ∧
      h.ret = (step n).code ∧
      h.param_vecs = cont_vector ::
        ((List.range (n + 1)).filter
          (fun i => decide ((step i).code ≠ -1))).map (fun i => (step i).curr_x) ∧
      h.grad_vecs = g1 ::
        ((List.range (n + 1)).filter
          (fun i => decide ((step i).code ≠ -1))).map (fun i => (step i).curr_g) ∧
      h.param_cols_filled =
        ((List.range (n + 1)).filter
          (fun i => decide ((step i).code ≠ -1))).length ∧
      h.param_vecs.length = h.param_cols_filled + 1 ∧
      h.grad_vecs.length = h.param_cols_filled + 1 ∧
      h.param_vecs[0]? = some cont_vector ∧
      h.grad_vecs[0]? = some g1 ∧
      (diff_cols h.grad_vecs).length = h.param_cols_filled ∧
      (diff_cols h.param_vecs).length = h.param_cols_filled := by
  have hrun := lbfgs_loop_run step extra n 0 (hist_init cont_vector g1) rfl
    (fun i _ h2 => h0 i (by omega)) (by rw [Nat.zero_add]; exact hn)
  rw [Nat.zero_add, ← List.range_eq_range'] at hrun
  refine ⟨_, hrun, rfl, ?_, ?_, ?_, ?_, ?_, ?_, ?_, ?_, ?_⟩ <;>
    simp [hist_init, diff_cols]

/-- Witness of C24: two steps with code 0, then code -1: the history holds the
initial point and the two steps, `param_cols_filled = 2`. -/
theorem lbfgs_loop_history_witness :
    ∃ h, lbfgs_loop demo_step (2 + 2 + 0) 0 (hist_init [0] [0]) = some h ∧
      h.ret = (demo_step 2).code ∧
      h.param_vecs = [0] ::
        ((List.range (2 + 1)).filter
          (fun i => decide ((demo_step i).code ≠ -1))).map
          (fun i => (demo_step i).curr_x) ∧
      h.grad_vecs = [0] ::
        ((List.range (2 + 1)).filter
          (fun i => decide ((demo_step i).code ≠ -1))).map
          (fun i => (demo_step i).curr_g) ∧
      h.param_cols_filled =
        ((List.range (2 + 1)).filter
          (fun i => decide ((demo_step i).code ≠ -1))).length ∧
      h.param_vecs.length = h.param_cols_filled + 1 ∧
      h.grad_vecs.length = h.param_cols_filled + 1 ∧
      h.param_vecs[0]? = some [0] ∧
      h.grad_vecs[0]? = some [0] ∧
      (diff_cols h.grad_vecs).length = h.param_cols_filled ∧
      (diff_cols h.param_vecs).length = h.param_cols_filled :=
  lbfgs_loop_history demo_step [0] [0] 2 0
    (by intro i hi
        rcases i with _ | _ | i
        · rfl
        · rfl
        · omega)
    (by decide)

/-- C21 (the code at the failing input): when `util::initialize` raises, the
exception leaves `pathfinder_lbfgs_single`; no tuple with the code `SOFTWARE`
is returned. -/
theorem pathfinder_lbfgs_single_init_exception (OK SOFTWARE : Int)
    (lp_fun : Vec → LpOut) (constrain_fun : Vec → Vec) (sqrtF : ℚ → ℚ)
    (LOG_TWO_PI : ℚ) (rand : Nat → ℚ) (uninit : Nat → Dbl)
    (est_iter : Nat → Except EstError elbo_est_t)
    (build_taylor : Nat → taylor_approx_t) (taylor_uninit : taylor_approx_t)
    (num_eval_attempts : Nat) (num_draws : Int) (log_prob_grad : Vec → Vec)
    (step : Nat → Step) (grad_evals fuel : Nat) :
    pathfinder_lbfgs_single OK SOFTWARE lp_fun constrain_fun sqrtF LOG_TWO_PI
        rand uninit est_iter build_taylor taylor_uninit num_eval_attempts
        num_draws InitOut.throws log_prob_grad step grad_evals fuel
      = some SingleOut.exception ∧
    ∀ r : PathRet,
      pathfinder_lbfgs_single OK SOFTWARE lp_fun constrain_fun sqrtF LOG_TWO_PI
          rand uninit est_iter build_taylor taylor_uninit num_eval_attempts
          num_draws InitOut.throws log_prob_grad step grad_evals fuel
        ≠ some (SingleOut.returns r) := by
  refine ⟨rfl, ?_⟩
  intro r h
  simp [pathfinder_lbfgs_single] at h

/-! ## Claims about the branches of the final assembly -/

/-- A slot that ends the sample loop with a finite log p holds the value of
`lp_fun` at its draw. -/
theorem sample_phase_slot_value (lp_fun : Vec → LpOut) (gen : Vec → Vec)
    (rand : Nat → ℚ) (uninit : Nat → Dbl) (d K R : Nat) :
    ∀ s ∈ (sample_phase lp_fun gen rand uninit d K R).1,
      s.lp.isfinite = true → lp_fun s.x = .val s.lp := by
  intro s hs hfin
  obtain ⟨i, hi⟩ := List.mem_iff_getElem?.1 hs
  obtain ⟨T, hT, hprop⟩ := sample_loop_slots lp_fun gen rand d R
    (init_slots gen rand uninit d K) 0 _ i s hi
  rcases hprop with ⟨_, e, he, hout, hx⟩ | ⟨hninf, _, _⟩
  · obtain ⟨_, _, _, _, hk⟩ := loop_segs_entries lp_fun gen rand d R
      (init_slots gen rand uninit d K) 0 _ i T hT
    rw [List.getLast?_eq_getElem?] at he
    have h3 := (hk _ e he).2.2.1
    rw [← hx, ← h3, hout]
  · rw [hninf] at hfin
    exact Bool.noConfusion hfin

/-- The block `est_approx_draws` returns, row by row: the kept slots give the
columns of `repeat_draws`, the rows `(log q, log p)` of `lp_mat` and the
entries of `lp_ratio`; each kept draw is `gen_draws` of its variates and its
log p is the finite value of `lp_fun` at the draw. -/
theorem est_approx_draws_block (ReturnElbo : Bool) (lp_fun : Vec → LpOut)
    (sqrtF : ℚ → ℚ) (LOG_TWO_PI : ℚ) (rand : Nat → ℚ) (uninit : Nat → Dbl)
    (taylor_approx : taylor_approx_t) (K : Nat) (alpha : Vec) (R : Nat)
    (r : elbo_est_t)
    (h : est_approx_draws ReturnElbo lp_fun sqrtF LOG_TWO_PI rand uninit
      taylor_approx K alpha R = .ok r) :
    ∃ kept : List Slot,
      r.repeat_draws = kept.map (fun s => s.x) ∧
      r.lp_mat = kept.map (fun s =>
        (lp_approx taylor_approx.logdetcholHk LOG_TWO_PI
          taylor_approx.x_center.length s.u, s.lp)) ∧
      r.lp_ratio = kept.map (fun s =>
        Dbl.sub s.lp (lp_approx taylor_approx.logdetcholHk LOG_TWO_PI
          taylor_approx.x_center.length s.u)) ∧
      r.fn_calls = (sample_phase lp_fun
        (fun u => gen_draws sqrtF u taylor_approx alpha) rand uninit
        taylor_approx.x_center.length K R).2.lp_fun_calls ∧
      ∀ s ∈ kept, s.x = gen_draws sqrtF s.u taylor_approx alpha ∧
        s.lp.isfinite = true ∧ lp_fun s.x = .val s.lp := by
  rw [est_approx_draws_eq] at h
  split_ifs at h with hc
  cases h
  refine ⟨_, rfl, rfl, ?_, rfl, ?_⟩
  · simp [finish, List.map_map, Function.comp]
  · intro s hs
    obtain ⟨hmem, hfin⟩ := List.mem_filter.1 hs
    exact ⟨(sample_phase_consistent lp_fun _ rand uninit _ K R s hmem).1,
      hfin, sample_phase_slot_value lp_fun _ rand uninit _ K R s hmem hfin⟩

theorem constrained_cols_map (constrain_fun : Vec → Vec) (kept : List Slot)
    (q : Slot → Dbl) :
    constrained_cols constrain_fun (kept.map (fun s => s.x))
        (kept.map (fun s => (q s, s.lp)))
      = kept.map (fun s => constrained_col constrain_fun s.x (q s, s.lp)) := by
  unfold constrained_cols
  induction kept with
  | nil => rfl
  | cons s rest ih => simp [ih]

/-- The three branches of the final assembly. -/
theorem final_assembly_cases (OK : Int) (lp_fun : Vec → LpOut)
    (constrain_fun : Vec → Vec) (sqrtF : ℚ → ℚ) (LOG_TWO_PI : ℚ)
    (rand : Nat → ℚ) (uninit : Nat → Dbl) (taylor_approx_best : taylor_approx_t)
    (alpha : Vec) (R : Nat) (elbo_best : elbo_est_t) (num_draws : Int)
    (num_evals : Nat) :
    (∃ est_draws, (elbo_best.lp_ratio.length : Int) < num_draws ∧
      est_approx_draws false lp_fun sqrtF LOG_TWO_PI rand uninit
        taylor_approx_best
        (num_draws - (elbo_best.lp_ratio.length : Int)).toNat alpha R
        = .ok est_draws ∧
      final_assembly OK lp_fun constrain_fun sqrtF LOG_TWO_PI rand uninit
        taylor_approx_best alpha R elbo_best num_draws num_evals
      = { return_code := OK,
          lp_ratio := elbo_best.lp_ratio ++ est_draws.lp_ratio,
          samples :=
            constrained_cols constrain_fun elbo_best.repeat_draws
              elbo_best.lp_mat ++
            constrained_cols constrain_fun est_draws.repeat_draws
              est_draws.lp_mat,
          lp_calls := num_evals + est_draws.fn_calls })
    ∨ (final_assembly OK lp_fun constrain_fun sqrtF LOG_TWO_PI rand uninit
        taylor_approx_best alpha R elbo_best num_draws num_evals
      = { return_code := OK, lp_ratio := elbo_best.lp_ratio,
          samples := constrained_cols constrain_fun elbo_best.repeat_draws
            elbo_best.lp_mat,
          lp_calls := num_evals }) := by
  unfold final_assembly
  simp only []
  split_ifs with hrem
  · cases hest : est_approx_draws false lp_fun sqrtF LOG_TWO_PI rand uninit
        taylor_approx_best
        (num_draws - (elbo_best.lp_ratio.length : Int)).toNat alpha R with
    | error e => exact Or.inr rfl
    | ok est_draws => exact Or.inl ⟨est_draws, by omega, rfl, rfl⟩
  · exact Or.inr rfl

/-- C22: when draws remain to be made (`num_draws` exceeds the number of ELBO
draws of the best iterate) and the top-up call of `est_approx_draws<false>`
raises, the final assembly returns `OK`; `lp_ratio` is the one of the best
iterate's block and the draw matrix has one column per ELBO draw, in order:
the constrained draw followed by its row of `lp_mat`; no other column is
returned and the evaluation count is unchanged. -/
theorem final_assembly_topup_exception (OK : Int) (lp_fun : Vec → LpOut)
    (constrain_fun : Vec → Vec) (sqrtF : ℚ → ℚ) (LOG_TWO_PI : ℚ)
    (rand : Nat → ℚ) (uninit : Nat → Dbl) (taylor_approx_best : taylor_approx_t)
    (alpha : Vec) (R : Nat) (elbo_best : elbo_est_t) (num_draws : Int)
    (num_evals : Nat) (e : EstError)
    (hrem : (elbo_best.lp_ratio.length : Int) < num_draws)
    (hthrow : est_approx_draws false lp_fun sqrtF LOG_TWO_PI rand uninit
      taylor_approx_best (num_draws - (elbo_best.lp_ratio.length : Int)).toNat
      alpha R = .error e) :
    (final_assembly OK lp_fun constrain_fun sqrtF LOG_TWO_PI rand uninit
      taylor_approx_best alpha R elbo_best num_draws num_evals).return_code
      = OK ∧
    (final_assembly OK lp_fun constrain_fun sqrtF LOG_TWO_PI rand uninit
      taylor_approx_best alpha R elbo_best num_draws num_evals).lp_ratio
      = elbo_best.lp_ratio ∧
    (final_assembly OK lp_fun constrain_fun sqrtF LOG_TWO_PI rand uninit
      taylor_approx_best alpha R elbo_best num_draws num_evals).samples
      = List.zipWith
          (fun x row => (constrain_fun x).map Dbl.fin ++ [row.1, row.2])
          elbo_best.repeat_draws elbo_best.lp_mat ∧
    (final_assembly OK lp_fun constrain_fun sqrtF LOG_TWO_PI rand uninit
      taylor_approx_best alpha R elbo_best num_draws num_evals).samples.length
      = min elbo_best.repeat_draws.length elbo_best.lp_mat.length ∧
    (final_assembly OK lp_fun constrain_fun sqrtF LOG_TWO_PI rand uninit
      taylor_approx_best alpha R elbo_best num_draws num_evals).lp_calls
      = num_evals := by
  have hpos : num_draws - (elbo_best.lp_ratio.length : Int) > 0 := by omega
  have hfa : final_assembly OK lp_fun constrain_fun sqrtF LOG_TWO_PI rand uninit
      taylor_approx_best alpha R elbo_best num_draws num_evals
      = { return_code := OK, lp_ratio := elbo_best.lp_ratio,
          samples := constrained_cols constrain_fun elbo_best.repeat_draws
            elbo_best.lp_mat,
          lp_calls := num_evals } := by
    unfold final_assembly
    simp only [hpos, if_true, hthrow]
  rw [hfa]
  refine ⟨rfl, rfl, rfl, ?_, rfl⟩
  simp [constrained_cols]

theorem demo_topup_throws :
    est_approx_draws false demo_lp id 2 demo_rand_one (fun _ => Dbl.nan)
      demo_taylor ((2 : Int) - (demo_block.lp_ratio.length : Int)).toNat [1] 1
      = .error EstError.domain_error := by
  simp [est_approx_draws, sample_phase, init_slots, sample_loop, retry_loop,
    redraw, cleanup, success_rows, finish, lp_approx, demo_taylor, demo_lp,
    demo_rand_one, demo_block, gen_draws, draw_col, crossprod_vec, vadd, dot,
    Dbl.mean, Dbl.sum, Dbl.add, Dbl.sub, Dbl.neg, Dbl.divN, Dbl.isfinite,
    List.range, List.range.loop]

/-- Witness of C22: the best iterate holds one ELBO draw, two draws are asked
for and every evaluation of the top-up fails (the log density is `NaN` at the
only point drawn): the one ELBO draw is returned with the code 0. -/
theorem final_assembly_topup_exception_witness :
    (final_assembly 0 demo_lp id id 2 demo_rand_one (fun _ => Dbl.nan)
      demo_taylor [1] 1 demo_block 2 5).return_code = 0 ∧
    (final_assembly 0 demo_lp id id 2 demo_rand_one (fun _ => Dbl.nan)
      demo_taylor [1] 1 demo_block 2 5).lp_ratio = demo_block.lp_ratio ∧
    (final_assembly 0 demo_lp id id 2 demo_rand_one (fun _ => Dbl.nan)
      demo_taylor [1] 1 demo_block 2 5).samples
      = List.zipWith
          (fun x row => (id x).map Dbl.fin ++ [row.1, row.2])
          demo_block.repeat_draws demo_block.lp_mat ∧
    (final_assembly 0 demo_lp id id 2 demo_rand_one (fun _ => Dbl.nan)
      demo_taylor [1] 1 demo_block 2 5).samples.length
      = min demo_block.repeat_draws.length demo_block.lp_mat.length ∧
    (final_assembly 0 demo_lp id id 2 demo_rand_one (fun _ => Dbl.nan)
      demo_taylor [1] 1 demo_block 2 5).lp_calls = 5 :=
  final_assembly_topup_exception 0 demo_lp id id 2 demo_rand_one
    (fun _ => Dbl.nan) demo_taylor [1] 1 demo_block 2 5 EstError.domain_error
    (by decide) demo_topup_throws

theorem col_layout (A : List Dbl) (q p : Dbl) (n : Nat) (h : A.length = n) :
    (A ++ [q, p]).length = n + 2 ∧ (A ++ [q, p])[n]? = some q ∧
    (A ++ [q, p])[n + 1]? = some p := by
  subst h
  refine ⟨by simp, ?_, ?_⟩
  · rw [List.getElem?_append_right (le_refl _)]
    simp
  · rw [List.getElem?_append_right (by omega)]
    simp

theorem header_names_layout (names : List String) :
    (header_names names).length = names.length + 2 ∧
    (header_names names)[names.length]? = some "lp_approx__" ∧
    (header_names names)[names.length + 1]? = some "lp__" := by
  unfold header_names
  refine ⟨by simp, ?_, ?_⟩
  · rw [List.append_assoc, List.getElem?_append_right (le_refl _)]
    simp
  · rw [List.append_assoc, List.getElem?_append_right (by omega)]
    simp

/-- The columns built from a block that `est_approx_draws` returned. -/
theorem block_columns (ReturnElbo : Bool) (lp_fun : Vec → LpOut)
    (constrain_fun : Vec → Vec) (sqrtF : ℚ → ℚ) (LOG_TWO_PI : ℚ)
    (rand : Nat → ℚ) (uninit : Nat → Dbl) (taylor_approx : taylor_approx_t)
    (K : Nat) (alpha : Vec) (R : Nat) (r : elbo_est_t)
    (h : est_approx_draws ReturnElbo lp_fun sqrtF LOG_TWO_PI rand uninit
      taylor_approx K alpha R = .ok r) :
    ∀ col ∈ constrained_cols constrain_fun r.repeat_draws r.lp_mat,
      ∃ (u : Vec) (logp : Dbl),
        lp_fun (gen_draws sqrtF u taylor_approx alpha) = .val logp ∧
        logp.isfinite = true ∧
        col = (constrain_fun (gen_draws sqrtF u taylor_approx alpha)).map Dbl.fin
          ++ [lp_approx taylor_approx.logdetcholHk LOG_TWO_PI
                taylor_approx.x_center.length u, logp] := by
  obtain ⟨kept, h1, h2, _, _, h5⟩ := est_approx_draws_block ReturnElbo lp_fun
    sqrtF LOG_TWO_PI rand uninit taylor_approx K alpha R r h
  intro col hcol
  rw [h1, h2, constrained_cols_map] at hcol
  obtain ⟨s, hs, rfl⟩ := List.mem_map.1 hcol
  obtain ⟨hx, hfin, hval⟩ := h5 s hs
  refine ⟨s.u, s.lp, ?_, hfin, ?_⟩
  · rw [← hx]; exact hval
  · rw [← hx]; rfl

/-- C23: in every branch of the final assembly, when the best iterate's block
was returned by `est_approx_draws<true>` and the constrain routine gives one
value per constrained parameter name, each column of the returned draw matrix
is the constrained transform of one unconstrained draw `gen_draws(u)` (of the
best iterate's surrogate or of the surrogate of the top-up) followed by
exactly two entries, the log q of that draw and then its log p, the finite
value of `lp_fun` at the draw; the column has as many entries as the header
has names, and log q and log p stand at the positions of `"lp_approx__"` and
`"lp__"`, the last two names. -/
theorem final_assembly_columns (OK : Int) (lp_fun : Vec → LpOut)
    (constrain_fun : Vec → Vec) (sqrtF : ℚ → ℚ) (LOG_TWO_PI : ℚ)
    (rand : Nat → ℚ) (uninit : Nat → Dbl) (taylor_approx_best : taylor_approx_t)
    (alpha : Vec) (R : Nat) (elbo_best : elbo_est_t) (num_draws : Int)
    (num_evals : Nat) (rand_e : Nat → ℚ) (uninit_e : Nat → Dbl)
    (taylor_e : taylor_approx_t) (K_e : Nat) (alpha_e : Vec) (R_e : Nat)
    (names : List String)
    (hbest : est_approx_draws true lp_fun sqrtF LOG_TWO_PI rand_e uninit_e
      taylor_e K_e alpha_e R_e = .ok elbo_best)
    (hnames : ∀ x, (constrain_fun x).length = names.length) :
    ∀ col ∈ (final_assembly OK lp_fun constrain_fun sqrtF LOG_TWO_PI rand
        uninit taylor_approx_best alpha R elbo_best num_draws num_evals).samples,
      ∃ (u : Vec) (taylor : taylor_approx_t) (a : Vec) (logp : Dbl),
        ((taylor = taylor_e ∧ a = alpha_e) ∨
          (taylor = taylor_approx_best ∧ a = alpha)) ∧
        lp_fun (gen_draws sqrtF u taylor a) = .val logp ∧
        logp.isfinite = true ∧
        col = (constrain_fun (gen_draws sqrtF u taylor a)).map Dbl.fin
          ++ [lp_approx taylor.logdetcholHk LOG_TWO_PI taylor.x_center.length u,
              logp] ∧
        col.length = (header_names names).length ∧
        col[names.length]?
          = some (lp_approx taylor.logdetcholHk LOG_TWO_PI
              taylor.x_center.length u) ∧
        (header_names names)[names.length]? = some "lp_approx__" ∧
        col[names.length + 1]? = some logp ∧
        (header_names names)[names.length + 1]? = some "lp__" := by
  have hfinal : ∀ (taylor : taylor_approx_t) (a : Vec) (u : Vec) (logp : Dbl)
      (col : List Dbl),
      ((taylor = taylor_e ∧ a = alpha_e) ∨
        (taylor = taylor_approx_best ∧ a = alpha)) →
      lp_fun (gen_draws sqrtF u taylor a) = .val logp → logp.isfinite = true →
      col = (constrain_fun (gen_draws sqrtF u taylor a)).map Dbl.fin
          ++ [lp_approx taylor.logdetcholHk LOG_TWO_PI taylor.x_center.length u,
              logp] →
      ∃ (u : Vec) (taylor : taylor_approx_t) (a : Vec) (logp : Dbl),
        ((taylor = taylor_e ∧ a = alpha_e) ∨
          (taylor = taylor_approx_best ∧ a = alpha)) ∧
        lp_fun (gen_draws sqrtF u taylor a) = .val logp ∧
        logp.isfinite = true ∧
        col = (constrain_fun (gen_draws sqrtF u taylor a)).map Dbl.fin
          ++ [lp_approx taylor.logdetcholHk LOG_TWO_PI taylor.x_center.length u,
              logp] ∧
        col.length = (header_names names).length ∧
        col[names.length]?
          = some (lp_approx taylor.logdetcholHk LOG_TWO_PI
              taylor.x_center.length u) ∧
        (header_names names)[names.length]? = some "lp_approx__" ∧
        col[names.length + 1]? = some logp ∧
        (header_names names)[names.length + 1]? = some "lp__" := by
    intro taylor a u logp col hwhich hval hfin hcol
    have hlay := col_layout
      ((constrain_fun (gen_draws sqrtF u taylor a)).map Dbl.fin)
      (lp_approx taylor.logdetcholHk LOG_TWO_PI taylor.x_center.length u) logp
      names.length (by rw [List.length_map]; exact hnames _)
    have hhead := header_names_layout names
    refine ⟨u, taylor, a, logp, hwhich, hval, hfin, hcol, ?_, ?_, hhead.2.1, ?_,
      hhead.2.2⟩
    · rw [hcol, hlay.1, hhead.1]
    · rw [hcol]; exact hlay.2.1
    · rw [hcol]; exact hlay.2.2
  intro col hcol
  rcases final_assembly_cases OK lp_fun constrain_fun sqrtF LOG_TWO_PI rand
    uninit taylor_approx_best alpha R elbo_best num_draws num_evals with
    ⟨est_draws, _, hest, hfa⟩ | hfa
  · rw [hfa] at hcol
    rcases List.mem_append.1 hcol with hc | hc
    · obtain ⟨u, logp, h1, h2, h3⟩ := block_columns true lp_fun constrain_fun
        sqrtF LOG_TWO_PI rand_e uninit_e taylor_e K_e alpha_e R_e elbo_best hbest
        col hc
      exact hfinal taylor_e alpha_e u logp col (Or.inl ⟨rfl, rfl⟩) h1 h2 h3
    · obtain ⟨u, logp, h1, h2, h3⟩ := block_columns false lp_fun constrain_fun
        sqrtF LOG_TWO_PI rand uninit taylor_approx_best _ alpha R est_draws hest
        col hc
      exact hfinal taylor_approx_best alpha u logp col (Or.inr ⟨rfl, rfl⟩) h1 h2
        h3
  · rw [hfa] at hcol
    obtain ⟨u, logp, h1, h2, h3⟩ := block_columns true lp_fun constrain_fun
      sqrtF LOG_TWO_PI rand_e uninit_e taylor_e K_e alpha_e R_e elbo_best hbest
      col hcol
    exact hfinal taylor_e alpha_e u logp col (Or.inl ⟨rfl, rfl⟩) h1 h2 h3

theorem demo_topup_samples :
    (final_assembly 0 demo_lp demo_constrain id 2 demo_rand_one
      (fun _ => Dbl.nan) demo_taylor [1] 1 demo_block 2 5).samples
      = [[Dbl.fin 0, Dbl.fin (-1), Dbl.fin 0]] := by
  unfold final_assembly
  simp only []
  rw [if_pos (by simp [demo_block]), demo_topup_throws]
  simp [constrained_cols, constrained_col, demo_block, demo_constrain]

/-- Witness of C23: the block of `demo_lp` with one kept draw, a constrain
routine with one value and the header `["x", "lp_approx__", "lp__"]`: the
returned column is `[0, -1, 0]`. -/
theorem final_assembly_columns_witness :
    ∃ (col : List Dbl) (u : Vec) (taylor : taylor_approx_t) (a : Vec)
      (logp : Dbl),
      col = [Dbl.fin 0, Dbl.fin (-1), Dbl.fin 0] ∧
      col ∈ (final_assembly 0 demo_lp demo_constrain id 2 demo_rand_one
        (fun _ => Dbl.nan) demo_taylor [1] 1 demo_block 2 5).samples ∧
      ((taylor = demo_taylor ∧ a = [1]) ∨ (taylor = demo_taylor ∧ a = [1])) ∧
      demo_lp (gen_draws id u taylor a) = .val logp ∧
      logp.isfinite = true ∧
      col = (demo_constrain (gen_draws id u taylor a)).map Dbl.fin
        ++ [lp_approx taylor.logdetcholHk 2 taylor.x_center.length u, logp] ∧
      col.length = (header_names ["x"]).length ∧
      col[["x"].length]?
        = some (lp_approx taylor.logdetcholHk 2 taylor.x_center.length u) ∧
      (header_names ["x"])[["x"].length]? = some "lp_approx__" ∧
      col[["x"].length + 1]? = some logp ∧
      (header_names ["x"])[["x"].length + 1]? = some "lp__" := by
  have hmem : [Dbl.fin 0, Dbl.fin (-1), Dbl.fin 0]
      ∈ (final_assembly 0 demo_lp demo_constrain id 2 demo_rand_one
        (fun _ => Dbl.nan) demo_taylor [1] 1 demo_block 2 5).samples := by
    rw [demo_topup_samples]
    exact List.mem_singleton.2 rfl
  obtain ⟨u, taylor, a, logp, h⟩ :=
    final_assembly_columns 0 demo_lp demo_constrain id 2 demo_rand_one
      (fun _ => Dbl.nan) demo_taylor [1] 1 demo_block 2 5 demo_rand
      (fun _ => Dbl.nan) demo_taylor 2 [1] 1 ["x"] demo_block_eq (fun _ => rfl)
      _ hmem
  exact ⟨_, u, taylor, a, logp, rfl, hmem, h⟩

/-! ## Claims about the evaluation count of the single path -/

theorem elbo_search_step_num_evals
    (est_iter : Nat → Except EstError elbo_est_t)
    (build_taylor : Nat → taylor_approx_t) (k : Nat) (st : search_t) :
    (elbo_search_step est_iter build_taylor k st).num_evals
      = st.num_evals + counted_calls (est_iter k) := by
  unfold elbo_search_step
  cases est_iter k with
  | error e => simp [counted_calls]
  | ok r =>
    simp only [counted_calls]
    split_ifs <;> rfl

theorem elbo_search_num_evals (est_iter : Nat → Except EstError elbo_est_t)
    (build_taylor : Nat → taylor_approx_t) (n : Nat) :
    ∀ (k : Nat) (st : search_t),
      (elbo_search est_iter build_taylor n k st).num_evals
        = st.num_evals
          + ((List.range' k n).map (fun t => counted_calls (est_iter t))).sum := by
  induction n with
  | zero => intro k st; simp [elbo_search]
  | succ n ih =>
    intro k st
    rw [elbo_search, ih, elbo_search_step_num_evals]
    have hr : List.range' k (n + 1) = k :: List.range' (k + 1) n := rfl
    rw [hr, List.map_cons, List.sum_cons]
    omega

theorem sample_phase_calls (lp_fun : Vec → LpOut) (gen : Vec → Vec)
    (rand : Nat → ℚ) (uninit : Nat → Dbl) (d K R : Nat) :
    (sample_phase lp_fun gen rand uninit d K R).2.lp_fun_calls
      = (sample_phase lp_fun gen rand uninit d K R).2.evals.length ∧
    ∀ e ∈ (sample_phase lp_fun gen rand uninit d K R).2.evals,
      e.out = lp_fun e.x := by
  obtain ⟨he1, he2, _, _⟩ := sample_loop_evals lp_fun gen rand d R
    (init_slots gen rand uninit d K) 0
    { cursor := K * d, lp_fun_calls := 0, at_least_one_failed := false,
      evals := [] }
  refine ⟨?_, ?_⟩
  · unfold sample_phase
    rw [he1, he2]
    simp
  · intro e he
    unfold sample_phase at he
    rw [he1] at he
    simp only [List.nil_append, List.mem_flatten] at he
    obtain ⟨T, hT, heT⟩ := he
    obtain ⟨j, hj⟩ := List.mem_iff_getElem?.1 hT
    obtain ⟨k, hk⟩ := List.mem_iff_getElem?.1 heT
    exact ((loop_segs_entries lp_fun gen rand d R _ 0 _ j T hj).2.2.choose_spec.2
      k e hk).2.2.1

/-- The evaluation count the single path returns: the
L-BFGS `grad_evals` plus the `fn_calls` of every iteration of the ELBO search
whose estimation returned, plus the `fn_calls` of the top-up call when it is
made and returns; an estimation that raised adds nothing.  The `fn_calls` of
an estimation that returned is the number of invocations of `lp_fun` its
sample loop made, failed retries included. -/
theorem search_and_draw_est_lp_calls (OK SOFTWARE : Int) (lp_fun : Vec → LpOut)
    (constrain_fun : Vec → Vec) (sqrtF : ℚ → ℚ) (LOG_TWO_PI : ℚ)
    (rands : Nat → Nat → ℚ) (rand : Nat → ℚ) (uninit : Nat → Dbl)
    (build_taylor : Nat → taylor_approx_t) (taylor_uninit : taylor_approx_t)
    (R K : Nat) (num_draws : Int) (param_vecs grad_vecs : List Vec)
    (grad_evals : Nat) :
    (search_and_draw_est OK SOFTWARE lp_fun constrain_fun sqrtF LOG_TWO_PI rands
        rand uninit build_taylor taylor_uninit R K num_draws param_vecs
        grad_vecs grad_evals).lp_calls
      = grad_evals
        + ((List.range (diff_cols grad_vecs).length).map (fun t =>
            counted_calls
              (elbo_est_iter lp_fun sqrtF LOG_TWO_PI rands uninit build_taylor K
                (alpha_cascade (param_vecs.getD 0 []).length
                  (diff_cols grad_vecs) (diff_cols param_vecs)) R t))).sum
        + (if (elbo_search
                (elbo_est_iter lp_fun sqrtF LOG_TWO_PI rands uninit build_taylor
                  K (alpha_cascade (param_vecs.getD 0 []).length
                    (diff_cols grad_vecs) (diff_cols param_vecs)) R)
                build_taylor (diff_cols grad_vecs).length 0
                { best_E := -1, elbo_best := elbo_est_default,
                  taylor_approx_best := taylor_uninit,
                  num_evals := grad_evals }).best_E = -1 then 0
           else if ((elbo_search
                (elbo_est_iter lp_fun sqrtF LOG_TWO_PI rands uninit build_taylor
                  K (alpha_cascade (param_vecs.getD 0 []).length
                    (diff_cols grad_vecs) (diff_cols param_vecs)) R)
                build_taylor (diff_cols grad_vecs).length 0
                { best_E := -1, elbo_best := elbo_est_default,
                  taylor_approx_best := taylor_uninit,
                  num_evals := grad_evals }).elbo_best.lp_ratio.length : Int)
                < num_draws then
             counted_calls
              (est_approx_draws false lp_fun sqrtF LOG_TWO_PI rand uninit
                (elbo_search
                  (elbo_est_iter lp_fun sqrtF LOG_TWO_PI rands uninit
                    build_taylor K
                    (alpha_cascade (param_vecs.getD 0 []).length
                      (diff_cols grad_vecs) (diff_cols param_vecs)) R)
                  build_taylor (diff_cols grad_vecs).length 0
                  { best_E := -1, elbo_best := elbo_est_default,
                    taylor_approx_best := taylor_uninit,
                    num_evals := grad_evals }).taylor_approx_best
                (num_draws - ((elbo_search
                  (elbo_est_iter lp_fun sqrtF LOG_TWO_PI rands uninit
                    build_taylor K
                    (alpha_cascade (param_vecs.getD 0 []).length
                      (diff_cols grad_vecs) (diff_cols param_vecs)) R)
                  build_taylor (diff_cols grad_vecs).length 0
                  { best_E := -1, elbo_best := elbo_est_default,
                    taylor_approx_best := taylor_uninit,
                    num_evals := grad_evals }).elbo_best.lp_ratio.length
                  : Int)).toNat
                ((alpha_cascade (param_vecs.getD 0 []).length
                  (diff_cols grad_vecs) (diff_cols param_vecs)).getD
                  (elbo_search
                    (elbo_est_iter lp_fun sqrtF LOG_TWO_PI rands uninit
                      build_taylor K
                      (alpha_cascade (param_vecs.getD 0 []).length
                        (diff_cols grad_vecs) (diff_cols param_vecs)) R)
                    build_taylor (diff_cols grad_vecs).length 0
                    { best_E := -1, elbo_best := elbo_est_default,
                      taylor_approx_best := taylor_uninit,
                      num_evals := grad_evals }).best_E.toNat [])
                R)
           else 0) ∧
    ∀ (ReturnElbo : Bool) (rand1 : Nat → ℚ) (uninit1 : Nat → Dbl)
      (taylor_approx : taylor_approx_t) (n : Nat) (alpha : Vec)
      (r : elbo_est_t),
      est_approx_draws ReturnElbo lp_fun sqrtF LOG_TWO_PI rand1 uninit1
        taylor_approx n alpha R = .ok r →
      counted_calls (.ok r)
        = (sample_phase lp_fun (fun u => gen_draws sqrtF u taylor_approx alpha)
            rand1 uninit1 taylor_approx.x_center.length n R).2.evals.length ∧
      ∀ e ∈ (sample_phase lp_fun (fun u => gen_draws sqrtF u taylor_approx alpha)
            rand1 uninit1 taylor_approx.x_center.length n R).2.evals,
        e.out = lp_fun e.x := by
  refine ⟨?_, ?_⟩
  · unfold search_and_draw_est search_and_draw
    simp only []
    generalize hst : elbo_search
      (elbo_est_iter lp_fun sqrtF LOG_TWO_PI rands uninit build_taylor K
        (alpha_cascade (param_vecs.getD 0 []).length (diff_cols grad_vecs)
          (diff_cols param_vecs)) R)
      build_taylor (diff_cols grad_vecs).length 0
      { best_E := -1, elbo_best := elbo_est_default,
        taylor_approx_best := taylor_uninit, num_evals := grad_evals } = st
    have hn := elbo_search_num_evals
      (elbo_est_iter lp_fun sqrtF LOG_TWO_PI rands uninit build_taylor K
        (alpha_cascade (param_vecs.getD 0 []).length (diff_cols grad_vecs)
          (diff_cols param_vecs)) R)
      build_taylor (diff_cols grad_vecs).length 0
      { best_E := -1, elbo_best := elbo_est_default,
        taylor_approx_best := taylor_uninit, num_evals := grad_evals }
    rw [hst, ← List.range_eq_range'] at hn
    simp only [] at hn
    rw [← hn]
    by_cases hb : st.best_E = -1
    · simp [hb]
    · rw [if_neg hb, if_neg hb]
      unfold final_assembly
      simp only []
      by_cases hrem : (st.elbo_best.lp_ratio.length : Int) < num_draws
      · have hpos : num_draws - (st.elbo_best.lp_ratio.length : Int) > 0 := by
          omega
        rw [if_pos hpos, if_pos hrem]
        cases est_approx_draws false lp_fun sqrtF LOG_TWO_PI rand uninit
            st.taylor_approx_best
            (num_draws - (st.elbo_best.lp_ratio.length : Int)).toNat
            ((alpha_cascade (param_vecs.getD 0 []).length (diff_cols grad_vecs)
              (diff_cols param_vecs)).getD st.best_E.toNat []) R with
        | error e => simp [counted_calls]
        | ok r => simp [counted_calls]
      · have hpos : ¬ (num_draws - (st.elbo_best.lp_ratio.length : Int) > 0) := by
          omega
        rw [if_neg hpos, if_neg hrem]
        simp
  · intro ReturnElbo rand1 uninit1 taylor_approx n alpha r h
    obtain ⟨_, _, _, _, h4, _⟩ := est_approx_draws_block ReturnElbo lp_fun sqrtF
      LOG_TWO_PI rand1 uninit1 taylor_approx n alpha R r h
    have hc := sample_phase_calls lp_fun
      (fun u => gen_draws sqrtF u taylor_approx alpha) rand1 uninit1
      taylor_approx.x_center.length n R
    exact ⟨by simp only [counted_calls]; rw [h4, hc.1], hc.2⟩

theorem demo_nan_iter (alpha_mat : Mat) (t : Nat) :
    elbo_est_iter demo_lp_nan id 2 (fun _ => demo_rand) (fun _ => Dbl.nan)
        (fun _ => demo_taylor) 1 alpha_mat 0 t
      = .error EstError.domain_error := by
  simp [elbo_est_iter, est_approx_draws, sample_phase, init_slots,
    sample_loop, retry_loop, redraw, cleanup, success_rows, demo_taylor,
    demo_lp_nan, demo_rand, gen_draws, draw_col, crossprod_vec, vadd, dot,
    Dbl.isfinite, List.range, List.range.loop]

/-- C25 (the code at the failing input): a history of two points, one ELBO
draw, no retry and a log density that is `NaN` everywhere.  The estimation of
the only iteration invokes `lp_fun` twice (once in the sample loop, once for
the probe) and ends in the domain error; the count returned is
`grad_evals = 3`, not the 5 of `grad_evals` plus every invocation. -/
theorem search_and_draw_est_uncounted_calls :
    elbo_est_iter demo_lp_nan id 2 (fun _ => demo_rand) (fun _ => Dbl.nan)
        (fun _ => demo_taylor) 1
        (alpha_cascade ([[0], [1]].getD 0 []).length (diff_cols [[1], [0]])
          (diff_cols [[0], [1]])) 0 0
      = .error EstError.domain_error ∧
    lp_invocations demo_lp_nan id demo_rand (fun _ => Dbl.nan) demo_taylor 1
      ((alpha_cascade ([[0], [1]].getD 0 []).length (diff_cols [[1], [0]])
          (diff_cols [[0], [1]])).getD 0 []) 0 = 2 ∧
    (search_and_draw_est 0 70 demo_lp_nan id id 2 (fun _ => demo_rand) demo_rand
      (fun _ => Dbl.nan) (fun _ => demo_taylor) demo_taylor 0 1 1
      [[0], [1]] [[1], [0]] 3).lp_calls = 3 ∧
    (search_and_draw_est 0 70 demo_lp_nan id id 2 (fun _ => demo_rand) demo_rand
      (fun _ => Dbl.nan) (fun _ => demo_taylor) demo_taylor 0 1 1
      [[0], [1]] [[1], [0]] 3).lp_calls ≠ 3 + 2 := by
  have hc : (search_and_draw_est 0 70 demo_lp_nan id id 2 (fun _ => demo_rand)
      demo_rand (fun _ => Dbl.nan) (fun _ => demo_taylor) demo_taylor 0 1 1
      [[0], [1]] [[1], [0]] 3).lp_calls = 3 := by
    unfold search_and_draw_est search_and_draw
    simp [diff_cols, elbo_search, elbo_search_step, vsub, demo_nan_iter]
  refine ⟨demo_nan_iter _ 0, ?_, hc, by rw [hc]; decide⟩
  simp [lp_invocations, sample_phase, init_slots, sample_loop, retry_loop,
    redraw, success_rows, demo_taylor, demo_lp_nan, demo_rand, gen_draws,
    draw_col, crossprod_vec, vadd, dot, Dbl.isfinite, List.range,
    List.range.loop]

/-! ## Claims about the pooling of the paths -/

/-- The pooled buffers hold, in the order the paths were run, the results of
the paths that did not return `SOFTWARE`. -/
theorem run_block_pool (single : Nat → PathRet) (SOFTWARE : Int) (n : Nat) :
    ∀ (b : Nat) (pool : Pool),
      (pool.individual_lp_ratios
          = (pool.ran.filter
              (fun i => decide ((single i).return_code ≠ SOFTWARE))).map
              (fun i => (single i).lp_ratio) ∧
        pool.individual_samples
          = (pool.ran.filter
              (fun i => decide ((single i).return_code ≠ SOFTWARE))).map
              (fun i => (single i).samples)) →
      ((run_block single SOFTWARE n b pool).individual_lp_ratios
          = ((run_block single SOFTWARE n b pool).ran.filter
              (fun i => decide ((single i).return_code ≠ SOFTWARE))).map
              (fun i => (single i).lp_ratio) ∧
        (run_block single SOFTWARE n b pool).individual_samples
          = ((run_block single SOFTWARE n b pool).ran.filter
              (fun i => decide ((single i).return_code ≠ SOFTWARE))).map
              (fun i => (single i).samples)) ∧
      ∃ k, k ≤ n ∧
        (run_block single SOFTWARE n b pool).ran = pool.ran ++ List.range' b k := by
  induction n with
  | zero =>
    intro b pool h
    exact ⟨h, 0, le_refl 0, by simp [run_block]⟩
  | succ n ih =>
    intro b pool h
    rw [run_block]
    by_cases hb : (single b).return_code = SOFTWARE
    · simp only [hb, if_true]
      refine ⟨?_, 1, by omega, by simp [List.range']⟩
      simp [List.filter_append, hb, h.1, h.2]
    · simp only [hb, if_false]
      obtain ⟨h1, k, hk, hran⟩ := ih (b + 1)
        { individual_lp_ratios :=
            pool.individual_lp_ratios ++ [(single b).lp_ratio],
          individual_samples :=
            pool.individual_samples ++ [(single b).samples],
          lp_calls := pool.lp_calls + (single b).lp_calls,
          ran := pool.ran ++ [b] }
        (by simp [List.filter_append, hb, h.1, h.2])
      refine ⟨h1, k + 1, by omega, ?_⟩
      rw [hran]
      simp [List.range', List.append_assoc]

theorem run_paths_pool (single : Nat → PathRet) (SOFTWARE : Int)
    (blocks : List (Nat × Nat)) :
    (run_paths single SOFTWARE blocks).individual_lp_ratios
      = ((run_paths single SOFTWARE blocks).ran.filter
          (fun i => decide ((single i).return_code ≠ SOFTWARE))).map
          (fun i => (single i).lp_ratio) ∧
    (run_paths single SOFTWARE blocks).individual_samples
      = ((run_paths single SOFTWARE blocks).ran.filter
          (fun i => decide ((single i).return_code ≠ SOFTWARE))).map
          (fun i => (single i).samples) := by
  unfold run_paths
  have hgen : ∀ (bs : List (Nat × Nat)) (pool : Pool),
      (pool.individual_lp_ratios
          = (pool.ran.filter
              (fun i => decide ((single i).return_code ≠ SOFTWARE))).map
              (fun i => (single i).lp_ratio) ∧
        pool.individual_samples
          = (pool.ran.filter
              (fun i => decide ((single i).return_code ≠ SOFTWARE))).map
              (fun i => (single i).samples)) →
      ((bs.foldl (fun pool r => run_block single SOFTWARE (r.2 - r.1) r.1 pool)
          pool).individual_lp_ratios
          = ((bs.foldl
              (fun pool r => run_block single SOFTWARE (r.2 - r.1) r.1 pool)
              pool).ran.filter
              (fun i => decide ((single i).return_code ≠ SOFTWARE))).map
              (fun i => (single i).lp_ratio) ∧
        (bs.foldl (fun pool r => run_block single SOFTWARE (r.2 - r.1) r.1 pool)
          pool).individual_samples
          = ((bs.foldl
              (fun pool r => run_block single SOFTWARE (r.2 - r.1) r.1 pool)
              pool).ran.filter
              (fun i => decide ((single i).return_code ≠ SOFTWARE))).map
              (fun i => (single i).samples)) := by
    intro bs
    induction bs with
    | nil => intro pool h; exact h
    | cons r rest ih =>
      intro pool h
      rw [List.foldl_cons]
      exact ih _ (run_block_pool single SOFTWARE _ _ pool h).1
  exact hgen blocks _ (by simp)

theorem write_segment_fresh {α : Type} (A block : List α) (n : Nat) (x : α) :
    write_segment (A ++ List.replicate (block.length + n) x) A.length block
      = (A ++ block) ++ List.replicate n x := by
  unfold write_segment
  rw [List.take_left, List.drop_append, List.drop_replicate]
  simp

theorem pool_fill_eq (junk : Dbl) (ratios : List (List Dbl)) :
    ∀ (mats : List DMat) (A : List Dbl) (B : DMat), B.length = A.length →
      List.Forall₂ (fun r m => m.length = r.length) ratios mats →
      pool_fill ratios mats A.length
          (A ++ List.replicate (ratios.map List.length).sum junk)
          (B ++ List.replicate (ratios.map List.length).sum [])
        = some (A ++ ratios.flatten, B ++ mats.flatten) := by
  induction ratios with
  | nil =>
    intro mats A B _ h
    cases h
    simp [pool_fill]
  | cons r rest ih =>
    intro mats A B hAB h
    cases h with
    | cons hrm hrest =>
      rename_i m ms
      rw [pool_fill, if_pos hrm]
      simp only [List.map_cons, List.sum_cons]
      rw [write_segment_fresh A r]
      have hB : B.length + r.length = (B ++ m).length := by
        rw [List.length_append, hrm]
      rw [← hAB]
      have e1 : write_segment (B ++ List.replicate (r.length + (rest.map List.length).sum) [])
          B.length m = (B ++ m) ++ List.replicate (rest.map List.length).sum [] := by
        rw [← hrm]; exact write_segment_fresh B m _ _
      rw [e1]
      have e2 : B.length + r.length = (A ++ r).length := by
        rw [List.length_append, hAB]
      rw [e2, ih ms (A ++ r) (B ++ m) (by rw [List.length_append, List.length_append, hAB, hrm]) hrest]
      simp [List.append_assoc]

theorem flatten_length_congr {α β γ : Type} (f : α → List β) (g : α → List γ)
    (l : List α) (h : ∀ i ∈ l, (g i).length = (f i).length) :
    ((l.map g).flatten).length = ((l.map f).flatten).length := by
  induction l with
  | nil => rfl
  | cons a rest ih =>
    simp only [List.map_cons, List.flatten_cons, List.length_append]
    rw [h a (List.mem_cons_self a rest),
      ih (fun i hi => h i (List.mem_cons_of_mem a hi))]

theorem flatten_split {α β : Type} (f : α → List β) (l : List α) (k : Nat)
    (a : α) (h : l[k]? = some a) :
    (l.map f).flatten
      = ((l.take k).map f).flatten ++ f a ++ ((l.drop (k + 1)).map f).flatten := by
  obtain ⟨hk, ha⟩ := List.getElem?_eq_some.1 h
  have hl : l = l.take k ++ a :: l.drop (k + 1) := by
    rw [← ha, ← List.drop_eq_getElem_cons hk, List.take_append_drop]
  conv_lhs => rw [hl]
  simp [List.append_assoc]

theorem pooled_eq (single : Nat → PathRet) (SOFTWARE : Int)
    (blocks : List (Nat × Nat)) (junk : Dbl)
    (hsurv : ∀ i ∈ (run_paths single SOFTWARE blocks).ran.filter
      (fun i => decide ((single i).return_code ≠ SOFTWARE)),
      (single i).samples.length = (single i).lp_ratio.length) :
    pooled (run_paths single SOFTWARE blocks) junk
      = some
        ((((run_paths single SOFTWARE blocks).ran.filter
            (fun i => decide ((single i).return_code ≠ SOFTWARE))).map
            (fun i => (single i).lp_ratio)).flatten,
         (((run_paths single SOFTWARE blocks).ran.filter
            (fun i => decide ((single i).return_code ≠ SOFTWARE))).map
            (fun i => (single i).samples)).flatten) := by
  obtain ⟨hp1, hp2⟩ := run_paths_pool single SOFTWARE blocks
  unfold pooled
  simp only []
  have hf : List.Forall₂ (fun (r : List Dbl) (m : DMat) => m.length = r.length)
      (run_paths single SOFTWARE blocks).individual_lp_ratios
      (run_paths single SOFTWARE blocks).individual_samples := by
    rw [hp1, hp2]
    generalize (run_paths single SOFTWARE blocks).ran.filter
      (fun i => decide ((single i).return_code ≠ SOFTWARE)) = l at hsurv
    induction l with
    | nil => exact List.Forall₂.nil
    | cons a rest ih =>
      exact List.Forall₂.cons (hsurv a (List.mem_cons_self a rest))
        (ih (fun i hi => hsurv i (List.mem_cons_of_mem a hi)))
  have := pool_fill_eq junk _ _ [] [] rfl hf
  simp only [List.nil_append, List.length_nil] at this
  rw [this, hp1, hp2]

/-- What the pooling does with the paths that were run: when each pooled path
returned as many draw columns as `lp_ratio` entries, the pooling yields the concatenation of the `lp_ratio` vectors and
the column-wise concatenation of the draw matrices of the paths that were
run and did not return `SOFTWARE`, in the order the paths were run (for one
range block over all paths: increasing path index).  The pooled sizes are the
sum of the sizes of the paths, and the entries and the columns of a path
stand at the same positions of the two pooled arrays, so that pooled entry
`j` belongs to pooled column `j`. -/
theorem pooled_concat (single : Nat → PathRet) (SOFTWARE : Int)
    (blocks : List (Nat × Nat)) (junk : Dbl)
    (hshape : ∀ i ∈ (run_paths single SOFTWARE blocks).ran,
      (single i).return_code ≠ SOFTWARE →
      (single i).samples.length = (single i).lp_ratio.length) :
    pooled (run_paths single SOFTWARE blocks) junk
      = some
        ((((run_paths single SOFTWARE blocks).ran.filter
            (fun i => decide ((single i).return_code ≠ SOFTWARE))).map
            (fun i => (single i).lp_ratio)).flatten,
         (((run_paths single SOFTWARE blocks).ran.filter
            (fun i => decide ((single i).return_code ≠ SOFTWARE))).map
            (fun i => (single i).samples)).flatten) ∧
    ((((run_paths single SOFTWARE blocks).ran.filter
        (fun i => decide ((single i).return_code ≠ SOFTWARE))).map
        (fun i => (single i).lp_ratio)).flatten).length
      = (((run_paths single SOFTWARE blocks).ran.filter
          (fun i => decide ((single i).return_code ≠ SOFTWARE))).map
          (fun i => (single i).lp_ratio.length)).sum ∧
    ((((run_paths single SOFTWARE blocks).ran.filter
        (fun i => decide ((single i).return_code ≠ SOFTWARE))).map
        (fun i => (single i).samples)).flatten).length
      = (((run_paths single SOFTWARE blocks).ran.filter
          (fun i => decide ((single i).return_code ≠ SOFTWARE))).map
          (fun i => (single i).lp_ratio.length)).sum ∧
    (∀ (k i : Nat),
      ((run_paths single SOFTWARE blocks).ran.filter
        (fun i => decide ((single i).return_code ≠ SOFTWARE)))[k]? = some i →
      (((run_paths single SOFTWARE blocks).ran.filter
          (fun i => decide ((single i).return_code ≠ SOFTWARE))).map
          (fun i => (single i).lp_ratio)).flatten
        = ((((run_paths single SOFTWARE blocks).ran.filter
              (fun i => decide ((single i).return_code ≠ SOFTWARE))).take k).map
              (fun i => (single i).lp_ratio)).flatten
          ++ (single i).lp_ratio
          ++ ((((run_paths single SOFTWARE blocks).ran.filter
              (fun i => decide ((single i).return_code ≠ SOFTWARE))).drop
                (k + 1)).map (fun i => (single i).lp_ratio)).flatten ∧
      (((run_paths single SOFTWARE blocks).ran.filter
          (fun i => decide ((single i).return_code ≠ SOFTWARE))).map
          (fun i => (single i).samples)).flatten
        = ((((run_paths single SOFTWARE blocks).ran.filter
              (fun i => decide ((single i).return_code ≠ SOFTWARE))).take k).map
              (fun i => (single i).samples)).flatten
          ++ (single i).samples
          ++ ((((run_paths single SOFTWARE blocks).ran.filter
              (fun i => decide ((single i).return_code ≠ SOFTWARE))).drop
                (k + 1)).map (fun i => (single i).samples)).flatten ∧
      (((((run_paths single SOFTWARE blocks).ran.filter
              (fun i => decide ((single i).return_code ≠ SOFTWARE))).take k).map
              (fun i => (single i).samples)).flatten).length
        = (((((run_paths single SOFTWARE blocks).ran.filter
              (fun i => decide ((single i).return_code ≠ SOFTWARE))).take k).map
              (fun i => (single i).lp_ratio)).flatten).length ∧
      (single i).samples.length = (single i).lp_ratio.length) ∧
    (∀ N, blocks = [(0, N)] →
      ∃ k, k ≤ N ∧ (run_paths single SOFTWARE blocks).ran = List.range k) := by
  have hsurv : ∀ i ∈ (run_paths single SOFTWARE blocks).ran.filter
      (fun i => decide ((single i).return_code ≠ SOFTWARE)),
      (single i).samples.length = (single i).lp_ratio.length := by
    intro i hi
    obtain ⟨h1, h2⟩ := List.mem_filter.1 hi
    exact hshape i h1 (of_decide_eq_true h2)
  refine ⟨pooled_eq single SOFTWARE blocks junk hsurv, ?_, ?_, ?_, ?_⟩
  · rw [List.length_flatten, List.map_map]
    rfl
  · rw [flatten_length_congr (fun i => (single i).lp_ratio)
      (fun i => (single i).samples) _ hsurv, List.length_flatten, List.map_map]
    rfl
  · intro k i hk
    refine ⟨flatten_split _ _ k i hk, flatten_split _ _ k i hk, ?_,
      hsurv i (List.getElem?_mem hk)⟩
    exact flatten_length_congr _ _ _
      (fun j hj => hsurv j (List.mem_of_mem_take hj))
  · intro N hN
    subst hN
    obtain ⟨_, k, hk, hran⟩ := run_block_pool single SOFTWARE (N - 0) 0
      { individual_lp_ratios := [], individual_samples := [], lp_calls := 0,
        ran := [] } (by simp)
    refine ⟨k, by omega, ?_⟩
    simp only [run_paths, List.foldl_cons, List.foldl_nil]
    rw [hran, List.nil_append, List.range_eq_range']

/-- Three paths of 100 draws each, none of which fails, give pooled arrays of
length 300. -/
theorem pooled_concat_witness :
    ∃ p, pooled (run_paths demo_single_hundred 70 [(0, 3)]) Dbl.nan = some p ∧
      p.1.length = 300 ∧ p.2.length = 300 ∧
      (run_paths demo_single_hundred 70 [(0, 3)]).ran = [0, 1, 2] := by
  have hran : (run_paths demo_single_hundred 70 [(0, 3)]).ran = [0, 1, 2] := by
    simp [run_paths, run_block, demo_single_hundred]
  obtain ⟨h1, h2, h3, _, _⟩ := pooled_concat demo_single_hundred 70 [(0, 3)]
    Dbl.nan (by intro i _ _; simp [demo_single_hundred])
  refine ⟨_, h1, ?_, ?_, hran⟩
  · rw [h2, hran]
    simp [demo_single_hundred]
  · rw [h3, hran]
    simp [demo_single_hundred]

/-- C26 (the code at the failing input): three paths in one range block, path
0 returns `SOFTWARE` (70) and paths 1 and 2 return one draw each.  The
surviving paths are 1 and 2 and the concatenation of their `lp_ratio` vectors
and of their draw matrices has 2 entries; but the body left the block at path
0, so paths 1 and 2 were not run, nothing is pooled and the driver returns
`SOFTWARE` without a draw column. -/
theorem pooled_misses_surviving_paths :
    (List.range 3).filter (fun i => decide ((demo_single i).return_code ≠ 70))
      = [1, 2] ∧
    (((List.range 3).filter
        (fun i => decide ((demo_single i).return_code ≠ 70))).map
        (fun i => (demo_single i).lp_ratio)).flatten
      = [Dbl.fin 1, Dbl.fin 1] ∧
    (((List.range 3).filter
        (fun i => decide ((demo_single i).return_code ≠ 70))).map
        (fun i => (demo_single i).samples)).flatten.length = 2 ∧
    (run_paths demo_single 70 [(0, 3)]).ran = [0] ∧
    (run_paths demo_single 70 [(0, 3)]).individual_lp_ratios = [] ∧
    (run_paths demo_single 70 [(0, 3)]).individual_samples = [] ∧
    ∀ fuel, pathfinder_lbfgs_multi demo_single 70 [(0, 3)] Dbl.nan
      (fun _ => demo_idx) 1 fuel = some (MultiOut.returned 70 []) := by
  have hfilter : (List.range 3).filter
      (fun i => decide ((demo_single i).return_code ≠ 70)) = [1, 2] := by
    simp [List.range, List.range.loop, List.filter, demo_single]
  refine ⟨hfilter, ?_, ?_, ?_, ?_, ?_, ?_⟩
  · rw [hfilter]
    simp [demo_single]
  · rw [hfilter]
    simp [demo_single]
  · simp [run_paths, run_block, demo_single]
  · simp [run_paths, run_block, demo_single]
  · simp [run_paths, run_block, demo_single]
  · intro fuel
    simp [pathfinder_lbfgs_multi, run_paths, run_block, demo_single]

/-! ## Claims about the resampling loop and the return of the driver -/

theorem resample_written_spec (samples : DMat) (rand_psis_idx : Nat → Nat)
    (num_multi_draws : Int) (hidx : ∀ n, rand_psis_idx n < samples.length)
    (fuel : Nat) :
    ∀ (i : Nat) (written : DMat),
      (∀ j col, written[j]? = some col →
        samples[rand_psis_idx j]? = some col) →
      ∀ j col,
        (resample_written samples rand_psis_idx num_multi_draws fuel i
          written)[j]? = some col →
        samples[rand_psis_idx j]? = some col := by
  induction fuel with
  | zero => intro i written h; exact h
  | succ n ih =>
    intro i written h
    rw [resample_written]
    split_ifs with hc
    · apply ih
      intro j col hj
      by_cases hlt : j < written.length
      · rw [List.getElem?_append_left hlt] at hj
        exact h j col hj
      · have hge : written.length ≤ j := by omega
        rw [List.getElem?_append_right hge] at hj
        have hj0 : j - written.length = 0 := by
          by_contra hne
          have h1 : 1 ≤ j - written.length := by omega
          rw [List.getElem?_eq_none (by simpa using h1)] at hj
          exact Option.noConfusion hj
        rw [hj0] at hj
        simp only [List.getElem?_cons_zero, Option.some.injEq] at hj
        have hje : j = written.length := by omega
        rw [hje, ← hj, List.getD_eq_getElem?_getD,
          List.getElem?_eq_getElem (hidx written.length)]
        rfl
    · exact h

theorem resample_loop_written (samples : DMat) (rand_psis_idx : Nat → Nat)
    (num_multi_draws : Int) (fuel : Nat) :
    ∀ (i : Nat) (written w : DMat),
      resample_loop samples rand_psis_idx num_multi_draws fuel i written
        = some w →
      resample_written samples rand_psis_idx num_multi_draws fuel i written
        = w := by
  induction fuel with
  | zero => intro i written w h; simp [resample_loop] at h
  | succ n ih =>
    intro i written w h
    rw [resample_loop] at h
    rw [resample_written]
    split_ifs at h ⊢ with hc
    · exact ih _ _ w h
    · exact Option.some.inj h

/-- C27: when the discrete distribution returns indices below the number of
pooled columns, every column the resampling loop has written, at its exit or
at any earlier moment, is column `rand_psis_idx j` of the pooled matrix for
its position `j`, entry for entry; and for `1 <= num_multi_draws` the loop
exits with `num_multi_draws` such columns. -/
theorem resample_columns (samples : DMat) (rand_psis_idx : Nat → Nat)
    (num_multi_draws : Int)
    (hidx : ∀ n, rand_psis_idx n < samples.length) :
    (∀ (fuel j : Nat) (col : List Dbl),
      (resample_written samples rand_psis_idx num_multi_draws fuel 0 [])[j]?
        = some col →
      rand_psis_idx j < samples.length ∧
      samples[rand_psis_idx j]? = some col) ∧
    (∀ (fuel : Nat) (w : DMat),
      resample_loop samples rand_psis_idx num_multi_draws fuel 0 [] = some w →
      w = resample_written samples rand_psis_idx num_multi_draws fuel 0 [] ∧
      ∀ (j : Nat) (col : List Dbl), w[j]? = some col →
        rand_psis_idx j < samples.length ∧
        samples[rand_psis_idx j]? = some col) ∧
    (∀ n : Nat, 1 ≤ n → n < 2 ^ 64 → num_multi_draws = (n : Int) →
      ∃ w, resample_loop samples rand_psis_idx num_multi_draws (n + 1) 0 []
          = some w ∧
        w.length = n ∧
        ∀ j, j < n → w[j]? = samples[rand_psis_idx j]?) := by
  have hw := fun fuel => resample_written_spec samples rand_psis_idx
    num_multi_draws hidx fuel 0 [] (by intro j col h; simp at h)
  refine ⟨fun fuel j col h => ⟨hidx j, hw fuel j col h⟩, ?_, ?_⟩
  · intro fuel w h
    have he := resample_loop_written samples rand_psis_idx num_multi_draws fuel
      0 [] w h
    refine ⟨he.symm, fun j col hj => ⟨hidx j, hw fuel j col ?_⟩⟩
    rw [he]; exact hj
  · intro n h1 h2 hn
    subst hn
    obtain ⟨w, hw1, hw2⟩ := resample_loop_positive samples rand_psis_idx n h1
      h2 n 0 [] (by omega) rfl
    refine ⟨w, hw1, hw2, ?_⟩
    intro j hj
    have he := resample_loop_written samples rand_psis_idx (n : Int) (n + 1)
      0 [] w hw1
    have hjw : w[j]? = some w[j] := List.getElem?_eq_getElem (by omega)
    rw [hjw]
    have := hw (n + 1) j w[j] (by rw [he]; exact hjw)
    exact this.symm

/-- Witness of C27: two pooled columns, the index stream 0, 1, 0, ... and
three draws. -/
theorem resample_columns_witness :
    ∃ w, resample_loop demo_samples demo_idx 3 (3 + 1) 0 [] = some w ∧
      w.length = 3 ∧ ∀ j, j < 3 → w[j]? = demo_samples[demo_idx j]? :=
  (resample_columns demo_samples demo_idx 3
    (by intro n; simp only [demo_samples, demo_idx, List.length_cons,
          List.length_nil]; omega)).2.2 3 (by decide) (by norm_num) rfl

theorem run_paths_empty_iff (single : Nat → PathRet) (SOFTWARE : Int)
    (blocks : List (Nat × Nat)) :
    (run_paths single SOFTWARE blocks).individual_samples.length = 0 ↔
      ∀ i ∈ (run_paths single SOFTWARE blocks).ran,
        (single i).return_code = SOFTWARE := by
  rw [(run_paths_pool single SOFTWARE blocks).2, List.length_map,
    List.length_eq_zero, List.filter_eq_nil_iff]
  constructor
  · intro h i hi
    have := h i hi
    simpa using this
  · intro h i hi
    simp [h i hi]

/-- The return of the multi-path driver for `1 <= num_multi_draws`: `SOFTWARE`
with no draw column written if and only if every path that was run returned
`SOFTWARE`; else 0 after `num_multi_draws` columns. -/
theorem pathfinder_lbfgs_multi_return_code (single : Nat → PathRet)
    (SOFTWARE : Int) (blocks : List (Nat × Nat)) (junk : Dbl)
    (rand_psis_idx : List Dbl → Nat → Nat) (n : Nat) (h1 : 1 ≤ n)
    (h2 : n < 2 ^ 64)
    (hsurv : ∀ i ∈ (run_paths single SOFTWARE blocks).ran.filter
      (fun i => decide ((single i).return_code ≠ SOFTWARE)),
      (single i).samples.length = (single i).lp_ratio.length) :
    ((∀ i ∈ (run_paths single SOFTWARE blocks).ran,
        (single i).return_code = SOFTWARE) →
      ∀ fuel, pathfinder_lbfgs_multi single SOFTWARE blocks junk rand_psis_idx
        (n : Int) fuel = some (.returned SOFTWARE [])) ∧
    ((∃ i ∈ (run_paths single SOFTWARE blocks).ran,
        (single i).return_code ≠ SOFTWARE) →
      ∃ w, pathfinder_lbfgs_multi single SOFTWARE blocks junk rand_psis_idx
          (n : Int) (n + 1) = some (.returned 0 w) ∧ w.length = n) := by
  refine ⟨?_, ?_⟩
  · intro h fuel
    unfold pathfinder_lbfgs_multi
    simp only []
    rw [if_pos ((run_paths_empty_iff single SOFTWARE blocks).2 h)]
  · rintro ⟨i, hi, hne⟩
    have hnz : ¬ (run_paths single SOFTWARE blocks).individual_samples.length = 0 := by
      intro h0
      exact hne ((run_paths_empty_iff single SOFTWARE blocks).1 h0 i hi)
    unfold pathfinder_lbfgs_multi
    simp only []
    rw [if_neg hnz, pooled_eq single SOFTWARE blocks junk hsurv]
    simp only []
    obtain ⟨w, hw1, hw2⟩ := resample_loop_positive
      (((run_paths single SOFTWARE blocks).ran.filter
        (fun i => decide ((single i).return_code ≠ SOFTWARE))).map
        (fun i => (single i).samples)).flatten
      (rand_psis_idx
        (((run_paths single SOFTWARE blocks).ran.filter
          (fun i => decide ((single i).return_code ≠ SOFTWARE))).map
          (fun i => (single i).lp_ratio)).flatten)
      n h1 h2 n 0 [] (by omega) rfl
    rw [hw1]
    exact ⟨w, rfl, hw2⟩

theorem pathfinder_lbfgs_multi_zero_stuck (single : Nat → PathRet)
    (SOFTWARE : Int) (blocks : List (Nat × Nat)) (junk : Dbl)
    (rand_psis_idx : List Dbl → Nat → Nat) (fuel : Nat)
    (hne : ∃ i ∈ (run_paths single SOFTWARE blocks).ran,
      (single i).return_code ≠ SOFTWARE)
    (hsurv : ∀ i ∈ (run_paths single SOFTWARE blocks).ran.filter
      (fun i => decide ((single i).return_code ≠ SOFTWARE)),
      (single i).samples.length = (single i).lp_ratio.length) :
    pathfinder_lbfgs_multi single SOFTWARE blocks junk rand_psis_idx 0 fuel
      = none := by
  obtain ⟨i, hi, hne⟩ := hne
  have hnz : ¬ (run_paths single SOFTWARE blocks).individual_samples.length = 0 := by
    intro h0
    exact hne ((run_paths_empty_iff single SOFTWARE blocks).1 h0 i hi)
  unfold pathfinder_lbfgs_multi
  simp only []
  rw [if_neg hnz, pooled_eq single SOFTWARE blocks junk hsurv]
  simp only []
  rw [resample_loop_zero_stuck _ _ fuel 0 [] (by norm_num)]

/-- C28 (the code at the failing input): one path that returns the code 0 with
100 draws and `num_multi_draws = 0`: a path succeeded, yet the driver has not
returned after any number of iterations of the resampling loop. -/
theorem pathfinder_lbfgs_multi_zero_draws_never_returns (junk : Dbl)
    (rand_psis_idx : List Dbl → Nat → Nat) (fuel : Nat) :
    (run_paths demo_single_hundred 70 [(0, 1)]).ran = [0] ∧
    (demo_single_hundred 0).return_code ≠ 70 ∧
    pathfinder_lbfgs_multi demo_single_hundred 70 [(0, 1)] junk rand_psis_idx 0
      fuel = none := by
  have hran : (run_paths demo_single_hundred 70 [(0, 1)]).ran = [0] := by
    simp [run_paths, run_block, demo_single_hundred]
  refine ⟨hran, by simp [demo_single_hundred], ?_⟩
  apply pathfinder_lbfgs_multi_zero_stuck
  · exact ⟨0, by rw [hran]; simp, by simp [demo_single_hundred]⟩
  · intro i _
    simp [demo_single_hundred]

/-- The tuple the final assembly returns has as many draw columns as
`lp_ratio` entries when the best iterate's block was returned by
`est_approx_draws`: what the pooling of the multi-path driver relies on. -/
theorem final_assembly_shape (OK : Int) (lp_fun : Vec → LpOut)
    (constrain_fun : Vec → Vec) (sqrtF : ℚ → ℚ) (LOG_TWO_PI : ℚ)
    (rand : Nat → ℚ) (uninit : Nat → Dbl) (taylor_approx_best : taylor_approx_t)
    (alpha : Vec) (R : Nat) (elbo_best : elbo_est_t) (num_draws : Int)
    (num_evals : Nat) (ReturnElbo : Bool) (rand_e : Nat → ℚ)
    (uninit_e : Nat → Dbl) (taylor_e : taylor_approx_t) (K_e : Nat)
    (alpha_e : Vec) (R_e : Nat)
    (hbest : est_approx_draws ReturnElbo lp_fun sqrtF LOG_TWO_PI rand_e uninit_e
      taylor_e K_e alpha_e R_e = .ok elbo_best) :
    (final_assembly OK lp_fun constrain_fun sqrtF LOG_TWO_PI rand uninit
      taylor_approx_best alpha R elbo_best num_draws num_evals).samples.length
      = (final_assembly OK lp_fun constrain_fun sqrtF LOG_TWO_PI rand uninit
        taylor_approx_best alpha R elbo_best num_draws
        num_evals).lp_ratio.length := by
  have hblock : ∀ (RE : Bool) (rd : Nat → ℚ) (un : Nat → Dbl)
      (t : taylor_approx_t) (K : Nat) (a : Vec) (R1 : Nat) (r : elbo_est_t),
      est_approx_draws RE lp_fun sqrtF LOG_TWO_PI rd un t K a R1 = .ok r →
      (constrained_cols constrain_fun r.repeat_draws r.lp_mat).length
        = r.lp_ratio.length := by
    intro RE rd un t K a R1 r h
    obtain ⟨kept, h1, h2, h3, _, _⟩ := est_approx_draws_block RE lp_fun sqrtF
      LOG_TWO_PI rd un t K a R1 r h
    rw [h1, h2, h3, constrained_cols_map]
    simp
  rcases final_assembly_cases OK lp_fun constrain_fun sqrtF LOG_TWO_PI rand
    uninit taylor_approx_best alpha R elbo_best num_draws num_evals with
    ⟨est_draws, _, hest, hfa⟩ | hfa
  · rw [hfa]
    simp only [List.length_append]
    rw [hblock _ _ _ _ _ _ _ _ hbest, hblock _ _ _ _ _ _ _ _ hest]
  · rw [hfa]
    exact hblock _ _ _ _ _ _ _ _ hbest

/-! ## Claims about the column names of the CSV reader -/

theorem npos_eq : npos = 18446744073709551615 := by
  norm_num [npos]

theorem find_char_spec (c : Char) :
    ∀ s : List Char, s.length < npos →
      (c ∉ s ∧ find_char c s = npos) ∨
      (∃ before after, s = before ++ c :: after ∧ c ∉ before ∧
        find_char c s = before.length) := by
  intro s
  induction s with
  | nil => intro _; exact Or.inl ⟨by simp, rfl⟩
  | cons a rest ih =>
    intro hlen
    have hrest : rest.length < npos := by
      simp only [List.length_cons] at hlen; omega
    by_cases hac : a = c
    · right
      exact ⟨[], rest, by simp [hac], by simp, by simp [find_char, hac]⟩
    · rcases ih hrest with ⟨hnot, hfind⟩ | ⟨before, after, hs, hnot, hfind⟩
      · left
        refine ⟨?_, by simp [find_char, hac, hfind]⟩
        simp only [List.mem_cons, not_or]
        exact ⟨fun h => hac h.symm, hnot⟩
      · right
        have hne : find_char c rest ≠ npos := by
          rw [hfind]
          have : before.length ≤ rest.length := by
            rw [hs]; simp
          omega
        refine ⟨a :: before, after, by simp [hs], ?_, ?_⟩
        · simp only [List.mem_cons, not_or]
          exact ⟨fun h => hac h.symm, hnot⟩
        · rw [hfind] at hne
          simp [find_char, hac, hne, hfind]

theorem find_first_of_spec (chars : List Char) :
    ∀ s : List Char, s.length < npos →
      (find_first_of chars s = npos ↔ ∀ a ∈ s, a ∉ chars) := by
  intro s
  induction s with
  | nil => intro _; simp [find_first_of]
  | cons a rest ih =>
    intro hlen
    have hrest : rest.length < npos := by
      simp only [List.length_cons] at hlen; omega
    by_cases ha : a ∈ chars
    · simp only [find_first_of, ha, if_true, List.mem_cons, forall_eq_or_imp,
        not_true_eq_false, false_and, iff_false]
      rw [npos_eq]; decide
    · simp only [find_first_of, ha, if_false, List.mem_cons, forall_eq_or_imp,
        not_false_eq_true, true_and]
      rw [← ih hrest]
      by_cases hr : find_first_of chars rest = npos
      · simp [hr]
      · simp only [hr, if_false, iff_false]
        have hb : ∀ t : List Char, t.length < npos →
            find_first_of chars t ≠ npos → find_first_of chars t < t.length := by
          intro t
          induction t with
          | nil => intro _ h; exact absurd rfl h
          | cons b t iht =>
            intro hl h
            have hl2 : t.length < npos := by
              simp only [List.length_cons] at hl; omega
            by_cases hb : b ∈ chars
            · simp [find_first_of, hb]
            · by_cases ht : find_first_of chars t = npos
              · simp [find_first_of, hb, ht] at h
              · have := iht hl2 ht
                simp only [find_first_of, hb, ht, if_false, List.length_cons]
                omega
        have := hb rest hrest hr
        omega

theorem int_of_size_t_small (n : Nat) (h : n < 2 ^ 31) :
    int_of_size_t n = (n : Int) := by
  unfold int_of_size_t
  have h1 : n % 2 ^ 32 = n := Nat.mod_eq_of_lt (by omega)
  rw [h1, if_pos h]

theorem int_of_size_t_npos : int_of_size_t npos = -1 := by
  decide

theorem map_no_dot (l : List Char) (h : '.' ∉ l) :
    l.map (fun c => if c = '.' then ',' else c) = l := by
  induction l with
  | nil => rfl
  | cons a rest ih =>
    simp only [List.mem_cons, not_or] at h
    simp only [List.map_cons, ih h.2]
    rw [if_neg (fun hc => h.1 hc.symm)]

theorem first_occurrence_unique (c : Char) :
    ∀ (b b2 a a2 : List Char), b ++ c :: a = b2 ++ c :: a2 → c ∉ b → c ∉ b2 →
      b = b2 ∧ a = a2 := by
  intro b
  induction b with
  | nil =>
    intro b2 a a2 h _ h2
    cases b2 with
    | nil => simpa using h
    | cons x b3 =>
      simp only [List.nil_append, List.cons_append, List.cons.injEq] at h
      exact absurd (by rw [h.1]; simp) h2
  | cons y b ih =>
    intro b2 a a2 h h1 h2
    cases b2 with
    | nil =>
      simp only [List.nil_append, List.cons_append, List.cons.injEq] at h
      exact absurd (by rw [h.1]; simp) h1
    | cons x b3 =>
      simp only [List.cons_append, List.cons.injEq] at h
      simp only [List.mem_cons, not_or] at h1 h2
      obtain ⟨e1, e2⟩ := ih b3 a a2 h.2 h1.2 h2.2
      exact ⟨by rw [h.1, e1], e2⟩

/-- What the loop body does to one part. -/
theorem prettify_part_spec (part : List Char) (hlen : part.length < 2 ^ 31) :
    ('.' ∉ part → prettify_part part = part) ∧
    ∀ before after, part = before ++ '.' :: after → '.' ∉ before →
      (before = [] → prettify_part part = part) ∧
      (before ≠ [] →
        prettify_part part
          = before ++ '[' ::
              after.map (fun c => if c = '.' then ',' else c) ++ [']']) := by
  have hnpos : part.length < npos := by rw [npos_eq]; omega
  refine ⟨?_, ?_⟩
  · intro hno
    rcases find_char_spec '.' part hnpos with ⟨_, hfind⟩ | ⟨b, a, hs, _, _⟩
    · simp [prettify_part, hfind, int_of_size_t_npos]
    · exact absurd (by rw [hs]; simp) hno
  · intro before after hs hno
    rcases find_char_spec '.' part hnpos with ⟨hnot, _⟩ | ⟨b, a, hs2, hnob, hfind⟩
    · exact absurd (by rw [hs]; simp) hnot
    · have hba : b = before ∧ a = after := by
        rw [hs] at hs2
        exact first_occurrence_unique '.' b before a after hs2.symm hnob hno
      obtain ⟨rfl, rfl⟩ := hba
      have hbl : b.length < 2 ^ 31 := by
        rw [hs] at hlen
        simp only [List.length_append, List.length_cons] at hlen
        omega
      refine ⟨?_, ?_⟩
      · intro hnil
        subst hnil
        simp [prettify_part, hfind, int_of_size_t_small]
      · intro hne
        have hpos : 0 < b.length := List.length_pos.2 hne
        have hset : (b ++ '.' :: a).set b.length '[' = b ++ '[' :: a := by
          rw [List.set_append_right _ _ (le_refl _)]
          simp
        simp only [prettify_part, hfind, int_of_size_t_small _ hbl]
        rw [if_pos (by omega)]
        simp only [Int.toNat_ofNat]
        rw [hs, hset, List.map_append, map_no_dot b hnob]
        simp

theorem split_spec (sep : Char) :
    ∀ s : List Char,
      split sep s ≠ [] ∧ join sep (split sep s) = s ∧
      (∀ p ∈ split sep s, sep ∉ p ∧ p.length ≤ s.length) ∧
      (split sep s).length = s.count sep + 1 := by
  intro s
  induction s with
  | nil => simp [split, join]
  | cons a rest ih =>
    obtain ⟨h1, h2, h3, h4⟩ := ih
    by_cases ha : a = sep
    · subst ha
      cases hsp : split a rest with
      | nil => exact absurd hsp h1
      | cons q ps =>
        rw [hsp] at h2 h3 h4
        refine ⟨by simp [split], ?_, ?_, ?_⟩
        · simp only [split, if_true, hsp, join, List.nil_append]
          rw [h2]
        · intro p hp
          simp only [split, if_true, hsp, List.mem_cons] at hp
          rcases hp with rfl | hp
          · simp
          · have := h3 p (List.mem_cons.2 hp)
            exact ⟨this.1, by simp only [List.length_cons]; omega⟩
        · simp only [split, if_true, hsp, List.length_cons, List.count_cons_self]
          simp only [List.length_cons] at h4
          omega
    · cases hsp : split sep rest with
      | nil => exact absurd hsp h1
      | cons q ps =>
        rw [hsp] at h2 h3 h4
        have hne : (a == sep) = false := by simpa using ha
        refine ⟨by simp [split, ha, hsp], ?_, ?_, ?_⟩
        · simp only [split, ha, if_false, hsp]
          cases ps with
          | nil =>
            simp only [join] at h2 ⊢
            rw [h2]
          | cons q2 qs =>
            simp only [join, List.cons_append] at h2 ⊢
            rw [h2]
        · intro p hp
          simp only [split, ha, if_false, hsp, List.mem_cons] at hp
          rcases hp with rfl | hp
          · have := h3 q (List.mem_cons_self q ps)
            refine ⟨?_, by simp only [List.length_cons]; omega⟩
            simp only [List.mem_cons, not_or]
            exact ⟨fun h => ha h.symm, this.1⟩
          · have := h3 p (List.mem_cons_of_mem q hp)
            exact ⟨this.1, by simp only [List.length_cons]; omega⟩
        · simp only [split, ha, if_false, hsp, List.length_cons]
          rw [List.count_cons_of_ne (fun h => ha h.symm)]
          simp only [List.length_cons] at h4
          omega

theorem join_not_mem (sep c : Char) (hc : c ≠ sep) :
    ∀ parts : List (List Char), (∀ p ∈ parts, c ∉ p) → c ∉ join sep parts := by
  intro parts
  induction parts with
  | nil => intro _; simp [join]
  | cons p rest ih =>
    intro h
    cases rest with
    | nil => simpa [join] using h p (List.mem_cons_self p [])
    | cons q qs =>
      simp only [join, List.mem_append, List.mem_cons, not_or]
      exact ⟨h p (List.mem_cons_self p _), hc,
        ih (fun r hr => h r (List.mem_cons_of_mem p hr))⟩

theorem prettify_part_no_colon (part : List Char) (h : ':' ∉ part) :
    ':' ∉ prettify_part part := by
  unfold prettify_part
  simp only []
  split_ifs
  · intro hmem
    simp only [List.mem_append, List.mem_map, List.mem_singleton] at hmem
    rcases hmem with ⟨x, hx, hfx⟩ | hmem
    · have hx2 : x ∈ part ∨ x = '[' := List.mem_or_eq_of_mem_set hx
      by_cases hdot : x = '.'
      · rw [if_pos hdot] at hfx
        exact absurd hfx (by decide)
      · rw [if_neg hdot] at hfx
        rcases hx2 with hx2 | hx2
        · exact h (hfx ▸ hx2)
        · rw [hx2] at hfx
          exact absurd hfx (by decide)
    · exact absurd hmem (by decide)
  · exact h

/-- C33: a name shorter than 2^31 characters is left unchanged by
`prettify_stan_csv_name` when it holds neither a colon nor a dot; otherwise the
result is the join with dots of the prettified segments of the split at the
colons. The segments are those of the name (joined with colons they give the
name back, one more than the colons of the name, none holding a colon); a
segment without a dot, or whose first dot is at position 0, is unchanged, and a
segment whose first dot is at a position beyond 0 has that dot replaced by an
opening bracket, every later dot by a comma, and a closing bracket appended.
The result never holds a colon. -/
theorem prettify_stan_csv_name_spec (name : List Char)
    (hlen : name.length < 2 ^ 31) :
    ((':' ∉ name ∧ '.' ∉ name) → prettify_stan_csv_name name = name) ∧
    ((':' ∈ name ∨ '.' ∈ name) →
      prettify_stan_csv_name name
        = join '.' ((split ':' name).map prettify_part)) ∧
    join ':' (split ':' name) = name ∧
    (split ':' name).length = name.count ':' + 1 ∧
    (∀ seg ∈ split ':' name, ':' ∉ seg ∧
      ('.' ∉ seg → prettify_part seg = seg) ∧
      ∀ before after, seg = before ++ '.' :: after → '.' ∉ before →
        (before = [] → prettify_part seg = seg) ∧
        (before ≠ [] →
          prettify_part seg
            = before ++ '[' ::
                after.map (fun c => if c = '.' then ',' else c) ++ [']'])) ∧
    ':' ∉ prettify_stan_csv_name name := by
  have hnpos : name.length < npos := by rw [npos_eq]; omega
  have hff := find_first_of_spec [':', '.'] name hnpos
  obtain ⟨_, h2, h3, h4⟩ := split_spec ':' name
  have hcase1 : (':' ∉ name ∧ '.' ∉ name) → prettify_stan_csv_name name = name := by
    intro h
    have : find_first_of [':', '.'] name = npos := by
      rw [hff]
      intro a ha hmem
      simp only [List.mem_cons, List.mem_singleton, List.not_mem_nil, or_false] at hmem
      rcases hmem with rfl | rfl
      · exact h.1 ha
      · exact h.2 ha
    simp [prettify_stan_csv_name, this]
  have hcase2 : (':' ∈ name ∨ '.' ∈ name) →
      prettify_stan_csv_name name
        = join '.' ((split ':' name).map prettify_part) := by
    intro h
    have : find_first_of [':', '.'] name ≠ npos := by
      rw [Ne, hff]
      intro hall
      rcases h with h | h
      · exact hall _ h (by simp)
      · exact hall _ h (by simp)
    simp [prettify_stan_csv_name, this]
  refine ⟨hcase1, hcase2, h2, h4, ?_, ?_⟩
  · intro seg hseg
    have hs := h3 seg hseg
    have hp := prettify_part_spec seg (by omega)
    exact ⟨hs.1, hp.1, hp.2⟩
  · by_cases h : ':' ∈ name ∨ '.' ∈ name
    · rw [hcase2 h]
      apply join_not_mem '.' ':' (by decide)
      intro p hp
      obtain ⟨seg, hseg, rfl⟩ := List.mem_map.1 hp
      exact prettify_part_no_colon seg (h3 seg hseg).1
    · have h' : ':' ∉ name ∧ '.' ∉ name := by
        constructor
        · exact fun hc => h (Or.inl hc)
        · exact fun hc => h (Or.inr hc)
      rw [hcase1 h']
      exact h'.1

theorem prettify_stan_csv_name_spec_witness :
    prettify_stan_csv_name (String.toList "a.1.2:b") = String.toList "a[1,2].b" ∧
    ':' ∉ prettify_stan_csv_name (String.toList "a.1.2:b") :=
  ⟨by decide,
    (prettify_stan_csv_name_spec (String.toList "a.1.2:b") (by decide)).2.2.2.2.2⟩

/-- C32 (as amended): `prettify_stan_csv_name` rewrites the name `a:b.i.j` to
`a.b[i,j]`: the subscripts stay with the colon segment that holds them. -/
theorem prettify_stan_csv_name_example :
    prettify_stan_csv_name (String.toList "a:b.i.j") = String.toList "a.b[i,j]" := by
  decide

/-- C32 (counterexample): the name `a:b.i.j` is not rewritten to `a[i,j].b`. -/
theorem prettify_stan_csv_name_counterexample :
    prettify_stan_csv_name (String.toList "a:b.i.j") ≠ String.toList "a[i,j].b" := by
  decide

/-! ## Claims about the tail length of the PSIS weights -/

theorem floor_fifth {K : Type} [LinearOrderedField K] [FloorRing K] (N : Nat) :
    ⌊(2 / 10 : K) * (N : K)⌋₊ = N / 5 := by
  have e : (2 / 10 : K) * (N : K) = (N : K) / ((5 : ℕ) : K) := by
    push_cast; ring
  rw [e, Nat.floor_div_eq_div]

theorem floor_three_sqrt {K : Type} [LinearOrderedField K] [FloorRing K]
    (s : K) (N : Nat) (h0 : 0 ≤ s) (hsq : s * s = (N : K)) :
    ⌊3 * s⌋₊ = Nat.sqrt (9 * N) := by
  have h3 : 0 ≤ 3 * s := by positivity
  rw [Nat.floor_eq_iff h3]
  have hk1 : Nat.sqrt (9 * N) * Nat.sqrt (9 * N) ≤ 9 * N := Nat.sqrt_le (9 * N)
  have hk2 : 9 * N < (Nat.sqrt (9 * N) + 1) * (Nat.sqrt (9 * N) + 1) :=
    Nat.lt_succ_sqrt (9 * N)
  have e : (3 * s) * (3 * s) = ((9 * N : ℕ) : K) := by
    push_cast; rw [← hsq]; ring
  constructor
  · by_contra hlt
    push_neg at hlt
    have h1 : (3 * s) * (3 * s)
        < ((Nat.sqrt (9 * N) : ℕ) : K) * ((Nat.sqrt (9 * N) : ℕ) : K) :=
      mul_self_lt_mul_self h3 hlt
    rw [e] at h1
    have h2 : 9 * N < Nat.sqrt (9 * N) * Nat.sqrt (9 * N) := by
      exact_mod_cast h1
    omega
  · by_contra hge
    push_neg at hge
    have h1 : (((Nat.sqrt (9 * N) : ℕ) : K) + 1) * (((Nat.sqrt (9 * N) : ℕ) : K) + 1)
        ≤ (3 * s) * (3 * s) :=
      mul_self_le_mul_self (by positivity) hge
    rw [e] at h1
    have h2 : (Nat.sqrt (9 * N) + 1) * (Nat.sqrt (9 * N) + 1) ≤ 9 * N := by
      exact_mod_cast h1
    omega

theorem tail_len_min {K : Type} [LinearOrderedField K] [FloorRing K]
    (sqrtF : K → K) (N : Nat) :
    tail_len sqrtF N
      = min ⌊(2 / 10 : K) * (N : K)⌋₊ ⌊3 * sqrtF (N : K)⌋₊ := by
  unfold tail_len
  exact Monotone.map_min Nat.floor_mono

/-- The tail length with the square root of the reals, for every count. -/
theorem tail_len_real (N : Nat) :
    tail_len Real.sqrt N = min (N / 5) (Nat.sqrt (9 * N)) := by
  rw [tail_len_min, floor_fifth N,
    floor_three_sqrt _ N (Real.sqrt_nonneg _)
      (Real.mul_self_sqrt (Nat.cast_nonneg N))]

/-- C36: for every pooled draw count `N`, with a square root that is exact at
`N` (non-negative, its square is `N`), the tail length handed to the PSIS
routine, the truncation of `min(0.2 * N, 3 * sqrt(N))`, equals
`min(floor(0.2 * N), floor(3 * sqrt(N)))`, where `floor(0.2 * N)` is
`floor(N / 5)` and `floor(3 * sqrt(N))` is `floor(sqrt(9 * N))`. -/
theorem tail_len_eq {K : Type} [LinearOrderedField K] [FloorRing K]
    (sqrtF : K → K) (N : Nat) (h0 : 0 ≤ sqrtF (N : K))
    (hsq : sqrtF (N : K) * sqrtF (N : K) = (N : K)) :
    tail_len sqrtF N
        = min ⌊(2 / 10 : K) * (N : K)⌋₊ ⌊3 * sqrtF (N : K)⌋₊ ∧
    ⌊(2 / 10 : K) * (N : K)⌋₊ = N / 5 ∧
    ⌊3 * sqrtF (N : K)⌋₊ = Nat.sqrt (9 * N) ∧
    tail_len sqrtF N = min (N / 5) (Nat.sqrt (9 * N)) := by
  have hmin := tail_len_min sqrtF N
  refine ⟨hmin, floor_fifth N, floor_three_sqrt _ N h0 hsq, ?_⟩
  rw [hmin, floor_fifth N, floor_three_sqrt _ N h0 hsq]

/-- Witness of C36: 100 pooled draws, square root 10: the tail length is
`min 20 30 = 20`. -/
theorem tail_len_eq_witness :
    tail_len (fun _ : ℚ => 10) 100 = 20 ∧
    tail_len (fun _ : ℚ => 10) 100 = min (100 / 5) (Nat.sqrt (9 * 100)) := by
  have h := tail_len_eq (fun _ : ℚ => 10) 100 (by norm_num) (by norm_num)
  refine ⟨?_, h.2.2.2⟩
  rw [h.2.2.2]
  have e : Nat.sqrt (9 * 100) = 30 :=
    (Nat.eq_sqrt.2 ⟨by norm_num, by norm_num⟩).symm
  rw [e]
  decide

/-! ## Claims about the history past the L-BFGS loop -/

theorem check_curve_length (Yk Sk : Mat) :
    (check_curve Yk Sk).length = min Yk.length Sk.length := by
  simp [check_curve, colwise_sum, cwise_mul]

/-- What holds when the loop `while (ret == 0)` exits: the last code is not 0,
the histories hold one entry more than `param_cols_filled`, and a last code
other than -1 has filled a column. -/
theorem lbfgs_loop_exit (step : Nat → Step) :
    ∀ (fuel k : Nat) (h h2 : Hist),
      h.param_vecs.length = h.param_cols_filled + 1 →
      h.grad_vecs.length = h.param_cols_filled + 1 →
      (h.ret ≠ 0 → h.ret ≠ -1 → 1 ≤ h.param_cols_filled) →
      lbfgs_loop step fuel k h = some h2 →
      h2.ret ≠ 0 ∧ h2.param_vecs.length = h2.param_cols_filled + 1 ∧
      h2.grad_vecs.length = h2.param_cols_filled + 1 ∧
      (h2.ret ≠ -1 → 1 ≤ h2.param_cols_filled) := by
  intro fuel
  induction fuel with
  | zero =>
    intro k h h2 _ _ _ hl
    simp [lbfgs_loop] at hl
  | succ fuel ih =>
    intro k h h2 hp hg hc hl
    rw [lbfgs_loop] at hl
    by_cases hret : h.ret = 0
    · rw [if_pos hret] at hl
      by_cases hcode : (step k).code = -1
      · simp only [hcode, ne_eq, not_true_eq_false, if_false] at hl
        exact ih (k + 1) { h with ret := -1 } h2 hp hg
          (by intro _ h1; exact absurd rfl h1) hl
      · simp only [ne_eq, hcode, not_false_eq_true, if_true] at hl
        exact ih (k + 1)
          { ret := (step k).code,
            param_vecs := h.param_vecs ++ [(step k).curr_x],
            grad_vecs := h.grad_vecs ++ [(step k).curr_g],
            param_cols_filled := h.param_cols_filled + 1 } h2
          (by simp [hp]) (by simp [hg]) (by intro _ _; simp) hl
    · rw [if_neg hret] at hl
      cases Option.some.inj hl
      exact ⟨hret, hp, hg, hc hret⟩

/-- C40: for every sequence of outcomes of `lbfgs.step()`, when the loop exits
and the function goes on to the curvature and alpha stage (the last code is
not negative, or the history does not hold exactly one point), then
`param_cols_filled` is at least 1, the histories hold at least two points, the
difference matrices have `param_cols_filled` columns, and column 0 of both
difference matrices, entry 0 of `check_curve_vec` and column 0 of `alpha_mat`
exist. -/
theorem lbfgs_history_in_bounds (OK SOFTWARE : Int) (lp_fun : Vec → LpOut)
    (constrain_fun : Vec → Vec) (sqrtF : ℚ → ℚ) (LOG_TWO_PI : ℚ)
    (rand : Nat → ℚ) (uninit : Nat → Dbl)
    (est_iter : Nat → Except EstError elbo_est_t)
    (build_taylor : Nat → taylor_approx_t) (taylor_uninit : taylor_approx_t)
    (num_eval_attempts : Nat) (num_draws : Int) (grad_evals : Nat)
    (step : Nat → Step) (cont_vector g1 : Vec) (fuel : Nat) (h : Hist)
    (hloop : lbfgs_loop step fuel 0 (hist_init cont_vector g1) = some h)
    (hgo : h.ret ≥ 0 ∨ h.param_vecs.length ≠ 1) :
    after_lbfgs OK SOFTWARE lp_fun constrain_fun sqrtF LOG_TWO_PI rand uninit
        est_iter build_taylor taylor_uninit num_eval_attempts num_draws h.ret
        h.param_vecs h.grad_vecs grad_evals
      = search_and_draw OK SOFTWARE lp_fun constrain_fun sqrtF LOG_TWO_PI rand
          uninit est_iter build_taylor taylor_uninit num_eval_attempts
          num_draws h.param_vecs h.grad_vecs grad_evals ∧
    1 ≤ h.param_cols_filled ∧
    2 ≤ h.param_vecs.length ∧ 2 ≤ h.grad_vecs.length ∧
    (diff_cols h.grad_vecs).length = h.param_cols_filled ∧
    (diff_cols h.param_vecs).length = h.param_cols_filled ∧
    (∃ y, (diff_cols h.grad_vecs)[0]? = some y) ∧
    (∃ s, (diff_cols h.param_vecs)[0]? = some s) ∧
    (∃ b, (check_curve (diff_cols h.grad_vecs) (diff_cols h.param_vecs))[0]?
      = some b) ∧
    ∀ param_size, ∃ a,
      (alpha_cascade param_size (diff_cols h.grad_vecs)
        (diff_cols h.param_vecs))[0]? = some a := by
  obtain ⟨hne, hp, hg, hc⟩ :=
    lbfgs_loop_exit step fuel 0 (hist_init cont_vector g1) h rfl rfl
      (by intro h1; exact absurd rfl h1) hloop
  have hfill : 1 ≤ h.param_cols_filled := by
    rcases hgo with hgo | hgo
    · exact hc (by intro h1; rw [h1] at hgo; exact absurd hgo (by decide))
    · omega
  have hY : (diff_cols h.grad_vecs).length = h.param_cols_filled := by
    simp [diff_cols, hg]
  have hS : (diff_cols h.param_vecs).length = h.param_cols_filled := by
    simp [diff_cols, hp]
  have hexists : ∀ {α : Type} (l : List α), 0 < l.length → ∃ a, l[0]? = some a := by
    intro α l hl
    exact ⟨l[0], List.getElem?_eq_getElem hl⟩
  refine ⟨?_, hfill, by omega, by omega, hY, hS, hexists _ (by omega),
    hexists _ (by omega), hexists _ ?_, fun d => hexists _ ?_⟩
  · unfold after_lbfgs
    split_ifs with h1 h2
    · rfl
    · rcases hgo with hgo | hgo
      · exact absurd hgo h1
      · exact absurd h2 hgo
    · rfl
  · rw [check_curve_length, hY, hS]
    simpa using hfill
  · rw [alpha_cascade_length, hY]
    exact hfill

/-- Witness of C40: two steps with code 0, then code -1: the loop exits with a
history of three points and the function goes on; two columns are filled. -/
theorem lbfgs_history_in_bounds_witness :
    ∃ h, lbfgs_loop demo_step 4 0 (hist_init [0] [0]) = some h ∧
      h.param_vecs.length ≠ 1 ∧ 1 ≤ h.param_cols_filled ∧
      (∃ b, (check_curve (diff_cols h.grad_vecs) (diff_cols h.param_vecs))[0]?
        = some b) ∧
      ∃ a, (alpha_cascade 1 (diff_cols h.grad_vecs)
        (diff_cols h.param_vecs))[0]? = some a := by
  have hloop : lbfgs_loop demo_step 4 0 (hist_init [0] [0])
      = some { ret := -1, param_vecs := [[0], [1], [2]],
               grad_vecs := [[0], [-1], [-2]], param_cols_filled := 2 } := by
    simp [lbfgs_loop, demo_step, hist_init]
  have h := lbfgs_history_in_bounds 0 70 demo_lp demo_constrain id 2 demo_rand
    (fun _ => Dbl.nan) (fun _ => .error .domain_error) (fun _ => demo_taylor)
    demo_taylor 0 0 0 demo_step [0] [0] 4 _ hloop (Or.inr (by decide))
  exact ⟨_, hloop, by decide, h.2.1, h.2.2.2.2.2.2.2.2.1,
    h.2.2.2.2.2.2.2.2.2 1⟩

/-! ## Claims about the rows of the returned block -/

theorem map_pair_getElem? {α β γ : Type} (l : List α) (f : α → β) (g : α → γ)
    (i : Nat) (b : β) (h : (l.map f)[i]? = some b) :
    ∃ a, l[i]? = some a ∧ f a = b ∧ (l.map g)[i]? = some (g a) := by
  rw [List.getElem?_map] at h
  obtain ⟨a, ha, hb⟩ := Option.map_eq_some'.1 h
  exact ⟨a, ha, hb, by rw [List.getElem?_map, ha]; rfl⟩

/-- The columns and the ratios of a block that `est_approx_draws` returned,
paired row by row: a column ends with log q and log p, and its ratio is
log p minus log q. -/
theorem block_pairs (ReturnElbo : Bool) (lp_fun : Vec → LpOut)
    (constrain_fun : Vec → Vec) (sqrtF : ℚ → ℚ) (LOG_TWO_PI : ℚ)
    (rand : Nat → ℚ) (uninit : Nat → Dbl) (taylor_approx : taylor_approx_t)
    (K : Nat) (alpha : Vec) (R : Nat) (r : elbo_est_t)
    (h : est_approx_draws ReturnElbo lp_fun sqrtF LOG_TWO_PI rand uninit
      taylor_approx K alpha R = .ok r) :
    ∃ pairs : List (List Dbl × Dbl),
      constrained_cols constrain_fun r.repeat_draws r.lp_mat
        = pairs.map Prod.fst ∧
      r.lp_ratio = pairs.map Prod.snd ∧
      ∀ p ∈ pairs, ∃ (top : List Dbl) (logq logp : Dbl),
        p.1 = top ++ [logq, logp] ∧ p.2 = Dbl.sub logp logq := by
  obtain ⟨kept, h1, h2, h3, _, _⟩ := est_approx_draws_block ReturnElbo lp_fun
    sqrtF LOG_TWO_PI rand uninit taylor_approx K alpha R r h
  refine ⟨kept.map (fun s =>
      (constrained_col constrain_fun s.x
        (lp_approx taylor_approx.logdetcholHk LOG_TWO_PI
          taylor_approx.x_center.length s.u, s.lp),
       Dbl.sub s.lp (lp_approx taylor_approx.logdetcholHk LOG_TWO_PI
          taylor_approx.x_center.length s.u))), ?_, ?_, ?_⟩
  · rw [h1, h2, constrained_cols_map]
    simp [List.map_map, Function.comp]
  · rw [h3]
    simp [List.map_map, Function.comp]
  · intro p hp
    obtain ⟨s, _, rfl⟩ := List.mem_map.1 hp
    exact ⟨_, _, _, rfl, rfl⟩

theorem pairs_rows (pairs : List (List Dbl × Dbl))
    (hp : ∀ p ∈ pairs, ∃ (top : List Dbl) (logq logp : Dbl),
      p.1 = top ++ [logq, logp] ∧ p.2 = Dbl.sub logp logq) :
    ∀ (j : Nat) (col : List Dbl), (pairs.map Prod.fst)[j]? = some col →
      ∃ (top : List Dbl) (logq logp : Dbl), col = top ++ [logq, logp] ∧
        (pairs.map Prod.snd)[j]? = some (Dbl.sub logp logq) := by
  intro j col hj
  obtain ⟨p, hpj, hcol, hsnd⟩ := map_pair_getElem? pairs Prod.fst Prod.snd j col hj
  obtain ⟨top, logq, logp, e1, e2⟩ := hp p (List.mem_iff_getElem?.2 ⟨j, hpj⟩)
  refine ⟨top, logq, logp, ?_, ?_⟩
  · rw [← hcol, e1]
  · rw [hsnd, e2]

/-- C37: when the best iterate's block was returned by `est_approx_draws<true>`,
the tuple of the final assembly has as many `lp_ratio` entries as draw
columns; every column `j` ends with two entries, log q then log p, and
`lp_ratio[j]` is log p minus log q; the columns of the ELBO draws of the best
iterate come first, in the order of the block (column `i` is built from draw
`i` and row `i` of its `lp_mat`), as do their ratios, and the top-up draws
follow: when draws remain to be made and the top-up call returns a block, the
columns and ratios after those of the ELBO draws are exactly those of that
block, in its order; when no draw remains to be made, or the top-up call
raises, nothing follows. -/
theorem final_assembly_lp_ratio_rows (OK : Int) (lp_fun : Vec → LpOut)
    (constrain_fun : Vec → Vec) (sqrtF : ℚ → ℚ) (LOG_TWO_PI : ℚ)
    (rand : Nat → ℚ) (uninit : Nat → Dbl) (taylor_approx_best : taylor_approx_t)
    (alpha : Vec) (R : Nat) (elbo_best : elbo_est_t) (num_draws : Int)
    (num_evals : Nat) (rand_e : Nat → ℚ) (uninit_e : Nat → Dbl)
    (taylor_e : taylor_approx_t) (K_e : Nat) (alpha_e : Vec) (R_e : Nat)
    (hbest : est_approx_draws true lp_fun sqrtF LOG_TWO_PI rand_e uninit_e
      taylor_e K_e alpha_e R_e = .ok elbo_best) :
    (final_assembly OK lp_fun constrain_fun sqrtF LOG_TWO_PI rand uninit
      taylor_approx_best alpha R elbo_best num_draws num_evals).samples.length
      = (final_assembly OK lp_fun constrain_fun sqrtF LOG_TWO_PI rand uninit
        taylor_approx_best alpha R elbo_best num_draws
        num_evals).lp_ratio.length ∧
    (∀ (j : Nat) (col : List Dbl),
      (final_assembly OK lp_fun constrain_fun sqrtF LOG_TWO_PI rand uninit
        taylor_approx_best alpha R elbo_best num_draws num_evals).samples[j]?
        = some col →
      ∃ (top : List Dbl) (logq logp : Dbl), col = top ++ [logq, logp] ∧
        (final_assembly OK lp_fun constrain_fun sqrtF LOG_TWO_PI rand uninit
          taylor_approx_best alpha R elbo_best num_draws num_evals).lp_ratio[j]?
          = some (Dbl.sub logp logq)) ∧
    elbo_best.repeat_draws.length = elbo_best.lp_ratio.length ∧
    elbo_best.lp_mat.length = elbo_best.lp_ratio.length ∧
    (final_assembly OK lp_fun constrain_fun sqrtF LOG_TWO_PI rand uninit
      taylor_approx_best alpha R elbo_best num_draws num_evals).samples.take
        elbo_best.lp_ratio.length
      = List.zipWith
          (fun x row => (constrain_fun x).map Dbl.fin ++ [row.1, row.2])
          elbo_best.repeat_draws elbo_best.lp_mat ∧
    (final_assembly OK lp_fun constrain_fun sqrtF LOG_TWO_PI rand uninit
      taylor_approx_best alpha R elbo_best num_draws num_evals).lp_ratio.take
        elbo_best.lp_ratio.length
      = elbo_best.lp_ratio ∧
    (∀ est_draws, (elbo_best.lp_ratio.length : Int) < num_draws →
      est_approx_draws false lp_fun sqrtF LOG_TWO_PI rand uninit
        taylor_approx_best
        (num_draws - (elbo_best.lp_ratio.length : Int)).toNat alpha R
        = .ok est_draws →
      (final_assembly OK lp_fun constrain_fun sqrtF LOG_TWO_PI rand uninit
        taylor_approx_best alpha R elbo_best num_draws num_evals).samples.drop
          elbo_best.lp_ratio.length
        = List.zipWith
            (fun x row => (constrain_fun x).map Dbl.fin ++ [row.1, row.2])
            est_draws.repeat_draws est_draws.lp_mat ∧
      (final_assembly OK lp_fun constrain_fun sqrtF LOG_TWO_PI rand uninit
        taylor_approx_best alpha R elbo_best num_draws num_evals).lp_ratio.drop
          elbo_best.lp_ratio.length
        = est_draws.lp_ratio ∧
      est_draws.repeat_draws.length = est_draws.lp_ratio.length ∧
      est_draws.lp_mat.length = est_draws.lp_ratio.length) ∧
    (num_draws ≤ (elbo_best.lp_ratio.length : Int) →
      (final_assembly OK lp_fun constrain_fun sqrtF LOG_TWO_PI rand uninit
        taylor_approx_best alpha R elbo_best num_draws num_evals).samples.drop
          elbo_best.lp_ratio.length = [] ∧
      (final_assembly OK lp_fun constrain_fun sqrtF LOG_TWO_PI rand uninit
        taylor_approx_best alpha R elbo_best num_draws num_evals).lp_ratio.drop
          elbo_best.lp_ratio.length = []) ∧
    (∀ e,
      est_approx_draws false lp_fun sqrtF LOG_TWO_PI rand uninit
        taylor_approx_best
        (num_draws - (elbo_best.lp_ratio.length : Int)).toNat alpha R
        = .error e →
      (final_assembly OK lp_fun constrain_fun sqrtF LOG_TWO_PI rand uninit
        taylor_approx_best alpha R elbo_best num_draws num_evals).samples.drop
          elbo_best.lp_ratio.length = [] ∧
      (final_assembly OK lp_fun constrain_fun sqrtF LOG_TWO_PI rand uninit
        taylor_approx_best alpha R elbo_best num_draws num_evals).lp_ratio.drop
          elbo_best.lp_ratio.length = []) := by
  obtain ⟨P, hP1, hP2, hP3⟩ := block_pairs true lp_fun constrain_fun sqrtF
    LOG_TWO_PI rand_e uninit_e taylor_e K_e alpha_e R_e elbo_best hbest
  obtain ⟨kept, hk1, hk2, hk3, _, _⟩ := est_approx_draws_block true lp_fun
    sqrtF LOG_TWO_PI rand_e uninit_e taylor_e K_e alpha_e R_e elbo_best hbest
  have hlenP : (constrained_cols constrain_fun elbo_best.repeat_draws
      elbo_best.lp_mat).length = elbo_best.lp_ratio.length := by
    rw [hP1, hP2]; simp
  have hlen1 : elbo_best.repeat_draws.length = elbo_best.lp_ratio.length := by
    rw [hk1, hk3]; simp
  have hlen2 : elbo_best.lp_mat.length = elbo_best.lp_ratio.length := by
    rw [hk2, hk3]; simp
  have hzip : constrained_cols constrain_fun elbo_best.repeat_draws
      elbo_best.lp_mat
      = List.zipWith
          (fun x row => (constrain_fun x).map Dbl.fin ++ [row.1, row.2])
          elbo_best.repeat_draws elbo_best.lp_mat := rfl
  have htop : ∀ est_draws, (elbo_best.lp_ratio.length : Int) < num_draws →
      est_approx_draws false lp_fun sqrtF LOG_TWO_PI rand uninit
        taylor_approx_best
        (num_draws - (elbo_best.lp_ratio.length : Int)).toNat alpha R
        = .ok est_draws →
      (final_assembly OK lp_fun constrain_fun sqrtF LOG_TWO_PI rand uninit
        taylor_approx_best alpha R elbo_best num_draws num_evals).samples.drop
          elbo_best.lp_ratio.length
        = List.zipWith
            (fun x row => (constrain_fun x).map Dbl.fin ++ [row.1, row.2])
            est_draws.repeat_draws est_draws.lp_mat ∧
      (final_assembly OK lp_fun constrain_fun sqrtF LOG_TWO_PI rand uninit
        taylor_approx_best alpha R elbo_best num_draws num_evals).lp_ratio.drop
          elbo_best.lp_ratio.length
        = est_draws.lp_ratio ∧
      est_draws.repeat_draws.length = est_draws.lp_ratio.length ∧
      est_draws.lp_mat.length = est_draws.lp_ratio.length := by
    intro est_draws hlt hest
    obtain ⟨kt, ht1, ht2, ht3, _, _⟩ := est_approx_draws_block false lp_fun
      sqrtF LOG_TWO_PI rand uninit taylor_approx_best _ alpha R est_draws hest
    have hrem : num_draws - (elbo_best.lp_ratio.length : Int) > 0 := by omega
    refine ⟨?_, ?_, by rw [ht1, ht3]; simp, by rw [ht2, ht3]; simp⟩
    · unfold final_assembly
      simp only []
      rw [if_pos hrem, hest]
      simp only []
      rw [← hlenP, List.drop_left' rfl]
      rfl
    · unfold final_assembly
      simp only []
      rw [if_pos hrem, hest]
      simp only []
      rw [List.drop_left' rfl]
  have hnone : num_draws ≤ (elbo_best.lp_ratio.length : Int) →
      (final_assembly OK lp_fun constrain_fun sqrtF LOG_TWO_PI rand uninit
        taylor_approx_best alpha R elbo_best num_draws num_evals).samples.drop
          elbo_best.lp_ratio.length = [] ∧
      (final_assembly OK lp_fun constrain_fun sqrtF LOG_TWO_PI rand uninit
        taylor_approx_best alpha R elbo_best num_draws num_evals).lp_ratio.drop
          elbo_best.lp_ratio.length = [] := by
    intro hle
    have hrem : ¬ (num_draws - (elbo_best.lp_ratio.length : Int) > 0) := by
      omega
    constructor
    · unfold final_assembly
      simp only []
      rw [if_neg hrem]
      simp only []
      rw [← hlenP, List.drop_length]
    · unfold final_assembly
      simp only []
      rw [if_neg hrem]
      simp only []
      rw [List.drop_length]
  have herr : ∀ e,
      est_approx_draws false lp_fun sqrtF LOG_TWO_PI rand uninit
        taylor_approx_best
        (num_draws - (elbo_best.lp_ratio.length : Int)).toNat alpha R
        = .error e →
      (final_assembly OK lp_fun constrain_fun sqrtF LOG_TWO_PI rand uninit
        taylor_approx_best alpha R elbo_best num_draws num_evals).samples.drop
          elbo_best.lp_ratio.length = [] ∧
      (final_assembly OK lp_fun constrain_fun sqrtF LOG_TWO_PI rand uninit
        taylor_approx_best alpha R elbo_best num_draws num_evals).lp_ratio.drop
          elbo_best.lp_ratio.length = [] := by
    intro e he
    by_cases hrem : num_draws - (elbo_best.lp_ratio.length : Int) > 0
    · constructor
      · unfold final_assembly
        simp only []
        rw [if_pos hrem, he]
        simp only []
        rw [← hlenP, List.drop_length]
      · unfold final_assembly
        simp only []
        rw [if_pos hrem, he]
        simp only []
        rw [List.drop_length]
    · exact hnone (by omega)
  rcases final_assembly_cases OK lp_fun constrain_fun sqrtF LOG_TWO_PI rand
    uninit taylor_approx_best alpha R elbo_best num_draws num_evals with
    ⟨est, _, hest, hfa⟩ | hfa
  · obtain ⟨Q, hQ1, hQ2, hQ3⟩ := block_pairs false lp_fun constrain_fun sqrtF
      LOG_TWO_PI rand uninit taylor_approx_best _ alpha R est hest
    have hall : ∀ p ∈ P ++ Q, ∃ (top : List Dbl) (logq logp : Dbl),
        p.1 = top ++ [logq, logp] ∧ p.2 = Dbl.sub logp logq := by
      intro p hp
      rcases List.mem_append.1 hp with hp | hp
      · exact hP3 p hp
      · exact hQ3 p hp
    have hs : (final_assembly OK lp_fun constrain_fun sqrtF LOG_TWO_PI rand
        uninit taylor_approx_best alpha R elbo_best num_draws num_evals).samples
        = (P ++ Q).map Prod.fst := by
      rw [hfa, List.map_append, ← hP1, ← hQ1]
    have hr : (final_assembly OK lp_fun constrain_fun sqrtF LOG_TWO_PI rand
        uninit taylor_approx_best alpha R elbo_best num_draws num_evals).lp_ratio
        = (P ++ Q).map Prod.snd := by
      rw [hfa, List.map_append, ← hP2, ← hQ2]
    refine ⟨by rw [hs, hr]; simp, ?_, hlen1, hlen2, ?_, ?_, htop, hnone, herr⟩
    · intro j col hj
      rw [hs] at hj
      rw [hr]
      exact pairs_rows (P ++ Q) hall j col hj
    · rw [hfa, ← hzip]
      simp only []
      rw [← hlenP, List.take_left']
      rfl
    · rw [hfa]
      simp only []
      rw [List.take_left' rfl]
  · have hs : (final_assembly OK lp_fun constrain_fun sqrtF LOG_TWO_PI rand
        uninit taylor_approx_best alpha R elbo_best num_draws num_evals).samples
        = P.map Prod.fst := by
      rw [hfa, ← hP1]
    have hr : (final_assembly OK lp_fun constrain_fun sqrtF LOG_TWO_PI rand
        uninit taylor_approx_best alpha R elbo_best num_draws num_evals).lp_ratio
        = P.map Prod.snd := by
      rw [hfa, ← hP2]
    refine ⟨by rw [hs, hr]; simp, ?_, hlen1, hlen2, ?_, ?_, htop, hnone, herr⟩
    · intro j col hj
      rw [hs] at hj
      rw [hr]
      exact pairs_rows P hP3 j col hj
    · rw [hfa, ← hzip]
      simp only []
      rw [← hlenP, List.take_length]
    · rw [hfa]
      simp only []
      rw [List.take_length]

theorem demo_topup_block_eq :
    est_approx_draws false demo_lp_zero id 2 demo_rand (fun _ => Dbl.nan)
      demo_taylor ((3 : Int) - (demo_elbo_best.lp_ratio.length : Int)).toNat
      [1] 0
      = .ok demo_topup_block := by
  simp [est_approx_draws, sample_phase, init_slots, sample_loop, retry_loop,
    redraw, cleanup, success_rows, finish, lp_approx, demo_taylor, demo_lp_zero,
    demo_rand, demo_elbo_best, demo_topup_block, gen_draws, draw_col,
    crossprod_vec, vadd, dot, Dbl.mean, Dbl.sum, Dbl.add, Dbl.sub, Dbl.neg,
    Dbl.divN, Dbl.isfinite, List.range, List.range.loop]

/-- Witness of C37: the block of `demo_lp_zero` (two ELBO draws) with three
draws asked for: the top-up returns one draw, which follows the two ELBO
draws; three columns and three ratios are returned. -/
theorem final_assembly_lp_ratio_rows_witness :
    (final_assembly 0 demo_lp_zero demo_constrain id 2 demo_rand
      (fun _ => Dbl.nan) demo_taylor [1] 0 demo_elbo_best 3 2).samples.length
      = (final_assembly 0 demo_lp_zero demo_constrain id 2 demo_rand
        (fun _ => Dbl.nan) demo_taylor [1] 0 demo_elbo_best 3
        2).lp_ratio.length ∧
    (final_assembly 0 demo_lp_zero demo_constrain id 2 demo_rand
      (fun _ => Dbl.nan) demo_taylor [1] 0 demo_elbo_best 3 2).samples.drop
        demo_elbo_best.lp_ratio.length
      = [[Dbl.fin 0, Dbl.fin (-1), Dbl.fin 0]] ∧
    (final_assembly 0 demo_lp_zero demo_constrain id 2 demo_rand
      (fun _ => Dbl.nan) demo_taylor [1] 0 demo_elbo_best 3 2).lp_ratio.drop
        demo_elbo_best.lp_ratio.length
      = [Dbl.fin 1] := by
  have h := final_assembly_lp_ratio_rows 0 demo_lp_zero demo_constrain id 2
    demo_rand (fun _ => Dbl.nan) demo_taylor [1] 0 demo_elbo_best 3 2 demo_rand
    (fun _ => Dbl.nan) demo_taylor 2 [1] 0 demo_elbo_best_eq
  have htop := h.2.2.2.2.2.2.1 demo_topup_block (by simp [demo_elbo_best])
    demo_topup_block_eq
  refine ⟨h.1, ?_, ?_⟩
  · rw [htop.1]
    simp [demo_topup_block, demo_constrain]
  · rw [htop.2.1]
    rfl

/-- C38: every draw of a block that `est_approx_draws` returned is consistent
with its stored variates and its log densities, whatever the number of
retries: draw `i` is `gen_draws` of a vector `u` of variates of the stream,
entry `(i, 1)` of `lp_mat` is the finite value `lp_fun` returns at that draw
and entry `(i, 0)` is computed from the same `u`; and column `c` of the matrix
overload of `gen_draws` is the vector overload at column `c` of the
variates. -/
theorem est_approx_draws_slot_consistency (ReturnElbo : Bool)
    (lp_fun : Vec → LpOut) (sqrtF : ℚ → ℚ) (LOG_TWO_PI : ℚ) (rand : Nat → ℚ)
    (uninit : Nat → Dbl) (taylor_approx : taylor_approx_t) (K : Nat)
    (alpha : Vec) (R : Nat) (r : elbo_est_t)
    (h : est_approx_draws ReturnElbo lp_fun sqrtF LOG_TWO_PI rand uninit
      taylor_approx K alpha R = .ok r) :
    r.repeat_draws.length = r.lp_mat.length ∧
    (∀ (i : Nat) (x : Vec), r.repeat_draws[i]? = some x →
      ∃ (u : Vec) (pos : Nat) (logp : Dbl),
        u = draw_col rand pos taylor_approx.x_center.length ∧
        x = gen_draws sqrtF u taylor_approx alpha ∧
        lp_fun x = .val logp ∧ logp.isfinite = true ∧
        r.lp_mat[i]? = some
          (lp_approx taylor_approx.logdetcholHk LOG_TWO_PI
            taylor_approx.x_center.length u, logp)) ∧
    (∀ (d n : Nat) (U : Matrix (Fin d) (Fin n) ℚ)
      (t : Sized.taylor_approx_t ℚ d) (a : Fin d → ℚ) (c : Fin n),
      Sized.to_vec (fun i => Sized.gen_draws_matrix sqrtF U t a i c)
        = gen_draws sqrtF (Sized.to_vec (fun i => U i c)) (Sized.to_record t)
            (Sized.to_vec a)) := by
  refine ⟨?_, ?_, ?_⟩
  · obtain ⟨kept, h1, h2, _, _, _⟩ := est_approx_draws_block ReturnElbo lp_fun
      sqrtF LOG_TWO_PI rand uninit taylor_approx K alpha R r h
    rw [h1, h2]; simp
  · rw [est_approx_draws_eq] at h
    split_ifs at h with hc
    cases h
    intro i x hi
    obtain ⟨s, hs, hx, hrow⟩ := map_pair_getElem? _ (fun s : Slot => s.x)
      (fun s : Slot => (lp_approx taylor_approx.logdetcholHk LOG_TWO_PI
        taylor_approx.x_center.length s.u, s.lp)) i x hi
    obtain ⟨hmem, hfin⟩ := List.mem_filter.1 (List.mem_iff_getElem?.2 ⟨i, hs⟩)
    obtain ⟨hgen, pos, hpos⟩ :=
      sample_phase_consistent lp_fun _ rand uninit _ K R s hmem
    have hval := sample_phase_slot_value lp_fun _ rand uninit _ K R s hmem hfin
    refine ⟨s.u, pos, s.lp, hpos, ?_, ?_, hfin, hrow⟩
    · rw [← hx]; exact hgen
    · rw [← hx]; exact hval
  · intro d n U t a c
    rw [Sized.gen_draws_matrix_col, Sized.gen_draws_to_vec]

/-- Witness of C38: the block of `demo_lp`, two samples and one retry: the
kept draw 0 is `gen_draws` of stored variates and its log p is the value of
`demo_lp` there. -/
theorem est_approx_draws_slot_consistency_witness :
    ∃ (u : Vec) (pos : Nat) (logp : Dbl),
      u = draw_col demo_rand pos demo_taylor.x_center.length ∧
      ([0] : Vec) = gen_draws id u demo_taylor [1] ∧
      demo_lp [0] = .val logp ∧ logp.isfinite = true ∧
      demo_block.lp_mat[0]? = some
        (lp_approx demo_taylor.logdetcholHk 2 demo_taylor.x_center.length u,
          logp) :=
  (est_approx_draws_slot_consistency true demo_lp id 2 demo_rand
    (fun _ => Dbl.nan) demo_taylor 2 [1] 1 demo_block demo_block_eq).2.1 0 [0]
    rfl

/-- When every sample is rejected and the probe of the cleanup is finite,
`est_approx_draws` returns a block without rows. -/
theorem est_approx_draws_all_rejected (ReturnElbo : Bool) (lp_fun : Vec → LpOut)
    (sqrtF : ℚ → ℚ) (LOG_TWO_PI : ℚ) (rand : Nat → ℚ) (uninit : Nat → Dbl)
    (taylor_approx : taylor_approx_t) (K : Nat) (alpha : Vec) (R : Nat)
    (hall : ∀ s ∈ (sample_phase lp_fun
        (fun u => gen_draws sqrtF u taylor_approx alpha) rand uninit
        taylor_approx.x_center.length K R).1, s.lp.isfinite = false)
    (hprobe : ∀ s0, (sample_phase lp_fun
        (fun u => gen_draws sqrtF u taylor_approx alpha) rand uninit
        taylor_approx.x_center.length K R).1[0]? = some s0 →
      (lp_fun s0.x).finite = true) :
    ∃ r, est_approx_draws ReturnElbo lp_fun sqrtF LOG_TWO_PI rand uninit
        taylor_approx K alpha R = .ok r ∧
      r.lp_mat = [] ∧ r.repeat_draws = [] ∧ r.lp_ratio = [] := by
  rw [est_approx_draws_eq, if_neg]
  · have hnil : (sample_phase lp_fun
        (fun u => gen_draws sqrtF u taylor_approx alpha) rand uninit
        taylor_approx.x_center.length K R).1.filter (fun s => s.lp.isfinite)
        = [] := by
      rw [List.filter_eq_nil_iff]
      intro s hs
      rw [hall s hs]
      decide
    rw [hnil]
    exact ⟨_, rfl, rfl, rfl, rfl⟩
  · rintro ⟨_, s0, hs0, hf⟩
    rw [hprobe s0 hs0] at hf
    exact Bool.noConfusion hf

/-- C39 (the code at the failing input): one sample, no retry, a log density
that is `NaN` at the first draw and finite at the redrawn point: the sample is
rejected, the probe of the cleanup is finite, and `est_approx_draws` returns
without raising a block with no row of `lp_mat`, no column of `repeat_draws`
and no entry of `lp_ratio`; the ELBO is the mean of no value, `NaN`. -/
theorem est_approx_draws_empty_block :
    est_approx_draws true demo_lp id 2 demo_rand_probe (fun _ => Dbl.nan)
        demo_taylor 1 [1] 0
      = .ok { elbo := Dbl.nan, fn_calls := 1, repeat_draws := [], lp_mat := [],
              lp_ratio := [] } := by
  simp [est_approx_draws, sample_phase, init_slots, sample_loop, retry_loop,
    redraw, cleanup, success_rows, finish, lp_approx, demo_taylor, demo_lp,
    demo_rand_probe, gen_draws, draw_col, crossprod_vec, vadd, dot,
    Dbl.mean, Dbl.sum, Dbl.add, Dbl.sub, Dbl.neg, Dbl.divN, Dbl.isfinite,
    List.range, List.range.loop]

/-! ## Claims about the window quantities of the ELBO search -/

theorem ys_cols_loop_flag (c : List Bool) (J : Nat) :
    ∀ (e : Nat) (ys : List Nat), (∀ j ∈ ys, c.getD j false = true) →
      ∀ j ∈ ys_cols_loop c J e ys, c.getD j false = true := by
  intro e
  induction e with
  | zero => intro ys h j hj; exact h j (by simpa [ys_cols_loop] using hj)
  | succ e ih =>
    intro ys h j hj
    rw [ys_cols_loop] at hj
    by_cases hc : c.getD e false = true
    · have hpushed : ∀ j ∈ ys ++ [e], c.getD j false = true := by
        intro j hj
        rcases List.mem_append.1 hj with hj | hj
        · exact h j hj
        · rw [List.mem_singleton.1 hj]; exact hc
      simp only [hc, if_true] at hj
      split_ifs at hj with hfull
      · exact hpushed j hj
      · exact ih _ hpushed j hj
    · simp only [hc, if_false, Bool.false_eq_true] at hj
      split_ifs at hj with hfull
      · exact h j hj
      · exact ih _ h j hj

/-- Every entry of the window other than index 0 passed the curvature test:
its `Y . S` is positive. -/
theorem ys_cols_curvature (Ykt_diff Skt_diff : Mat) (J t j : Nat) (y s : Vec)
    (hj : j ∈ ys_cols (force_first (check_curve Ykt_diff Skt_diff)) J t)
    (h0 : j ≠ 0) (hy : Ykt_diff[j]? = some y) (hs : Skt_diff[j]? = some s) :
    0 < dot y s := by
  have hflag := ys_cols_loop_flag _ J (t + 1) [] (by simp) j hj
  apply check_curve_true_pos Ykt_diff Skt_diff j y s hy hs
  unfold force_first at hflag
  simp only [List.getD_eq_getElem?_getD] at hflag ⊢
  rw [List.getElem?_set_ne (fun h => h0 h.symm)] at hflag
  exact hflag

namespace Sized

theorem window_Rk_upper {K : Type} [Field K] {m d : Nat}
    (Y S : Matrix (Fin m) (Fin d) K) :
    ∀ i j, j < i → window_Rk Y S i j = 0 := by
  intro i j hij
  simp [window_Rk, not_le.2 hij]

theorem window_Rk_diag {K : Type} [Field K] {m d : Nat}
    (Y S : Matrix (Fin m) (Fin d) K) (i : Fin m) :
    window_Rk Y S i i = window_Dk Y S i := by
  simp [window_Rk, window_Dk, Matrix.dotProduct_comm]

theorem upper_det {K : Type} [Field K] {m : Nat} (R : Matrix (Fin m) (Fin m) K)
    (hup : ∀ i j, j < i → R i j = 0) : R.det = ∏ i, R i i := by
  apply Matrix.det_of_upperTriangular
  intro i j hij
  exact hup i j hij

theorem window_Rk_det {K : Type} [Field K] {m d : Nat}
    (Y S : Matrix (Fin m) (Fin d) K) :
    (window_Rk Y S).det = ∏ i, window_Dk Y S i := by
  rw [upper_det _ (window_Rk_upper Y S)]
  exact Finset.prod_congr rfl (fun i _ => window_Rk_diag Y S i)

/-- A triangular solve with the contract of the library routine exists in
every size: the product with the inverse. -/
theorem triangular_solve_exists (K : Type) [Field K] (m d : Nat) :
    ∃ solve : Matrix (Fin m) (Fin m) K → Matrix (Fin m) (Fin d) K →
        Matrix (Fin m) (Fin d) K,
      ∀ (R : Matrix (Fin m) (Fin m) K) (B : Matrix (Fin m) (Fin d) K),
        (∀ i j, j < i → R i j = 0) → (∀ i, R i i ≠ 0) → R * solve R B = B := by
  refine ⟨fun R B => R⁻¹ * B, ?_⟩
  intro R B hup hdiag
  have hdet : IsUnit R.det := by
    rw [upper_det R hup, isUnit_iff_ne_zero]
    exact Finset.prod_ne_zero_iff.2 (fun i _ => hdiag i)
  rw [← Matrix.mul_assoc, Matrix.mul_nonsing_inv R hdet, Matrix.one_mul]

/-- C35 (as amended): for a window of `m` entries and a triangular solve that
meets its contract (for an upper triangular matrix with a nonzero diagonal the
result solves the system), the loop computes `D_j = Y_j . S_j` and an upper
triangular `R` with `R(i, j) = S_i . Y_j` for `i <= j`, zero below the
diagonal and `diag(R) = D`, of determinant the product of the `D_j`; when
every `D_j` is nonzero `ninvRST` satisfies `R * ninvRST = -S'` and is the only
such matrix; `R` is invertible exactly when every `D_j` is nonzero, so
whenever every `D_j > 0`; and every entry of the window of the search other
than index 0 has `Y . S > 0`. -/
theorem window_solve {K : Type} [LinearOrderedField K] {m d : Nat}
    (solve : Matrix (Fin m) (Fin m) K → Matrix (Fin m) (Fin d) K →
      Matrix (Fin m) (Fin d) K)
    (Ykt_h Skt : Matrix (Fin m) (Fin d) K)
    (hsolve : ∀ (R : Matrix (Fin m) (Fin m) K) (B : Matrix (Fin m) (Fin d) K),
      (∀ i j, j < i → R i j = 0) → (∀ i, R i i ≠ 0) → R * solve R B = B) :
    (∀ i, window_Dk Ykt_h Skt i = Matrix.dotProduct (Ykt_h i) (Skt i)) ∧
    (∀ i j, i ≤ j →
      window_Rk Ykt_h Skt i j = Matrix.dotProduct (Skt i) (Ykt_h j)) ∧
    (∀ i j, j < i → window_Rk Ykt_h Skt i j = 0) ∧
    (∀ i, window_Rk Ykt_h Skt i i = window_Dk Ykt_h Skt i) ∧
    (window_Rk Ykt_h Skt).det = ∏ i, window_Dk Ykt_h Skt i ∧
    ((∀ i, window_Dk Ykt_h Skt i ≠ 0) →
      window_Rk Ykt_h Skt * window_ninvRST solve Ykt_h Skt = -Skt ∧
      ∀ X, window_Rk Ykt_h Skt * X = -Skt →
        X = window_ninvRST solve Ykt_h Skt) ∧
    (IsUnit (window_Rk Ykt_h Skt) ↔ ∀ i, window_Dk Ykt_h Skt i ≠ 0) ∧
    ((∀ i, 0 < window_Dk Ykt_h Skt i) → IsUnit (window_Rk Ykt_h Skt)) ∧
    (∀ (Ykt_diff Skt_diff : Mat) (J t j : Nat) (y s : Vec),
      j ∈ ys_cols (force_first (check_curve Ykt_diff Skt_diff)) J t →
      j ≠ 0 → Ykt_diff[j]? = some y → Skt_diff[j]? = some s →
      0 < dot y s) := by
  have hunit : IsUnit (window_Rk Ykt_h Skt) ↔
      ∀ i, window_Dk Ykt_h Skt i ≠ 0 := by
    rw [Matrix.isUnit_iff_isUnit_det, window_Rk_det, isUnit_iff_ne_zero,
      Finset.prod_ne_zero_iff]
    exact ⟨fun h i => h i (Finset.mem_univ i), fun h i _ => h i⟩
  refine ⟨fun _ => rfl, ?_, window_Rk_upper Ykt_h Skt, window_Rk_diag Ykt_h Skt,
    window_Rk_det Ykt_h Skt, ?_, hunit, ?_, ?_⟩
  · intro i j hij
    simp [window_Rk, hij]
  · intro hD
    have hdiag : ∀ i, window_Rk Ykt_h Skt i i ≠ 0 := by
      intro i
      rw [window_Rk_diag]
      exact hD i
    have hsol := hsolve (window_Rk Ykt_h Skt) Skt (window_Rk_upper Ykt_h Skt)
      hdiag
    have hmain : window_Rk Ykt_h Skt * window_ninvRST solve Ykt_h Skt
        = -Skt := by
      unfold window_ninvRST
      rw [Matrix.mul_neg, hsol]
    refine ⟨hmain, ?_⟩
    intro X hX
    have hdet : IsUnit (window_Rk Ykt_h Skt).det :=
      (Matrix.isUnit_iff_isUnit_det _).1 (hunit.2 hD)
    have h1 : (window_Rk Ykt_h Skt)⁻¹ * (window_Rk Ykt_h Skt * X)
        = (window_Rk Ykt_h Skt)⁻¹
          * (window_Rk Ykt_h Skt * window_ninvRST solve Ykt_h Skt) := by
      rw [hX, hmain]
    rw [← Matrix.mul_assoc, ← Matrix.mul_assoc,
      Matrix.nonsing_inv_mul _ hdet, Matrix.one_mul, Matrix.one_mul] at h1
    exact h1
  · intro hpos
    exact hunit.2 (fun i => ne_of_gt (hpos i))
  · intro Ykt_diff Skt_diff J t j y s hj h0 hy hs
    exact ys_cols_curvature Ykt_diff Skt_diff J t j y s hj h0 hy hs

theorem demo_solve_contract :
    ∀ (R : Matrix (Fin 1) (Fin 1) ℚ) (B : Matrix (Fin 1) (Fin 1) ℚ),
      (∀ i j, j < i → R i j = 0) → (∀ i, R i i ≠ 0) →
      R * demo_solve R B = B := by
  intro R B _ hdiag
  ext i j
  have hi : i = 0 := Subsingleton.elim _ _
  have hj : j = 0 := Subsingleton.elim _ _
  subst hi hj
  simp [demo_solve, Matrix.mul_apply]
  exact mul_div_cancel₀ _ (hdiag 0)

/-- Witness of C35: the window `Ykt = 1`, `Skt = 4`: `D = 4`, `R = 4` and
`ninvRST = -1` solves `R * ninvRST = -Skt`. -/
theorem window_solve_witness :
    window_Rk demo_Y demo_S * window_ninvRST demo_solve demo_Y demo_S
      = -demo_S ∧
    window_ninvRST demo_solve demo_Y demo_S = demo_N :=
  ⟨((window_solve demo_solve demo_Y demo_S demo_solve_contract).2.2.2.2.2.1
      (fun _ => by simp [window_Dk, demo_Y, demo_S, Matrix.dotProduct])).1,
    by
      ext i j
      simp [window_ninvRST, window_Rk, demo_solve, demo_Y, demo_S, demo_N,
        Matrix.dotProduct]⟩

/-- C35 (counterexample): at iteration 0 the window is the forced index 0
whatever its curvature; for a gradient difference `Y_0 = 0` along the step
`S_0 = 4` the flag of the curvature test is false, `R` is the zero matrix, and
no `ninvRST`, whatever the triangular solve returns, satisfies
`R * ninvRST = -S'`. -/
theorem window_solve_counterexample :
    check_curve [[0]] [[4]] = [false] ∧
    ys_cols (force_first (check_curve [[0]] [[4]])) 1 0 = [0] ∧
    window_Dk demo_Y_flat demo_S = (fun _ => 0) ∧
    ¬ ∃ solve : Matrix (Fin 1) (Fin 1) ℚ → Matrix (Fin 1) (Fin 1) ℚ →
        Matrix (Fin 1) (Fin 1) ℚ,
      window_Rk demo_Y_flat demo_S * window_ninvRST solve demo_Y_flat demo_S
        = -demo_S := by
  refine ⟨?_, ?_, ?_, ?_⟩
  · simp [check_curve, colwise_sum, cwise_mul]
  · simp [check_curve, colwise_sum, cwise_mul, force_first, ys_cols,
      ys_cols_loop]
  · ext i
    simp [window_Dk, demo_Y_flat, demo_S, Matrix.dotProduct]
  · rintro ⟨solve, h⟩
    have h00 := congrFun (congrFun h 0) 0
    simp [window_Rk, demo_Y_flat, demo_S, Matrix.mul_apply,
      Matrix.dotProduct] at h00

end Sized

/-! ## Claims about the dense matrix `Hk` -/

namespace Sized

/-- The matrix `Hk` as a sum of two squares:
`(I + N'Y) diag(alpha) (I + Y'N) + N' diag(Dk) N`. -/
theorem full_Hk_split {K : Type} [Field K] {m d : Nat} (sqrtF : K → K)
    (Y : Matrix (Fin m) (Fin d) K) (alpha : Fin d → K) (Dk : Fin m → K)
    (N : Matrix (Fin m) (Fin d) K)
    (hsq : ∀ j, sqrtF (alpha j) * sqrtF (alpha j) = alpha j) :
    full_Hk sqrtF Y alpha Dk N
      = (1 + Y.transpose * N).transpose * Matrix.diagonal alpha
          * (1 + Y.transpose * N)
        + N.transpose * Matrix.diagonal Dk * N := by
  have hss : (Y * Matrix.diagonal (fun j => sqrtF (alpha j)))
      * (Y * Matrix.diagonal (fun j => sqrtF (alpha j))).transpose
      = Y * Matrix.diagonal alpha * Y.transpose := by
    rw [Matrix.transpose_mul, Matrix.diagonal_transpose, ← Matrix.mul_assoc,
      Matrix.mul_assoc Y, Matrix.diagonal_mul_diagonal]
    simp only [hsq]
  unfold full_Hk crossprod y_tcrossprod_alpha tcrossprod
  simp only [times_diagonal_eq]
  rw [hss]
  simp only [Matrix.transpose_mul, Matrix.transpose_add, Matrix.transpose_one,
    Matrix.transpose_transpose, Matrix.diagonal_transpose, Matrix.mul_add,
    Matrix.add_mul, Matrix.mul_one, Matrix.one_mul, Matrix.mul_assoc]
  abel

theorem quad_sandwich {K : Type} [Field K] {a b : Nat}
    (B : Matrix (Fin a) (Fin b) K) (c : Fin a → K) (x : Fin b → K) :
    Matrix.dotProduct x ((B.transpose * Matrix.diagonal c * B).mulVec x)
      = ∑ i, c i * (B.mulVec x i * B.mulVec x i) := by
  rw [← Matrix.mulVec_mulVec, ← Matrix.mulVec_mulVec, Matrix.dotProduct_mulVec,
    Matrix.vecMul_transpose]
  unfold Matrix.dotProduct
  apply Finset.sum_congr rfl
  intro i _
  rw [Matrix.mulVec_diagonal]
  ring

/-- The quadratic form of `Hk`. -/
theorem full_Hk_quad {K : Type} [Field K] {m d : Nat} (sqrtF : K → K)
    (Y : Matrix (Fin m) (Fin d) K) (alpha : Fin d → K) (Dk : Fin m → K)
    (N : Matrix (Fin m) (Fin d) K)
    (hsq : ∀ j, sqrtF (alpha j) * sqrtF (alpha j) = alpha j) (x : Fin d → K) :
    Matrix.dotProduct x ((full_Hk sqrtF Y alpha Dk N).mulVec x)
      = ∑ j, alpha j * ((x + Y.transpose.mulVec (N.mulVec x)) j
            * (x + Y.transpose.mulVec (N.mulVec x)) j)
        + ∑ i, Dk i * (N.mulVec x i * N.mulVec x i) := by
  rw [full_Hk_split sqrtF Y alpha Dk N hsq, Matrix.add_mulVec,
    Matrix.dotProduct_add, quad_sandwich, quad_sandwich]
  have hw : (1 + Y.transpose * N).mulVec x
      = x + Y.transpose.mulVec (N.mulVec x) := by
    rw [Matrix.add_mulVec, Matrix.one_mulVec, Matrix.mulVec_mulVec]
  rw [hw]

theorem full_Hk_symm {K : Type} [Field K] {m d : Nat} (sqrtF : K → K)
    (Y : Matrix (Fin m) (Fin d) K) (alpha : Fin d → K) (Dk : Fin m → K)
    (N : Matrix (Fin m) (Fin d) K)
    (hsq : ∀ j, sqrtF (alpha j) * sqrtF (alpha j) = alpha j) :
    (full_Hk sqrtF Y alpha Dk N).transpose = full_Hk sqrtF Y alpha Dk N := by
  rw [full_Hk_split sqrtF Y alpha Dk N hsq]
  simp only [Matrix.transpose_mul, Matrix.transpose_add,
    Matrix.transpose_transpose, Matrix.diagonal_transpose, Matrix.mul_assoc]

theorem full_Hk_posdef {K : Type} [LinearOrderedField K] {m d : Nat}
    (sqrtF : K → K) (Y : Matrix (Fin m) (Fin d) K) (alpha : Fin d → K)
    (Dk : Fin m → K) (N : Matrix (Fin m) (Fin d) K)
    (halpha : ∀ j, 0 < alpha j) (hD : ∀ i, 0 < Dk i)
    (hsq : ∀ j, sqrtF (alpha j) * sqrtF (alpha j) = alpha j) :
    ∀ x : Fin d → K, x ≠ 0 →
      0 < Matrix.dotProduct x ((full_Hk sqrtF Y alpha Dk N).mulVec x) := by
  intro x hx
  rw [full_Hk_quad sqrtF Y alpha Dk N hsq x]
  have h1 : ∀ j ∈ (Finset.univ : Finset (Fin d)),
      0 ≤ alpha j * ((x + Y.transpose.mulVec (N.mulVec x)) j
            * (x + Y.transpose.mulVec (N.mulVec x)) j) :=
    fun j _ => mul_nonneg (le_of_lt (halpha j)) (mul_self_nonneg _)
  have h2 : ∀ i ∈ (Finset.univ : Finset (Fin m)),
      0 ≤ Dk i * (N.mulVec x i * N.mulVec x i) :=
    fun i _ => mul_nonneg (le_of_lt (hD i)) (mul_self_nonneg _)
  have hs1 := Finset.sum_nonneg h1
  have hs2 := Finset.sum_nonneg h2
  by_contra hnot
  have hle := not_lt.1 hnot
  have e1 : ∑ j, alpha j * ((x + Y.transpose.mulVec (N.mulVec x)) j
            * (x + Y.transpose.mulVec (N.mulVec x)) j) = 0 := by linarith
  have e2 : ∑ i, Dk i * (N.mulVec x i * N.mulVec x i) = 0 := by linarith
  have hv : N.mulVec x = 0 := by
    ext i
    have := (Finset.sum_eq_zero_iff_of_nonneg h2).1 e2 i (Finset.mem_univ i)
    rcases mul_eq_zero.1 this with h | h
    · exact absurd h (ne_of_gt (hD i))
    · exact mul_self_eq_zero.1 h
  have hw : x + Y.transpose.mulVec (N.mulVec x) = 0 := by
    ext j
    have := (Finset.sum_eq_zero_iff_of_nonneg h1).1 e1 j (Finset.mem_univ j)
    rcases mul_eq_zero.1 this with h | h
    · exact absurd h (ne_of_gt (halpha j))
    · exact mul_self_eq_zero.1 h
  rw [hv, Matrix.mulVec_zero, add_zero] at hw
  exact hx hw

/-- A symmetric positive definite real matrix over a finite linear order has a
Cholesky factor: a lower triangular matrix with positive diagonal whose
product with its transpose is the matrix. -/
theorem cholesky_exists_ordered {I : Type} [LinearOrder I] [WellFoundedLT I]
    [LocallyFiniteOrderBot I] [Fintype I] (S : Matrix I I ℝ)
    (hsymm : S.transpose = S)
    (hpos : ∀ x : I → ℝ, x ≠ 0 → 0 < Matrix.dotProduct x (S.mulVec x)) :
    ∃ L : Matrix I I ℝ,
      (∀ i j, i < j → L i j = 0) ∧ (∀ i, 0 < L i i) ∧ L * L.transpose = S := by
  have hS : S.PosDef := by
    refine ⟨?_, ?_⟩
    · rw [Matrix.IsHermitian, Matrix.conjTranspose_eq_transpose_of_trivial]
      exact hsymm
    · intro x hx
      simpa using hpos x hx
  have hD : LDL.diag hS
      = LDL.lowerInv hS * S * (LDL.lowerInv hS).conjTranspose :=
    LDL.diag_eq_lowerInv_conj hS
  have hconj : LDL.lower hS * LDL.diag hS * (LDL.lower hS).conjTranspose = S :=
    LDL.lower_conj_diag hS
  have hinv : LDL.lowerInv hS * (LDL.lowerInv hS)⁻¹ = 1 :=
    Matrix.mul_inv_of_invertible _
  have hd : ∀ i, 0 < LDL.diagEntries hS i := by
    intro i
    have e : LDL.diagEntries hS i
        = (LDL.lowerInv hS * S * (LDL.lowerInv hS).conjTranspose) i i := by
      rw [← hD, LDL.diag, Matrix.diagonal_apply_eq]
    have e2 : (LDL.lowerInv hS * S * (LDL.lowerInv hS).conjTranspose) i i
        = Matrix.dotProduct (LDL.lowerInv hS i) (S.mulVec (LDL.lowerInv hS i)) := by
      rw [Matrix.mul_assoc, Matrix.mul_apply']
      congr 1
    rw [e, e2]
    apply hpos
    intro h0
    have h1 : (LDL.lowerInv hS * (LDL.lowerInv hS)⁻¹) i i = 1 := by
      rw [hinv]; simp
    rw [Matrix.mul_apply] at h1
    simp [h0] at h1
  have hLi : (LDL.lowerInv hS).BlockTriangular OrderDual.toDual := by
    intro i j hij
    exact LDL.lowerInv_triangular hS (OrderDual.toDual_lt_toDual.1 hij)
  have hLo : (LDL.lower hS).BlockTriangular OrderDual.toDual :=
    Matrix.blockTriangular_inv_of_blockTriangular hLi
  have hLo_low : ∀ i j, i < j → LDL.lower hS i j = 0 := by
    intro i j hij
    exact hLo (OrderDual.toDual_lt_toDual.2 hij)
  have hLo_diag : ∀ i, LDL.lower hS i i ≠ 0 := by
    have hdet : (LDL.lower hS).det ≠ 0 := by
      intro h0
      have h1 : (LDL.lowerInv hS * (LDL.lowerInv hS)⁻¹).det = 1 := by
        rw [hinv, Matrix.det_one]
      rw [Matrix.det_mul] at h1
      have h2 : ((LDL.lowerInv hS)⁻¹).det = 0 := h0
      rw [h2, mul_zero] at h1
      exact zero_ne_one h1
    rw [Matrix.det_of_lowerTriangular _ hLo] at hdet
    intro i
    exact Finset.prod_ne_zero_iff.1 hdet i (Finset.mem_univ i)
  let t : I → ℝ := fun i =>
    (if 0 < LDL.lower hS i i then 1 else -1) * Real.sqrt (LDL.diagEntries hS i)
  have ht : ∀ i, t i * t i = LDL.diagEntries hS i := by
    intro i
    simp only [t]
    have hs := Real.mul_self_sqrt (le_of_lt (hd i))
    split_ifs
    · rw [one_mul]; exact hs
    · rw [neg_one_mul, neg_mul_neg]; exact hs
  refine ⟨LDL.lower hS * Matrix.diagonal t, ?_, ?_, ?_⟩
  · intro i j hij
    rw [Matrix.mul_diagonal, hLo_low i j hij, zero_mul]
  · intro i
    rw [Matrix.mul_diagonal]
    simp only [t]
    have hsq : 0 < Real.sqrt (LDL.diagEntries hS i) := Real.sqrt_pos.2 (hd i)
    split_ifs with hp
    · rw [one_mul]; exact mul_pos hp hsq
    · have hneg : LDL.lower hS i i < 0 :=
        lt_of_le_of_ne (not_lt.1 hp) (hLo_diag i)
      rw [neg_one_mul, mul_neg]
      exact neg_pos.2 (mul_neg_of_neg_of_pos hneg hsq)
  · rw [Matrix.transpose_mul, Matrix.diagonal_transpose, ← Matrix.mul_assoc,
      Matrix.mul_assoc (LDL.lower hS), Matrix.diagonal_mul_diagonal]
    simp only [ht]
    have := hconj
    rw [Matrix.conjTranspose_eq_transpose_of_trivial] at this
    exact this

/-- A symmetric positive definite real matrix has a Cholesky factor. -/
theorem cholesky_exists_real {n : Nat} (S : Matrix (Fin n) (Fin n) ℝ)
    (hsymm : S.transpose = S)
    (hpos : ∀ x : Fin n → ℝ, x ≠ 0 → 0 < Matrix.dotProduct x (S.mulVec x)) :
    ∃ L : Matrix (Fin n) (Fin n) ℝ,
      (∀ i j, i < j → L i j = 0) ∧ (∀ i, 0 < L i i) ∧ L * L.transpose = S :=
  @cholesky_exists_ordered (Fin n) _ Finite.to_wellFoundedLT _ _ S hsymm hpos

/-- C34: for `alpha > 0` with a square root exact on `alpha`, a window all of
whose entries have `D_j = Y_j . S_j > 0`, and any `ninvRST`, the dense matrix
`Hk` is symmetric and positive definite; a Cholesky routine that factors
symmetric positive definite matrices then factors `Hk`, and the returned
`L_approx` is upper triangular with a strictly positive diagonal and
`L_approx' * L_approx = Hk`; over the reals, with the real square root, a
Cholesky factor of `Hk` exists for every such window. -/
theorem full_Hk_spd {K : Type} [LinearOrderedField K] {m d : Nat}
    (sqrtF logF : K → K)
    (llt : (n : Nat) → Matrix (Fin n) (Fin n) K → Matrix (Fin n) (Fin n) K)
    (Ykt_h Skt : Matrix (Fin m) (Fin d) K) (alpha : Fin d → K)
    (ninvRST : Matrix (Fin m) (Fin d) K) (point_est grad_est : Fin d → K)
    (halpha : ∀ j, 0 < alpha j)
    (hD : ∀ i, 0 < window_Dk Ykt_h Skt i)
    (hsq : ∀ j, sqrtF (alpha j) * sqrtF (alpha j) = alpha j)
    (hllt : (full_Hk sqrtF Ykt_h alpha (window_Dk Ykt_h Skt) ninvRST).transpose
        = full_Hk sqrtF Ykt_h alpha (window_Dk Ykt_h Skt) ninvRST →
      (∀ x : Fin d → K, x ≠ 0 →
        0 < Matrix.dotProduct x
          ((full_Hk sqrtF Ykt_h alpha (window_Dk Ykt_h Skt) ninvRST).mulVec x)) →
      llt d (full_Hk sqrtF Ykt_h alpha (window_Dk Ykt_h Skt) ninvRST)
          * (llt d
              (full_Hk sqrtF Ykt_h alpha (window_Dk Ykt_h Skt)
                ninvRST)).transpose
        = full_Hk sqrtF Ykt_h alpha (window_Dk Ykt_h Skt) ninvRST ∧
      (∀ i j, i < j →
        llt d (full_Hk sqrtF Ykt_h alpha (window_Dk Ykt_h Skt) ninvRST) i j
          = 0) ∧
      (∀ i, 0 <
        llt d (full_Hk sqrtF Ykt_h alpha (window_Dk Ykt_h Skt) ninvRST) i i)) :
    (full_Hk sqrtF Ykt_h alpha (window_Dk Ykt_h Skt) ninvRST).transpose
      = full_Hk sqrtF Ykt_h alpha (window_Dk Ykt_h Skt) ninvRST ∧
    (∀ x : Fin d → K, x ≠ 0 →
      0 < Matrix.dotProduct x
        ((full_Hk sqrtF Ykt_h alpha (window_Dk Ykt_h Skt) ninvRST).mulVec x)) ∧
    (∃ (x_center : Fin d → K) (logdetcholHk : K)
      (L_approx : Matrix (Fin d) (Fin d) K),
      construct_taylor_approximation_full sqrtF logF llt Ykt_h alpha
          (window_Dk Ykt_h Skt) ninvRST point_est grad_est
        = .dense x_center logdetcholHk L_approx ∧
      (∀ i j, j < i → L_approx i j = 0) ∧
      (∀ i, 0 < L_approx i i) ∧
      L_approx.transpose * L_approx
        = full_Hk sqrtF Ykt_h alpha (window_Dk Ykt_h Skt) ninvRST) ∧
    (∀ (Y S N : Matrix (Fin m) (Fin d) ℝ) (a : Fin d → ℝ),
      (∀ j, 0 < a j) → (∀ i, 0 < window_Dk Y S i) →
      ∃ L : Matrix (Fin d) (Fin d) ℝ,
        (∀ i j, i < j → L i j = 0) ∧ (∀ i, 0 < L i i) ∧
        L * L.transpose = full_Hk Real.sqrt Y a (window_Dk Y S) N) := by
  have hsymm := full_Hk_symm sqrtF Ykt_h alpha (window_Dk Ykt_h Skt) ninvRST hsq
  have hpd := full_Hk_posdef sqrtF Ykt_h alpha (window_Dk Ykt_h Skt) ninvRST
    halpha hD hsq
  obtain ⟨hfac, hlow, hpos⟩ := hllt hsymm hpd
  refine ⟨hsymm, hpd, ⟨_, _, _, rfl, ?_, ?_, ?_⟩, ?_⟩
  · intro i j hij
    exact hlow j i hij
  · intro i
    exact hpos i
  · rw [Matrix.transpose_transpose]
    exact hfac
  · intro Y S N a ha hDr
    have hsqr : ∀ j, Real.sqrt (a j) * Real.sqrt (a j) = a j :=
      fun j => Real.mul_self_sqrt (le_of_lt (ha j))
    exact cholesky_exists_real _
      (full_Hk_symm Real.sqrt Y a (window_Dk Y S) N hsqr)
      (full_Hk_posdef Real.sqrt Y a (window_Dk Y S) N ha hDr hsqr)

theorem demo_window_Dk : window_Dk demo_Y demo_S = demo_Dk := by
  ext i
  simp [window_Dk, demo_Y, demo_S, demo_Dk, Matrix.dotProduct]

/-- Witness of C34: the window `Ykt = 1`, `Skt = 4` with `alpha = 4` and
`ninvRST = -1`: `Hk = 4` and `L_approx = 2`. -/
theorem full_Hk_spd_witness :
    (∀ x : Fin 1 → ℚ, x ≠ 0 →
      0 < Matrix.dotProduct x
        ((full_Hk demo_sqrt demo_Y demo_alpha (window_Dk demo_Y demo_S)
          demo_N).mulVec x)) ∧
    ∃ (x_center : Fin 1 → ℚ) (logdetcholHk : ℚ)
      (L_approx : Matrix (Fin 1) (Fin 1) ℚ),
      construct_taylor_approximation_full demo_sqrt demo_log demo_llt demo_Y
          demo_alpha (window_Dk demo_Y demo_S) demo_N 0 0
        = .dense x_center logdetcholHk L_approx ∧
      (∀ i j, j < i → L_approx i j = 0) ∧
      (∀ i, 0 < L_approx i i) ∧
      L_approx.transpose * L_approx
        = full_Hk demo_sqrt demo_Y demo_alpha (window_Dk demo_Y demo_S)
            demo_N := by
  have h := full_Hk_spd demo_sqrt demo_log demo_llt demo_Y demo_S demo_alpha
    demo_N 0 0
    (fun _ => by simp [demo_alpha])
    (fun _ => by rw [demo_window_Dk]; simp [demo_Dk])
    (fun _ => by simp [demo_alpha, demo_sqrt]; norm_num)
    (by
      rw [demo_window_Dk]
      intro _ _
      refine ⟨demo_llt_full, fun i j h => by simp [demo_llt, ne_of_lt h],
        fun i => by rw [demo_full_Hk]; simp [demo_llt, demo_sqrt]⟩)
  exact ⟨h.2.1, h.2.2.1⟩

end Sized

/-! ## Claims about the items handed to the parameter writer -/

/-- The retry loop of a slot does not read what the slot's log p holds when it
starts. -/
theorem retry_loop_lp_irrelevant (lp_fun : Vec → LpOut) (gen : Vec → Vec)
    (rand : Nat → ℚ) (d R i : Nat) :
    ∀ (left fail_trys : Nat) (s s2 : Slot) (c : Ctr), 0 < left →
      fail_trys + left = R + 1 → s.u = s2.u → s.x = s2.x →
      retry_loop lp_fun gen rand d R i left fail_trys s c
        = retry_loop lp_fun gen rand d R i left fail_trys s2 c := by
  intro left
  induction left with
  | zero => intro _ _ _ _ h; exact absurd h (Nat.lt_irrefl 0)
  | succ n ih =>
    intro ft s s2 c _ hft hu hx
    rw [retry_loop, retry_loop]
    simp only [hx]
    cases hout : lp_fun s2.x with
    | val v =>
      simp only [hu]
    | throws =>
      simp only []
      rcases Nat.eq_zero_or_pos n with hn | hn
      · subst hn
        have hR : ft = R := by omega
        simp [retry_loop, redraw, hR]
      · apply ih (ft + 1) _ _ _ hn (by omega)
        · rfl
        · rfl

theorem sample_loop_lp_irrelevant (lp_fun : Vec → LpOut) (gen : Vec → Vec)
    (rand : Nat → ℚ) (d R : Nat) :
    ∀ (slots slots2 : List Slot),
      List.Forall₂ (fun a b : Slot => a.u = b.u ∧ a.x = b.x) slots slots2 →
      ∀ (i : Nat) (c : Ctr),
        sample_loop lp_fun gen rand d R i slots c
          = sample_loop lp_fun gen rand d R i slots2 c := by
  intro slots slots2 h
  induction h with
  | nil => intro i c; rfl
  | cons hab _ ih =>
    intro i c
    rw [sample_loop, sample_loop]
    rw [retry_loop_lp_irrelevant lp_fun gen rand d R i (R + 1) 0 _ _ c
      (Nat.succ_pos R) (Nat.zero_add _) hab.1 hab.2, ih]

/-- The block `est_approx_draws` returns, or the error it raises, does not
depend on what the fresh `lp_mat_tmp` holds. -/
theorem est_approx_draws_uninit (ReturnElbo : Bool) (lp_fun : Vec → LpOut)
    (sqrtF : ℚ → ℚ) (LOG_TWO_PI : ℚ) (rand : Nat → ℚ)
    (uninit1 uninit2 : Nat → Dbl) (taylor_approx : taylor_approx_t) (K : Nat)
    (alpha : Vec) (R : Nat) :
    est_approx_draws ReturnElbo lp_fun sqrtF LOG_TWO_PI rand uninit1
        taylor_approx K alpha R
      = est_approx_draws ReturnElbo lp_fun sqrtF LOG_TWO_PI rand uninit2
        taylor_approx K alpha R := by
  have hphase : ∀ (gen : Vec → Vec) (d : Nat),
      sample_phase lp_fun gen rand uninit1 d K R
        = sample_phase lp_fun gen rand uninit2 d K R := by
    intro gen d
    unfold sample_phase
    apply sample_loop_lp_irrelevant
    unfold init_slots
    rw [List.forall₂_map_left_iff, List.forall₂_map_right_iff, List.forall₂_same]
    intro j _
    exact ⟨rfl, rfl⟩
  unfold est_approx_draws
  simp only [hphase]

theorem elbo_est_iter_uninit (lp_fun : Vec → LpOut) (sqrtF : ℚ → ℚ)
    (LOG_TWO_PI : ℚ) (rands : Nat → Nat → ℚ) (uninit1 uninit2 : Nat → Dbl)
    (build_taylor : Nat → taylor_approx_t) (num_elbo_draws : Nat)
    (alpha_mat : Mat) (num_eval_attempts : Nat) :
    elbo_est_iter lp_fun sqrtF LOG_TWO_PI rands uninit1 build_taylor
        num_elbo_draws alpha_mat num_eval_attempts
      = elbo_est_iter lp_fun sqrtF LOG_TWO_PI rands uninit2 build_taylor
        num_elbo_draws alpha_mat num_eval_attempts := by
  funext iter
  unfold elbo_est_iter
  exact est_approx_draws_uninit true lp_fun sqrtF LOG_TWO_PI (rands iter)
    uninit1 uninit2 (build_taylor iter) num_elbo_draws _ num_eval_attempts

/-- The ELBO search reads the surrogate it starts with only when an iteration
has been selected. -/
theorem elbo_search_taylor_irrelevant
    (est_iter : Nat → Except EstError elbo_est_t)
    (build_taylor : Nat → taylor_approx_t) :
    ∀ (n k : Nat) (st st2 : search_t), st.best_E = st2.best_E →
      st.elbo_best = st2.elbo_best → st.num_evals = st2.num_evals →
      (st.best_E ≠ -1 → st.taylor_approx_best = st2.taylor_approx_best) →
      (elbo_search est_iter build_taylor n k st).best_E
        = (elbo_search est_iter build_taylor n k st2).best_E ∧
      (elbo_search est_iter build_taylor n k st).elbo_best
        = (elbo_search est_iter build_taylor n k st2).elbo_best ∧
      (elbo_search est_iter build_taylor n k st).num_evals
        = (elbo_search est_iter build_taylor n k st2).num_evals ∧
      ((elbo_search est_iter build_taylor n k st).best_E ≠ -1 →
        (elbo_search est_iter build_taylor n k st).taylor_approx_best
          = (elbo_search est_iter build_taylor n k st2).taylor_approx_best) := by
  intro n
  induction n with
  | zero => intro k st st2 h1 h2 h3 h4; exact ⟨h1, h2, h3, h4⟩
  | succ n ih =>
    intro k st st2 h1 h2 h3 h4
    rw [elbo_search, elbo_search]
    apply ih
    · unfold elbo_search_step
      cases est_iter k with
      | error e => exact h1
      | ok e =>
        simp only [h2]
        split_ifs
        · rfl
        · exact h1
    · unfold elbo_search_step
      cases est_iter k with
      | error e => exact h2
      | ok e =>
        simp only [h2]
        split_ifs <;> rfl
    · unfold elbo_search_step
      cases est_iter k with
      | error e => exact h3
      | ok e =>
        simp only [h2, h3]
        split_ifs <;> rfl
    · unfold elbo_search_step
      cases est_iter k with
      | error e => exact h4
      | ok e =>
        simp only [h2]
        split_ifs
        · intro _; rfl
        · exact h4

theorem final_assembly_uninit (OK : Int) (lp_fun : Vec → LpOut)
    (constrain_fun : Vec → Vec) (sqrtF : ℚ → ℚ) (LOG_TWO_PI : ℚ)
    (rand : Nat → ℚ) (uninit1 uninit2 : Nat → Dbl)
    (taylor_approx_best : taylor_approx_t) (alpha : Vec) (R : Nat)
    (elbo_best : elbo_est_t) (num_draws : Int) (num_evals : Nat) :
    final_assembly OK lp_fun constrain_fun sqrtF LOG_TWO_PI rand uninit1
        taylor_approx_best alpha R elbo_best num_draws num_evals
      = final_assembly OK lp_fun constrain_fun sqrtF LOG_TWO_PI rand uninit2
        taylor_approx_best alpha R elbo_best num_draws num_evals := by
  unfold final_assembly
  simp only [est_approx_draws_uninit false lp_fun sqrtF LOG_TWO_PI rand uninit1
    uninit2]

/-- The result of the part after the L-BFGS loop depends neither on what fresh
memory holds nor on the default-constructed surrogate. -/
theorem after_lbfgs_hidden (OK SOFTWARE : Int) (lp_fun : Vec → LpOut)
    (constrain_fun : Vec → Vec) (sqrtF : ℚ → ℚ) (LOG_TWO_PI : ℚ)
    (rand : Nat → ℚ) (uninit1 uninit2 : Nat → Dbl)
    (est_iter : Nat → Except EstError elbo_est_t)
    (build_taylor : Nat → taylor_approx_t)
    (taylor_uninit1 taylor_uninit2 : taylor_approx_t)
    (R : Nat) (num_draws : Int) (ret : Int) (param_vecs grad_vecs : List Vec)
    (grad_evals : Nat) :
    after_lbfgs OK SOFTWARE lp_fun constrain_fun sqrtF LOG_TWO_PI rand uninit1
        est_iter build_taylor taylor_uninit1 R num_draws ret param_vecs
        grad_vecs grad_evals
      = after_lbfgs OK SOFTWARE lp_fun constrain_fun sqrtF LOG_TWO_PI rand
        uninit2 est_iter build_taylor taylor_uninit2 R num_draws ret param_vecs
        grad_vecs grad_evals := by
  have hs : search_and_draw OK SOFTWARE lp_fun constrain_fun sqrtF LOG_TWO_PI
        rand uninit1 est_iter build_taylor taylor_uninit1 R num_draws
        param_vecs grad_vecs grad_evals
      = search_and_draw OK SOFTWARE lp_fun constrain_fun sqrtF LOG_TWO_PI
        rand uninit2 est_iter build_taylor taylor_uninit2 R num_draws
        param_vecs grad_vecs grad_evals := by
    obtain ⟨e1, e2, e3, e4⟩ := elbo_search_taylor_irrelevant est_iter
      build_taylor (diff_cols grad_vecs).length 0
      { best_E := -1, elbo_best := elbo_est_default,
        taylor_approx_best := taylor_uninit1, num_evals := grad_evals }
      { best_E := -1, elbo_best := elbo_est_default,
        taylor_approx_best := taylor_uninit2, num_evals := grad_evals }
      rfl rfl rfl (fun h => absurd rfl h)
    unfold search_and_draw
    simp only []
    by_cases hb : (elbo_search est_iter build_taylor (diff_cols grad_vecs).length
        0 { best_E := -1, elbo_best := elbo_est_default,
            taylor_approx_best := taylor_uninit1,
            num_evals := grad_evals }).best_E = -1
    · rw [if_pos hb, if_pos (e1 ▸ hb), e3]
    · rw [if_neg hb, if_neg (e1 ▸ hb), ← e1, ← e2, ← e3, ← e4 hb]
      exact final_assembly_uninit OK lp_fun constrain_fun sqrtF LOG_TWO_PI rand
        uninit1 uninit2 _ _ R _ num_draws _
  unfold after_lbfgs
  rw [hs]

/-- The single path and what it writes depend neither on what fresh memory
holds nor on the default-constructed surrogate. -/
theorem single_writer_hidden (OK SOFTWARE : Int) (lp_fun : Vec → LpOut)
    (constrain_fun : Vec → Vec) (sqrtF : ℚ → ℚ) (LOG_TWO_PI : ℚ)
    (rands : Nat → Nat → ℚ) (rand : Nat → ℚ) (uninit1 uninit2 : Nat → Dbl)
    (build_taylor : Nat → taylor_approx_t)
    (taylor_uninit1 taylor_uninit2 : taylor_approx_t)
    (num_eval_attempts num_elbo_draws : Nat) (num_draws : Int)
    (names : List String) (clock : SingleClock) (init_out : InitOut)
    (log_prob_grad : Vec → Vec) (step : Nat → Step) (grad_evals fuel : Nat) :
    pathfinder_lbfgs_single_writer OK SOFTWARE lp_fun constrain_fun sqrtF
        LOG_TWO_PI rands rand uninit1 build_taylor taylor_uninit1
        num_eval_attempts num_elbo_draws num_draws names clock init_out
        log_prob_grad step grad_evals fuel
      = pathfinder_lbfgs_single_writer OK SOFTWARE lp_fun constrain_fun sqrtF
        LOG_TWO_PI rands rand uninit2 build_taylor taylor_uninit2
        num_eval_attempts num_elbo_draws num_draws names clock init_out
        log_prob_grad step grad_evals fuel := by
  unfold pathfinder_lbfgs_single_writer
  cases init_out with
  | throws => rfl
  | point cont_vector =>
    simp only []
    cases lbfgs_loop step fuel 0
        (hist_init cont_vector (log_prob_grad cont_vector)) with
    | none => rfl
    | some h =>
      simp only []
      rw [elbo_est_iter_uninit lp_fun sqrtF LOG_TWO_PI rands uninit1 uninit2,
        after_lbfgs_hidden OK SOFTWARE lp_fun constrain_fun sqrtF LOG_TWO_PI
          rand uninit1 uninit2 _ build_taylor taylor_uninit1 taylor_uninit2,
        (elbo_search_taylor_irrelevant _ build_taylor
          (diff_cols h.grad_vecs).length 0
          { best_E := -1, elbo_best := elbo_est_default,
            taylor_approx_best := taylor_uninit1, num_evals := grad_evals }
          { best_E := -1, elbo_best := elbo_est_default,
            taylor_approx_best := taylor_uninit2, num_evals := grad_evals }
          rfl rfl rfl (fun h => absurd rfl h)).1]

theorem footer_untimed (a b : String) (d1 d2 e1 e2 : ℚ) :
    (footer a b d1 d2).map Item.untimed = (footer a b e1 e2).map Item.untimed := by
  simp [footer, Item.untimed]

/-- Two runs of the single path that differ in the readings of the clock
return the same result and write the same items up to the elapsed times. -/
theorem single_writer_clock (OK SOFTWARE : Int) (lp_fun : Vec → LpOut)
    (constrain_fun : Vec → Vec) (sqrtF : ℚ → ℚ) (LOG_TWO_PI : ℚ)
    (rands : Nat → Nat → ℚ) (rand : Nat → ℚ) (uninit : Nat → Dbl)
    (build_taylor : Nat → taylor_approx_t) (taylor_uninit : taylor_approx_t)
    (num_eval_attempts num_elbo_draws : Nat) (num_draws : Int)
    (names : List String) (clock1 clock2 : SingleClock) (init_out : InitOut)
    (log_prob_grad : Vec → Vec) (step : Nat → Step) (grad_evals fuel : Nat) :
    Option.map Prod.fst
        (pathfinder_lbfgs_single_writer OK SOFTWARE lp_fun constrain_fun sqrtF
          LOG_TWO_PI rands rand uninit build_taylor taylor_uninit
          num_eval_attempts num_elbo_draws num_draws names clock1 init_out
          log_prob_grad step grad_evals fuel)
      = Option.map Prod.fst
        (pathfinder_lbfgs_single_writer OK SOFTWARE lp_fun constrain_fun sqrtF
          LOG_TWO_PI rands rand uninit build_taylor taylor_uninit
          num_eval_attempts num_elbo_draws num_draws names clock2 init_out
          log_prob_grad step grad_evals fuel) ∧
    Option.map (fun p => p.2.map Item.untimed)
        (pathfinder_lbfgs_single_writer OK SOFTWARE lp_fun constrain_fun sqrtF
          LOG_TWO_PI rands rand uninit build_taylor taylor_uninit
          num_eval_attempts num_elbo_draws num_draws names clock1 init_out
          log_prob_grad step grad_evals fuel)
      = Option.map (fun p => p.2.map Item.untimed)
        (pathfinder_lbfgs_single_writer OK SOFTWARE lp_fun constrain_fun sqrtF
          LOG_TWO_PI rands rand uninit build_taylor taylor_uninit
          num_eval_attempts num_elbo_draws num_draws names clock2 init_out
          log_prob_grad step grad_evals fuel) ∧
    (delta_time clock1.start_optim_time clock1.end_optim_time
        = delta_time clock2.start_optim_time clock2.end_optim_time →
      delta_time clock1.start_pathfinder_time clock1.end_pathfinder_time
        = delta_time clock2.start_pathfinder_time clock2.end_pathfinder_time →
      pathfinder_lbfgs_single_writer OK SOFTWARE lp_fun constrain_fun sqrtF
          LOG_TWO_PI rands rand uninit build_taylor taylor_uninit
          num_eval_attempts num_elbo_draws num_draws names clock1 init_out
          log_prob_grad step grad_evals fuel
        = pathfinder_lbfgs_single_writer OK SOFTWARE lp_fun constrain_fun sqrtF
          LOG_TWO_PI rands rand uninit build_taylor taylor_uninit
          num_eval_attempts num_elbo_draws num_draws names clock2 init_out
          log_prob_grad step grad_evals fuel) := by
  unfold pathfinder_lbfgs_single_writer
  cases init_out with
  | throws => exact ⟨rfl, rfl, fun _ _ => rfl⟩
  | point cont_vector =>
    simp only []
    cases lbfgs_loop step fuel 0
        (hist_init cont_vector (log_prob_grad cont_vector)) with
    | none => exact ⟨rfl, rfl, fun _ _ => rfl⟩
    | some h =>
      simp only []
      split_ifs
      · refine ⟨rfl, ?_, ?_⟩
        · simp only [Option.map_some', List.map_cons]
          rw [footer_untimed _ _ _ _
            (delta_time clock2.start_optim_time clock2.end_optim_time)
            (delta_time clock2.start_pathfinder_time clock2.end_pathfinder_time)]
        · intro e1 e2
          rw [e1, e2]
      · exact ⟨rfl, rfl, fun _ _ => rfl⟩

theorem pool_fill_mismatch :
    ∀ (ratios : List (List Dbl)) (mats : List DMat),
      ratios.length = mats.length →
      ¬ List.Forall₂ (fun (r : List Dbl) (m : DMat) => m.length = r.length)
        ratios mats →
      ∀ (start : Nat) (A : List Dbl) (B : DMat),
        pool_fill ratios mats start A B = none := by
  intro ratios
  induction ratios with
  | nil =>
    intro mats hlen hnot
    cases mats with
    | nil => exact absurd List.Forall₂.nil hnot
    | cons m ms => simp at hlen
  | cons r rest ih =>
    intro mats hlen hnot start A B
    cases mats with
    | nil => simp at hlen
    | cons m ms =>
      rw [pool_fill]
      by_cases hrm : m.length = r.length
      · rw [if_pos hrm]
        apply ih ms (by simpa using hlen)
        intro hrest
        exact hnot (List.Forall₂.cons hrm hrest)
      · rw [if_neg hrm]

/-- The pooled arrays do not depend on what the fresh `lp_ratios` holds. -/
theorem pooled_junk (single : Nat → PathRet) (SOFTWARE : Int)
    (blocks : List (Nat × Nat)) (junk1 junk2 : Dbl) :
    pooled (run_paths single SOFTWARE blocks) junk1
      = pooled (run_paths single SOFTWARE blocks) junk2 := by
  obtain ⟨hp1, hp2⟩ := run_paths_pool single SOFTWARE blocks
  have hlen : (run_paths single SOFTWARE blocks).individual_lp_ratios.length
      = (run_paths single SOFTWARE blocks).individual_samples.length := by
    rw [hp1, hp2]; simp
  unfold pooled
  simp only []
  by_cases hf : List.Forall₂
      (fun (r : List Dbl) (m : DMat) => m.length = r.length)
      (run_paths single SOFTWARE blocks).individual_lp_ratios
      (run_paths single SOFTWARE blocks).individual_samples
  · have h1 := pool_fill_eq junk1 _ _ [] [] rfl hf
    have h2 := pool_fill_eq junk2 _ _ [] [] rfl hf
    simp only [List.nil_append, List.length_nil] at h1 h2
    rw [h1, h2]
  · rw [pool_fill_mismatch _ _ hlen hf, pool_fill_mismatch _ _ hlen hf]

theorem pathfinder_lbfgs_multi_junk (single : Nat → PathRet) (SOFTWARE : Int)
    (blocks : List (Nat × Nat)) (junk1 junk2 : Dbl)
    (rand_psis_idx : List Dbl → Nat → Nat) (num_multi_draws : Int)
    (fuel : Nat) :
    pathfinder_lbfgs_multi single SOFTWARE blocks junk1 rand_psis_idx
        num_multi_draws fuel
      = pathfinder_lbfgs_multi single SOFTWARE blocks junk2 rand_psis_idx
        num_multi_draws fuel := by
  unfold pathfinder_lbfgs_multi
  simp only [pooled_junk single SOFTWARE blocks junk1 junk2]

/-- C31 (as amended): two runs on the same inputs, whatever fresh memory holds
(`uninit`, the default-constructed surrogate, `junk`) and whatever the steady
clock reads, return the same result and write the same sequence of items to
the parameter writer apart from the elapsed times of the footer lines, for
`pathfinder_lbfgs_single` and for `pathfinder_lbfgs_multi`; when the measured
durations agree the sequences are identical. -/
theorem writer_deterministic (OK SOFTWARE : Int) (lp_fun : Vec → LpOut)
    (constrain_fun : Vec → Vec) (sqrtF : ℚ → ℚ) (LOG_TWO_PI : ℚ)
    (rands : Nat → Nat → ℚ) (rand : Nat → ℚ) (uninit1 uninit2 : Nat → Dbl)
    (build_taylor : Nat → taylor_approx_t)
    (taylor_uninit1 taylor_uninit2 : taylor_approx_t)
    (num_eval_attempts num_elbo_draws : Nat) (num_draws : Int)
    (names : List String) (clock1 clock2 : SingleClock) (init_out : InitOut)
    (log_prob_grad : Vec → Vec) (step : Nat → Step) (grad_evals fuel : Nat)
    (single : Nat → PathRet) (blocks : List (Nat × Nat)) (junk1 junk2 : Dbl)
    (rand_psis_idx : List Dbl → Nat → Nat) (num_multi_draws : Int)
    (mclock1 mclock2 : MultiClock) (mfuel : Nat) :
    (Option.map Prod.fst
        (pathfinder_lbfgs_single_writer OK SOFTWARE lp_fun constrain_fun sqrtF
          LOG_TWO_PI rands rand uninit1 build_taylor taylor_uninit1
          num_eval_attempts num_elbo_draws num_draws names clock1 init_out
          log_prob_grad step grad_evals fuel)
      = Option.map Prod.fst
        (pathfinder_lbfgs_single_writer OK SOFTWARE lp_fun constrain_fun sqrtF
          LOG_TWO_PI rands rand uninit2 build_taylor taylor_uninit2
          num_eval_attempts num_elbo_draws num_draws names clock2 init_out
          log_prob_grad step grad_evals fuel)) ∧
    (Option.map (fun p => p.2.map Item.untimed)
        (pathfinder_lbfgs_single_writer OK SOFTWARE lp_fun constrain_fun sqrtF
          LOG_TWO_PI rands rand uninit1 build_taylor taylor_uninit1
          num_eval_attempts num_elbo_draws num_draws names clock1 init_out
          log_prob_grad step grad_evals fuel)
      = Option.map (fun p => p.2.map Item.untimed)
        (pathfinder_lbfgs_single_writer OK SOFTWARE lp_fun constrain_fun sqrtF
          LOG_TWO_PI rands rand uninit2 build_taylor taylor_uninit2
          num_eval_attempts num_elbo_draws num_draws names clock2 init_out
          log_prob_grad step grad_evals fuel)) ∧
    (delta_time clock1.start_optim_time clock1.end_optim_time
        = delta_time clock2.start_optim_time clock2.end_optim_time →
      delta_time clock1.start_pathfinder_time clock1.end_pathfinder_time
        = delta_time clock2.start_pathfinder_time clock2.end_pathfinder_time →
      pathfinder_lbfgs_single_writer OK SOFTWARE lp_fun constrain_fun sqrtF
          LOG_TWO_PI rands rand uninit1 build_taylor taylor_uninit1
          num_eval_attempts num_elbo_draws num_draws names clock1 init_out
          log_prob_grad step grad_evals fuel
        = pathfinder_lbfgs_single_writer OK SOFTWARE lp_fun constrain_fun sqrtF
          LOG_TWO_PI rands rand uninit2 build_taylor taylor_uninit2
          num_eval_attempts num_elbo_draws num_draws names clock2 init_out
          log_prob_grad step grad_evals fuel) ∧
    (Option.map Prod.fst
        (pathfinder_lbfgs_multi_writer single SOFTWARE blocks junk1
          rand_psis_idx num_multi_draws names mclock1 mfuel)
      = Option.map Prod.fst
        (pathfinder_lbfgs_multi_writer single SOFTWARE blocks junk2
          rand_psis_idx num_multi_draws names mclock2 mfuel)) ∧
    (Option.map (fun p => p.2.map Item.untimed)
        (pathfinder_lbfgs_multi_writer single SOFTWARE blocks junk1
          rand_psis_idx num_multi_draws names mclock1 mfuel)
      = Option.map (fun p => p.2.map Item.untimed)
        (pathfinder_lbfgs_multi_writer single SOFTWARE blocks junk2
          rand_psis_idx num_multi_draws names mclock2 mfuel)) ∧
    (delta_time mclock1.start_pathfinders_time mclock1.end_pathfinders_time
        = delta_time mclock2.start_pathfinders_time
            mclock2.end_pathfinders_time →
      delta_time mclock1.start_psis_time mclock1.end_psis_time
        = delta_time mclock2.start_psis_time mclock2.end_psis_time →
      pathfinder_lbfgs_multi_writer single SOFTWARE blocks junk1
          rand_psis_idx num_multi_draws names mclock1 mfuel
        = pathfinder_lbfgs_multi_writer single SOFTWARE blocks junk2
          rand_psis_idx num_multi_draws names mclock2 mfuel) := by
  have hs := single_writer_hidden OK SOFTWARE lp_fun constrain_fun sqrtF
    LOG_TWO_PI rands rand uninit1 uninit2 build_taylor taylor_uninit1
    taylor_uninit2 num_eval_attempts num_elbo_draws num_draws names clock1
    init_out log_prob_grad step grad_evals fuel
  obtain ⟨c1, c2, c3⟩ := single_writer_clock OK SOFTWARE lp_fun constrain_fun
    sqrtF LOG_TWO_PI rands rand uninit2 build_taylor taylor_uninit2
    num_eval_attempts num_elbo_draws num_draws names clock1 clock2 init_out
    log_prob_grad step grad_evals fuel
  have hm : ∀ mclock, pathfinder_lbfgs_multi_writer single SOFTWARE blocks junk1
        rand_psis_idx num_multi_draws names mclock mfuel
      = pathfinder_lbfgs_multi_writer single SOFTWARE blocks junk2
        rand_psis_idx num_multi_draws names mclock mfuel := by
    intro mclock
    unfold pathfinder_lbfgs_multi_writer
    rw [pathfinder_lbfgs_multi_junk single SOFTWARE blocks junk1 junk2]
  refine ⟨by rw [hs]; exact c1, by rw [hs]; exact c2,
    fun e1 e2 => by rw [hs]; exact c3 e1 e2, ?_, ?_, ?_⟩
  · rw [hm mclock1]
    unfold pathfinder_lbfgs_multi_writer
    cases pathfinder_lbfgs_multi single SOFTWARE blocks junk2 rand_psis_idx
        num_multi_draws mfuel with
    | none => rfl
    | some out =>
      cases out with
      | size_mismatch => rfl
      | returned code written =>
        simp only []
        split_ifs <;> rfl
  · rw [hm mclock1]
    unfold pathfinder_lbfgs_multi_writer
    cases pathfinder_lbfgs_multi single SOFTWARE blocks junk2 rand_psis_idx
        num_multi_draws mfuel with
    | none => rfl
    | some out =>
      cases out with
      | size_mismatch => rfl
      | returned code written =>
        simp only []
        split_ifs
        · rfl
        · simp only [Option.map_some', List.map_cons, List.map_append]
          rw [footer_untimed _ _ _ _
            (delta_time mclock2.start_pathfinders_time
              mclock2.end_pathfinders_time)
            (delta_time mclock2.start_psis_time mclock2.end_psis_time)]
  · intro e1 e2
    rw [hm mclock1]
    unfold pathfinder_lbfgs_multi_writer
    rw [e1, e2]
/-- What the single path writes when it reaches the final assembly. -/
theorem single_writer_success (OK SOFTWARE : Int) (lp_fun : Vec → LpOut)
    (constrain_fun : Vec → Vec) (sqrtF : ℚ → ℚ) (LOG_TWO_PI : ℚ)
    (rands : Nat → Nat → ℚ) (rand : Nat → ℚ) (uninit : Nat → Dbl)
    (build_taylor : Nat → taylor_approx_t) (taylor_uninit : taylor_approx_t)
    (num_eval_attempts num_elbo_draws : Nat) (num_draws : Int)
    (names : List String) (clock : SingleClock) (cont_vector : Vec)
    (log_prob_grad : Vec → Vec) (step : Nat → Step) (grad_evals fuel : Nat)
    (h : Hist)
    (hloop : lbfgs_loop step fuel 0
      (hist_init cont_vector (log_prob_grad cont_vector)) = some h)
    (hgo : h.ret ≥ 0 ∨ h.param_vecs.length ≠ 1)
    (hbest : (elbo_search
        (elbo_est_iter lp_fun sqrtF LOG_TWO_PI rands uninit build_taylor
          num_elbo_draws
          (alpha_cascade (h.param_vecs.getD 0 []).length (diff_cols h.grad_vecs)
            (diff_cols h.param_vecs))
          num_eval_attempts)
        build_taylor (diff_cols h.grad_vecs).length 0
        { best_E := -1, elbo_best := elbo_est_default,
          taylor_approx_best := taylor_uninit,
          num_evals := grad_evals }).best_E ≠ -1) :
    ∃ r : PathRet,
      pathfinder_lbfgs_single_writer OK SOFTWARE lp_fun constrain_fun sqrtF
          LOG_TWO_PI rands rand uninit build_taylor taylor_uninit
          num_eval_attempts num_elbo_draws num_draws names clock
          (InitOut.point cont_vector) log_prob_grad step grad_evals fuel
        = some (SingleOut.returns r,
            Item.names (header_names names) :: Item.matrix r.samples ::
              footer " seconds (lbfgs)" " seconds (Pathfinder)"
                (delta_time clock.start_optim_time clock.end_optim_time)
                (delta_time clock.start_pathfinder_time
                  clock.end_pathfinder_time)) ∧
      r = after_lbfgs OK SOFTWARE lp_fun constrain_fun sqrtF LOG_TWO_PI rand
        uninit
        (elbo_est_iter lp_fun sqrtF LOG_TWO_PI rands uninit build_taylor
          num_elbo_draws
          (alpha_cascade (h.param_vecs.getD 0 []).length (diff_cols h.grad_vecs)
            (diff_cols h.param_vecs))
          num_eval_attempts)
        build_taylor taylor_uninit num_eval_attempts num_draws h.ret
        h.param_vecs h.grad_vecs grad_evals := by
  refine ⟨_, ?_, rfl⟩
  unfold pathfinder_lbfgs_single_writer
  simp only [hloop]
  rw [if_pos ⟨hgo, hbest⟩]

theorem demo_zero_iter (alpha_mat : Mat) (t : Nat) :
    elbo_est_iter demo_lp_zero id 2 (fun _ => demo_rand) (fun _ => Dbl.nan)
        (fun _ => demo_taylor) 2 alpha_mat 0 t
      = .ok demo_elbo_best := by
  simp [elbo_est_iter, est_approx_draws, sample_phase, init_slots, sample_loop,
    retry_loop, redraw, cleanup, success_rows, finish, lp_approx, demo_taylor,
    demo_lp_zero, demo_rand, demo_elbo_best, gen_draws, draw_col, crossprod_vec,
    vadd, dot, Dbl.mean, Dbl.sum, Dbl.add, Dbl.sub, Dbl.neg, Dbl.divN,
    Dbl.isfinite, List.range, List.range.loop]
  norm_num

/-- C31 (counterexample): the same inputs (one optimizer step that ends with
a positive code, a log density that is 0 everywhere, two ELBO draws) run with
a clock that measures 1 ms for the optimization and with a clock that
measures 2 ms: both runs return the same result, and the item at position 3,
the first line of elapsed times, differs. -/
theorem writer_deterministic_counterexample :
    ∃ (r : PathRet) (items1 items2 : List Item),
      pathfinder_lbfgs_single_writer 0 70 demo_lp_zero demo_constrain id 2
          (fun _ => demo_rand) demo_rand (fun _ => Dbl.nan)
          (fun _ => demo_taylor) demo_taylor 0 2 2 ["x"] (demo_clock 1)
          (InitOut.point [0]) (fun _ => [1]) demo_step_done 3 3
        = some (SingleOut.returns r, items1) ∧
      pathfinder_lbfgs_single_writer 0 70 demo_lp_zero demo_constrain id 2
          (fun _ => demo_rand) demo_rand (fun _ => Dbl.nan)
          (fun _ => demo_taylor) demo_taylor 0 2 2 ["x"] (demo_clock 2)
          (InitOut.point [0]) (fun _ => [1]) demo_step_done 3 3
        = some (SingleOut.returns r, items2) ∧
      items1[3]? = some (Item.elapsed "Elapsed Time: " (1 / 1000)
        " seconds (lbfgs)") ∧
      items2[3]? = some (Item.elapsed "Elapsed Time: " (2 / 1000)
        " seconds (lbfgs)") ∧
      items1 ≠ items2 := by
  have hloop : lbfgs_loop demo_step_done 3 0 (hist_init [0] [1])
      = some { ret := 1, param_vecs := [[0], [1]], grad_vecs := [[1], [0]],
               param_cols_filled := 1 } := by
    simp [lbfgs_loop, demo_step_done, hist_init]
  have hbest : (elbo_search
      (elbo_est_iter demo_lp_zero id 2 (fun _ => demo_rand) (fun _ => Dbl.nan)
        (fun _ => demo_taylor) 2
        (alpha_cascade (([[0], [1]] : List Vec).getD 0 []).length
          (diff_cols [[1], [0]]) (diff_cols [[0], [1]])) 0)
      (fun _ => demo_taylor) (diff_cols [[1], [0]]).length 0
      { best_E := -1, elbo_best := elbo_est_default,
        taylor_approx_best := demo_taylor, num_evals := 3 }).best_E ≠ -1 := by
    simp [diff_cols, elbo_search, elbo_search_step, demo_zero_iter,
      demo_elbo_best, elbo_est_default, Dbl.gt, vsub]
  obtain ⟨r1, h1, hr1⟩ := single_writer_success 0 70 demo_lp_zero
    demo_constrain id 2 (fun _ => demo_rand) demo_rand (fun _ => Dbl.nan)
    (fun _ => demo_taylor) demo_taylor 0 2 2 ["x"] (demo_clock 1) [0]
    (fun _ => [1]) demo_step_done 3 3 _ hloop (Or.inl (by decide)) hbest
  obtain ⟨r2, h2, hr2⟩ := single_writer_success 0 70 demo_lp_zero
    demo_constrain id 2 (fun _ => demo_rand) demo_rand (fun _ => Dbl.nan)
    (fun _ => demo_taylor) demo_taylor 0 2 2 ["x"] (demo_clock 2) [0]
    (fun _ => [1]) demo_step_done 3 3 _ hloop (Or.inl (by decide)) hbest
  have hr : r2 = r1 := by rw [hr1, hr2]
  rw [hr] at h2
  refine ⟨r1, _, _, h1, h2, ?_, ?_, ?_⟩
  · simp [footer, delta_time, demo_clock]
  · simp [footer, delta_time, demo_clock]
  · intro heq
    have h3 := congrArg (fun l : List Item => l[3]?) heq
    simp [footer, delta_time, demo_clock] at h3
    norm_num at h3

end Pathfinder
